import Mathlib

/-!
# Bounded-buffer producer/consumer programs

A shallow embedding of `src/prodcons.c` (the Counted program: consumers stop on a shared
counter) and `src/prodcons_sem.c` (the Sentinel program: consumers stop on a poison pill).

* The circular buffer (`buffer_t`, `buffer_init`, `buffer_put`, `buffer_get`) is a pure
  translation of the C functions; the two files define it identically.
* Each program is an interleaving step relation.  Every thread has a program counter; one
  step executes one statement of the thread body (a synchronisation call, a call of
  `buffer_put` / `buffer_get`, a test, an increment).  `sem_wait` is enabled only when the
  semaphore is positive, `pthread_mutex_lock` only when the mutex is free, `pthread_join`
  only when the joined thread has returned.  `printf` and `usleep` have no effect on the
  state and are left out.
* The two programs share the buffer, the semaphores, the mutex and the producer code, so
  they share one state record and one step relation, selected by `Program`.
* `puts` and `gets` are history variables: they record every `buffer_put` and `buffer_get`
  call in the order in which the calls happen.  No step reads them.
* `int` arithmetic that can overflow wraps to 32 bits (`wrapInt`): the product
  `total_items`, the counter increment, the items.  Cursors and loop variables are
  naturals: a cursor stays below the capacity, a loop variable `i` runs up to its bound
  plus one (an `int` unless the bound is `INT_MAX`, where C leaves `++i` undefined).
-/

namespace ProdCons

/-! ## Machine integers -/

/-- The value of a C `int` expression after wrapping to 32 bits, two's complement. -/
def wrapInt (x : Int) : Int := (x + 2147483648) % 4294967296 - 2147483648

/-! ## The circular buffer (both files, `buffer_t` and its three functions) -/

/-- `buffer_t`: the slot array, its capacity and the two cursors.  The cursors and the
capacity are never negative in either program, so they are naturals. -/
structure buffer_t where
  buf : List Int
  capacity : Nat
  in_ : Nat
  out : Nat
deriving DecidableEq, Repr

/-- `buffer_init`: `mem` gives the (indeterminate) contents of the block `malloc` returns. -/
def buffer_init (mem : Nat → Int) (capacity : Nat) : buffer_t :=
  { buf := (List.range capacity).map mem, capacity := capacity, in_ := 0, out := 0 }

/-- `buffer_put`: `b->buf[b->in] = item; b->in = (b->in + 1) % b->capacity;`
(a store outside the block, undefined in C, stores nothing here; `in` is shown to stay
inside the block). -/
def buffer_put (b : buffer_t) (item : Int) : buffer_t :=
  { b with buf := b.buf.set b.in_ item, in_ := (b.in_ + 1) % b.capacity }

/-- `buffer_get`: `item = b->buf[b->out]; b->out = (b->out + 1) % b->capacity; return item;`
(a load outside the block, undefined in C, reads 0 here; `out` is shown to stay inside the
block). -/
def buffer_get (b : buffer_t) : Int × buffer_t :=
  (b.buf.getD b.out 0, { b with out := (b.out + 1) % b.capacity })

/-! ## Items -/

/-- `produce_item` of `src/prodcons.c`: `(producer_id << 16) | (seq & 0xFFFF)` on 32-bit
ints.  `producer_id` is never negative; `seq` is given by the number of the iteration, whose
low 16 bits are those of the `int` the producer passes (`produce_item_wrap`). -/
def produce_item (producer_id seq : Nat) : Int :=
  wrapInt (((producer_id <<< 16) % 4294967296 ||| (seq &&& 0xFFFF) : Nat) : Int)

/-- The item built by a producer of `src/prodcons_sem.c`: `(int)(id * 100000 + i)`, a `long`
narrowed to `int`. -/
def sentinel_item (id i : Nat) : Int := wrapInt ((id : Int) * 100000 + (i : Int))

/-- The two programs. -/
inductive Program where
  | counted
  | sentinel
deriving DecidableEq, Repr

/-- The item producer `id` builds in iteration `i` of its loop. -/
def itemOf (prog : Program) (id i : Nat) : Int :=
  match prog with
  | .counted => produce_item id i
  | .sentinel => sentinel_item id i

/-! ## Threads and state -/

/-- Thread identities: `producer id` and `consumer id` carry the argument given to
`pthread_create`. -/
inductive Tid where
  | producer (id : Nat)
  | consumer (id : Nat)
  | main
deriving DecidableEq, Repr

/-- Program counter of a producer thread (the same statements in both files). -/
inductive PPc where
  | loop     -- `for (...; i <= items_per_producer; ...)`, builds the item
  | wait     -- `sem_wait(&empty)`
  | lock     -- `pthread_mutex_lock(&mutex)`
  | put      -- `buffer_put(&buffer, it)`
  | unlock   -- `pthread_mutex_unlock(&mutex)`
  | post     -- `sem_post(&full)`, then `++i`
  | done     -- `return NULL`
deriving DecidableEq, Repr

/-- Program counter of a consumer thread.  `lock1 .. unlockC` are statements of the Counted
consumer, `checkPill` is the `it == -1` test of the Sentinel consumer; `waitFull`, `lockM`,
`get`, `unlockM`, `postEmpty` occur in both. -/
inductive CPc where
  | lock1      -- prodcons.c:106 `pthread_mutex_lock(&consumed_count_mutex)`
  | check1     -- prodcons.c:107 `if (consumed_count >= total_items)`
  | unlockBrk  -- prodcons.c:108 unlock `consumed_count_mutex`, `break`
  | unlock1    -- prodcons.c:111 unlock `consumed_count_mutex`
  | waitFull   -- `sem_wait(&full)`
  | lockM      -- `pthread_mutex_lock(&mutex)`
  | lock2      -- prodcons.c:117 `pthread_mutex_lock(&consumed_count_mutex)`
  | check2     -- prodcons.c:118 `if (consumed_count >= total_items)`
  | rbUnlockC  -- prodcons.c:120 unlock `consumed_count_mutex`
  | rbUnlockM  -- prodcons.c:121 unlock `mutex`
  | rbPost     -- prodcons.c:122 `sem_post(&full)`, `break`
  | get        -- `it = buffer_get(&buffer)`
  | incr       -- prodcons.c:126 `consumed_count++`
  | unlockC    -- prodcons.c:128 unlock `consumed_count_mutex`
  | unlockM    -- `pthread_mutex_unlock(&mutex)`
  | postEmpty  -- `sem_post(&empty)`
  | checkPill  -- prodcons_sem.c:98 `if (it == -1) break`
  | done       -- `return NULL`
deriving DecidableEq, Repr

/-- Program counter of `main` once the workers exist. -/
inductive MPc where
  | joinProd   -- `for (i ...) pthread_join(producers[i], NULL)`
  | pillLoop   -- prodcons_sem.c:162 `for (i = 0; i < consumers_count; ...)`
  | wait       -- prodcons_sem.c:163 `sem_wait(&empty)`
  | lock       -- prodcons_sem.c:164 `pthread_mutex_lock(&mutex)`
  | put        -- prodcons_sem.c:165 `buffer_put(&buffer, -1)`
  | unlock     -- prodcons_sem.c:167 `pthread_mutex_unlock(&mutex)`
  | post       -- prodcons_sem.c:168 `sem_post(&full)`, then `++i`
  | joinCons   -- `for (i ...) pthread_join(consumers[i], NULL)`
  | done       -- cleanup, `return 0`
deriving DecidableEq, Repr

/-- Locals of a producer: program counter and loop variable.  `i` is the number of the
current iteration, counted from 1 without bound; the `int` variable `i` of the source, which
`++i` moves through the 32-bit values, has the value `wrapInt i`. -/
structure PLocal where
  pc : PPc
  i : Nat
deriving DecidableEq, Repr

/-- Locals of a consumer: program counter and the local `it`. -/
structure CLocal where
  pc : CPc
  it : Int
deriving DecidableEq, Repr

/-- Locals of `main`: program counter and the loop variable `i` of the current loop. -/
structure MLocal where
  pc : MPc
  i : Nat
deriving DecidableEq, Repr

/-- History record of one `buffer_put` call: the caller, the number of its iteration (for
`main` the index of the pill), and the item. -/
structure PutRec where
  who : Tid
  seq : Nat
  item : Int
deriving DecidableEq, Repr

/-- History record of one `buffer_get` call: the consumer and the value returned. -/
structure GetRec where
  who : Nat
  item : Int
deriving DecidableEq, Repr

/-- The command-line parameters after `atoi`, and the contents of the `malloc`ed block. -/
structure Config where
  producers_count : Nat
  consumers_count : Nat
  buffer_size : Nat
  items_per_producer : Nat
  mem : Nat → Int

/-- The check `main` makes before it starts anything: all four values are positive. -/
def Config.Valid (cfg : Config) : Prop :=
  0 < cfg.producers_count ∧ 0 < cfg.consumers_count ∧ 0 < cfg.buffer_size ∧
    0 < cfg.items_per_producer

/-- `total_items = producers_count * items_per_producer`, an `int` product. -/
def total_items (cfg : Config) : Int :=
  wrapInt ((cfg.producers_count : Int) * (cfg.items_per_producer : Int))

/-- The globals of the two programs, the locals of every thread, and the history.
`consumed_count` and `consumed_count_mutex` exist only in the Counted program; the Sentinel
program never touches them. -/
structure State where
  buffer : buffer_t
  empty : Nat
  full : Nat
  mutex : Option Tid
  consumed_count : Int
  consumed_count_mutex : Option Tid
  producers : List PLocal
  consumers : List CLocal
  main : MLocal
  puts : List PutRec
  gets : List GetRec
deriving DecidableEq, Repr

/-- First statement of a consumer: the counter check (Counted) or `sem_wait(&full)`
(Sentinel). -/
def consumerEntry : Program → CPc
  | .counted => .lock1
  | .sentinel => .waitFull

/-- The state when `main` has initialised the buffer, the semaphores and the mutexes and
has created the workers.  Creating the threads is not a step of the relation: a worker that
has not taken a step yet behaves like one that does not exist yet. -/
def initState (prog : Program) (cfg : Config) : State :=
  { buffer := buffer_init cfg.mem cfg.buffer_size
    empty := cfg.buffer_size
    full := 0
    mutex := none
    consumed_count := 0
    consumed_count_mutex := none
    producers := List.replicate cfg.producers_count ⟨.loop, 1⟩
    consumers := List.replicate cfg.consumers_count ⟨consumerEntry prog, 0⟩
    main := ⟨.joinProd, 0⟩
    puts := []
    gets := [] }

/-! ## Steps -/

/-- One step of producer `id` (`producer`, prodcons.c:82-100 and prodcons_sem.c:70-87).
The loop test `i <= items_per_producer` compares the `int` value `wrapInt p.i`: with
`items_per_producer = INT_MAX` it never fails and the producer never returns.  The local
`it` is a function of `id` and `i`, which do not change between the line that builds it and
the put, so it is written `itemOf prog id p.i` at the put; the item is the same for the
number of the iteration and for the `int` value of `i` (`sentinel_item_wrap`,
`produce_item_wrap`). -/
def producer (prog : Program) (cfg : Config) (s : State) (id : Nat) : Option State :=
  match s.producers[id]? with
  | none => none
  | some p =>
    match p.pc with
    | .loop =>
      if wrapInt (p.i : Int) ≤ (cfg.items_per_producer : Int) then
        some { s with producers := s.producers.set id { p with pc := .wait } }
      else
        some { s with producers := s.producers.set id { p with pc := .done } }
    | .wait =>
      if 0 < s.empty then
        some { s with empty := s.empty - 1,
                      producers := s.producers.set id { p with pc := .lock } }
      else none
    | .lock =>
      if s.mutex = none then
        some { s with mutex := some (.producer id),
                      producers := s.producers.set id { p with pc := .put } }
      else none
    | .put =>
      some { s with buffer := buffer_put s.buffer (itemOf prog id p.i),
                    puts := s.puts ++ [⟨.producer id, p.i, itemOf prog id p.i⟩],
                    producers := s.producers.set id { p with pc := .unlock } }
    | .unlock =>
      some { s with mutex := none,
                    producers := s.producers.set id { p with pc := .post } }
    | .post =>
      some { s with full := s.full + 1,
                    producers := s.producers.set id { pc := .loop, i := p.i + 1 } }
    | .done => none

/-- One step of consumer `id` of the Counted program (`consumer`, prodcons.c:102-139).
The local `local_consumed` is only printed and is left out.  `pthread_mutex_unlock` frees
the mutex whoever calls it. -/
def consumer_counted (cfg : Config) (s : State) (id : Nat) : Option State :=
  match s.consumers[id]? with
  | none => none
  | some c =>
    match c.pc with
    | .lock1 =>
      if s.consumed_count_mutex = none then
        some { s with consumed_count_mutex := some (.consumer id),
                      consumers := s.consumers.set id { c with pc := .check1 } }
      else none
    | .check1 =>
      if total_items cfg ≤ s.consumed_count then
        some { s with consumers := s.consumers.set id { c with pc := .unlockBrk } }
      else
        some { s with consumers := s.consumers.set id { c with pc := .unlock1 } }
    | .unlockBrk =>
      some { s with consumed_count_mutex := none,
                    consumers := s.consumers.set id { c with pc := .done } }
    | .unlock1 =>
      some { s with consumed_count_mutex := none,
                    consumers := s.consumers.set id { c with pc := .waitFull } }
    | .waitFull =>
      if 0 < s.full then
        some { s with full := s.full - 1,
                      consumers := s.consumers.set id { c with pc := .lockM } }
      else none
    | .lockM =>
      if s.mutex = none then
        some { s with mutex := some (.consumer id),
                      consumers := s.consumers.set id { c with pc := .lock2 } }
      else none
    | .lock2 =>
      if s.consumed_count_mutex = none then
        some { s with consumed_count_mutex := some (.consumer id),
                      consumers := s.consumers.set id { c with pc := .check2 } }
      else none
    | .check2 =>
      if total_items cfg ≤ s.consumed_count then
        some { s with consumers := s.consumers.set id { c with pc := .rbUnlockC } }
      else
        some { s with consumers := s.consumers.set id { c with pc := .get } }
    | .rbUnlockC =>
      some { s with consumed_count_mutex := none,
                    consumers := s.consumers.set id { c with pc := .rbUnlockM } }
    | .rbUnlockM =>
      some { s with mutex := none,
                    consumers := s.consumers.set id { c with pc := .rbPost } }
    | .rbPost =>
      some { s with full := s.full + 1,
                    consumers := s.consumers.set id { c with pc := .done } }
    | .get =>
      some { s with buffer := (buffer_get s.buffer).2,
                    gets := s.gets ++ [⟨id, (buffer_get s.buffer).1⟩],
                    consumers := s.consumers.set id { pc := .incr, it := (buffer_get s.buffer).1 } }
    | .incr =>
      some { s with consumed_count := wrapInt (s.consumed_count + 1),
                    consumers := s.consumers.set id { c with pc := .unlockC } }
    | .unlockC =>
      some { s with consumed_count_mutex := none,
                    consumers := s.consumers.set id { c with pc := .unlockM } }
    | .unlockM =>
      some { s with mutex := none,
                    consumers := s.consumers.set id { c with pc := .postEmpty } }
    | .postEmpty =>
      some { s with empty := s.empty + 1,
                    consumers := s.consumers.set id { c with pc := .lock1 } }
    | .checkPill => none
    | .done => none

/-- One step of consumer `id` of the Sentinel program (`consumer`, prodcons_sem.c:89-114). -/
def consumer_sentinel (s : State) (id : Nat) : Option State :=
  match s.consumers[id]? with
  | none => none
  | some c =>
    match c.pc with
    | .waitFull =>
      if 0 < s.full then
        some { s with full := s.full - 1,
                      consumers := s.consumers.set id { c with pc := .lockM } }
      else none
    | .lockM =>
      if s.mutex = none then
        some { s with mutex := some (.consumer id),
                      consumers := s.consumers.set id { c with pc := .get } }
      else none
    | .get =>
      some { s with buffer := (buffer_get s.buffer).2,
                    gets := s.gets ++ [⟨id, (buffer_get s.buffer).1⟩],
                    consumers := s.consumers.set id { pc := .unlockM, it := (buffer_get s.buffer).1 } }
    | .unlockM =>
      some { s with mutex := none,
                    consumers := s.consumers.set id { c with pc := .postEmpty } }
    | .postEmpty =>
      some { s with empty := s.empty + 1,
                    consumers := s.consumers.set id { c with pc := .checkPill } }
    | .checkPill =>
      if c.it = -1 then
        some { s with consumers := s.consumers.set id { c with pc := .done } }
      else
        some { s with consumers := s.consumers.set id { c with pc := .waitFull } }
    | _ => none

/-- One step of consumer `id`. -/
def consumer (prog : Program) (cfg : Config) (s : State) (id : Nat) : Option State :=
  match prog with
  | .counted => consumer_counted cfg s id
  | .sentinel => consumer_sentinel s id

/-- Has producer `id` returned? (what `pthread_join(producers[id], NULL)` waits for) -/
def producerDone (s : State) (id : Nat) : Bool :=
  match s.producers[id]? with
  | some p => p.pc == .done
  | none => false

/-- Has consumer `id` returned? (what `pthread_join(consumers[id], NULL)` waits for) -/
def consumerDone (s : State) (id : Nat) : Bool :=
  match s.consumers[id]? with
  | some c => c.pc == .done
  | none => false

/-- One step of `main` after the workers are created: the join loops (both files), and in
the Sentinel program the poison-pill loop between them (prodcons_sem.c:157-172). -/
def mainThread (prog : Program) (cfg : Config) (s : State) : Option State :=
  match s.main.pc with
  | .joinProd =>
    if s.main.i < cfg.producers_count then
      if producerDone s s.main.i then some { s with main := { s.main with i := s.main.i + 1 } }
      else none
    else
      match prog with
      | .counted => some { s with main := { pc := .joinCons, i := 0 } }
      | .sentinel => some { s with main := { pc := .pillLoop, i := 0 } }
  | .pillLoop =>
    if s.main.i < cfg.consumers_count then some { s with main := { s.main with pc := .wait } }
    else some { s with main := { pc := .joinCons, i := 0 } }
  | .wait =>
    if 0 < s.empty then
      some { s with empty := s.empty - 1, main := { s.main with pc := .lock } }
    else none
  | .lock =>
    if s.mutex = none then
      some { s with mutex := some .main, main := { s.main with pc := .put } }
    else none
  | .put =>
    some { s with buffer := buffer_put s.buffer (-1),
                  puts := s.puts ++ [⟨.main, s.main.i, -1⟩],
                  main := { s.main with pc := .unlock } }
  | .unlock => some { s with mutex := none, main := { s.main with pc := .post } }
  | .post => some { s with full := s.full + 1, main := { pc := .pillLoop, i := s.main.i + 1 } }
  | .joinCons =>
    if s.main.i < cfg.consumers_count then
      if consumerDone s s.main.i then some { s with main := { s.main with i := s.main.i + 1 } }
      else none
    else some { s with main := { s.main with pc := .done } }
  | .done => none

/-- The step thread `t` takes in state `s`; `none` when `t` is blocked, has returned or
does not exist. -/
def step (prog : Program) (cfg : Config) (s : State) (t : Tid) : Option State :=
  match t with
  | .producer id => producer prog cfg s id
  | .consumer id => consumer prog cfg s id
  | .main => mainThread prog cfg s

/-- States reachable from the initial state by steps of arbitrary threads. -/
inductive Reachable (prog : Program) (cfg : Config) : State → Prop where
  | init : Reachable prog cfg (initState prog cfg)
  | step {s s1 : State} (t : Tid) : Reachable prog cfg s → step prog cfg s t = some s1 →
      Reachable prog cfg s1

/-- Run the threads listed in `sched`, one step each, in that order. -/
def run (prog : Program) (cfg : Config) : State → List Tid → Option State
  | s, [] => some s
  | s, t :: ts =>
    match step prog cfg s t with
    | some s1 => run prog cfg s1 ts
    | none => none


/-! ## Accounting of permits and locks -/

/-- 1 when the mutex is locked, 0 when it is free. -/
def held (m : Option Tid) : Nat := if m.isSome then 1 else 0

/-- The producer has taken an `empty` permit and not yet put its item. -/
def pE (p : PLocal) : Bool := match p.pc with | .lock | .put => true | _ => false

/-- The producer has put its item and not yet posted `full`. -/
def pF (p : PLocal) : Bool := match p.pc with | .unlock | .post => true | _ => false

/-- The producer is between its lock and its unlock of `mutex`. -/
def pM (p : PLocal) : Bool := match p.pc with | .put | .unlock => true | _ => false

/-- As `pE`, for the pill loop of `main` (0 or 1). -/
def mE (m : MLocal) : Nat := match m.pc with | .lock | .put => 1 | _ => 0

/-- As `pF`, for the pill loop of `main` (0 or 1). -/
def mF (m : MLocal) : Nat := match m.pc with | .unlock | .post => 1 | _ => 0

/-- As `pM`, for the pill loop of `main` (0 or 1). -/
def mM (m : MLocal) : Nat := match m.pc with | .put | .unlock => 1 | _ => 0

/-- The consumer has taken a `full` permit and has neither got an item nor given the
permit back. -/
def cF (c : CLocal) : Bool :=
  match c.pc with
  | .lockM | .lock2 | .check2 | .rbUnlockC | .rbUnlockM | .rbPost | .get => true
  | _ => false

/-- The consumer has got an item and not yet posted `empty`. -/
def cE (c : CLocal) : Bool :=
  match c.pc with
  | .incr | .unlockC | .unlockM | .postEmpty => true
  | _ => false

/-- The consumer is between its lock and its unlock of `mutex`. -/
def cM (prog : Program) (c : CLocal) : Bool :=
  match prog, c.pc with
  | .counted, .lock2 | .counted, .check2 | .counted, .rbUnlockC | .counted, .rbUnlockM
  | .counted, .get | .counted, .incr | .counted, .unlockC | .counted, .unlockM => true
  | .sentinel, .get | .sentinel, .unlockM => true
  | _, _ => false

/-- The Counted consumer is between a lock and the unlock of `consumed_count_mutex`. -/
def cC (c : CLocal) : Bool :=
  match c.pc with
  | .check1 | .unlockBrk | .unlock1 | .check2 | .rbUnlockC | .get | .incr | .unlockC => true
  | _ => false

/-- Accounting of permits and locks.  `occ`: the items in the buffer (puts minus gets) are
the `full` permits, those taken by consumers that have not got yet, and the puts not yet
posted.  `free`: the free slots are the `empty` permits, those taken by producers that have
not put yet, and the gets not yet posted.  `mtx`, `ccm`: a mutex is locked exactly when one
thread is between its lock and its unlock. -/
structure Inv1 (prog : Program) (cfg : Config) (s : State) : Prop where
  lenP : s.producers.length = cfg.producers_count
  lenC : s.consumers.length = cfg.consumers_count
  occ : s.puts.length = s.gets.length + s.full + s.producers.countP pF + mF s.main
          + s.consumers.countP cF
  free : s.gets.length + cfg.buffer_size = s.puts.length + s.empty + s.producers.countP pE
          + mE s.main + s.consumers.countP cE
  mtx : held s.mutex = s.producers.countP pM + mM s.main + s.consumers.countP (cM prog)
  ccm : held s.consumed_count_mutex = if prog = .counted then s.consumers.countP cC else 0


/-! ## The buffer as a queue -/

/-- The slots between the cursors hold, in order, the items put and not yet got: `enq` are
all items ever put, `n` is the number of gets so far. -/
structure Ring (cap : Nat) (b : buffer_t) (enq : List Int) (n : Nat) : Prop where
  cap_eq : b.capacity = cap
  len : b.buf.length = cap
  in_eq : b.in_ = enq.length % cap
  out_eq : b.out = n % cap
  slots : ∀ k, n ≤ k → k < enq.length → b.buf[k % cap]? = enq[k]?

/-- The buffer holds the puts not yet got, and the gets so far returned the first puts. -/
def Fifo (cap : Nat) (b : buffer_t) (puts : List PutRec) (gets : List GetRec) : Prop :=
  Ring cap b (puts.map (·.item)) gets.length ∧ gets.length ≤ puts.length ∧
    gets.map (·.item) = (puts.map (·.item)).take gets.length

/-- The FIFO relation between the buffer and the history of a state. -/
def Inv2 (cfg : Config) (s : State) : Prop := Fifo cfg.buffer_size s.buffer s.puts s.gets

/-! ## Producers and the history of puts -/

/-- The puts made by thread `t`, in order. -/
def putsBy (t : Tid) (puts : List PutRec) : List PutRec := puts.filter (fun r => r.who == t)

/-- Number of `buffer_put` calls a producer has made: `i` once the put of iteration `i` is
done, `i - 1` before. -/
def putsDone (p : PLocal) : Nat :=
  match p.pc with
  | .unlock | .post => p.i
  | _ => p.i - 1

/-- Range of the loop variable of a producer at each program counter: when
`items_per_producer < INT_MAX` the variable never wraps and stays within
`1 .. items_per_producer + 1`; otherwise the loop test never fails and the producer never
returns. -/
def PLocalOk (cfg : Config) (p : PLocal) : Prop :=
  1 ≤ p.i ∧
    (cfg.items_per_producer < 2147483647 →
      match p.pc with
      | .loop => p.i ≤ cfg.items_per_producer + 1
      | .done => p.i = cfg.items_per_producer + 1
      | _ => p.i ≤ cfg.items_per_producer) ∧
    (2147483647 ≤ cfg.items_per_producer → p.pc ≠ .done)

/-- What a history record of a put looks like: a producer `id < producers_count` put the
item of one of its iterations (one of `1 .. items_per_producer` when the loop variable
cannot wrap), or `main` put `-1`. -/
def RecOk (prog : Program) (cfg : Config) (r : PutRec) : Prop :=
  match r.who with
  | .producer id => id < cfg.producers_count ∧ 1 ≤ r.seq ∧
      (cfg.items_per_producer < 2147483647 → r.seq ≤ cfg.items_per_producer) ∧
      r.item = itemOf prog id r.seq
  | .main => r.item = -1
  | .consumer _ => False

/-- Producers count their iterations from 1, and the puts of producer `id` carry the
sequence numbers `1, 2, ..` in this order. -/
structure Inv3 (prog : Program) (cfg : Config) (s : State) : Prop where
  loc : ∀ (id : Nat) (p : PLocal), s.producers[id]? = some p → PLocalOk cfg p
  recs : ∀ (id : Nat) (p : PLocal), s.producers[id]? = some p →
    (putsBy (.producer id) s.puts).map (·.seq) = List.range' 1 (putsDone p)
  item : ∀ r ∈ s.puts, RecOk prog cfg r

/-! ## The phases of `main` -/

/-- Number of poison pills `main` has put. -/
def pillsDone (prog : Program) (cfg : Config) (m : MLocal) : Nat :=
  match m.pc with
  | .joinProd => 0
  | .pillLoop | .wait | .lock | .put => m.i
  | .unlock | .post => m.i + 1
  | .joinCons | .done =>
    match prog with
    | .counted => 0
    | .sentinel => cfg.consumers_count

/-- Is the record a put of a producer? -/
def isProducerRec (r : PutRec) : Bool :=
  match r.who with
  | .producer _ => true
  | _ => false

/-- Range of the loop variable of `main` inside the pill loop. -/
def MRange (cfg : Config) (m : MLocal) : Prop :=
  match m.pc with
  | .pillLoop => m.i ≤ cfg.consumers_count
  | .wait | .lock | .put | .unlock | .post => m.i < cfg.consumers_count
  | _ => True

/-- The phases of `main`: it joins the producers in order, only then puts pills (and only in
the Sentinel program), so every pill is put after every item; then it joins the consumers. -/
structure Inv4 (prog : Program) (cfg : Config) (s : State) : Prop where
  joinP : s.main.pc = .joinProd → ∀ id, id < s.main.i → producerDone s id = true
  afterP : s.main.pc ≠ .joinProd → ∀ id, id < cfg.producers_count → producerDone s id = true
  pills : (putsBy .main s.puts).length = pillsDone prog cfg s.main
  range : MRange cfg s.main
  order : s.puts = s.puts.filter isProducerRec ++ putsBy .main s.puts
  joinC : s.main.pc = .joinCons → ∀ j, j < s.main.i → consumerDone s j = true
  fin : s.main.pc = .done → ∀ j, j < cfg.consumers_count → consumerDone s j = true
  cnt : prog = .counted → s.main.pc = .joinProd ∨ s.main.pc = .joinCons ∨ s.main.pc = .done

/-! ## Poison pills (Sentinel program) -/

/-- The program counters of the Sentinel consumer. -/
def sentPc : CPc → Bool
  | .waitFull | .lockM | .get | .unlockM | .postEmpty | .checkPill | .done => true
  | _ => false

/-- Has the consumer dequeued a pill?  It has returned, or it is between the `buffer_get`
that returned `-1` and the `it == -1` test. -/
def holdsPill (c : CLocal) : Bool :=
  match c.pc with
  | .done => true
  | .unlockM | .postEmpty | .checkPill => c.it == -1
  | _ => false

/-- Number of values `-1` consumer `j` has dequeued. -/
def pillsBy (j : Nat) (gets : List GetRec) : Nat :=
  (gets.filter (fun r => r.who == j && r.item == -1)).length

/-- No item a producer builds in the iterations `1 .. items_per_producer` equals the
sentinel. -/
def NoSentinelItem (cfg : Config) : Prop :=
  ∀ id i, id < cfg.producers_count → 1 ≤ i → i ≤ cfg.items_per_producer →
    sentinel_item id i ≠ -1

/-- No produced item equals `-1`: in no reachable state of the Sentinel program has a
producer put the value `-1` into the buffer.  With `items_per_producer < INT_MAX` this
follows from `NoSentinelItem`; with `items_per_producer = INT_MAX` the loop of a producer
never ends, its variable wraps, and it fails. -/
def NoPillProduced (cfg : Config) : Prop :=
  ∀ s, Reachable .sentinel cfg s → ∀ r ∈ s.puts, isProducerRec r = true → r.item ≠ -1

/-- The consumers of the Sentinel program and the pills they have dequeued. -/
structure Inv5 (s : State) : Prop where
  pcs : ∀ (j : Nat) (c : CLocal), s.consumers[j]? = some c → sentPc c.pc = true
  per : ∀ (j : Nat) (c : CLocal), s.consumers[j]? = some c →
    pillsBy j s.gets = (holdsPill c).toNat
  tot : (s.gets.map (·.item)).count (-1) = s.consumers.countP holdsPill

/-- Every thread has returned. -/
def AllDone (s : State) : Prop :=
  (∀ (id : Nat) (p : PLocal), s.producers[id]? = some p → p.pc = .done) ∧
    (∀ (j : Nat) (c : CLocal), s.consumers[j]? = some c → c.pc = .done) ∧
    s.main.pc = .done

/-! ## The shared counter (Counted program) -/

/-- The product `producers_count * items_per_producer` is representable as an `int`. -/
def FitsInt (cfg : Config) : Prop :=
  (cfg.producers_count : Int) * (cfg.items_per_producer : Int) ≤ 2147483647

/-- The consumer has called `buffer_get` and not yet incremented `consumed_count`. -/
def atIncr (c : CLocal) : Bool :=
  match c.pc with
  | .incr => true
  | _ => false

/-- The consumer has passed the second check and not yet incremented `consumed_count`. -/
def committed (c : CLocal) : Bool :=
  match c.pc with
  | .get | .incr => true
  | _ => false

/-- The consumer has found `consumed_count >= total_items` at one of its checks. -/
def exited (c : CLocal) : Bool :=
  match c.pc with
  | .unlockBrk | .rbUnlockC | .rbUnlockM | .rbPost | .done => true
  | _ => false

/-- The counter of the Counted program: it lags the number of gets by the consumer that is
between `buffer_get` and `consumed_count++`, never passes `total_items`, and a consumer
leaves its loop only when the counter has reached `total_items`. -/
structure Inv6 (cfg : Config) (s : State) : Prop where
  cnt : (s.gets.length : Int) = s.consumed_count + (s.consumers.countP atIncr : Nat)
  le : s.consumed_count + (s.consumers.countP committed : Nat) ≤ total_items cfg
  nonneg : 0 ≤ s.consumed_count
  exit : ∀ (j : Nat) (c : CLocal), s.consumers[j]? = some c → exited c = true →
    total_items cfg ≤ s.consumed_count

/-! ## A run of the Counted program that ends blocked -/

/-- One producer, two consumers, one slot, one item. -/
def deadlockCfg : Config :=
  { producers_count := 1, consumers_count := 2, buffer_size := 1, items_per_producer := 1,
    mem := fun _ => 0 }

/-- Both consumers pass the first check (`consumed_count = 0 < 1`); the producer puts its
item and returns; consumer 0 takes the item, finds `consumed_count >= total_items` at its
next first check and returns; `main` joins the producer and consumer 0. -/
def deadlockSchedule : List Tid :=
  [.consumer 0, .consumer 0, .consumer 0, .consumer 1, .consumer 1, .consumer 1,
   .producer 0, .producer 0, .producer 0, .producer 0, .producer 0, .producer 0, .producer 0,
   .consumer 0, .consumer 0, .consumer 0, .consumer 0, .consumer 0, .consumer 0,
   .consumer 0, .consumer 0, .consumer 0, .consumer 0, .consumer 0, .consumer 0,
   .main, .main, .main]

/-- The state at the end of `deadlockSchedule`: consumer 1 waits on `full`, which is 0. -/
def deadlockState : State :=
  { buffer := { buf := [1], capacity := 1, in_ := 0, out := 0 }
    empty := 1
    full := 0
    mutex := none
    consumed_count := 1
    consumed_count_mutex := none
    producers := [⟨.done, 2⟩]
    consumers := [⟨.done, 1⟩, ⟨.waitFull, 0⟩]
    main := ⟨.joinCons, 1⟩
    puts := [⟨.producer 0, 1, 1⟩]
    gets := [⟨0, 1⟩] }

/-! ## A small configuration -/

/-- One producer, one consumer, one slot, one item. -/
def smallCfg : Config :=
  { producers_count := 1, consumers_count := 1, buffer_size := 1, items_per_producer := 1,
    mem := fun _ => 0 }

/-! ## A run of the Counted program that stops between `buffer_get` and the increment -/

/-- The producer puts its item; the consumer runs up to and including `buffer_get`. -/
def lagSchedule : List Tid :=
  [.producer 0, .producer 0, .producer 0, .producer 0, .producer 0, .producer 0,
   .consumer 0, .consumer 0, .consumer 0, .consumer 0, .consumer 0, .consumer 0,
   .consumer 0, .consumer 0]

/-- The state at the end of `lagSchedule` (with `smallCfg`): one get, `consumed_count = 0`. -/
def lagState : State :=
  { buffer := { buf := [1], capacity := 1, in_ := 0, out := 0 }
    empty := 0
    full := 0
    mutex := some (.consumer 0)
    consumed_count := 0
    consumed_count_mutex := some (.consumer 0)
    producers := [⟨.loop, 2⟩]
    consumers := [⟨.incr, 1⟩]
    main := ⟨.joinProd, 0⟩
    puts := [⟨.producer 0, 1, 1⟩]
    gets := [⟨0, 1⟩] }

/-! ## A complete run of the Sentinel program -/

/-- The producer puts its item and returns, `main` joins it, the consumer takes the item,
`main` puts the pill, the consumer takes the pill and returns, `main` joins it. -/
def fullSchedule : List Tid :=
  List.replicate 7 (.producer 0) ++ [.main, .main] ++ List.replicate 6 (.consumer 0) ++
    List.replicate 7 .main ++ List.replicate 6 (.consumer 0) ++ [.main, .main]

/-- The state at the end of `fullSchedule` (with `smallCfg`): every thread has returned. -/
def finalState : State :=
  { buffer := { buf := [-1], capacity := 1, in_ := 0, out := 0 }
    empty := 1
    full := 0
    mutex := none
    consumed_count := 0
    consumed_count_mutex := none
    producers := [⟨.done, 2⟩]
    consumers := [⟨.done, -1⟩]
    main := ⟨.done, 1⟩
    puts := [⟨.producer 0, 1, 1⟩, ⟨.main, 0, -1⟩]
    gets := [⟨0, 1⟩, ⟨0, -1⟩] }

/-- The state after the first 25 steps of `fullSchedule`: the consumer has just dequeued
the pill and still holds the mutex. -/
def pillState : State :=
  { buffer := { buf := [-1], capacity := 1, in_ := 0, out := 0 }
    empty := 0
    full := 0
    mutex := some (.consumer 0)
    consumed_count := 0
    consumed_count_mutex := none
    producers := [⟨.done, 2⟩]
    consumers := [⟨.unlockM, -1⟩]
    main := ⟨.joinCons, 0⟩
    puts := [⟨.producer 0, 1, 1⟩, ⟨.main, 0, -1⟩]
    gets := [⟨0, 1⟩, ⟨0, -1⟩] }

/-- The state of `smallCfg` after the seven steps of the producer and three steps of `main`:
the producer has returned, the one slot is filled, and `main` is about to call
`sem_wait(&empty)` for its pill. -/
def mainWaitsState : State :=
  { buffer := { buf := [1], capacity := 1, in_ := 0, out := 0 }
    empty := 0
    full := 1
    mutex := none
    consumed_count := 0
    consumed_count_mutex := none
    producers := [⟨.done, 2⟩]
    consumers := [⟨.waitFull, 0⟩]
    main := ⟨.wait, 0⟩
    puts := [⟨.producer 0, 1, 1⟩]
    gets := [] }

/-! ## Threads between a `sem_wait` and the `sem_post` that follows it -/

/-- The producer has completed `sem_wait(&empty)` and not yet performed `sem_post(&full)`. -/
def betweenP (p : PLocal) : Bool :=
  match p.pc with
  | .lock | .put | .unlock | .post => true
  | _ => false

/-- The consumer has completed `sem_wait(&full)` and not yet performed the `sem_post` on its
path: `sem_post(&empty)`, or `sem_post(&full)` on the rollback path of the Counted program. -/
def betweenC (c : CLocal) : Bool :=
  match c.pc with
  | .lockM | .lock2 | .check2 | .rbUnlockC | .rbUnlockM | .rbPost | .get | .incr | .unlockC
  | .unlockM | .postEmpty => true
  | _ => false

/-- Is `main` between its `sem_wait(&empty)` and its `sem_post(&full)`? (0 or 1) -/
def betweenM (m : MLocal) : Nat :=
  match m.pc with
  | .lock | .put | .unlock | .post => 1
  | _ => 0

/-- Number of threads between a `sem_wait` and the `sem_post` that follows it. -/
def inFlight (s : State) : Nat :=
  s.producers.countP betweenP + s.consumers.countP betweenC + betweenM s.main

/-- The parameters of the scenario in the specification: 2 producers, 2 consumers, 2 slots,
3 items per producer. -/
def specCfg : Config :=
  { producers_count := 2, consumers_count := 2, buffer_size := 2, items_per_producer := 3,
    mem := fun _ => 0 }

/-- Both producers put their first item. -/
def fillSchedule : List Tid :=
  List.replicate 6 (.producer 0) ++ List.replicate 6 (.producer 1)

/-- The state at the end of `fillSchedule` with `specCfg`: both slots are occupied. -/
def fillState (prog : Program) : State :=
  { buffer := { buf := [itemOf prog 0 1, itemOf prog 1 1], capacity := 2, in_ := 0, out := 0 }
    empty := 0
    full := 2
    mutex := none
    consumed_count := 0
    consumed_count_mutex := none
    producers := [⟨.loop, 2⟩, ⟨.loop, 2⟩]
    consumers := [⟨consumerEntry prog, 0⟩, ⟨consumerEntry prog, 0⟩]
    main := ⟨.joinProd, 0⟩
    puts := [⟨.producer 0, 1, itemOf prog 0 1⟩, ⟨.producer 1, 1, itemOf prog 1 1⟩]
    gets := [] }

/-! ## Sequences of calls on the buffer alone -/

/-- A call of `buffer_put` with a value, or a call of `buffer_get`. -/
inductive BufOp where
  | put (x : Int)
  | get
deriving DecidableEq, Repr

/-- A buffer together with the values given to the puts and the values returned by the
gets made on it so far. -/
structure BufRun where
  b : buffer_t
  given : List Int
  got : List Int
deriving DecidableEq, Repr

/-- Make the calls `ops` in order. -/
def runOps : BufRun → List BufOp → BufRun
  | r, [] => r
  | r, .put x :: ops =>
    runOps { b := buffer_put r.b x, given := r.given ++ [x], got := r.got } ops
  | r, .get :: ops =>
    runOps { b := (buffer_get r.b).2, given := r.given, got := r.got ++ [(buffer_get r.b).1] } ops

/-- With `held` items in a buffer of capacity `C`: every put of `ops` is made when fewer
than `C` items are held, every get when at least one is held. -/
def admissible (C : Nat) : Nat → List BufOp → Bool
  | _, [] => true
  | held, .put _ :: ops => decide (held < C) && admissible C (held + 1) ops
  | held, .get :: ops => decide (0 < held) && admissible C (held - 1) ops

/-! ## The rollback path of the Counted consumer -/

/-- Parameters whose `int` product wraps: `3 * 1431655766 = 2^32 + 2`, so `total_items`
is 2 while the producers go on to put more than 2 items. -/
def wrapCfg : Config :=
  { producers_count := 3, consumers_count := 2, buffer_size := 1,
    items_per_producer := 1431655766, mem := fun _ => 0 }

/-- Consumer 0 consumes the first item; both consumers pass the first check while
`consumed_count = 1`; consumer 0 consumes the second item; producer 0 puts a third. -/
def rollbackSchedule : List Tid :=
  List.replicate 3 (.consumer 0) ++ List.replicate 6 (.producer 0) ++
    List.replicate 12 (.consumer 0) ++ List.replicate 3 (.consumer 1) ++
    List.replicate 6 (.producer 0) ++ List.replicate 9 (.consumer 0) ++
    List.replicate 6 (.producer 0)

/-- The state at the end of `rollbackSchedule` with `wrapCfg`: consumer 1 is at
`sem_wait(&full)`, a permit is available and `consumed_count = 2 = total_items`. -/
def rollbackState : State :=
  { buffer := { buf := [3], capacity := 1, in_ := 0, out := 0 }
    empty := 0
    full := 1
    mutex := none
    consumed_count := 2
    consumed_count_mutex := none
    producers := [⟨.loop, 4⟩, ⟨.loop, 1⟩, ⟨.loop, 1⟩]
    consumers := [⟨.lock1, 2⟩, ⟨.waitFull, 0⟩]
    main := ⟨.joinProd, 0⟩
    puts := [⟨.producer 0, 1, 1⟩, ⟨.producer 0, 2, 2⟩, ⟨.producer 0, 3, 3⟩]
    gets := [⟨0, 1⟩, ⟨0, 2⟩] }

/-- The state three steps after `rollbackState`: consumer 1 has taken the permit and both
mutexes and is at the second check, with `consumed_count = 2 = total_items`. -/
def rollbackCheckState : State :=
  { rollbackState with
    full := 0
    mutex := some (.consumer 1)
    consumed_count_mutex := some (.consumer 1)
    consumers := [⟨.lock1, 2⟩, ⟨.check2, 0⟩] }

/-! ## The liveness scenario of the specification, run to a blocked state -/

/-- The parameters of the liveness scenario in the specification: 3 producers, 3 consumers,
1 slot, 5 items per producer. -/
def specLiveCfg : Config :=
  { producers_count := 3, consumers_count := 3, buffer_size := 1, items_per_producer := 5,
    mem := fun _ => 0 }

/-- Consumers 1 and 2 pass the first check (`consumed_count = 0 < 15`) and go to
`sem_wait(&full)`; then the 15 items are put one by one and each is consumed by consumer 0
before the other consumers are scheduled; consumer 0 returns at its first check, the
producers return, `main` joins the producers and consumer 0. -/
def specLiveSchedule : List Tid :=
  List.replicate 3 (.consumer 1) ++ List.replicate 3 (.consumer 2) ++
    (List.range 15).flatMap (fun k =>
      List.replicate 6 (.producer (k / 5)) ++ List.replicate 12 (.consumer 0)) ++
    List.replicate 3 (.consumer 0) ++ [.producer 0, .producer 1, .producer 2] ++
    List.replicate 5 .main

/-- The state at the end of `specLiveSchedule`: all 15 items are consumed, consumers 1 and
2 wait on `full`, which is 0. -/
def specLiveState : State :=
  { buffer := { buf := [131077], capacity := 1, in_ := 0, out := 0 }
    empty := 1
    full := 0
    mutex := none
    consumed_count := 15
    consumed_count_mutex := none
    producers := [⟨.done, 6⟩, ⟨.done, 6⟩, ⟨.done, 6⟩]
    consumers := [⟨.done, 131077⟩, ⟨.waitFull, 0⟩, ⟨.waitFull, 0⟩]
    main := ⟨.joinCons, 1⟩
    puts := (List.range 15).map (fun k =>
      ⟨.producer (k / 5), k % 5 + 1, produce_item (k / 5) (k % 5 + 1)⟩)
    gets := (List.range 15).map (fun k => ⟨0, produce_item (k / 5) (k % 5 + 1)⟩) }

/-! ## Who holds a mutex -/

/-- Is thread `t` between its lock and its unlock of `mutex`? -/
def inMutex (prog : Program) (s : State) : Tid → Bool
  | .producer id =>
    match s.producers[id]? with
    | some p => pM p
    | none => false
  | .consumer id =>
    match s.consumers[id]? with
    | some c => cM prog c
    | none => false
  | .main => decide (mM s.main = 1)

/-- Is thread `t` between a lock and the unlock of `consumed_count_mutex`?  Only consumers
of the Counted program ever are. -/
def inCcm (prog : Program) (s : State) : Tid → Bool
  | .consumer id =>
    match prog, s.consumers[id]? with
    | .counted, some c => cC c
    | _, _ => false
  | _ => false

/-- The next statement of thread `t` is a `sem_wait` (on `empty` or on `full`). -/
def atSemWait (s : State) : Tid → Bool
  | .producer id =>
    match s.producers[id]? with
    | some p => p.pc == .wait
    | none => false
  | .consumer id =>
    match s.consumers[id]? with
    | some c => c.pc == .waitFull
    | none => false
  | .main => s.main.pc == .wait

/-- The next statement of thread `t` is `pthread_mutex_lock(&mutex)`. -/
def atLockMutex (s : State) : Tid → Bool
  | .producer id =>
    match s.producers[id]? with
    | some p => p.pc == .lock
    | none => false
  | .consumer id =>
    match s.consumers[id]? with
    | some c => c.pc == .lockM
    | none => false
  | .main => s.main.pc == .lock

/-- The next statement of thread `t` is `pthread_mutex_lock(&consumed_count_mutex)`, at the
first check (`first = true`, prodcons.c:106) or at the second (prodcons.c:117). -/
def atLockCcm (s : State) (first : Bool) : Tid → Bool
  | .consumer id =>
    match s.consumers[id]? with
    | some c => if first then c.pc == .lock1 else c.pc == .lock2
    | none => false
  | _ => false

/-- A mutex is owned by the thread that is between its lock and its unlock. -/
structure Inv7 (prog : Program) (s : State) : Prop where
  mOwner : ∀ t, s.mutex = some t ↔ inMutex prog s t = true
  cOwner : ∀ t, s.consumed_count_mutex = some t ↔ inCcm prog s t = true

/-! ## The calls of `main` in program order -/

/-- A call `main` makes (or its `return`), as far as the workers and the exit status are
concerned.  `pthread_create t ok` records whether the call returned 0. -/
inductive MainCall where
  | fprintf_stderr                          -- usage line or "must be positive" line
  | srand
  | buffer_init (capacity : Nat)
  | sem_init_empty (value : Nat)            -- `sem_init(&empty, 0, buffer_size)`
  | sem_init_full (value : Nat)             -- `sem_init(&full, 0, 0)`
  | mutex_init                              -- `pthread_mutex_init(&mutex, NULL)`
  | ccm_init                                -- `pthread_mutex_init(&consumed_count_mutex, NULL)`
  | pthread_create (t : Tid) (ok : Bool)
  | perror
  | exit (status : Int)                     -- `exit(status)`
  | pthread_join (t : Tid)
  | put_pill                                -- one round of the pill loop (prodcons_sem.c:162-169)
  | cleanup                                 -- `sem_destroy`, `pthread_mutex_destroy`, `free`
  | ret (status : Int)                      -- `return status;` from `main`
deriving DecidableEq, Repr

/-- The workers in the order in which `main` creates them: producers then consumers in
`src/prodcons.c`, consumers then producers in `src/prodcons_sem.c`. -/
def creationOrder (prog : Program) (P K : Nat) : List Tid :=
  match prog with
  | .counted => (List.range P).map .producer ++ (List.range K).map .consumer
  | .sentinel => (List.range K).map .consumer ++ (List.range P).map .producer

/-- The two creation loops: `if (pthread_create(..) != 0) { perror(..); exit(1); }` for each
worker in turn.  `ok t` tells whether the call for worker `t` succeeds; the result says
whether all calls did. -/
def createAll (ok : Tid → Bool) : List Tid → List MainCall × Bool
  | [] => ([], true)
  | t :: ts =>
    if ok t then (.pthread_create t true :: (createAll ok ts).1, (createAll ok ts).2)
    else ([.pthread_create t false, .perror, .exit 1], false)

/-- What `main` does between the validation and the creation loops. -/
def initCalls (prog : Program) (buffer_size : Nat) : List MainCall :=
  match prog with
  | .counted =>
    [.buffer_init buffer_size, .sem_init_empty buffer_size, .sem_init_full 0, .mutex_init,
      .ccm_init]
  | .sentinel =>
    [.srand, .buffer_init buffer_size, .sem_init_empty buffer_size, .sem_init_full 0,
      .mutex_init]

/-- What `main` does once all workers exist, when no call blocks forever. -/
def afterCreation (prog : Program) (P K : Nat) : List MainCall :=
  (List.range P).map (fun i => .pthread_join (.producer i)) ++
    (match prog with
      | .counted => []
      | .sentinel => List.replicate K .put_pill) ++
    (List.range K).map (fun i => .pthread_join (.consumer i)) ++ [.cleanup, .ret 0]

/-- What `main` does before it validates the values: `srand` in `src/prodcons.c`. -/
def beforeCheck (prog : Program) : List MainCall :=
  match prog with
  | .counted => [.srand]
  | .sentinel => []

/-- The calls of `main` in program order (`main`, prodcons.c:141-209 and
prodcons_sem.c:116-184).  `argc` is the argument count, the four integers are the values
`atoi` returns for `argv[1..4]`, `ok` tells which `pthread_create` calls succeed.  In
`src/prodcons.c` `srand` is called before the values are parsed. -/
def main_calls (prog : Program) (argc : Int) (producers consumers buffer_size items : Int)
    (ok : Tid → Bool) : List MainCall :=
  if argc ≠ 5 then [.fprintf_stderr, .ret 1]
  else
    beforeCheck prog ++
    if producers ≤ 0 ∨ consumers ≤ 0 ∨ buffer_size ≤ 0 ∨ items ≤ 0 then
      [.fprintf_stderr, .ret 1]
    else
      initCalls prog buffer_size.toNat ++
        (createAll ok (creationOrder prog producers.toNat consumers.toNat)).1 ++
        if (createAll ok (creationOrder prog producers.toNat consumers.toNat)).2 then
          afterCreation prog producers.toNat consumers.toNat
        else []

/-- The 32-bit two's-complement pattern of an `int`, as a natural below `2^32`. -/
def bits32 (x : Int) : Nat := (x % 4294967296).toNat

/-- `item_producer` of `src/prodcons.c`: `(it >> 16) & 0xFFFF`, with `>>` the arithmetic
shift (the floor of `it / 2^16`) and `&` taken on the bit pattern. -/
def item_producer (it : Int) : Int :=
  ((bits32 (it >>> (16 : Nat)) &&& 0xFFFF : Nat) : Int)

/-- `item_seq` of `src/prodcons.c`: `it & 0xFFFF`, taken on the bit pattern. -/
def item_seq (it : Int) : Int := ((bits32 it &&& 0xFFFF : Nat) : Int)

/-- The producer the Sentinel consumer reports: `int prod = it / 100000;` (C division
truncates towards zero). -/
def reported_prod (it : Int) : Int := Int.tdiv it 100000

/-- The sequence number the Sentinel consumer reports: `int seq = it % 100000;` (the sign
of the remainder follows `it`). -/
def reported_seq (it : Int) : Int := Int.tmod it 100000

/-! ## A run in which `total_items` has wrapped -/

/-- With `wrapCfg` (`total_items = 2`): consumer 0 consumes two items and returns at its
first check, consumer 1 returns at its first check, producer 0 puts a third item, and all
three producers go to `sem_wait(&empty)`. -/
def wrapSchedule : List Tid :=
  List.replicate 6 (.producer 0) ++ List.replicate 12 (.consumer 0) ++
    List.replicate 6 (.producer 0) ++ List.replicate 12 (.consumer 0) ++
    List.replicate 3 (.consumer 0) ++ List.replicate 3 (.consumer 1) ++
    List.replicate 7 (.producer 0) ++ [.producer 1, .producer 2]

/-- The state at the end of `wrapSchedule`: both consumers have returned with
`consumed_count = 2`, the buffer is full, the producers wait on `empty`, which is 0. -/
def wrapState : State :=
  { buffer := { buf := [3], capacity := 1, in_ := 0, out := 0 }
    empty := 0
    full := 1
    mutex := none
    consumed_count := 2
    consumed_count_mutex := none
    producers := [⟨.wait, 4⟩, ⟨.wait, 1⟩, ⟨.wait, 1⟩]
    consumers := [⟨.done, 2⟩, ⟨.done, 0⟩]
    main := ⟨.joinProd, 0⟩
    puts := [⟨.producer 0, 1, 1⟩, ⟨.producer 0, 2, 2⟩, ⟨.producer 0, 3, 3⟩]
    gets := [⟨0, 1⟩, ⟨0, 2⟩] }

/-! ## Shortest Seek Time First (`src/sstf.c`) -/

/-- `INT_MAX` of `<limits.h>` for a 32-bit `int`. -/
def INT_MAX : Int := 2147483647

/-- The two statements `int dist = a - b; if (dist < 0) dist = -dist;` (sstf.c:39-40 and
sstf.c:97-98), in 32-bit arithmetic. -/
def seek_dist (a b : Int) : Int :=
  let dist := wrapInt (a - b)
  if dist < 0 then wrapInt (-dist) else dist

/-- One iteration of the loop of `find_nearest` (sstf.c:37-50) on `(best_idx, best_dist)`. -/
def find_nearest_body (requests served : List Int) (head : Int) (st : Int × Int) (i : Nat) :
    Int × Int :=
  if served.getD i 0 ≠ 0 then st
  else
    let dist := seek_dist (requests.getD i 0) head
    if dist < st.2 then ((i : Int), dist)
    else if dist = st.2 then
      if st.1 ≠ -1 ∧ requests.getD i 0 < requests.getD st.1.toNat 0 then ((i : Int), st.2)
      else st
    else st

/-- `find_nearest` of sstf.c:34-52: the index of the chosen request, or `-1`. -/
def find_nearest (requests served : List Int) (n : Nat) (head : Int) : Int :=
  ((List.range n).foldl (find_nearest_body requests served head) (-1, INT_MAX)).1

/-- The variables of the service loop of `main` (sstf.c:89-103); `seq_len` is the length of
`sequence`, `total_seek` is a `long`. -/
structure SstfState where
  served : List Int
  sequence : List Int
  total_seek : Int
  cur : Int
deriving DecidableEq, Repr

/-- The loop `while (seq_len < n)` of sstf.c:94-103; every iteration that does not leave the
loop adds one entry to `sequence`, so `n` iterations are enough. -/
def sstf_loop (requests : List Int) (n : Nat) : Nat → SstfState → SstfState
  | 0, st => st
  | fuel + 1, st =>
    if st.sequence.length < n then
      let idx := find_nearest requests st.served n st.cur
      if idx = -1 then st
      else
        sstf_loop requests n fuel
          { served := st.served.set idx.toNat 1
            sequence := st.sequence ++ [idx]
            total_seek := st.total_seek + seek_dist (requests.getD idx.toNat 0) st.cur
            cur := requests.getD idx.toNat 0 }
    else st

/-- The service loop of `main` on `n = requests.length` requests, from `served[i] = 0`,
`seq_len = 0`, `total_seek = 0`, `cur = head` (sstf.c:78-103). -/
def sstf_service (requests : List Int) (head : Int) : SstfState :=
  sstf_loop requests requests.length requests.length
    { served := List.replicate requests.length 0, sequence := [], total_seek := 0, cur := head }

/-- The head positions before each step of a service order: the initial head, then the
cylinders serviced. -/
def seek_sum (requests : List Int) : Int → List Int → Int
  | _, [] => 0
  | cur, idx :: rest =>
    |requests.getD idx.toNat 0 - cur| + seek_sum requests (requests.getD idx.toNat 0) rest

/-! ## Banker's algorithm (`src/bankers.c`) -/

/-- The entry `need[i][j]` as computed at bankers.c:71-72: `max[i][j] - alloc[i][j]` in
32-bit arithmetic, replaced by 0 when negative. -/
def need_entry (max alloc : List (List Int)) (i j : Nat) : Int :=
  let d := wrapInt ((max.getD i []).getD j 0 - (alloc.getD i []).getD j 0)
  if d < 0 then 0 else d

/-- The variables of the safety algorithm (bankers.c:98-119); `count` is the length of
`safe_seq`. -/
structure BankerState where
  work : List Int
  finish : List Int
  safe_seq : List Nat
deriving DecidableEq, Repr

/-- The test of bankers.c:107-110: the loop over `j` runs to `j == m`, that is
`need[i][j] <= work[j]` for every `j < m`. -/
def can_finish (max alloc : List (List Int)) (m : Nat) (work : List Int) (i : Nat) : Bool :=
  (List.range m).all (fun j => decide (need_entry max alloc i j ≤ work.getD j 0))

/-- The statements of bankers.c:112-114 for a process `i` that can be satisfied. -/
def banker_grant (alloc : List (List Int)) (m : Nat) (st : BankerState) (i : Nat) :
    BankerState :=
  { work := (List.range m).map (fun k => wrapInt (st.work.getD k 0 + (alloc.getD i []).getD k 0))
    finish := st.finish.set i 1
    safe_seq := st.safe_seq ++ [i] }

/-- One iteration of the loop over `i` (bankers.c:104-117) on the state and `found`. -/
def banker_visit (max alloc : List (List Int)) (m : Nat) (st : BankerState × Bool) (i : Nat) :
    BankerState × Bool :=
  if st.1.finish.getD i 0 ≠ 0 then st
  else if can_finish max alloc m st.1.work i then (banker_grant alloc m st.1 i, true)
  else st

/-- One pass of the loop over `i = 0 .. n-1`, starting with `found = 0`. -/
def banker_pass (max alloc : List (List Int)) (n m : Nat) (st : BankerState) :
    BankerState × Bool :=
  (List.range n).foldl (banker_visit max alloc m) (st, false)

/-- The loop `while (count < n)` of bankers.c:102-119; `none` when the passes allowed by
`fuel` are used up before the loop ends. -/
def banker_loop (max alloc : List (List Int)) (n m : Nat) : Nat → BankerState →
    Option BankerState
  | fuel, st =>
    if st.safe_seq.length < n then
      match fuel with
      | 0 => none
      | fuel + 1 =>
        if (banker_pass max alloc n m st).2 then
          banker_loop max alloc n m fuel (banker_pass max alloc n m st).1
        else some (banker_pass max alloc n m st).1
    else some st

/-- The safety algorithm from its initialisation (`work = avail`, `finish` all 0,
`count = 0`), with `n` passes allowed. -/
def banker_safety (n m : Nat) (alloc max : List (List Int)) (avail : List Int) :
    Option BankerState :=
  banker_loop max alloc n m n
    { work := (List.range m).map (fun j => avail.getD j 0)
      finish := List.replicate n 0
      safe_seq := [] }

/-- The verdict `safe = (count == n)` of bankers.c:121. -/
def banker_safe (n m : Nat) (alloc max : List (List Int)) (avail : List Int) : Option Bool :=
  (banker_safety n m alloc max avail).map (fun st => decide (st.safe_seq.length = n))

/-- The resources of type `j` available after the processes of `done` have returned their
allocation: `avail[j]` plus the sum of `alloc[t][j]` over `t` in `done`. -/
def released (alloc : List (List Int)) (avail : List Int) (j : Nat) (done : List Nat) : Int :=
  avail.getD j 0 + (done.map (fun t => (alloc.getD t []).getD j 0)).sum

/-- The need of process `i` for resource `j` as the safety condition defines it:
`max(Max - Allocation, 0)`, computed in the integers (not the entry `need[i][j]` of the
program, which is `need_entry`). -/
def spec_need (max alloc : List (List Int)) (i j : Nat) : Int :=
  Max.max ((max.getD i []).getD j 0 - (alloc.getD i []).getD j 0) 0

/-- A safe sequence: the need `max(Max - Allocation, 0)` of the process at every position
`k` is covered, for every resource `j < m`, by `avail[j]` plus the allocations of the
processes at the positions before `k`. -/
def SafeSequence (max alloc : List (List Int)) (avail : List Int) (m : Nat) (seq : List Nat) :
    Prop :=
  ∀ k < seq.length, ∀ j < m,
    spec_need max alloc (seq.getD k 0) j ≤ released alloc avail j (seq.take k)

/-- The values a 32-bit `int` can hold. -/
def IsInt (x : Int) : Prop := -2147483648 ≤ x ∧ x ≤ 2147483647

/-- Bookkeeping of the safety algorithm: `finish[i]` is set exactly for the processes in
`safe_seq`, which are distinct and below `n`. -/
structure BankerBase (n : Nat) (st : BankerState) : Prop where
  flen : st.finish.length = n
  flag : ∀ i < n, st.finish.getD i 0 ≠ 0 ↔ i ∈ st.safe_seq
  nodup : st.safe_seq.Nodup
  bound : ∀ x ∈ st.safe_seq, x < n

/-- What `work` and `safe_seq` hold in the safety algorithm: `work[j]` is at most the
resources released by the processes of `safe_seq`, and the entry `need[i][j]` of the program
for the process at every position of `safe_seq` is covered by what the processes before it
release. -/
structure BankerSound (max alloc : List (List Int)) (avail : List Int) (n m : Nat)
    (st : BankerState) : Prop where
  base : BankerBase n st
  work_le : ∀ j < m, st.work.getD j 0 ≤ released alloc avail j st.safe_seq
  safe : ∀ k < st.safe_seq.length, ∀ j < m,
    need_entry max alloc (st.safe_seq.getD k 0) j
      ≤ released alloc avail j (st.safe_seq.take k)

/-- What `work` holds when no sum overflows: exactly the resources released by the processes
of `safe_seq`. -/
structure BankerExact (alloc : List (List Int)) (avail : List Int) (n m : Nat)
    (st : BankerState) : Prop where
  base : BankerBase n st
  work_eq : ∀ j < m, st.work.getD j 0 = released alloc avail j st.safe_seq

/-- The inputs on which no addition of the safety algorithm overflows: non-negative `int`
allocations whose total per resource, added to `avail[j]`, fits in `int`. -/
def BankerFits (alloc : List (List Int)) (avail : List Int) (n m : Nat) : Prop :=
  (∀ i < n, ∀ j < m, 0 ≤ (alloc.getD i []).getD j 0) ∧
    ∀ j < m, -2147483648 ≤ avail.getD j 0 ∧
      released alloc avail j (List.range n) ≤ 2147483647

/-! ## Shortest Remaining Time First (`src/sjf.c`) -/

/-- How a simulation loop ends: it is left (`ended`), it writes outside an array
(`out_of_bounds`), or it is still running after the iterations allowed (`unfinished`). -/
inductive Outcome (σ : Type) where
  | ended : σ → Outcome σ
  | out_of_bounds : Outcome σ
  | unfinished : σ → Outcome σ
deriving DecidableEq, Repr

/-- The variables of `main` of sjf.c; `gantt_len` is the length of `gantt_proc`. -/
structure SrtfState where
  rem : List Int
  completed : List Int
  completion_time : List Int
  turnaround : List Int
  waiting : List Int
  t : Int
  finished : Int
  total_wait : Int
  total_tat : Int
  gantt_proc : List Int
deriving DecidableEq, Repr

/-- One iteration of the selection loop of sjf.c:71-76 on `(idx, shortest)`. -/
def srtf_pick_body (arrival : List Int) (st : SrtfState) (acc : Int × Int) (i : Nat) :
    Int × Int :=
  if st.completed.getD i 0 = 0 ∧ arrival.getD i 0 ≤ st.t ∧ st.rem.getD i 0 < acc.2 ∧
      0 < st.rem.getD i 0 then ((i : Int), st.rem.getD i 0)
  else acc

/-- The selection of sjf.c:69-76: `idx`, the process to run, or `-1`. -/
def srtf_pick (arrival : List Int) (n : Nat) (st : SrtfState) : Int :=
  ((List.range n).foldl (srtf_pick_body arrival st) (-1, INT_MAX)).1

/-- The number of entries of `gantt_proc` (sjf.c:64). -/
def GANTT_SIZE : Nat := 10000

/-- One iteration of the simulation loop (sjf.c:67-101); `none` when the write
`gantt_proc[gantt_len++]` falls outside the array. -/
def srtf_step (arrival burst : List Int) (n : Nat) (st : SrtfState) : Option SrtfState :=
  if st.gantt_proc.length < GANTT_SIZE then
    if srtf_pick arrival n st = -1 then
      some { st with gantt_proc := st.gantt_proc ++ [-1], t := wrapInt (st.t + 1) }
    else
      let idx := (srtf_pick arrival n st).toNat
      let r := wrapInt (st.rem.getD idx 0 - 1)
      let t1 := wrapInt (st.t + 1)
      if r = 0 then
        let tat := wrapInt (t1 - arrival.getD idx 0)
        let w := wrapInt (tat - burst.getD idx 0)
        some { rem := st.rem.set idx r
               completed := st.completed.set idx 1
               completion_time := st.completion_time.set idx t1
               turnaround := st.turnaround.set idx tat
               waiting := st.waiting.set idx w
               t := t1
               finished := wrapInt (st.finished + 1)
               total_wait := st.total_wait + w
               total_tat := st.total_tat + tat
               gantt_proc := st.gantt_proc ++ [srtf_pick arrival n st] }
      else
        some { st with rem := st.rem.set idx r, t := t1,
                       gantt_proc := st.gantt_proc ++ [srtf_pick arrival n st] }
  else none

/-- The loop `while (finished < n)` of sjf.c:67-101, for at most `fuel` iterations. -/
def srtf_loop (arrival burst : List Int) (n : Nat) : Nat → SrtfState → Outcome SrtfState
  | fuel, st =>
    if st.finished < (n : Int) then
      match fuel with
      | 0 => .unfinished st
      | fuel + 1 =>
        match srtf_step arrival burst n st with
        | some st1 => srtf_loop arrival burst n fuel st1
        | none => .out_of_bounds
    else .ended st

/-- The state before the loop (sjf.c:39-65): `rem = burst`, everything else 0, and
`t = min_arr`, the smallest arrival time. -/
def srtf_init (arrival burst : List Int) (n : Nat) : SrtfState :=
  { rem := (List.range n).map (fun i => burst.getD i 0)
    completed := List.replicate n 0
    completion_time := List.replicate n 0
    turnaround := List.replicate n 0
    waiting := List.replicate n 0
    t := (List.range n).foldl (fun m i => if arrival.getD i 0 < m then arrival.getD i 0 else m)
      (arrival.getD 0 0)
    finished := 0
    total_wait := 0
    total_tat := 0
    gantt_proc := [] }

/-- The simulation of sjf.c for `n` processes, run for at most `fuel` time units. -/
def srtf_main (n : Nat) (arrival burst : List Int) (fuel : Nat) : Outcome SrtfState :=
  srtf_loop arrival burst n fuel (srtf_init arrival burst n)

/-! ## Round Robin (`src/roundrobin.c`) -/

/-- A `GanttBlock` of roundrobin.c:29-33. -/
structure GanttBlock where
  pid : Int
  start : Int
  end_ : Int
deriving DecidableEq, Repr

/-- The variables of `main` of roundrobin.c; `rem` and `completion` are the fields of the
array `p` (with `p[i].pid = i + 1`), `gcount` is the length of `gantt`. -/
structure RrState where
  rem : List Int
  completion : List Int
  time : Int
  queue : List Int
  qhead : Nat
  qtail : Nat
  added : List Int
  remaining : Int
  gantt : List GanttBlock
deriving DecidableEq, Repr

/-- `Q_PUSH(x)` of roundrobin.c:77: `queue[qtail++ % qcap] = x`. -/
def Q_PUSH (st : RrState) (x : Nat) : RrState :=
  { st with queue := st.queue.set (st.qtail % st.queue.length) (x : Int), qtail := st.qtail + 1 }

/-- The loop of roundrobin.c:106-111 and 135-140: every process not yet added whose arrival
is at most `time` is pushed and marked added, in increasing index. -/
def rr_enqueue_arrived (arrival : List Int) (n : Nat) (st : RrState) : RrState :=
  (List.range n).foldl
    (fun s i =>
      if s.added.getD i 0 = 0 ∧ arrival.getD i 0 ≤ s.time then
        { Q_PUSH s i with added := s.added.set i 1 }
      else s)
    st

/-- The search of roundrobin.c:97-102 for the next arrival among the processes not added;
`-1` when there is none. -/
def rr_next_arrival (arrival : List Int) (n : Nat) (st : RrState) : Int :=
  (List.range n).foldl
    (fun next_arr i =>
      if st.added.getD i 0 = 0 then
        if next_arr = -1 ∨ arrival.getD i 0 < next_arr then arrival.getD i 0 else next_arr
      else next_arr)
    (-1)

/-- The append of roundrobin.c:125-132: the last block is extended when it has the same pid
and ends at `start`; otherwise a new block is written at `gantt[gcount]`, which is `none`
when it falls outside the `n * 100` blocks allocated. -/
def rr_gantt_append (n : Nat) (gantt : List GanttBlock) (pid start end_ : Int) :
    Option (List GanttBlock) :=
  match gantt.getLast? with
  | some last =>
    if last.pid = pid ∧ last.end_ = start then
      some (gantt.dropLast ++ [{ last with end_ := end_ }])
    else if gantt.length < n * 100 then some (gantt ++ [⟨pid, start, end_⟩])
    else none
  | none =>
    if gantt.length < n * 100 then some (gantt ++ [⟨pid, start, end_⟩]) else none

/-- One iteration of the simulation loop (roundrobin.c:94-150): `.ended` for the `break`,
`.out_of_bounds` for a Gantt block written outside the array, `.unfinished` for a state
from which the loop goes on. -/
def rr_step (arrival : List Int) (n : Nat) (tq : Int) (st : RrState) : Outcome RrState :=
  if st.qhead = st.qtail then
    let next_arr := rr_next_arrival arrival n st
    if next_arr = -1 then .ended st
    else .unfinished (rr_enqueue_arrived arrival n { st with time := next_arr })
  else
    let idx := (st.queue.getD (st.qhead % st.queue.length) 0).toNat
    let run := if st.rem.getD idx 0 < tq then st.rem.getD idx 0 else tq
    let end_ := wrapInt (st.time + run)
    match rr_gantt_append n st.gantt ((idx : Int) + 1) st.time end_ with
    | none => .out_of_bounds
    | some g =>
      let st1 := rr_enqueue_arrived arrival n
        { st with qhead := st.qhead + 1, rem := st.rem.set idx (wrapInt (st.rem.getD idx 0 - run)),
                  time := end_, gantt := g }
      if 0 < st1.rem.getD idx 0 then .unfinished (Q_PUSH st1 idx)
      else .unfinished { st1 with completion := st1.completion.set idx st1.time,
                                  remaining := wrapInt (st1.remaining - 1) }

/-- The loop `while (remaining > 0)` of roundrobin.c:94-150, for at most `fuel` iterations. -/
def rr_loop (arrival : List Int) (n : Nat) (tq : Int) : Nat → RrState → Outcome RrState
  | fuel, st =>
    if 0 < st.remaining then
      match fuel with
      | 0 => .unfinished st
      | fuel + 1 =>
        match rr_step arrival n tq st with
        | .unfinished st1 => rr_loop arrival n tq fuel st1
        | r => r
    else .ended st

/-- The state before the loop (roundrobin.c:51-92): `rem = burst`, `completion = -1`,
`time` the earliest arrival, the processes that arrive at `time` queued and marked added. -/
def rr_init (arrival burst : List Int) (n : Nat) : RrState :=
  rr_enqueue_arrived arrival n
    { rem := (List.range n).map (fun i => burst.getD i 0)
      completion := List.replicate n (-1)
      time := (List.range n).foldl
        (fun m i => if arrival.getD i 0 < m then arrival.getD i 0 else m) (arrival.getD 0 0)
      queue := List.replicate (n * 5) 0
      qhead := 0
      qtail := 0
      added := List.replicate n 0
      remaining := (n : Int)
      gantt := [] }

/-- The simulation of roundrobin.c for `n` processes and quantum `tq`, for at most `fuel`
iterations of the loop. -/
def rr_main (n : Nat) (tq : Int) (arrival burst : List Int) (fuel : Nat) : Outcome RrState :=
  rr_loop arrival n tq fuel (rr_init arrival burst n)

/-! ## Optimal page replacement (`src/pagerepl_optimal.c`, `src/compare_pages.c`) -/

/-- The loop `for (i = 0; i < n; ++i) if (p i) { r = i; break; }` that several functions of
the page-replacement programs use: the smallest index below `n` with `p`, if any. -/
def first_index (p : Nat → Bool) : Nat → Option Nat
  | 0 => none
  | n + 1 =>
    match first_index p n with
    | some i => some i
    | none => if p n then some n else none

/-- `find_in_frames` (pagerepl_optimal.c:25-29, compare_pages.c:26-30): the first index
whose frame holds `page`, or `-1`. -/
def find_in_frames (frame : List Int) (frames : Nat) (page : Int) : Int :=
  match first_index (fun i => frame.getD i 0 == page) frames with
  | some i => (i : Int)
  | none => -1

/-- The inner loop of `find_victim_optimal` (pagerepl_optimal.c:39-42): starting at index
`k`, for `count` indices, the first `k` with `refs[k] == page`, or `INT_MAX`. -/
def next_use_from (refs : List Int) (page : Int) : Nat → Nat → Int
  | _, 0 => INT_MAX
  | k, count + 1 =>
    if refs.getD k 0 = page then (k : Int) else next_use_from refs page (k + 1) count

/-- The value `next_use` of `find_victim_optimal` for `page`: the loop runs over
`k = current_pos + 1 .. n - 1`. -/
def next_use (refs : List Int) (n current_pos : Nat) (page : Int) : Int :=
  next_use_from refs page (current_pos + 1) (n - (current_pos + 1))

/-- The outer loop of `find_victim_optimal` (pagerepl_optimal.c:36-47) over the frame
indices still to visit, on `victim` and `farthest`; an empty frame ends it at once. -/
def find_victim_loop (frame refs : List Int) (n current_pos : Nat) :
    List Nat → Int → Int → Int
  | [], victim, _ => victim
  | i :: rest, victim, farthest =>
    if frame.getD i 0 = -1 then (i : Int)
    else if farthest < next_use refs n current_pos (frame.getD i 0) then
      find_victim_loop frame refs n current_pos rest (i : Int)
        (next_use refs n current_pos (frame.getD i 0))
    else find_victim_loop frame refs n current_pos rest victim farthest

/-- `find_victim_optimal` (pagerepl_optimal.c:33-49, the same text at
compare_pages.c:108-124). -/
def find_victim_optimal (frame : List Int) (frames : Nat) (refs : List Int)
    (n current_pos : Nat) : Int :=
  find_victim_loop frame refs n current_pos (List.range frames) (-1) (-1)

/-- The reference at position `k`, after `current_pos` and before `n`, is to `page`. -/
def UsedAt (refs : List Int) (n current_pos : Nat) (page : Int) (k : Nat) : Prop :=
  current_pos < k ∧ k < n ∧ refs.getD k 0 = page

/-! ## LRU page replacement (`src/pagerepl_lru.c`) -/

/-- The variables of the reference loop of pagerepl_lru.c.  `time`, `hits` and
`page_faults` are counted up once per reference: they stay at most `n`, an `int`. -/
structure LruState where
  frame : List Int
  last_used : List Int
  time : Int
  page_faults : Int
  hits : Int
deriving DecidableEq, Repr

/-- The search of pagerepl_lru.c:111-118 for the frame with the smallest `last_used`:
`lru_index = 0`, then every `f >= 1` with `last_used[f] < min_time` replaces it. -/
def lru_victim (last_used : List Int) (frames : Nat) : Nat :=
  ((List.range' 1 (frames - 1)).foldl
    (fun (acc : Nat × Int) f =>
      if last_used.getD f 0 < acc.2 then (f, last_used.getD f 0) else acc)
    (0, last_used.getD 0 0)).1

/-- One iteration of the reference loop (pagerepl_lru.c:72-131) for the reference `page`. -/
def lru_step (frames : Nat) (st : LruState) (page : Int) : LruState :=
  match first_index (fun f => st.frame.getD f 0 == page) frames with
  | some hit_index =>
    { st with time := st.time + 1
              last_used := st.last_used.set hit_index (st.time + 1)
              hits := st.hits + 1 }
  | none =>
    match first_index (fun f => st.frame.getD f 0 == -1) frames with
    | some empty_index =>
      { st with time := st.time + 1
                page_faults := st.page_faults + 1
                frame := st.frame.set empty_index page
                last_used := st.last_used.set empty_index (st.time + 1) }
    | none =>
      { st with time := st.time + 1
                page_faults := st.page_faults + 1
                frame := st.frame.set (lru_victim st.last_used frames) page
                last_used := st.last_used.set (lru_victim st.last_used frames) (st.time + 1) }

/-- The state of pagerepl_lru.c after the first `i` references, from frames and
timestamps all `-1` and counters 0 (pagerepl_lru.c:60-67). -/
def lru_run (frames : Nat) (refs : List Int) (i : Nat) : LruState :=
  (List.range i).foldl (fun st k => lru_step frames st (refs.getD k 0))
    { frame := List.replicate frames (-1)
      last_used := List.replicate frames (-1)
      time := 0
      page_faults := 0
      hits := 0 }

/-- Position `k` holds the most recent reference to `page` before position `i`. -/
def IsLastRef (refs : List Int) (i : Nat) (page : Int) (k : Nat) : Prop :=
  k < i ∧ refs.getD k 0 = page ∧ ∀ j, k < j → j < i → refs.getD j 0 ≠ page

/-- What the LRU simulator holds before reference `i`: `time = i`, every reference so far
was a hit or a fault, the resident pages are distinct, and `last_used[f]` is the timestamp
of the most recent reference to the page in frame `f`. -/
structure LruInv (frames : Nat) (refs : List Int) (i : Nat) (st : LruState) : Prop where
  flen : st.frame.length = frames
  llen : st.last_used.length = frames
  time_eq : st.time = (i : Int)
  count : st.hits + st.page_faults = (i : Int)
  distinct : ∀ f < frames, ∀ g < frames, st.frame.getD f 0 = st.frame.getD g 0 →
    st.frame.getD f 0 ≠ -1 → f = g
  stamp : ∀ f < frames, st.frame.getD f 0 ≠ -1 →
    ∃ k, IsLastRef refs i (st.frame.getD f 0) k ∧ st.last_used.getD f 0 = (k : Int) + 1

/-! ## Comparison of FIFO, LRU and Optimal (`src/compare_pages.c`) -/

/-- The loop `for (i = 0; i < n; ++i)` of the three simulators: `body i` is applied for
`count` consecutive indices from `i`. -/
def for_loop {σ : Type} (body : Nat → σ → σ) : Nat → Nat → σ → σ
  | _, 0, st => st
  | i, count + 1, st => for_loop body (i + 1) count (body i st)

/-- The variables of `simulate_fifo` (compare_pages.c:33-61).  The fault counters of the
three simulators are counted up at most once per reference: they stay at most `n`. -/
structure FifoState where
  frame : List Int
  faults : Int
  next_replace : Nat
deriving DecidableEq, Repr

/-- One iteration of the loop of `simulate_fifo` (compare_pages.c:39-58). -/
def fifo_step (frames : Nat) (page : Int) (st : FifoState) : FifoState :=
  if find_in_frames st.frame frames page ≠ -1 then st
  else
    { frame := st.frame.set st.next_replace page
      faults := st.faults + 1
      next_replace := (st.next_replace + 1) % frames }

/-- `simulate_fifo` of compare_pages.c:33-61: the number of faults. -/
def simulate_fifo (frames : Nat) (refs : List Int) (n : Nat) : Int :=
  (for_loop (fun i st => fifo_step frames (refs.getD i 0) st) 0 n
    { frame := List.replicate frames (-1), faults := 0, next_replace := 0 }).faults

/-- The variables of `simulate_lru` (compare_pages.c:64-105). -/
structure LruSimState where
  frame : List Int
  last : List Int
  time : Int
  faults : Int
deriving DecidableEq, Repr

/-- The search of compare_pages.c:91-93: `lru = 0`, then every `j >= 1` with
`last[j] < last[lru]` replaces it. -/
def lru_index (last : List Int) (frames : Nat) : Nat :=
  (List.range' 1 (frames - 1)).foldl
    (fun lru j => if last.getD j 0 < last.getD lru 0 then j else lru) 0

/-- One iteration of the loop of `simulate_lru` (compare_pages.c:70-102). -/
def lru_sim_step (frames : Nat) (page : Int) (st : LruSimState) : LruSimState :=
  if find_in_frames st.frame frames page ≠ -1 then
    { st with time := st.time + 1
              last := st.last.set (find_in_frames st.frame frames page).toNat (st.time + 1) }
  else
    match first_index (fun j => st.frame.getD j 0 == -1) frames with
    | some empty =>
      { frame := st.frame.set empty page
        last := st.last.set empty (st.time + 1)
        time := st.time + 1
        faults := st.faults + 1 }
    | none =>
      { frame := st.frame.set (lru_index st.last frames) page
        last := st.last.set (lru_index st.last frames) (st.time + 1)
        time := st.time + 1
        faults := st.faults + 1 }

/-- `simulate_lru` of compare_pages.c:64-105: the number of faults. -/
def simulate_lru (frames : Nat) (refs : List Int) (n : Nat) : Int :=
  (for_loop (fun i st => lru_sim_step frames (refs.getD i 0) st) 0 n
    { frame := List.replicate frames (-1), last := List.replicate frames (-1),
      time := 0, faults := 0 }).faults

/-- The variables of `simulate_optimal` (compare_pages.c:126-157). -/
structure OptState where
  frame : List Int
  faults : Int
deriving DecidableEq, Repr

/-- One iteration of the loop of `simulate_optimal` (compare_pages.c:131-154), at
position `i` of the reference string. -/
def opt_step (frames : Nat) (refs : List Int) (n i : Nat) (st : OptState) : OptState :=
  if find_in_frames st.frame frames (refs.getD i 0) ≠ -1 then st
  else
    match first_index (fun j => st.frame.getD j 0 == -1) frames with
    | some empty => { frame := st.frame.set empty (refs.getD i 0), faults := st.faults + 1 }
    | none =>
      { frame := st.frame.set (find_victim_optimal st.frame frames refs n i).toNat
          (refs.getD i 0)
        faults := st.faults + 1 }

/-- `simulate_optimal` of compare_pages.c:126-157: the number of faults. -/
def simulate_optimal (frames : Nat) (refs : List Int) (n : Nat) : Int :=
  (for_loop (opt_step frames refs n) 0 n
    { frame := List.replicate frames (-1), faults := 0 }).faults

/-- The pages held in the frames: the entries other than `-1`. -/
def resident (frame : List Int) : Finset Int := frame.toFinset.erase (-1)

/-- The references at the positions `i .. i + count - 1`. -/
def refs_slice (refs : List Int) (i count : Nat) : List Int :=
  (List.range' i count).map (fun k => refs.getD k 0)

/-- Demand paging with `k` frames, `m` of them occupied and holding the pages `S`: the
runs on a reference string and their numbers of faults.  A reference to a resident page
changes nothing; a fault fills a free frame while there is one, and otherwise replaces a
resident page `q`, any one. -/
inductive Paging (k : Nat) : Nat → Finset Int → List Int → Nat → Prop where
  | done (m : Nat) (S : Finset Int) : Paging k m S [] 0
  | hit {m : Nat} {S : Finset Int} {p : Int} {σ : List Int} {c : Nat} :
      p ∈ S → Paging k m S σ c → Paging k m S (p :: σ) c
  | load {m : Nat} {S : Finset Int} {p : Int} {σ : List Int} {c : Nat} :
      p ∉ S → m < k → Paging k (m + 1) (insert p S) σ c → Paging k m S (p :: σ) (c + 1)
  | evict {m : Nat} {S : Finset Int} {p q : Int} {σ : List Int} {c : Nat} :
      p ∉ S → ¬ m < k → q ∈ S → Paging k m (insert p (S.erase q)) σ c →
      Paging k m S (p :: σ) (c + 1)

/-- In `σ`, every reference to `y` comes at or after a reference to `x`: the next use of `x`
is no later than the next use of `y`. -/
def NoLater (σ : List Int) (x y : Int) : Prop :=
  ∀ j : Nat, σ[j]? = some y → ∃ j1 : Nat, j1 ≤ j ∧ σ[j1]? = some x

/-- The frames of the three simulators: the first `m` frames are occupied by distinct
pages, the others are empty. -/
structure FrameInv (k : Nat) (frame : List Int) (m : Nat) : Prop where
  len : frame.length = k
  le : m ≤ k
  occupied : ∀ f < m, frame.getD f 0 ≠ -1
  empty : ∀ f, m ≤ f → f < k → frame.getD f 0 = -1
  distinct : ∀ f < m, ∀ g < m, frame.getD f 0 = frame.getD g 0 → f = g

/-! ### SRTF on inputs within the limits of the program -/

/-- The sum of `f 0 .. f (n-1)`. -/
def sum_upto (f : Nat → Int) (n : Nat) : Int := ((List.range n).map f).sum

/-- Process `i` can be selected at the current time: it is not completed, it has arrived and
it has time remaining (the conditions of sjf.c:72 other than the comparison). -/
def SrtfReady (arrival : List Int) (st : SrtfState) (i : Nat) : Prop :=
  st.completed.getD i 0 = 0 ∧ arrival.getD i 0 ≤ st.t ∧ 0 < st.rem.getD i 0

/-- Inputs on which the simulation stays inside `gantt_proc` and inside `int`: arrivals in
`0 .. A`, bursts at least 1, and `A` plus the total burst at most 10000 after the first
arrival `t0` and at most `INT_MAX`. -/
structure SrtfFits (arrival burst : List Int) (n : Nat) (A t0 : Int) : Prop where
  arr_nonneg : ∀ i < n, 0 ≤ arrival.getD i 0
  arr_le : ∀ i < n, arrival.getD i 0 ≤ A
  burst_pos : ∀ i < n, 1 ≤ burst.getD i 0
  start_nonneg : 0 ≤ t0
  start_le : t0 ≤ A
  cap : A + sum_upto (fun i => burst.getD i 0) n ≤ t0 + 10000
  int : A + sum_upto (fun i => burst.getD i 0) n ≤ 2147483647

/-- What holds at the head of the simulation loop of sjf.c, with `t0` the time at which the
simulation started. -/
structure SrtfInv (arrival burst : List Int) (n : Nat) (A t0 : Int) (st : SrtfState) :
    Prop where
  rlen : st.rem.length = n
  clen : st.completed.length = n
  ctlen : st.completion_time.length = n
  wlen : st.waiting.length = n
  rem_nonneg : ∀ i < n, 0 ≤ st.rem.getD i 0
  rem_le : ∀ i < n, st.rem.getD i 0 ≤ burst.getD i 0
  done_iff : ∀ i < n, st.completed.getD i 0 ≠ 0 ↔ st.rem.getD i 0 = 0
  fin : st.finished = (st.completed.countP (fun x => decide (x ≠ 0)) : Int)
  started : ∀ i < n, st.rem.getD i 0 < burst.getD i 0 →
    arrival.getD i 0 + (burst.getD i 0 - st.rem.getD i 0) ≤ st.t
  wait : ∀ i < n, st.completed.getD i 0 ≠ 0 →
    st.waiting.getD i 0 = st.completion_time.getD i 0 - arrival.getD i 0 - burst.getD i 0 ∧
      0 ≤ st.waiting.getD i 0
  budget : st.t + sum_upto (fun i => st.rem.getD i 0) n
    ≤ A + sum_upto (fun i => burst.getD i 0) n
  glen : (st.gantt_proc.length : Int) = st.t - t0

/-! ### Round Robin on inputs within the limits of the program -/

/-- The entries of the ready queue, oldest first: `queue[k % qcap]` for
`k = qhead .. qtail - 1`. -/
def queue_contents (st : RrState) : List Int :=
  (List.range' st.qhead (st.qtail - st.qhead)).map
    (fun k => st.queue.getD (k % st.queue.length) 0)

/-- The body of the loop of `rr_enqueue_arrived` for index `i`. -/
def rr_enqueue_body (arrival : List Int) (s : RrState) (i : Nat) : RrState :=
  if s.added.getD i 0 = 0 ∧ arrival.getD i 0 ≤ s.time then
    { Q_PUSH s i with added := s.added.set i 1 }
  else s

/-- What the loop of `rr_enqueue_arrived` over the indices `0 .. k-1` makes of `st`: nothing
but `queue`, `qtail` and `added` changes, and the processes pushed are those not yet added
whose arrival is at most `time`, each once. -/
structure Enqueued (arrival : List Int) (st : RrState) (k : Nat) (st1 : RrState) : Prop where
  rem_eq : st1.rem = st.rem
  completion_eq : st1.completion = st.completion
  time_eq : st1.time = st.time
  remaining_eq : st1.remaining = st.remaining
  gantt_eq : st1.gantt = st.gantt
  qhead_eq : st1.qhead = st.qhead
  qlen_eq : st1.queue.length = st.queue.length
  alen_eq : st1.added.length = st.added.length
  added_lt : ∀ i < k, st1.added.getD i 0 ≠ 0 ↔
    (st.added.getD i 0 ≠ 0 ∨ arrival.getD i 0 ≤ st.time)
  added_ge : ∀ i, k ≤ i → st1.added.getD i 0 = st.added.getD i 0
  queued : ∃ new : List Nat,
    queue_contents st1 = queue_contents st ++ new.map (fun (i : Nat) => (i : Int)) ∧
    new.Nodup ∧
    (∀ i, i ∈ new ↔ i < k ∧ st.added.getD i 0 = 0 ∧ arrival.getD i 0 ≤ st.time) ∧
    st1.qtail = st.qtail + new.length ∧ new.length ≤ k

/-- Inputs on which the simulation stays inside `gantt` and inside `int`: `n >= 1`,
`tq >= 1`, arrivals in `0 .. A`, bursts at least 1, a total burst of at most `100 * n` (the
number of Gantt blocks allocated) and `A` plus the total burst at most `INT_MAX`; `t0` is the
time at which the simulation starts. -/
structure RrFits (arrival burst : List Int) (n : Nat) (tq A t0 : Int) : Prop where
  n_pos : 1 ≤ n
  tq_pos : 1 ≤ tq
  arr_nonneg : ∀ i < n, 0 ≤ arrival.getD i 0
  arr_le : ∀ i < n, arrival.getD i 0 ≤ A
  burst_pos : ∀ i < n, 1 ≤ burst.getD i 0
  start_nonneg : 0 ≤ t0
  start_le : t0 ≤ A
  cap : sum_upto (fun i => burst.getD i 0) n ≤ 100 * (n : Int)
  int : A + sum_upto (fun i => burst.getD i 0) n ≤ 2147483647

/-- What holds of the variables of roundrobin.c during the simulation.  `skip` is the
process taken from the queue and not yet put back, if any: the queue holds, each once, the
processes added with time remaining other than `skip`. -/
structure RrPre (arrival burst : List Int) (n : Nat) (A : Int) (skip : Option Nat)
    (st : RrState) : Prop where
  rlen : st.rem.length = n
  clen : st.completion.length = n
  alen : st.added.length = n
  qlen : st.queue.length = n * 5
  hq : st.qhead ≤ st.qtail
  rem_nonneg : ∀ i < n, 0 ≤ st.rem.getD i 0
  rem_le : ∀ i < n, st.rem.getD i 0 ≤ burst.getD i 0
  unadded : ∀ i < n, st.added.getD i 0 = 0 → st.rem.getD i 0 = burst.getD i 0
  progress : ∀ i < n, st.added.getD i 0 ≠ 0 →
    arrival.getD i 0 + (burst.getD i 0 - st.rem.getD i 0) ≤ st.time
  q_nodup : (queue_contents st).Nodup
  q_mem : ∀ x, x ∈ queue_contents st ↔
    ∃ i < n, x = (i : Int) ∧ st.added.getD i 0 ≠ 0 ∧ 0 < st.rem.getD i 0 ∧ some i ≠ skip
  done : ∀ i < n, st.rem.getD i 0 = 0 → some i ≠ skip →
    arrival.getD i 0 + burst.getD i 0 ≤ st.completion.getD i 0
  time_le : st.time + sum_upto (fun i => st.rem.getD i 0) n
    ≤ A + sum_upto (fun i => burst.getD i 0) n
  gantt_le : (st.gantt.length : Int) + sum_upto (fun i => st.rem.getD i 0) n
    ≤ sum_upto (fun i => burst.getD i 0) n
  time_nonneg : 0 ≤ st.time

/-- The counter `remaining` is the number of processes with time remaining. -/
def RemainingOk (st : RrState) : Prop :=
  st.remaining = (st.rem.countP (fun x => decide (0 < x)) : Int)

/-- Every process that has arrived by `time` is marked added. -/
def AllArrived (arrival : List Int) (n : Nat) (st : RrState) : Prop :=
  ∀ i < n, st.added.getD i 0 = 0 → st.time < arrival.getD i 0

/-- What decreases in every iteration of the loop of roundrobin.c: twice the total time
remaining, plus one when the queue is empty. -/
def rr_measure (n : Nat) (st : RrState) : Int :=
  2 * sum_upto (fun i => st.rem.getD i 0) n + (if st.qhead = st.qtail then 1 else 0)

/-! ## SCAN disk scheduling (`src/after 11 chit/scan_simple.c`) -/

/-- `absval` (scan_simple.c:5): `x < 0 ? -x : x` on `int`. -/
def absval (x : Int) : Int := if x < 0 then wrapInt (-x) else x

/-- The array `req` after `qsort(req, n, sizeof(int), cmp)` (scan_simple.c:38) with the
ascending comparator `cmp`: the `n` values read, in ascending order. -/
def scan_sort (req : List Int) (n : Nat) : List Int :=
  ((List.range n).map (fun i => req.getD i 0)).insertionSort (· ≤ ·)

/-- The loop `while (idx < n && req[idx] < head) idx++` (scan_simple.c:42), for at most
`fuel` iterations. -/
def scan_find_idx (req : List Int) (n : Nat) (head : Int) : Nat → Nat → Nat
  | 0, idx => idx
  | fuel + 1, idx =>
    if idx < n ∧ req.getD idx 0 < head then scan_find_idx req n head fuel (idx + 1) else idx

/-- The variables `total_movement` and `cur` of scan_simple.c, and the track numbers printed
so far. -/
structure ScanState where
  total_movement : Int
  cur : Int
  order : List Int
deriving DecidableEq, Repr

/-- The head moves to `track` (scan_simple.c:50-52, 58-60, 67-68): the track is printed,
`total_movement += absval(track - cur); cur = track;`. -/
def scan_visit (st : ScanState) (track : Int) : ScanState :=
  { total_movement := wrapInt (st.total_movement + absval (wrapInt (track - st.cur)))
    cur := track
    order := st.order ++ [track] }

/-- `main` of scan_simple.c for `n` requests `req`, the head position and the disk size
read; `none` for the two `return 1` (invalid number, head out of range). -/
def scan_main (n : Nat) (req : List Int) (head disk_size : Int) : Option ScanState :=
  if n = 0 then none
  else if head < 0 ∨ head ≥ disk_size then none
  else
    let sorted := scan_sort req n
    let idx := scan_find_idx sorted n head n 0
    let st1 := (List.range' idx (n - idx)).foldl
      (fun st i => scan_visit st (sorted.getD i 0)) ⟨0, head, []⟩
    let end_track := wrapInt (disk_size - 1)
    let st2 := if st1.cur ≠ end_track then scan_visit st1 end_track else st1
    some ((List.range idx).reverse.foldl (fun st i => scan_visit st (sorted.getD i 0)) st2)

/-! ## Readers and writers (`src/after 11 chit/reader_writer_easy.c`) -/

/-- `NUM_READERS` (reader_writer_easy.c:7). -/
def NUM_READERS : Nat := 5

/-- `NUM_WRITERS` (reader_writer_easy.c:8). -/
def NUM_WRITERS : Nat := 2

/-- The threads of the demo: `reader id` and `writer id` are the threads `main` creates
with index `id` (their printed identity is `id + 1`). -/
inductive RwTid where
  | reader (id : Nat)
  | writer (id : Nat)
deriving DecidableEq, Repr

/-- Program counter of a reader: the statement it executes next. -/
inductive RPc where
  | lockRc     -- :20 `pthread_mutex_lock(&rc_mutex)` (entry section)
  | incr       -- :21 `readcount++`
  | test1      -- :22 `if (readcount == 1)`
  | lockRes    -- :23 `pthread_mutex_lock(&resource_mutex)`
  | unlockRc   -- :24 `pthread_mutex_unlock(&rc_mutex)`
  | reading    -- :27-28 `printf`, `usleep`, then :31 `pthread_mutex_lock(&rc_mutex)`
  | decr       -- :32 `readcount--`
  | test0      -- :33 `if (readcount == 0)`
  | unlockRes  -- :34 `pthread_mutex_unlock(&resource_mutex)`
  | unlockRc2  -- :35 `pthread_mutex_unlock(&rc_mutex)`, then `usleep` and the next round
deriving DecidableEq, Repr

/-- Program counter of a writer: the statement it executes next. -/
inductive WPc where
  | lockRes    -- :46 `pthread_mutex_lock(&resource_mutex)`
  | write      -- :47-49 `shared_data += 1`, `printf`, `usleep`
  | unlockRes  -- :50 `pthread_mutex_unlock(&resource_mutex)`, then `usleep` and the next round
deriving DecidableEq, Repr

/-- The globals of reader_writer_easy.c and the program counter of every thread.  A mutex is
a binary lock: `none` when free, otherwise the thread that locked it. -/
structure RwState where
  shared_data : Int
  readcount : Int
  rc_mutex : Option RwTid
  resource_mutex : Option RwTid
  readers : List RPc
  writers : List WPc
deriving DecidableEq, Repr

/-- The state when `main` has created the threads: a thread that has not taken a step yet
behaves like one that does not exist yet. -/
def rw_init : RwState :=
  { shared_data := 0
    readcount := 0
    rc_mutex := none
    resource_mutex := none
    readers := List.replicate NUM_READERS .lockRc
    writers := List.replicate NUM_WRITERS .lockRes }

/-- One step of reader `id` (`reader`, reader_writer_easy.c:16-40); `none` when it waits for
a mutex.  `pthread_mutex_unlock` frees the mutex whoever calls it. -/
def reader (s : RwState) (id : Nat) : Option RwState :=
  match s.readers[id]? with
  | none => none
  | some pc =>
    match pc with
    | .lockRc =>
      if s.rc_mutex = none then
        some { s with rc_mutex := some (.reader id), readers := s.readers.set id .incr }
      else none
    | .incr =>
      some { s with readcount := wrapInt (s.readcount + 1),
                    readers := s.readers.set id .test1 }
    | .test1 =>
      if s.readcount = 1 then some { s with readers := s.readers.set id .lockRes }
      else some { s with readers := s.readers.set id .unlockRc }
    | .lockRes =>
      if s.resource_mutex = none then
        some { s with resource_mutex := some (.reader id),
                      readers := s.readers.set id .unlockRc }
      else none
    | .unlockRc => some { s with rc_mutex := none, readers := s.readers.set id .reading }
    | .reading =>
      if s.rc_mutex = none then
        some { s with rc_mutex := some (.reader id), readers := s.readers.set id .decr }
      else none
    | .decr =>
      some { s with readcount := wrapInt (s.readcount - 1),
                    readers := s.readers.set id .test0 }
    | .test0 =>
      if s.readcount = 0 then some { s with readers := s.readers.set id .unlockRes }
      else some { s with readers := s.readers.set id .unlockRc2 }
    | .unlockRes =>
      some { s with resource_mutex := none, readers := s.readers.set id .unlockRc2 }
    | .unlockRc2 => some { s with rc_mutex := none, readers := s.readers.set id .lockRc }

/-- One step of writer `id` (`writer`, reader_writer_easy.c:42-55); `none` when it waits
for `resource_mutex`. -/
def writer (s : RwState) (id : Nat) : Option RwState :=
  match s.writers[id]? with
  | none => none
  | some pc =>
    match pc with
    | .lockRes =>
      if s.resource_mutex = none then
        some { s with resource_mutex := some (.writer id),
                      writers := s.writers.set id .write }
      else none
    | .write =>
      some { s with shared_data := wrapInt (s.shared_data + 1),
                    writers := s.writers.set id .unlockRes }
    | .unlockRes =>
      some { s with resource_mutex := none, writers := s.writers.set id .lockRes }

/-- The step thread `t` takes in state `s`; `none` when `t` is blocked or does not exist. -/
def rw_step (s : RwState) (t : RwTid) : Option RwState :=
  match t with
  | .reader id => reader s id
  | .writer id => writer s id

/-- States reachable from `rw_init` by steps of arbitrary threads. -/
inductive RwReachable : RwState → Prop where
  | init : RwReachable rw_init
  | step {s s1 : RwState} (t : RwTid) : RwReachable s → rw_step s t = some s1 →
      RwReachable s1

/-- Run the threads listed in `sched`, one step each, in that order. -/
def rw_run : RwState → List RwTid → Option RwState
  | s, [] => some s
  | s, t :: ts =>
    match rw_step s t with
    | some s1 => rw_run s1 ts
    | none => none

/-- The reader is inside its entry or its exit section: it has locked `rc_mutex` and not
yet unlocked it. -/
def inEntryExit : RPc → Bool
  | .lockRc | .reading => false
  | _ => true

/-- The reader has incremented `readcount` and not yet decremented it. -/
def rCounted : RPc → Bool
  | .test1 | .lockRes | .unlockRc | .reading | .decr => true
  | _ => false

/-- The reader is in its reading section, between the entry and the exit section. -/
def rReading : RPc → Bool
  | .reading => true
  | _ => false

/-- The reader is past the point of its entry section where `resource_mutex` is locked for
the readers (the lock of the first reader, or the test that finds other readers inside) and
before the point of its exit section where the last reader unlocks it. -/
def rCovered : RPc → Bool
  | .unlockRc | .reading | .decr | .test0 | .unlockRes => true
  | _ => false

/-- The writer is in its critical section: it has locked `resource_mutex` and not yet
unlocked it. -/
def wInCs : WPc → Bool
  | .write | .unlockRes => true
  | .lockRes => false

/-- What holds in every reachable state of the reader/writer demo. -/
structure RwInv (s : RwState) : Prop where
  lenR : s.readers.length = NUM_READERS
  lenW : s.writers.length = NUM_WRITERS
  rc : ∀ (r : Nat) (pc : RPc), s.readers[r]? = some pc →
    (inEntryExit pc = true ↔ s.rc_mutex = some (.reader r))
  cnt : s.readcount = (s.readers.countP rCounted : Nat)
  res_w : ∀ (w : Nat) (pc : WPc), s.writers[w]? = some pc →
    (wInCs pc = true ↔ s.resource_mutex = some (.writer w))
  res_r : (∃ r, s.resource_mutex = some (.reader r)) ↔ 0 < s.readers.countP rCovered
  at_lock : ∀ r : Nat, s.readers[r]? = some RPc.lockRes → s.readcount = 1
  at_unlock : ∀ r : Nat, s.readers[r]? = some RPc.unlockRes → s.readcount = 0

/-- A schedule in which readers 0 and 1 enter their reading sections. -/
def twoReadersSchedule : List RwTid :=
  [.reader 0, .reader 0, .reader 0, .reader 0, .reader 0,
   .reader 1, .reader 1, .reader 1, .reader 1]

/-- The state at the end of `twoReadersSchedule`. -/
def twoReadersState : RwState :=
  { shared_data := 0
    readcount := 2
    rc_mutex := none
    resource_mutex := some (.reader 0)
    readers := [.reading, .reading, .lockRc, .lockRc, .lockRc]
    writers := [.lockRes, .lockRes] }

/-- The state after the first two steps of reader 0: it has locked `rc_mutex` and executed
`readcount++`, and is at the test `readcount == 1` of its entry section. -/
def entryState : RwState :=
  { shared_data := 0
    readcount := 1
    rc_mutex := some (.reader 0)
    resource_mutex := none
    readers := [.test1, .lockRc, .lockRc, .lockRc, .lockRc]
    writers := [.lockRes, .lockRes] }

/-! ## A data item that is taken for a poison pill -/

/-- Parameters with which producer 42949 builds the item `-1` in its last iteration
(`42949 * 100000 + 67295 = 2^32 - 1`); one consumer, one slot. -/
def earlyPillCfg : Config :=
  { producers_count := 42950, consumers_count := 1, buffer_size := 1,
    items_per_producer := 67295, mem := fun _ => 0 }

/-- Producer 42949 makes one iteration of its loop, then consumer 0 makes one of its. -/
def earlyRound : List Tid :=
  List.replicate 6 (.producer 42949) ++ List.replicate 6 (.consumer 0)

/-- The states between the rounds of `earlyRound`: producer 42949 has put `m` items and
consumer 0 has dequeued them; nobody else has moved. -/
structure EarlyRound (m : Nat) (s : State) : Prop where
  prod : s.producers[42949]? = some ⟨.loop, m + 1⟩
  cons : ∃ it, s.consumers[0]? = some ⟨.waitFull, it⟩
  empty : s.empty = 1
  full : s.full = 0
  mutex : s.mutex = none
  cap : s.buffer.capacity = 1
  in_ : s.buffer.in_ = 0
  out : s.buffer.out = 0
  blen : s.buffer.buf.length = 1
  gets : s.gets.length = m
  main : s.main = ⟨.joinProd, 0⟩

/-- The states between the rounds of a run of the Sentinel program in which only producer
`id` and consumer 0 move: producer `id` has put `m` items and consumer 0 has dequeued
them. -/
structure SoloRound (id m : Nat) (s : State) : Prop where
  prod : s.producers[id]? = some ⟨.loop, m + 1⟩
  cons : ∃ it, s.consumers[0]? = some ⟨.waitFull, it⟩
  empty : 0 < s.empty
  full : s.full = 0
  mutex : s.mutex = none
  cur : s.buffer.in_ = s.buffer.out
  blen : s.buffer.out < s.buffer.buf.length
  cap : s.buffer.capacity = s.buffer.buf.length

/-! # Lemmas -/

/-! ## Lists -/

theorem countP_set_add {α : Type} (p : α → Bool) (l : List α) (j : Nat) (a b : α)
    (h : l[j]? = some a) :
    (l.set j b).countP p + (p a).toNat = l.countP p + (p b).toNat := by
  induction l generalizing j with
  | nil => simp at h
  | cons x xs ih =>
    cases j with
    | zero =>
      simp at h
      subst h
      simp [List.countP_cons]
      cases p x <;> cases p b <;> simp <;> omega
    | succ k =>
      simp at h
      have := ih k h
      simp [List.countP_cons]
      omega

theorem countP_set_eq {α : Type} (p : α → Bool) (l : List α) (j : Nat) (a b : α)
    (h : l[j]? = some a) :
    (l.set j b).countP p = l.countP p + (p b).toNat - (p a).toNat := by
  have := countP_set_add p l j a b h
  omega

theorem countP_pos_of_get {α : Type} (p : α → Bool) (l : List α) (j : Nat) (a : α)
    (h : l[j]? = some a) (hp : p a = true) : 0 < l.countP p := by
  rw [List.countP_pos_iff]
  exact ⟨a, List.getElem?_mem h, hp⟩

theorem toNat_le_countP {α : Type} (p : α → Bool) (l : List α) (j : Nat) (a : α)
    (h : l[j]? = some a) : (p a).toNat ≤ l.countP p := by
  cases hp : p a
  · simp
  · exact countP_pos_of_get p l j a h hp

theorem exists_of_countP_pos {α : Type} (p : α → Bool) (l : List α)
    (h : 0 < l.countP p) : ∃ (j : Nat) (a : α), l[j]? = some a ∧ p a = true := by
  rw [List.countP_pos_iff] at h
  obtain ⟨a, ha, hp⟩ := h
  obtain ⟨j, hj⟩ := List.getElem?_of_mem ha
  exact ⟨j, a, hj, hp⟩


/-! ## Permit and lock accounting is invariant -/

theorem held_le_one (m : Option Tid) : held m ≤ 1 := by
  unfold held; split <;> simp
@[simp] theorem held_none : held none = 0 := rfl
@[simp] theorem held_some (t : Tid) : held (some t) = 1 := rfl

theorem inv1_producer {prog cfg s s1 id} (h : Inv1 prog cfg s)
    (hs : producer prog cfg s id = some s1) : Inv1 prog cfg s1 := by
  unfold producer at hs
  cases hp : s.producers[id]? with
  | none => simp [hp] at hs
  | some p =>
    simp only [hp] at hs
    obtain ⟨hl1, hl2, hA, hB, hC, hD⟩ := h
    have l1 := toNat_le_countP pE s.producers id p hp
    have l2 := toNat_le_countP pF s.producers id p hp
    have l3 := toNat_le_countP pM s.producers id p hp
    have hm := held_le_one s.mutex
    rcases p with ⟨pc, i⟩
    cases pc <;> simp only [] at hs <;> (try split_ifs at hs with hcond) <;> simp at hs <;>
      subst hs <;>
      simp only [pE, pF, pM, Bool.toNat_true, Bool.toNat_false] at l1 l2 l3 <;>
      (try simp only [hcond, held_none] at hC) <;>
      constructor <;> simp [countP_set_eq _ _ _ _ _ hp, pE, pF, pM] <;> omega

theorem inv1_consumer_counted {cfg s s1 id} (h : Inv1 .counted cfg s)
    (hs : consumer_counted cfg s id = some s1) : Inv1 .counted cfg s1 := by
  unfold consumer_counted at hs
  cases hp : s.consumers[id]? with
  | none => simp [hp] at hs
  | some c =>
    simp only [hp] at hs
    obtain ⟨hl1, hl2, hA, hB, hC, hD⟩ := h
    have l1 := toNat_le_countP cE s.consumers id c hp
    have l2 := toNat_le_countP cF s.consumers id c hp
    have l3 := toNat_le_countP (cM .counted) s.consumers id c hp
    have l4 := toNat_le_countP cC s.consumers id c hp
    have hm := held_le_one s.mutex
    have hm2 := held_le_one s.consumed_count_mutex
    rw [if_pos rfl] at hD
    rcases c with ⟨pc, it⟩
    cases pc <;> simp only [] at hs <;> (try split_ifs at hs with hcond) <;> simp at hs <;>
      subst hs <;>
      simp only [cE, cF, cM, cC, Bool.toNat_true, Bool.toNat_false] at l1 l2 l3 l4 <;>
      (try simp only [hcond, held_none] at hC) <;>
      (try simp only [hcond, held_none] at hD) <;>
      constructor <;> simp [countP_set_eq _ _ _ _ _ hp, cE, cF, cM, cC, -List.countP_eq_zero] <;> omega

theorem inv1_consumer_sentinel {cfg s s1 id} (h : Inv1 .sentinel cfg s)
    (hs : consumer_sentinel s id = some s1) : Inv1 .sentinel cfg s1 := by
  unfold consumer_sentinel at hs
  cases hp : s.consumers[id]? with
  | none => simp [hp] at hs
  | some c =>
    simp only [hp] at hs
    obtain ⟨hl1, hl2, hA, hB, hC, hD⟩ := h
    have l1 := toNat_le_countP cE s.consumers id c hp
    have l2 := toNat_le_countP cF s.consumers id c hp
    have l3 := toNat_le_countP (cM .sentinel) s.consumers id c hp
    have hm := held_le_one s.mutex
    rcases c with ⟨pc, it⟩
    cases pc <;> simp only [] at hs <;> (try split_ifs at hs with hcond) <;> simp at hs <;>
      subst hs <;>
      simp only [cE, cF, cM, Bool.toNat_true, Bool.toNat_false] at l1 l2 l3 <;>
      (try simp only [hcond, held_none] at hC) <;>
      constructor <;> simp [countP_set_eq _ _ _ _ _ hp, cE, cF, cM] <;>
      simp at hD <;> omega

theorem inv1_main {prog cfg s s1} (h : Inv1 prog cfg s)
    (hs : mainThread prog cfg s = some s1) : Inv1 prog cfg s1 := by
  unfold mainThread at hs
  obtain ⟨hl1, hl2, hA, hB, hC, hD⟩ := h
  have hm := held_le_one s.mutex
  cases hpc : s.main.pc <;> simp only [hpc] at hs <;> (try split_ifs at hs with hc1 hc2) <;>
    (try cases prog) <;>
    simp at hs <;> (try subst hs) <;> simp only [mE, mF, mM, hpc] at hA hB hC <;>
    (try simp only [hc1, held_none] at hC) <;>
    constructor <;> simp [mE, mF, mM, hpc] <;> (try simp at hD) <;> omega

/-! ## The circular buffer is a FIFO queue -/

theorem mod_ne_of_lt {a b c : Nat} (h1 : a < b) (h2 : b < a + c) : a % c ≠ b % c := by
  intro h
  have h3 : (b - a) % c = 0 := Nat.sub_mod_eq_zero_of_mod_eq h.symm
  have h4 : c ∣ b - a := Nat.dvd_of_mod_eq_zero h3
  have h5 : c ≤ b - a := Nat.le_of_dvd (by omega) h4
  omega

theorem succ_mod_mod (a c : Nat) : (a % c + 1) % c = (a + 1) % c := by
  rw [Nat.add_mod a 1 c, Nat.add_mod (a % c) 1 c, Nat.mod_mod]

theorem ring_init (mem : Nat → Int) (cap : Nat) : Ring cap (buffer_init mem cap) [] 0 := by
  constructor <;> simp [buffer_init]

theorem ring_put {cap : Nat} {b : buffer_t} {enq : List Int} {n : Nat} (x : Int)
    (hcap : 0 < cap) (h : Ring cap b enq n) (hlt : enq.length < n + cap) :
    Ring cap (buffer_put b x) (enq ++ [x]) n := by
  obtain ⟨h1, h2, h3, h4, h5⟩ := h
  constructor
  · simpa [buffer_put] using h1
  · simpa [buffer_put] using h2
  · simp [buffer_put, h1, h3, succ_mod_mod]
  · simpa [buffer_put] using h4
  · intro k hk1 hk2
    simp only [buffer_put, List.length_append, List.length_singleton] at hk2 ⊢
    by_cases hk : k < enq.length
    · rw [List.getElem?_append_left hk, List.getElem?_set_ne, h5 k hk1 hk]
      rw [h3]
      exact (mod_ne_of_lt hk (by omega)).symm
    · have hk3 : k = enq.length := by omega
      subst hk3
      rw [h3, List.getElem?_set_self (by rw [h2]; exact Nat.mod_lt _ hcap)]
      simp

theorem ring_get {cap : Nat} {b : buffer_t} {enq : List Int} {n : Nat}
    (h : Ring cap b enq n) (hlt : n < enq.length) :
    some (buffer_get b).1 = enq[n]? ∧ Ring cap (buffer_get b).2 enq (n + 1) := by
  obtain ⟨h1, h2, h3, h4, h5⟩ := h
  have h6 := h5 n (le_refl n) hlt
  refine ⟨?_, ?_⟩
  · simp only [buffer_get, List.getD_eq_getElem?_getD, h4, h6]
    rw [List.getElem?_eq_getElem hlt]
    simp
  · constructor
    · simpa [buffer_get] using h1
    · simpa [buffer_get] using h2
    · simpa [buffer_get] using h3
    · simp [buffer_get, h1, h4, succ_mod_mod]
    · intro k hk1 hk2
      simpa [buffer_get] using h5 k (by omega) hk2

theorem fifo_put {cap : Nat} {b : buffer_t} {puts : List PutRec} {gets : List GetRec}
    (r : PutRec) (hcap : 0 < cap) (h : Fifo cap b puts gets)
    (hlt : puts.length < gets.length + cap) :
    Fifo cap (buffer_put b r.item) (puts ++ [r]) gets := by
  obtain ⟨h1, h2, h3⟩ := h
  refine ⟨?_, ?_, ?_⟩
  · simpa using ring_put r.item hcap h1 (by simpa using hlt)
  · simp; omega
  · rw [h3, List.map_append, List.take_append_of_le_length (by simpa using h2)]

theorem fifo_get {cap : Nat} {b : buffer_t} {puts : List PutRec} {gets : List GetRec}
    (j : Nat) (h : Fifo cap b puts gets) (hlt : gets.length < puts.length) :
    Fifo cap (buffer_get b).2 puts (gets ++ [⟨j, (buffer_get b).1⟩]) := by
  obtain ⟨h1, h2, h3⟩ := h
  obtain ⟨h4, h5⟩ := ring_get h1 (by simpa using hlt)
  refine ⟨?_, ?_, ?_⟩
  · simpa using h5
  · simp; omega
  · simp only [List.map_append, List.length_append, List.length_singleton, List.map_cons,
      List.map_nil, List.take_succ, h3, ← h4]
    simp

theorem inv2_producer {prog cfg s s1 id} (hcap : 0 < cfg.buffer_size) (h1 : Inv1 prog cfg s)
    (h : Inv2 cfg s) (hs : producer prog cfg s id = some s1) : Inv2 cfg s1 := by
  unfold producer at hs
  cases hp : s.producers[id]? with
  | none => simp [hp] at hs
  | some p =>
    simp only [hp] at hs
    have l1 := toNat_le_countP pE s.producers id p hp
    have hB := h1.free
    rcases p with ⟨pc, i⟩
    cases pc <;> simp only [] at hs <;> (try split_ifs at hs with hcond) <;> simp at hs <;>
      subst hs <;> first
      | exact h
      | (simp only [pE, Bool.toNat_true] at l1
         have h3 : s.puts.length < s.gets.length + cfg.buffer_size := by omega
         exact fifo_put ⟨.producer id, i, itemOf prog id i⟩ hcap h h3)

theorem inv2_consumer_counted {cfg s s1 id} (h1 : Inv1 .counted cfg s)
    (h : Inv2 cfg s) (hs : consumer_counted cfg s id = some s1) : Inv2 cfg s1 := by
  unfold consumer_counted at hs
  cases hp : s.consumers[id]? with
  | none => simp [hp] at hs
  | some c =>
    simp only [hp] at hs
    have l1 := toNat_le_countP cF s.consumers id c hp
    have hA := h1.occ
    rcases c with ⟨pc, it⟩
    cases pc <;> simp only [] at hs <;> (try split_ifs at hs with hcond) <;> simp at hs <;>
      subst hs <;> first
      | exact h
      | (simp only [cF, Bool.toNat_true] at l1
         have h3 : s.gets.length < s.puts.length := by omega
         exact fifo_get id h h3)

theorem inv2_consumer_sentinel {cfg s s1 id} (h1 : Inv1 .sentinel cfg s)
    (h : Inv2 cfg s) (hs : consumer_sentinel s id = some s1) : Inv2 cfg s1 := by
  unfold consumer_sentinel at hs
  cases hp : s.consumers[id]? with
  | none => simp [hp] at hs
  | some c =>
    simp only [hp] at hs
    have l1 := toNat_le_countP cF s.consumers id c hp
    have hA := h1.occ
    rcases c with ⟨pc, it⟩
    cases pc <;> simp only [] at hs <;> (try split_ifs at hs with hcond) <;> simp at hs <;>
      subst hs <;> first
      | exact h
      | (simp only [cF, Bool.toNat_true] at l1
         have h3 : s.gets.length < s.puts.length := by omega
         exact fifo_get id h h3)

theorem inv2_main {prog cfg s s1} (hcap : 0 < cfg.buffer_size) (h1 : Inv1 prog cfg s)
    (h : Inv2 cfg s) (hs : mainThread prog cfg s = some s1) : Inv2 cfg s1 := by
  unfold mainThread at hs
  have hB := h1.free
  cases hpc : s.main.pc <;> simp only [hpc] at hs <;> (try split_ifs at hs with hc1 hc2) <;>
    (try cases prog) <;>
    simp at hs <;> (try subst hs) <;> first
    | exact h
    | (simp only [mE, hpc] at hB
       have h3 : s.puts.length < s.gets.length + cfg.buffer_size := by omega
       exact fifo_put ⟨.main, s.main.i, -1⟩ hcap h h3)

/-! ## Invariants of the producers -/

theorem getElem?_set_cases {α : Type} {l : List α} {i j : Nat} {a b : α}
    (h : (l.set i a)[j]? = some b) : (i = j ∧ b = a) ∨ (i ≠ j ∧ l[j]? = some b) := by
  by_cases hij : i = j
  · subst hij
    left
    rw [List.getElem?_set] at h
    simp at h
    exact ⟨rfl, h.2.symm⟩
  · right
    rw [List.getElem?_set_ne hij] at h
    exact ⟨hij, h⟩

theorem putsBy_append (t : Tid) (l : List PutRec) (r : PutRec) :
    putsBy t (l ++ [r]) = if r.who = t then putsBy t l ++ [r] else putsBy t l := by
  unfold putsBy
  rw [List.filter_append]
  by_cases h : r.who = t <;> simp [h]

theorem inv3_producer {prog cfg s s1 id} (h1 : Inv1 prog cfg s)
    (h : Inv3 prog cfg s) (hs : producer prog cfg s id = some s1) : Inv3 prog cfg s1 := by
  unfold producer at hs
  cases hp : s.producers[id]? with
  | none => simp [hp] at hs
  | some p =>
    simp only [hp] at hs
    obtain ⟨hi1, hin, hbig⟩ := h.loc id p hp
    have hrec := h.recs id p hp
    have hid : id < cfg.producers_count := by
      rw [← h1.lenP]
      exact (List.getElem?_eq_some_iff.mp hp).1
    rcases p with ⟨pc, i⟩
    cases pc <;> simp only [] at hs <;> (try split_ifs at hs with hcond) <;> simp at hs <;>
      subst hs <;> simp only [putsDone] at hrec <;> simp only [] at hi1 hin hbig <;>
      refine ⟨?_, ?_, ?_⟩
    all_goals try exact h.item
    all_goals try
        (intro id2 p2 h2
         rcases getElem?_set_cases h2 with ⟨e1, e2⟩ | ⟨e1, e2⟩
         · subst e1 e2
           refine ⟨by simp only []; omega, fun hfit => ?_, fun hfit => ?_⟩
           · have hl := hin hfit
             simp only [] at hl ⊢
             first
               | omega
               | (unfold wrapInt at hcond; omega)
           · simp only []
             first
               | (intro hd; cases hd; done)
               | (exfalso; unfold wrapInt at hcond; omega)
         · exact h.loc id2 p2 e2)
    all_goals try
        (intro id2 p2 h2
         rcases getElem?_set_cases h2 with ⟨e1, e2⟩ | ⟨e1, e2⟩
         · subst e1 e2
           simp only [putsDone, putsBy_append, if_true, List.map_append, hrec]
           try first
             | rfl
             | (simp only [List.map_cons, List.map_nil]
                obtain ⟨k, rfl⟩ : ∃ k, i = k + 1 := ⟨i - 1, by omega⟩
                simp [List.range'_concat]
                omega)
         · have := h.recs id2 p2 e2
           simp only [putsBy_append]
           first
             | exact this
             | (rw [if_neg (by simp; omega)]; exact this))
    all_goals
        (intro r hr
         dsimp only at hr
         simp only [List.mem_append, List.mem_singleton] at hr
         rcases hr with hr | hr
         · exact h.item r hr
         · subst hr
           exact ⟨hid, hi1, hin, rfl⟩)

/-! ## What a step of one kind of thread leaves alone -/

theorem producer_frame {prog cfg s s1 id} (hs : producer prog cfg s id = some s1) :
    s1.consumers = s.consumers ∧ s1.gets = s.gets ∧ s1.main = s.main ∧
      s1.consumed_count = s.consumed_count ∧
      s1.consumed_count_mutex = s.consumed_count_mutex := by
  unfold producer at hs
  cases hp : s.producers[id]? with
  | none => simp [hp] at hs
  | some p =>
    simp only [hp] at hs
    rcases p with ⟨pc, i⟩
    cases pc <;> simp only [] at hs <;> (try split_ifs at hs with hcond) <;> simp at hs <;>
      subst hs <;> simp

theorem consumer_counted_frame {cfg s s1 id} (hs : consumer_counted cfg s id = some s1) :
    s1.producers = s.producers ∧ s1.puts = s.puts ∧ s1.main = s.main := by
  unfold consumer_counted at hs
  cases hp : s.consumers[id]? with
  | none => simp [hp] at hs
  | some c =>
    simp only [hp] at hs
    rcases c with ⟨pc, it⟩
    cases pc <;> simp only [] at hs <;> (try split_ifs at hs with hcond) <;> simp at hs <;>
      subst hs <;> simp

theorem consumer_sentinel_frame {s s1 id} (hs : consumer_sentinel s id = some s1) :
    s1.producers = s.producers ∧ s1.puts = s.puts ∧ s1.main = s.main ∧
      s1.consumed_count = s.consumed_count ∧
      s1.consumed_count_mutex = s.consumed_count_mutex := by
  unfold consumer_sentinel at hs
  cases hp : s.consumers[id]? with
  | none => simp [hp] at hs
  | some c =>
    simp only [hp] at hs
    rcases c with ⟨pc, it⟩
    cases pc <;> simp only [] at hs <;> (try split_ifs at hs with hcond) <;> simp at hs <;>
      subst hs <;> simp

theorem consumer_frame {prog cfg s s1 id} (hs : consumer prog cfg s id = some s1) :
    s1.producers = s.producers ∧ s1.puts = s.puts ∧ s1.main = s.main := by
  cases prog
  · exact consumer_counted_frame hs
  · have := consumer_sentinel_frame hs
    exact ⟨this.1, this.2.1, this.2.2.1⟩

theorem main_frame {prog cfg s s1} (hs : mainThread prog cfg s = some s1) :
    s1.producers = s.producers ∧ s1.consumers = s.consumers ∧ s1.gets = s.gets ∧
      s1.consumed_count = s.consumed_count ∧
      s1.consumed_count_mutex = s.consumed_count_mutex := by
  unfold mainThread at hs
  cases hpc : s.main.pc <;> simp only [hpc] at hs <;> (try split_ifs at hs with hc1 hc2) <;>
    (try cases prog) <;> simp at hs <;> (try subst hs) <;> simp

theorem inv3_of_eq {prog cfg s s1} (h : Inv3 prog cfg s) (e1 : s1.producers = s.producers)
    (e2 : s1.puts = s.puts) : Inv3 prog cfg s1 := by
  obtain ⟨h1, h2, h3⟩ := h
  constructor
  · rw [e1]; exact h1
  · rw [e1, e2]; exact h2
  · rw [e2]; exact h3

theorem inv3_main {prog cfg s s1} (h : Inv3 prog cfg s)
    (hs : mainThread prog cfg s = some s1) : Inv3 prog cfg s1 := by
  have hf := main_frame hs
  unfold mainThread at hs
  cases hpc : s.main.pc <;> simp only [hpc] at hs <;> (try split_ifs at hs with hc1 hc2) <;>
    (try cases prog) <;> simp at hs <;> (try subst hs) <;>
    first
    | exact inv3_of_eq h rfl rfl
    | (refine ⟨h.loc, ?_, ?_⟩
       · intro id p hp
         have := h.recs id p hp
         simpa [putsBy_append] using this
       · intro r hr
         dsimp only at hr
         simp only [List.mem_append, List.mem_singleton] at hr
         rcases hr with hr | hr
         · exact h.item r hr
         · subst hr
           rfl)

theorem inv3_init (prog : Program) (cfg : Config) : Inv3 prog cfg (initState prog cfg) := by
  constructor
  · intro id p hp
    simp [initState, List.getElem?_replicate] at hp
    rw [← hp.2]
    simp [PLocalOk]
  · intro id p hp
    simp [initState, List.getElem?_replicate] at hp
    rw [← hp.2]
    simp [putsDone, initState, putsBy]
  · intro r hr
    simp [initState] at hr

/-! ## Invariants of `main` -/

theorem producer_puts {prog cfg s s1 id} (hs : producer prog cfg s id = some s1) :
    s1.puts = s.puts ∨ ∃ p, s.producers[id]? = some p ∧ p.pc = .put ∧
      s1.puts = s.puts ++ [⟨.producer id, p.i, itemOf prog id p.i⟩] := by
  unfold producer at hs
  cases hp : s.producers[id]? with
  | none => simp [hp] at hs
  | some p =>
    simp only [hp] at hs
    rcases p with ⟨pc, i⟩
    cases pc <;> simp only [] at hs <;> (try split_ifs at hs with hcond) <;> simp at hs <;>
      subst hs <;> simp

theorem producer_others {prog cfg s s1 id} (hs : producer prog cfg s id = some s1) :
    producerDone s id = false ∧ ∀ id2, id2 ≠ id → s1.producers[id2]? = s.producers[id2]? := by
  unfold producer at hs
  cases hp : s.producers[id]? with
  | none => simp [hp] at hs
  | some p =>
    simp only [hp] at hs
    rcases p with ⟨pc, i⟩
    cases pc <;> simp only [] at hs <;> (try split_ifs at hs with hcond) <;> simp at hs <;>
      subst hs <;> refine ⟨by simp [producerDone, hp], ?_⟩ <;> intro id2 h2 <;>
      exact List.getElem?_set_ne (Ne.symm h2)

theorem producerDone_step {prog cfg s s1 id} (hs : producer prog cfg s id = some s1)
    (id2 : Nat) (h : producerDone s id2 = true) : producerDone s1 id2 = true := by
  obtain ⟨h1, h2⟩ := producer_others hs
  by_cases e : id2 = id
  · subst e; rw [h1] at h; cases h
  · unfold producerDone at h ⊢
    rw [h2 id2 e]; exact h

theorem consumer_others {prog cfg s s1 id} (hs : consumer prog cfg s id = some s1) :
    consumerDone s id = false ∧ ∀ id2, id2 ≠ id → s1.consumers[id2]? = s.consumers[id2]? := by
  cases prog
  · simp only [consumer] at hs
    unfold consumer_counted at hs
    cases hp : s.consumers[id]? with
    | none => simp [hp] at hs
    | some c =>
      simp only [hp] at hs
      rcases c with ⟨pc, it⟩
      cases pc <;> simp only [] at hs <;> (try split_ifs at hs with hcond) <;> simp at hs <;>
        subst hs <;> refine ⟨by simp [consumerDone, hp], ?_⟩ <;> intro id2 h2 <;>
        exact List.getElem?_set_ne (Ne.symm h2)
  · simp only [consumer] at hs
    unfold consumer_sentinel at hs
    cases hp : s.consumers[id]? with
    | none => simp [hp] at hs
    | some c =>
      simp only [hp] at hs
      rcases c with ⟨pc, it⟩
      cases pc <;> simp only [] at hs <;> (try split_ifs at hs with hcond) <;> simp at hs <;>
        subst hs <;> refine ⟨by simp [consumerDone, hp], ?_⟩ <;> intro id2 h2 <;>
        exact List.getElem?_set_ne (Ne.symm h2)

theorem consumerDone_step {prog cfg s s1 id} (hs : consumer prog cfg s id = some s1)
    (id2 : Nat) (h : consumerDone s id2 = true) : consumerDone s1 id2 = true := by
  obtain ⟨h1, h2⟩ := consumer_others hs
  by_cases e : id2 = id
  · subst e; rw [h1] at h; cases h
  · unfold consumerDone at h ⊢
    rw [h2 id2 e]; exact h

theorem producerDone_congr {s s1 : State} (e : s1.producers = s.producers) (id : Nat) :
    producerDone s1 id = producerDone s id := by
  unfold producerDone; rw [e]

theorem consumerDone_congr {s s1 : State} (e : s1.consumers = s.consumers) (id : Nat) :
    consumerDone s1 id = consumerDone s id := by
  unfold consumerDone; rw [e]

theorem inv4_producer {prog cfg s s1 id} (h1 : Inv1 prog cfg s) (h : Inv4 prog cfg s)
    (hs : producer prog cfg s id = some s1) : Inv4 prog cfg s1 := by
  obtain ⟨hc, hg, hm, _, _⟩ := producer_frame hs
  have hnd := (producer_others hs).1
  have hid : id < cfg.producers_count := by
    rw [← h1.lenP]
    unfold producer at hs
    cases hp : s.producers[id]? with
    | none => simp [hp] at hs
    | some p => exact (List.getElem?_eq_some_iff.mp hp).1
  have hjp : s.main.pc = .joinProd := by
    by_contra hne
    have := h.afterP hne id hid
    rw [hnd] at this; cases this
  have hnil : putsBy .main s.puts = [] := by
    have := h.pills
    simp only [pillsDone, hjp] at this
    exact List.length_eq_zero.mp this
  have hputs : putsBy .main s1.puts = putsBy .main s.puts ∧
      s1.puts = s1.puts.filter isProducerRec ++ putsBy .main s1.puts := by
    rcases producer_puts hs with e | ⟨p, _, _, e⟩
    · rw [e]; exact ⟨rfl, h.order⟩
    · have ho := h.order
      rw [hnil, List.append_nil] at ho
      rw [e, putsBy_append, if_neg (by simp), hnil, List.filter_append, ← ho]
      simp [isProducerRec]
  constructor
  · intro hpc id2 hlt
    rw [hm] at hpc hlt
    exact producerDone_step hs id2 (h.joinP hpc id2 hlt)
  · intro hpc id2 hlt
    rw [hm] at hpc
    exact producerDone_step hs id2 (h.afterP hpc id2 hlt)
  · rw [hputs.1, hm]; exact h.pills
  · rw [hm]; exact h.range
  · exact hputs.2
  · intro hpc j hlt
    rw [hm] at hpc hlt
    rw [consumerDone_congr hc]; exact h.joinC hpc j hlt
  · intro hpc j hlt
    rw [hm] at hpc
    rw [consumerDone_congr hc]; exact h.fin hpc j hlt
  · rw [hm]; exact h.cnt

theorem inv4_consumer {prog cfg s s1 id} (h : Inv4 prog cfg s)
    (hs : consumer prog cfg s id = some s1) : Inv4 prog cfg s1 := by
  obtain ⟨hp, hu, hm⟩ := consumer_frame hs
  constructor
  · intro hpc id2 hlt
    rw [hm] at hpc hlt
    rw [producerDone_congr hp]; exact h.joinP hpc id2 hlt
  · intro hpc id2 hlt
    rw [hm] at hpc
    rw [producerDone_congr hp]; exact h.afterP hpc id2 hlt
  · rw [hu, hm]; exact h.pills
  · rw [hm]; exact h.range
  · rw [hu]; exact h.order
  · intro hpc j hlt
    rw [hm] at hpc hlt
    exact consumerDone_step hs j (h.joinC hpc j hlt)
  · intro hpc j hlt
    rw [hm] at hpc
    exact consumerDone_step hs j (h.fin hpc j hlt)
  · rw [hm]; exact h.cnt

theorem inv4_main {prog cfg s s1} (h : Inv4 prog cfg s)
    (hs : mainThread prog cfg s = some s1) : Inv4 prog cfg s1 := by
  obtain ⟨hp, hc, _, _, _⟩ := main_frame hs
  have hpd := producerDone_congr hp
  have hcd := consumerDone_congr hc
  obtain ⟨h1, h2, h3, h4, h5, h6, h7, h8⟩ := h
  unfold mainThread at hs
  cases hpc : s.main.pc <;> simp only [hpc] at hs <;> (try split_ifs at hs with hc1 hc2) <;>
    (try cases prog) <;> simp at hs <;> (try subst hs) <;>
    simp [hpc, pillsDone, MRange] at h1 h2 h3 h4 h6 h7 h8 <;>
    constructor <;>
    simp [hpc, pillsDone, MRange, hpd, hcd, putsBy_append, isProducerRec] <;>
    first
    | assumption
    | omega
    | (intro id hid
       rcases Nat.lt_succ_iff_lt_or_eq.mp hid with hlt | heq
       · first | exact h1 id hlt | exact h6 id hlt
       · subst heq; assumption)
    | (intro id hid; first | exact h1 id (by omega) | exact h6 id (by omega))
    | (rw [← List.append_assoc]; exact congrArg (· ++ _) h5)

/-! ## The invariants hold initially and in every reachable state -/

theorem inv1_init (prog : Program) (cfg : Config) : Inv1 prog cfg (initState prog cfg) := by
  constructor <;> cases prog <;>
    simp [initState, pE, pF, pM, cE, cF, cM, cC, mE, mF, mM, consumerEntry, List.countP_replicate]

theorem inv2_init (prog : Program) (cfg : Config) : Inv2 cfg (initState prog cfg) := by
  refine ⟨?_, ?_, ?_⟩
  · exact ring_init cfg.mem cfg.buffer_size
  · simp [initState]
  · simp [initState]

theorem inv4_init (prog : Program) (cfg : Config) : Inv4 prog cfg (initState prog cfg) := by
  constructor <;> simp [initState, putsBy, pillsDone, MRange]

/-- The invariants shared by the two programs. -/
theorem inv_step {prog cfg s s1 t} (hcap : 0 < cfg.buffer_size)
    (h : Inv1 prog cfg s ∧ Inv2 cfg s ∧ Inv3 prog cfg s ∧ Inv4 prog cfg s)
    (hs : step prog cfg s t = some s1) :
    Inv1 prog cfg s1 ∧ Inv2 cfg s1 ∧ Inv3 prog cfg s1 ∧ Inv4 prog cfg s1 := by
  obtain ⟨h1, h2, h3, h4⟩ := h
  cases t with
  | producer id =>
    exact ⟨inv1_producer h1 hs, inv2_producer hcap h1 h2 hs, inv3_producer h1 h3 hs,
      inv4_producer h1 h4 hs⟩
  | consumer id =>
    have hf := consumer_frame hs
    refine ⟨?_, ?_, inv3_of_eq h3 hf.1 hf.2.1, inv4_consumer h4 hs⟩
    · cases prog
      · exact inv1_consumer_counted h1 hs
      · exact inv1_consumer_sentinel h1 hs
    · cases prog
      · exact inv2_consumer_counted h1 h2 hs
      · exact inv2_consumer_sentinel h1 h2 hs
  | main =>
    exact ⟨inv1_main h1 hs, inv2_main hcap h1 h2 hs, inv3_main h3 hs, inv4_main h4 hs⟩

theorem reachable_inv {prog cfg s} (hcap : 0 < cfg.buffer_size) (hr : Reachable prog cfg s) :
    Inv1 prog cfg s ∧ Inv2 cfg s ∧ Inv3 prog cfg s ∧ Inv4 prog cfg s := by
  induction hr with
  | init => exact ⟨inv1_init prog cfg, inv2_init prog cfg, inv3_init prog cfg, inv4_init prog cfg⟩
  | step t _ hs ih => exact inv_step hcap ih hs

theorem reachable_run {prog cfg s} (hr : Reachable prog cfg s) (sched : List Tid) {s1 : State}
    (h : run prog cfg s sched = some s1) : Reachable prog cfg s1 := by
  induction sched generalizing s with
  | nil => simp [run] at h; subst h; exact hr
  | cons t ts ih =>
    simp only [run] at h
    cases hst : step prog cfg s t with
    | none => simp [hst] at h
    | some s2 =>
      simp only [hst] at h
      exact ih (Reachable.step t hr hst) h

/-! ## Invariants of the Sentinel consumers -/

theorem pillsBy_append (j : Nat) (l : List GetRec) (r : GetRec) :
    pillsBy j (l ++ [r]) = pillsBy j l + (r.who == j && r.item == -1).toNat := by
  unfold pillsBy
  rw [List.filter_append, List.length_append]
  cases h : (r.who == j && r.item == -1) <;> simp [h]

theorem count_singleton_pill (x : Int) : List.count (-1) [x] = (x == -1).toNat := by
  by_cases h : x = -1
  · subst h; rfl
  · have h2 : (x == -1) = false := by simpa using h
    rw [h2, List.count_singleton]
    simp [h]

theorem inv5_of_eq {s s1 : State} (h : Inv5 s) (e1 : s1.consumers = s.consumers)
    (e2 : s1.gets = s.gets) : Inv5 s1 := by
  obtain ⟨h1, h2, h3⟩ := h
  constructor
  · rw [e1]; exact h1
  · rw [e1, e2]; exact h2
  · rw [e1, e2]; exact h3

theorem inv5_consumer {s s1 id} (h : Inv5 s) (hs : consumer_sentinel s id = some s1) :
    Inv5 s1 := by
  unfold consumer_sentinel at hs
  cases hp : s.consumers[id]? with
  | none => simp [hp] at hs
  | some c =>
    simp only [hp] at hs
    have hper := h.per id c hp
    have htot := h.tot
    have l1 := toNat_le_countP holdsPill s.consumers id c hp
    rcases c with ⟨pc, it⟩
    cases pc <;> simp only [] at hs <;> (try split_ifs at hs with hcond) <;> simp at hs <;>
      subst hs <;> simp only [holdsPill] at hper l1 <;>
      refine ⟨?_, ?_, ?_⟩
    all_goals try
        (intro id2 c2 h2
         rcases getElem?_set_cases h2 with ⟨e1, e2⟩ | ⟨e1, e2⟩
         · subst e1 e2; rfl
         · exact h.pcs id2 c2 e2)
    all_goals try
        (intro id2 c2 h2
         rcases getElem?_set_cases h2 with ⟨e1, e2⟩ | ⟨e1, e2⟩
         · subst e1 e2
           first
             | exact hper
             | (simp [holdsPill, pillsBy_append, hper]; done)
             | (simp [holdsPill, hcond] at hper ⊢; exact hper)
             | (have hb : (it == -1) = false := by simpa using hcond
                simpa [holdsPill, hb] using hper)
         · have := h.per id2 c2 e2
           first
             | exact this
             | (rw [pillsBy_append, this]; simp; intro e; exact absurd e e1))
    all_goals
        (simp [countP_set_eq _ _ _ _ _ hp, holdsPill, List.count_append, htot,
           count_singleton_pill, -List.countP_eq_zero] at l1 ⊢
         try simp [hcond] at l1 ⊢
         try (have hb : (it == -1) = false := by simpa using hcond
              simp [hb])
         try omega)

theorem inv5_init (cfg : Config) : Inv5 (initState .sentinel cfg) := by
  constructor
  · intro j c hc
    simp [initState, List.getElem?_replicate] at hc
    rw [← hc.2]; rfl
  · intro j c hc
    simp [initState, List.getElem?_replicate] at hc
    rw [← hc.2]; rfl
  · simp [initState, consumerEntry, holdsPill, List.countP_replicate]

theorem reachable_inv5 {cfg s} (hr : Reachable .sentinel cfg s) : Inv5 s := by
  induction hr with
  | init => exact inv5_init cfg
  | step t _ hs ih =>
    cases t with
    | producer id =>
      have hf := producer_frame hs
      exact inv5_of_eq ih hf.1 hf.2.1
    | consumer id => exact inv5_consumer ih hs
    | main =>
      have hf := @main_frame .sentinel cfg _ _ hs
      exact inv5_of_eq ih hf.2.1 hf.2.2.1

/-- In the Sentinel program the values `-1` in the buffer history are the puts of `main`,
as long as no producer has put the value `-1`. -/
theorem pills_in_puts {cfg s}
    (hne : ∀ r ∈ s.puts, isProducerRec r = true → r.item ≠ -1)
    (h3 : Inv3 .sentinel cfg s) :
    (s.puts.map (·.item)).count (-1) = (putsBy .main s.puts).length := by
  have key : ∀ l : List PutRec, (∀ r ∈ l, RecOk .sentinel cfg r) →
      (∀ r ∈ l, isProducerRec r = true → r.item ≠ -1) →
      (l.map (·.item)).count (-1) = (putsBy .main l).length := by
    intro l
    induction l with
    | nil => intro _ _; rfl
    | cons r rs ih =>
      intro hl hn
      have hr := hl r (List.mem_cons_self r rs)
      have hnr := hn r (List.mem_cons_self r rs)
      have ih2 := ih (fun x hx => hl x (List.mem_cons_of_mem r hx))
        (fun x hx => hn x (List.mem_cons_of_mem r hx))
      rcases r with ⟨who, seq, item⟩
      cases who with
      | producer id =>
        have hne : item ≠ -1 := hnr rfl
        simp only [putsBy] at ih2 ⊢
        simp [List.count_cons, hne, ih2]
      | consumer j => exact absurd hr (by simp [RecOk])
      | main =>
        have he : item = -1 := hr
        subst he
        simp only [putsBy] at ih2 ⊢
        simp [List.count_cons, ih2]
  exact key s.puts h3.item hne

/-- With `items_per_producer < INT_MAX` the items in the buffer history that producers
put are the items of `NoSentinelItem`. -/
theorem producer_items_ne {cfg s} (hfit : cfg.items_per_producer < 2147483647)
    (hno : NoSentinelItem cfg) (h3 : Inv3 .sentinel cfg s) :
    ∀ r ∈ s.puts, isProducerRec r = true → r.item ≠ -1 := by
  intro r hr1 hr2
  have hok := h3.item r hr1
  rcases r with ⟨who, seq, item⟩
  cases who with
  | producer id =>
    obtain ⟨a, b, c, d⟩ := hok
    simp only [itemOf] at d
    simp only []
    rw [d]; exact hno id seq a b (c hfit)
  | consumer j => simp [isProducerRec] at hr2
  | main => simp [isProducerRec] at hr2

/-- With `items_per_producer < INT_MAX`, `NoSentinelItem` gives `NoPillProduced`. -/
theorem noPillProduced_of_fits {cfg : Config} (hv : cfg.Valid)
    (hfit : cfg.items_per_producer < 2147483647) (hno : NoSentinelItem cfg) :
    NoPillProduced cfg :=
  fun _ hr => producer_items_ne hfit hno (reachable_inv hv.2.2.1 hr).2.2.1

theorem count_take_le (l : List Int) (n : Nat) (x : Int) :
    (l.take n).count x ≤ l.count x :=
  (List.take_sublist n l).count_le x

theorem countP_lt_length {α : Type} (p : α → Bool) (l : List α) (j : Nat) (a : α)
    (h : l[j]? = some a) (hp : p a = false) : l.countP p < l.length := by
  have h1 := List.length_eq_countP_add_countP p l
  have h2 := countP_pos_of_get (fun x => !p x) l j a h (by simp [hp])
  have h3 : List.countP (fun a => decide ¬p a = true) l = List.countP (fun x => !p x) l := by
    congr 1; funext x; cases p x <;> rfl
  omega

theorem countP_eq_length_of_all {α : Type} (p : α → Bool) (l : List α)
    (h : ∀ (j : Nat) (a : α), l[j]? = some a → p a = true) : l.countP p = l.length := by
  rw [List.countP_eq_length]
  intro a ha
  obtain ⟨j, hj⟩ := List.getElem?_of_mem ha
  exact h j a hj

theorem countP_eq_zero_of_all {α : Type} (p : α → Bool) (l : List α)
    (h : ∀ (j : Nat) (a : α), l[j]? = some a → p a = false) : l.countP p = 0 := by
  rw [List.countP_eq_zero]
  intro a ha
  obtain ⟨j, hj⟩ := List.getElem?_of_mem ha
  simp [h j a hj]

/-! ## Blocked threads -/

theorem stuck_producer {prog cfg s id p} (hp : s.producers[id]? = some p)
    (h : producer prog cfg s id = none) :
    p.pc = .done ∨ (p.pc = .wait ∧ s.empty = 0) ∨ (p.pc = .lock ∧ s.mutex ≠ none) := by
  unfold producer at h
  simp only [hp] at h
  rcases p with ⟨pc, i⟩
  cases pc <;> simp only [] at h <;> (try split_ifs at h with hcond) <;> simp at h ⊢ <;>
    first
    | omega
    | (intro e; exact hcond e)

theorem stuck_consumer_sentinel {s j c} (hc : s.consumers[j]? = some c)
    (hpc : sentPc c.pc = true) (h : consumer_sentinel s j = none) :
    c.pc = .done ∨ (c.pc = .waitFull ∧ s.full = 0) ∨ (c.pc = .lockM ∧ s.mutex ≠ none) := by
  unfold consumer_sentinel at h
  simp only [hc] at h
  rcases c with ⟨pc, it⟩
  cases pc <;> simp only [] at h <;> (try split_ifs at h with hcond) <;>
    simp [sentPc] at h hpc ⊢ <;>
    first
    | omega
    | (intro e; exact hcond e)

theorem stuck_main {prog cfg s} (h : mainThread prog cfg s = none) :
    s.main.pc = .done ∨
      (s.main.pc = .joinProd ∧ s.main.i < cfg.producers_count ∧
        producerDone s s.main.i = false) ∨
      (s.main.pc = .wait ∧ s.empty = 0) ∨ (s.main.pc = .lock ∧ s.mutex ≠ none) ∨
      (s.main.pc = .joinCons ∧ s.main.i < cfg.consumers_count ∧
        consumerDone s s.main.i = false) := by
  unfold mainThread at h
  cases hpc : s.main.pc <;> simp only [hpc] at h <;> (try split_ifs at h with hc1 hc2) <;>
    (try cases prog) <;> simp at h ⊢ <;>
    first
    | omega
    | exact ⟨hc1, by simpa using hc2⟩
    | (intro e; exact hc1 e)

theorem held_eq_zero {m : Option Tid} (h : held m = 0) : m = none := by
  cases m with
  | none => rfl
  | some t => simp at h

theorem producerDone_of_pc {s : State} {id : Nat} {p : PLocal}
    (hp : s.producers[id]? = some p) (h : p.pc = .done) : producerDone s id = true := by
  simp [producerDone, hp, h]

theorem consumerDone_of_pc {s : State} {j : Nat} {c : CLocal}
    (hc : s.consumers[j]? = some c) (h : c.pc = .done) : consumerDone s j = true := by
  simp [consumerDone, hc, h]

/-! ## The Sentinel program cannot get stuck -/

theorem sentinel_progress {cfg s} (hv : cfg.Valid)
    (hne : ∀ r ∈ s.puts, isProducerRec r = true → r.item ≠ -1)
    (hr : Reachable .sentinel cfg s) (hnd : ¬ AllDone s) :
    ∃ t s1, step .sentinel cfg s t = some s1 := by
  by_contra hstuck
  have hst : ∀ t, step .sentinel cfg s t = none := by
    intro t
    cases h : step .sentinel cfg s t with
    | none => rfl
    | some s1 => exact absurd ⟨t, s1, h⟩ hstuck
  obtain ⟨h1, h2, h3, h4⟩ := reachable_inv hv.2.2.1 hr
  have h5 := reachable_inv5 hr
  have hP0 : ∀ (id : Nat) (p : PLocal), s.producers[id]? = some p →
      p.pc = .done ∨ (p.pc = .wait ∧ s.empty = 0) ∨ (p.pc = .lock ∧ s.mutex ≠ none) :=
    fun id p hp => stuck_producer hp (hst (.producer id))
  have hC0 : ∀ (j : Nat) (c : CLocal), s.consumers[j]? = some c →
      c.pc = .done ∨ (c.pc = .waitFull ∧ s.full = 0) ∨ (c.pc = .lockM ∧ s.mutex ≠ none) :=
    fun j c hc => stuck_consumer_sentinel hc (h5.pcs j c hc) (hst (.consumer j))
  have hM0 := @stuck_main .sentinel cfg s (hst .main)
  have z3 : s.producers.countP pM = 0 := countP_eq_zero_of_all _ _ (fun id p hp => by
    rcases hP0 id p hp with e | ⟨e, _⟩ | ⟨e, _⟩ <;> simp [pM, e])
  have z6 : s.consumers.countP (cM .sentinel) = 0 := countP_eq_zero_of_all _ _
    (fun j c hc => by rcases hC0 j c hc with e | ⟨e, _⟩ | ⟨e, _⟩ <;> simp [cM, e])
  have z7 : mM s.main = 0 := by
    rcases hM0 with e | ⟨e, _⟩ | ⟨e, _⟩ | ⟨e, _⟩ | ⟨e, _⟩ <;> simp [mM, e]
  have hmtx : s.mutex = none := by
    apply held_eq_zero
    have := h1.mtx
    omega
  have hP : ∀ (id : Nat) (p : PLocal), s.producers[id]? = some p →
      p.pc = .done ∨ (p.pc = .wait ∧ s.empty = 0) := by
    intro id p hp
    rcases hP0 id p hp with e | e | ⟨_, e⟩
    · exact Or.inl e
    · exact Or.inr e
    · exact absurd hmtx e
  have hC : ∀ (j : Nat) (c : CLocal), s.consumers[j]? = some c →
      c.pc = .done ∨ (c.pc = .waitFull ∧ s.full = 0) := by
    intro j c hc
    rcases hC0 j c hc with e | e | ⟨_, e⟩
    · exact Or.inl e
    · exact Or.inr e
    · exact absurd hmtx e
  have hM : s.main.pc = .done ∨
      (s.main.pc = .joinProd ∧ s.main.i < cfg.producers_count ∧
        producerDone s s.main.i = false) ∨
      (s.main.pc = .wait ∧ s.empty = 0) ∨
      (s.main.pc = .joinCons ∧ s.main.i < cfg.consumers_count ∧
        consumerDone s s.main.i = false) := by
    rcases hM0 with e | e | e | ⟨_, e⟩ | e
    · exact Or.inl e
    · exact Or.inr (Or.inl e)
    · exact Or.inr (Or.inr (Or.inl e))
    · exact absurd hmtx e
    · exact Or.inr (Or.inr (Or.inr e))
  have z1 : s.producers.countP pE = 0 := countP_eq_zero_of_all _ _ (fun id p hp => by
    rcases hP id p hp with e | ⟨e, _⟩ <;> simp [pE, e])
  have z2 : s.producers.countP pF = 0 := countP_eq_zero_of_all _ _ (fun id p hp => by
    rcases hP id p hp with e | ⟨e, _⟩ <;> simp [pF, e])
  have z4 : s.consumers.countP cE = 0 := countP_eq_zero_of_all _ _ (fun j c hc => by
    rcases hC j c hc with e | ⟨e, _⟩ <;> simp [cE, e])
  have z5 : s.consumers.countP cF = 0 := countP_eq_zero_of_all _ _ (fun j c hc => by
    rcases hC j c hc with e | ⟨e, _⟩ <;> simp [cF, e])
  have z8 : mE s.main = 0 ∧ mF s.main = 0 := by
    rcases hM with e | ⟨e, _⟩ | ⟨e, _⟩ | ⟨e, _⟩ <;> simp [mE, mF, e]
  have hocc := h1.occ
  have hfree := h1.free
  have hcap := hv.2.2.1
  have hK := hv.2.1
  have hpp := pills_in_puts hne h3
  have hpd := h4.pills
  have hgp := h5.tot
  have hle : (s.gets.map (·.item)).count (-1) ≤ (s.puts.map (·.item)).count (-1) := by
    rw [h2.2.2]
    exact count_take_le _ _ _
  by_cases hcons : ∀ (j : Nat) (c : CLocal), s.consumers[j]? = some c → c.pc = .done
  · have hall : s.consumers.countP holdsPill = cfg.consumers_count := by
      rw [countP_eq_length_of_all _ _ (fun j c hc => by simp [holdsPill, hcons j c hc]),
        h1.lenC]
    by_cases hprod : ∀ (id : Nat) (p : PLocal), s.producers[id]? = some p → p.pc = .done
    · have hmain : s.main.pc ≠ .done := fun e => hnd ⟨hprod, hcons, e⟩
      rcases hM with e | ⟨e, hlt, hd⟩ | ⟨e, he⟩ | ⟨e, hlt, hd⟩
      · exact hmain e
      · have hlt2 : s.main.i < s.producers.length := by rw [h1.lenP]; exact hlt
        have hp := List.getElem?_eq_getElem hlt2
        rw [producerDone_of_pc hp (hprod _ _ hp)] at hd
        cases hd
      · have := h4.range
        simp only [MRange, e] at this
        simp only [pillsDone, e] at hpd
        omega
      · have hlt2 : s.main.i < s.consumers.length := by rw [h1.lenC]; exact hlt
        have hc := List.getElem?_eq_getElem hlt2
        rw [consumerDone_of_pc hc (hcons _ _ hc)] at hd
        cases hd
    · push_neg at hprod
      obtain ⟨id, p, hp, hne⟩ := hprod
      have hid : id < cfg.producers_count := by
        rw [← h1.lenP]
        exact (List.getElem?_eq_some_iff.mp hp).1
      have hjp : s.main.pc = .joinProd := by
        by_contra hne2
        have := h4.afterP hne2 id hid
        simp [producerDone, hp, hne] at this
      simp only [pillsDone, hjp] at hpd
      omega
  · push_neg at hcons
    obtain ⟨j, c, hc, hne⟩ := hcons
    rcases hC j c hc with e | ⟨e, hf⟩
    · exact hne e
    · have hlen : s.gets.length = s.puts.length := by omega
      have hprod : ∀ (id : Nat) (p : PLocal), s.producers[id]? = some p → p.pc = .done := by
        intro id p hp
        rcases hP id p hp with e | ⟨_, he⟩
        · exact e
        · omega
      have hmain : pillsDone .sentinel cfg s.main = cfg.consumers_count := by
        rcases hM with e | ⟨e, hlt, hd⟩ | ⟨e, he⟩ | ⟨e, hlt, hd⟩
        · simp [pillsDone, e]
        · have hlt2 : s.main.i < s.producers.length := by rw [h1.lenP]; exact hlt
          have hp := List.getElem?_eq_getElem hlt2
          rw [producerDone_of_pc hp (hprod _ _ hp)] at hd
          cases hd
        · omega
        · simp [pillsDone, e]
      have hcnt : (s.gets.map (·.item)).count (-1) = (s.puts.map (·.item)).count (-1) := by
        rw [h2.2.2, hlen]
        congr 1
        apply List.take_of_length_le
        simp
      have hlt := countP_lt_length holdsPill s.consumers j c hc (by simp [holdsPill, e])
      have := h1.lenC
      omega

/-! ## Invariants of the counter -/

theorem wrapInt_eq {x : Int} (h1 : -2147483648 ≤ x) (h2 : x ≤ 2147483647) : wrapInt x = x := by
  unfold wrapInt; omega

theorem wrapInt_le (x : Int) : wrapInt x ≤ 2147483647 := by
  unfold wrapInt; omega

theorem total_items_eq {cfg : Config} (h : FitsInt cfg) :
    total_items cfg = (cfg.producers_count : Int) * (cfg.items_per_producer : Int) := by
  unfold total_items
  unfold FitsInt at h
  have : (0 : Int) ≤ (cfg.producers_count : Int) * (cfg.items_per_producer : Int) :=
    mul_nonneg (Int.ofNat_nonneg _) (Int.ofNat_nonneg _)
  exact wrapInt_eq (by omega) h

theorem countP_mono_at {α : Type} (p q : α → Bool) (l : List α) (j : Nat) (a : α)
    (hpq : ∀ x, p x = true → q x = true) (h : l[j]? = some a) :
    l.countP p + (q a).toNat ≤ l.countP q + (p a).toNat := by
  induction l generalizing j with
  | nil => simp at h
  | cons x xs ih =>
    cases j with
    | zero =>
      simp at h
      subst h
      have : xs.countP p ≤ xs.countP q := List.countP_mono_left (fun y _ hy => hpq y hy)
      simp only [List.countP_cons]
      cases hp : p x <;> cases hq : q x <;> simp <;> omega
    | succ k =>
      simp at h
      have := ih k h
      have hx := hpq x
      simp only [List.countP_cons]
      cases hp : p x <;> cases hq : q x <;> simp_all <;> omega

theorem inv6_of_eq {cfg : Config} {s s1 : State} (h : Inv6 cfg s)
    (e1 : s1.consumers = s.consumers) (e2 : s1.gets = s.gets)
    (e3 : s1.consumed_count = s.consumed_count) : Inv6 cfg s1 := by
  obtain ⟨h1, h2, h3, h4⟩ := h
  constructor
  · rw [e1, e2, e3]; exact h1
  · rw [e1, e3]; exact h2
  · rw [e3]; exact h3
  · rw [e1, e3]; exact h4

theorem inv6_consumer {cfg s s1 id} (h1 : Inv1 .counted cfg s) (h : Inv6 cfg s)
    (hs : consumer_counted cfg s id = some s1) : Inv6 cfg s1 := by
  unfold consumer_counted at hs
  cases hp : s.consumers[id]? with
  | none => simp [hp] at hs
  | some c =>
    simp only [hp] at hs
    obtain ⟨hcnt, hle, hnn, hex⟩ := h
    have hexc := hex id c hp
    have l1 := toNat_le_countP atIncr s.consumers id c hp
    have l2 := toNat_le_countP committed s.consumers id c hp
    have l3 := countP_mono_at committed cC s.consumers id c
      (fun x hx => by unfold committed at hx; unfold cC; split at hx <;> simp_all) hp
    have hD := h1.ccm
    rw [if_pos rfl] at hD
    have hm2 := held_le_one s.consumed_count_mutex
    have htot := wrapInt_le ((cfg.producers_count : Int) * (cfg.items_per_producer : Int))
    rw [← total_items] at htot
    rcases c with ⟨pc, it⟩
    cases pc <;> simp only [] at hs <;> (try split_ifs at hs with hcond) <;> simp at hs <;>
      subst hs <;>
      simp only [atIncr, committed, cC, exited, Bool.toNat_true, Bool.toNat_false] at l1 l2 l3 hexc <;>
      refine ⟨?_, ?_, ?_, ?_⟩
    all_goals try
        (intro id2 c2 h2 hx
         rcases getElem?_set_cases h2 with ⟨e1, e2⟩ | ⟨e1, e2⟩
         · subst e1 e2
           first
             | exact hexc rfl
             | exact hexc trivial
             | exact hcond
             | simp [exited] at hx
         · have := hex id2 c2 e2 hx
           first
             | exact this
             | (simp only []; rw [wrapInt_eq (by omega) (by omega)]; omega))
    all_goals
        (simp [countP_set_eq _ _ _ _ _ hp, atIncr, committed, -List.countP_eq_zero]
         try rw [wrapInt_eq (by omega) (by omega)]
         try omega)

theorem inv6_init {cfg : Config} (h : FitsInt cfg) : Inv6 cfg (initState .counted cfg) := by
  have ht := total_items_eq h
  have : (0 : Int) ≤ (cfg.producers_count : Int) * (cfg.items_per_producer : Int) :=
    mul_nonneg (Int.ofNat_nonneg _) (Int.ofNat_nonneg _)
  constructor
  · simp [initState, consumerEntry, atIncr, List.countP_replicate]
  · simp [initState, consumerEntry, committed, List.countP_replicate]
    omega
  · simp [initState]
  · intro j c hc hx
    simp [initState, List.getElem?_replicate, consumerEntry] at hc
    rw [← hc.2] at hx
    simp [exited] at hx

theorem reachable_inv6 {cfg s} (hcap : 0 < cfg.buffer_size) (hf : FitsInt cfg)
    (hr : Reachable .counted cfg s) : Inv6 cfg s := by
  induction hr with
  | init => exact inv6_init hf
  | step t hr1 hs ih =>
    cases t with
    | producer id =>
      have hfr := producer_frame hs
      exact inv6_of_eq ih hfr.1 hfr.2.1 hfr.2.2.2.1
    | consumer id => exact inv6_consumer (reachable_inv hcap hr1).1 ih hs
    | main =>
      have hfr := @main_frame .counted cfg _ _ hs
      exact inv6_of_eq ih hfr.2.1 hfr.2.2.1 hfr.2.2.2.1

theorem deadlock_run :
    run .counted deadlockCfg (initState .counted deadlockCfg) deadlockSchedule
      = some deadlockState := by
  decide

theorem deadlock_stuck (t : Tid) : step .counted deadlockCfg deadlockState t = none := by
  cases t with
  | producer id =>
    cases id with
    | zero => rfl
    | succ k => rfl
  | consumer id =>
    cases id with
    | zero => rfl
    | succ k =>
      cases k with
      | zero => rfl
      | succ m => rfl
  | main => rfl

/-! ## Counting the puts of the producers -/

theorem sum_map_set_add {α : Type} (f : α → Nat) (l : List α) (j : Nat) (a b : α)
    (h : l[j]? = some a) :
    ((l.set j b).map f).sum + f a = (l.map f).sum + f b := by
  induction l generalizing j with
  | nil => simp at h
  | cons x xs ih =>
    cases j with
    | zero =>
      simp at h
      subst h
      simp
      omega
    | succ k =>
      simp at h
      have := ih k h
      simp only [List.set_cons_succ, List.map_cons, List.sum_cons]
      omega

theorem sum_map_const {α : Type} (f : α → Nat) (l : List α) (c : Nat)
    (h : ∀ (j : Nat) (a : α), l[j]? = some a → f a = c) : (l.map f).sum = l.length * c := by
  induction l with
  | nil => simp
  | cons x xs ih =>
    have hx := h 0 x (by simp)
    have := ih (fun j a ha => h (j + 1) a (by simpa using ha))
    simp [hx, this, Nat.add_mul]
    omega

/-- The producers' puts in the history are as many as the producers have made. -/
theorem puts_count_producer {prog cfg s s1 id} (h3 : Inv3 prog cfg s)
    (h : (s.puts.filter isProducerRec).length = (s.producers.map putsDone).sum)
    (hs : producer prog cfg s id = some s1) :
    (s1.puts.filter isProducerRec).length = (s1.producers.map putsDone).sum := by
  unfold producer at hs
  cases hp : s.producers[id]? with
  | none => simp [hp] at hs
  | some p =>
    simp only [hp] at hs
    have hloc := h3.loc id p hp
    have e := fun b => sum_map_set_add putsDone s.producers id p b hp
    rcases p with ⟨pc, i⟩
    cases pc <;> simp only [] at hs <;> (try split_ifs at hs with hcond) <;> simp at hs <;>
      subst hs <;> simp only [PLocalOk] at hloc
    · have := e ⟨.wait, i⟩
      simp [putsDone] at this ⊢; omega
    · have := e ⟨.done, i⟩
      simp [putsDone] at this ⊢; omega
    · have := e ⟨.lock, i⟩
      simp [putsDone] at this ⊢; omega
    · have := e ⟨.put, i⟩
      simp [putsDone] at this ⊢; omega
    · have := e ⟨.unlock, i⟩
      simp [putsDone, isProducerRec] at this ⊢; omega
    · have := e ⟨.post, i⟩
      simp [putsDone] at this ⊢; omega
    · have := e ⟨.loop, i + 1⟩
      simp [putsDone] at this ⊢; omega

theorem reachable_puts_count {prog cfg s} (hcap : 0 < cfg.buffer_size)
    (hr : Reachable prog cfg s) :
    (s.puts.filter isProducerRec).length = (s.producers.map putsDone).sum := by
  induction hr with
  | init => simp [initState, putsDone]
  | step t hr1 hs ih =>
    cases t with
    | producer id => exact puts_count_producer (reachable_inv hcap hr1).2.2.1 ih hs
    | consumer id =>
      have hf := consumer_frame hs
      rw [hf.1, hf.2.1]; exact ih
    | main =>
      have hf := @main_frame prog cfg _ _ hs
      rw [hf.1]
      have hs2 : mainThread prog cfg _ = some _ := hs
      unfold mainThread at hs2
      rename_i s0 s2
      cases hpc : s0.main.pc <;> simp only [hpc] at hs2 <;>
        (try split_ifs at hs2 with hc1 hc2) <;> (try cases prog) <;> simp at hs2 <;>
        (try subst hs2) <;> simp [isProducerRec] <;> exact ih

/-! # Properties of the two programs -/

theorem smallCfg_valid : smallCfg.Valid := by
  simp [Config.Valid, smallCfg]

theorem smallCfg_noSentinel : NoSentinelItem smallCfg := by
  intro id i h1 h2 h3
  simp only [smallCfg] at h1 h3
  have e1 : id = 0 := by omega
  have e2 : i = 1 := by omega
  subst e1 e2
  decide

set_option maxRecDepth 100000 in
theorem specLive_run :
    run .counted specLiveCfg (initState .counted specLiveCfg) specLiveSchedule
      = some specLiveState := by
  decide

theorem specLive_stuck (t : Tid) : step .counted specLiveCfg specLiveState t = none := by
  cases t with
  | producer id =>
    match id with
    | 0 => rfl
    | 1 => rfl
    | 2 => rfl
    | _ + 3 => rfl
  | consumer id =>
    match id with
    | 0 => rfl
    | 1 => rfl
    | 2 => rfl
    | _ + 3 => rfl
  | main => rfl

/-- C1 (refuted on the code): the Counted program can block forever.  With 1 producer,
2 consumers, 1 slot and 1 item the state `deadlockState` is reachable, consumer 1 has not
returned in it (it is at `sem_wait(&full)`), and no thread has an enabled step.  The same
happens in the scenario of the specification (3 producers, 3 consumers, 1 slot, 5 items
each): `specLiveState` is reachable, all 15 items are consumed, consumers 1 and 2 have not
returned, and no thread has an enabled step. -/
theorem counted_blocks_forever :
    (deadlockCfg.Valid ∧ FitsInt deadlockCfg ∧
      Reachable .counted deadlockCfg deadlockState ∧
      deadlockState.consumers[1]? = some ⟨.waitFull, 0⟩ ∧
      ∀ t, step .counted deadlockCfg deadlockState t = none) ∧
    (specLiveCfg.Valid ∧ FitsInt specLiveCfg ∧
      Reachable .counted specLiveCfg specLiveState ∧
      specLiveState.consumed_count = 15 ∧
      specLiveState.consumers[1]? = some ⟨.waitFull, 0⟩ ∧
      specLiveState.consumers[2]? = some ⟨.waitFull, 0⟩ ∧
      ∀ t, step .counted specLiveCfg specLiveState t = none) :=
  ⟨⟨by simp [Config.Valid, deadlockCfg], by simp [FitsInt, deadlockCfg],
      reachable_run Reachable.init deadlockSchedule deadlock_run, rfl, deadlock_stuck⟩,
    ⟨by simp [Config.Valid, specLiveCfg], by simp [FitsInt, specLiveCfg],
      reachable_run Reachable.init specLiveSchedule specLive_run, rfl, rfl, rfl,
      specLive_stuck⟩⟩

theorem main_waits_run :
    run .sentinel smallCfg (initState .sentinel smallCfg)
      (List.replicate 7 (.producer 0) ++ [.main, .main, .main]) = some mainWaitsState := by
  decide

/-- C2: the Sentinel program never blocks.  For positive parameters for which no produced
item equals `-1` (no producer ever puts the value `-1`), every reachable state in which some
thread (a producer, a consumer or `main`) has not returned has an enabled step.  The loop
test of the producers is the one of the `int` variable; with `items_per_producer = INT_MAX`
a producer does put `-1`, and in terms of the parameters the condition is
`items_per_producer < INT_MAX` together with `NoSentinelItem` (`noPillProduced_iff`). -/
theorem sentinel_never_blocks (cfg : Config) (s : State) (hv : cfg.Valid)
    (hno : NoPillProduced cfg) (hr : Reachable .sentinel cfg s) (hnd : ¬ AllDone s) :
    ∃ t s1, step .sentinel cfg s t = some s1 :=
  sentinel_progress hv (hno s hr) hr hnd

/-- C2 at `mainWaitsState` of `smallCfg`: the producer has returned, `main` is blocked in
`sem_wait(&empty)` for its pill, and the consumer can move. -/
theorem sentinel_never_blocks_witness :
    smallCfg.Valid ∧ NoPillProduced smallCfg ∧
      Reachable .sentinel smallCfg mainWaitsState ∧ ¬ AllDone mainWaitsState ∧
      step .sentinel smallCfg mainWaitsState .main = none ∧
      ∃ t s1, step .sentinel smallCfg mainWaitsState t = some s1 :=
  have hnd : ¬ AllDone mainWaitsState := fun h => by
    have := h.2.2
    simp [mainWaitsState] at this
  have hno := noPillProduced_of_fits smallCfg_valid (by decide) smallCfg_noSentinel
  have hr := reachable_run Reachable.init _ main_waits_run
  ⟨smallCfg_valid, hno, hr, hnd, by decide,
    sentinel_never_blocks smallCfg _ smallCfg_valid hno hr hnd⟩

theorem lag_run :
    run .counted smallCfg (initState .counted smallCfg) lagSchedule = some lagState := by
  decide

theorem lag_reachable : Reachable .counted smallCfg lagState :=
  reachable_run Reachable.init lagSchedule lag_run

theorem smallCfg_fits : FitsInt smallCfg := by
  simp [FitsInt, smallCfg]

theorem getElem?_of_map_take {puts : List PutRec} {gets : List GetRec}
    (h : gets.map (·.item) = (puts.map (·.item)).take gets.length) (k : Nat) (r : GetRec)
    (hk : gets[k]? = some r) : ∃ q, puts[k]? = some q ∧ q.item = r.item := by
  have hlt : k < gets.length := (List.getElem?_eq_some_iff.mp hk).1
  have h1 : (gets.map (·.item))[k]? = some r.item := by simp [hk]
  rw [h, List.getElem?_take, if_pos hlt, List.getElem?_map] at h1
  cases hq : puts[k]? with
  | none => simp [hq] at h1
  | some q =>
    simp [hq] at h1
    exact ⟨q, rfl, h1⟩

theorem counted_no_pills {cfg s} (h4 : Inv4 .counted cfg s) : putsBy .main s.puts = [] := by
  have h := h4.pills
  have hc := h4.cnt rfl
  rcases hc with e | e | e <;> simp only [pillsDone, e] at h <;>
    exact List.length_eq_zero.mp h

theorem counter_facts {cfg s} (hv : cfg.Valid) (hf : FitsInt cfg)
    (hr : Reachable .counted cfg s) :
    ((s.gets.length : Int) = s.consumed_count + (s.consumers.countP atIncr : Nat)) ∧
      s.consumers.countP atIncr ≤ 1 ∧
      (s.consumed_count_mutex = none → (s.gets.length : Int) = s.consumed_count) ∧
      s.consumed_count ≤ total_items cfg ∧
      (∀ (k : Nat) (r : GetRec), s.gets[k]? = some r →
        ∃ q id, s.puts[k]? = some q ∧ q.item = r.item ∧ q.who = .producer id ∧
          id < cfg.producers_count) ∧
      ((∀ (j : Nat) (c : CLocal), s.consumers[j]? = some c → c.pc = .done) →
        s.consumed_count = (cfg.producers_count : Int) * (cfg.items_per_producer : Int)) := by
  obtain ⟨h1, h2, h3, h4⟩ := reachable_inv hv.2.2.1 hr
  have h6 := reachable_inv6 hv.2.2.1 hf hr
  have hD := h1.ccm
  rw [if_pos rfl] at hD
  have hle : s.consumers.countP atIncr ≤ s.consumers.countP cC :=
    List.countP_mono_left (fun c _ hc => by
      unfold atIncr at hc; unfold cC; split at hc <;> simp_all)
  have hm := held_le_one s.consumed_count_mutex
  refine ⟨h6.cnt, by omega, ?_, ?_, ?_, ?_⟩
  · intro hnone
    rw [hnone, held_none] at hD
    have := h6.cnt
    omega
  · have := h6.le
    omega
  · intro k r hk
    obtain ⟨q, hq, hqi⟩ := getElem?_of_map_take h2.2.2 k r hk
    have hmem : q ∈ s.puts := List.getElem?_mem hq
    have hok := h3.item q hmem
    rcases q with ⟨who, seq, item⟩
    cases who with
    | producer id => exact ⟨_, id, hq, hqi, rfl, hok.1⟩
    | consumer j => exact absurd hok (by simp [RecOk])
    | main =>
      have hnil := counted_no_pills h4
      have : (⟨.main, seq, item⟩ : PutRec) ∈ putsBy .main s.puts := by
        unfold putsBy
        rw [List.mem_filter]
        exact ⟨hmem, by simp⟩
      rw [hnil] at this
      cases this
  · intro hall
    have hlt : 0 < s.consumers.length := by rw [h1.lenC]; exact hv.2.1
    have hc := List.getElem?_eq_getElem hlt
    have hx := h6.exit 0 _ hc (by simp [exited, hall 0 _ hc])
    have := h6.le
    rw [← total_items_eq hf]
    omega

/-- C3 (counterexample): in the reachable state `lagState` the consumer has performed one
`buffer_get` and `consumed_count` is still 0. -/
theorem counted_counter_lags :
    smallCfg.Valid ∧ FitsInt smallCfg ∧ Reachable .counted smallCfg lagState ∧
      (lagState.gets.length : Int) ≠ lagState.consumed_count :=
  ⟨smallCfg_valid, smallCfg_fits, lag_reachable, by decide⟩

/-- C3 (amended): Counted program, `producers * items_per_producer` fits in `int`.  In
every reachable state `consumed_count` equals the number of `buffer_get` calls performed
minus the number of consumers between their `buffer_get` and the `consumed_count++` that
follows (at most one, none when `consumed_count_mutex` is free); it is at most
`total_items`; the `k`-th get returned the item of the `k`-th put, which a producer made
(so no put is dequeued twice); and when all consumers have returned `consumed_count`
equals `producers * items_per_producer`. -/
theorem counted_counter (cfg : Config) (s : State) (hv : cfg.Valid) (hf : FitsInt cfg)
    (hr : Reachable .counted cfg s) :
    ((s.gets.length : Int) = s.consumed_count + (s.consumers.countP atIncr : Nat)) ∧
      s.consumers.countP atIncr ≤ 1 ∧
      (s.consumed_count_mutex = none → (s.gets.length : Int) = s.consumed_count) ∧
      s.consumed_count ≤ total_items cfg ∧
      (∀ (k : Nat) (r : GetRec), s.gets[k]? = some r →
        ∃ q id, s.puts[k]? = some q ∧ q.item = r.item ∧ q.who = .producer id ∧
          id < cfg.producers_count) ∧
      ((∀ (j : Nat) (c : CLocal), s.consumers[j]? = some c → c.pc = .done) →
        s.consumed_count = (cfg.producers_count : Int) * (cfg.items_per_producer : Int)) :=
  counter_facts hv hf hr

/-- C3 (amended) at `lagState`. -/
theorem counted_counter_witness :
    (lagState.gets.length : Int) = lagState.consumed_count
        + (lagState.consumers.countP atIncr : Nat) ∧
      lagState.consumed_count ≤ total_items smallCfg :=
  have h := counted_counter smallCfg lagState smallCfg_valid smallCfg_fits lag_reachable
  ⟨h.1, h.2.2.2.1⟩

/-! ## The final state of the Sentinel program -/

theorem take_count_pill (D M : List Int) (n : Nat) (hD : ∀ x ∈ D, x ≠ -1)
    (hpos : 0 < M.length)
    (h : ((D ++ M).take n).count (-1) = M.length) : D.length + M.length ≤ n := by
  rw [List.take_append_eq_append_take, List.count_append] at h
  have h1 : (D.take n).count (-1) = 0 := by
    rw [List.count_eq_zero]
    intro hmem
    exact hD _ (List.mem_of_mem_take hmem) rfl
  have h2 : (M.take (n - D.length)).count (-1) ≤ (M.take (n - D.length)).length :=
    List.count_le_length _ _
  rw [List.length_take] at h2
  omega

theorem sentinel_final {cfg s} (hv : cfg.Valid) (hno : NoSentinelItem cfg)
    (hr : Reachable .sentinel cfg s) (hd : AllDone s) :
    s.gets.map (·.item) = s.puts.map (·.item) ∧
      (s.gets.map (·.item)).filter (fun x => x != -1)
        = (s.puts.filter isProducerRec).map (·.item) ∧
      (s.puts.filter isProducerRec).length
        = cfg.producers_count * cfg.items_per_producer ∧
      (∀ id, id < cfg.producers_count →
        (putsBy (.producer id) s.puts).map (fun r => (r.seq, r.item))
          = (List.range' 1 cfg.items_per_producer).map (fun i => (i, sentinel_item id i))) := by
  obtain ⟨h1, h2, h3, h4⟩ := reachable_inv hv.2.2.1 hr
  have h5 := reachable_inv5 hr
  obtain ⟨hdp, hdc, hdm⟩ := hd
  have hK : s.consumers.countP holdsPill = cfg.consumers_count := by
    rw [countP_eq_length_of_all _ _ (fun j c hc => by simp [holdsPill, hdc j c hc]), h1.lenC]
  have hpills := h4.pills
  simp only [pillsDone, hdm] at hpills
  have hfit : cfg.items_per_producer < 2147483647 := by
    by_contra hb
    have hlt : 0 < s.producers.length := by rw [h1.lenP]; exact hv.1
    have hp := List.getElem?_eq_getElem hlt
    exact (h3.loc 0 _ hp).2.2 (by omega) (hdp 0 _ hp)
  have hDne : ∀ x ∈ (s.puts.filter isProducerRec).map (·.item), x ≠ -1 := by
    intro x hx
    simp only [List.mem_map, List.mem_filter] at hx
    obtain ⟨r, ⟨hr1, hr2⟩, rfl⟩ := hx
    exact producer_items_ne hfit hno h3 r hr1 hr2
  have hMeq : ∀ x ∈ (putsBy .main s.puts).map (·.item), x = -1 := by
    intro x hx
    simp only [List.mem_map, putsBy, List.mem_filter] at hx
    obtain ⟨r, ⟨hr1, hr2⟩, rfl⟩ := hx
    have hok := h3.item r hr1
    rcases r with ⟨who, seq, item⟩
    simp only [beq_iff_eq] at hr2
    subst hr2
    exact hok
  have hsplit : s.puts.map (·.item)
      = (s.puts.filter isProducerRec).map (·.item) ++ (putsBy .main s.puts).map (·.item) := by
    rw [← List.map_append, ← h4.order]
  have hcnt : (s.gets.map (·.item)).count (-1) = cfg.consumers_count := by
    rw [h5.tot, hK]
  have hlen : s.puts.length ≤ s.gets.length := by
    have e := h2.2.2
    rw [e, hsplit] at hcnt
    have := take_count_pill ((s.puts.filter isProducerRec).map (·.item))
      ((putsBy .main s.puts).map (·.item)) s.gets.length hDne
      (by rw [List.length_map, hpills]; exact hv.2.1)
      (by rw [hcnt, List.length_map, hpills])
    have e2 : s.puts.length = (s.puts.map (·.item)).length := by simp
    rw [e2, hsplit, List.length_append]
    exact this
  have hitems : s.gets.map (·.item) = s.puts.map (·.item) := by
    rw [h2.2.2]
    apply List.take_of_length_le
    simpa using hlen
  refine ⟨hitems, ?_, ?_, ?_⟩
  · rw [hitems, hsplit, List.filter_append]
    have e1 : ((s.puts.filter isProducerRec).map (·.item)).filter (fun x => x != -1)
        = (s.puts.filter isProducerRec).map (·.item) := by
      rw [List.filter_eq_self]
      intro x hx
      simpa using hDne x hx
    have e2 : ((putsBy .main s.puts).map (·.item)).filter (fun x => x != -1) = [] := by
      rw [List.filter_eq_nil_iff]
      intro x hx
      simpa using hMeq x hx
    rw [e1, e2, List.append_nil]
  · rw [reachable_puts_count hv.2.2.1 hr,
      sum_map_const putsDone s.producers cfg.items_per_producer, h1.lenP]
    intro j p hp
    have hloc := (h3.loc j p hp).2.1 hfit
    have hpc := hdp j p hp
    simp only [hpc] at hloc
    simp only [putsDone, hpc]
    omega
  · intro id hid
    have hlt : id < s.producers.length := by rw [h1.lenP]; exact hid
    have hp := List.getElem?_eq_getElem hlt
    have hrec := h3.recs id _ hp
    have hloc := (h3.loc id _ hp).2.1 hfit
    have hpc := hdp id _ hp
    simp only [hpc] at hloc
    simp only [putsDone, hpc] at hrec
    have e : s.producers[id].i - 1 = cfg.items_per_producer := by omega
    rw [e] at hrec
    rw [← hrec, List.map_map]
    apply List.map_congr_left
    intro r hr1
    simp only [putsBy, List.mem_filter, beq_iff_eq] at hr1
    have hok := h3.item r hr1.1
    rcases r with ⟨who, seq, item⟩
    simp only at hr1
    obtain ⟨_, hw⟩ := hr1
    subst hw
    simp only [Function.comp, Prod.mk.injEq, true_and]
    exact hok.2.2.2

theorem full_run :
    run .sentinel smallCfg (initState .sentinel smallCfg) fullSchedule = some finalState := by
  decide

theorem pill_run :
    run .sentinel smallCfg (initState .sentinel smallCfg) (fullSchedule.take 25)
      = some pillState := by
  decide

theorem finalState_allDone : AllDone finalState := by
  refine ⟨?_, ?_, rfl⟩
  · intro id p hp
    cases id with
    | zero => simp [finalState] at hp; rw [← hp]
    | succ k => simp [finalState] at hp
  · intro j c hc
    cases j with
    | zero => simp [finalState] at hc; rw [← hc]
    | succ k => simp [finalState] at hc

/-- C4: Sentinel program, no produced item equals `-1`.  In a state in which all threads
have returned, the gets returned exactly the puts, in order; the values other than `-1`
among them are the items put by producers; these are `producers * items_per_producer`
puts, namely for every producer `id` the items of its iterations `1 .. items_per_producer`,
each once. -/
theorem sentinel_all_consumed (cfg : Config) (s : State) (hv : cfg.Valid)
    (hno : NoSentinelItem cfg) (hr : Reachable .sentinel cfg s) (hd : AllDone s) :
    s.gets.map (·.item) = s.puts.map (·.item) ∧
      (s.gets.map (·.item)).filter (fun x => x != -1)
        = (s.puts.filter isProducerRec).map (·.item) ∧
      (s.puts.filter isProducerRec).length
        = cfg.producers_count * cfg.items_per_producer ∧
      (∀ id, id < cfg.producers_count →
        (putsBy (.producer id) s.puts).map (fun r => (r.seq, r.item))
          = (List.range' 1 cfg.items_per_producer).map (fun i => (i, sentinel_item id i))) :=
  sentinel_final hv hno hr hd

/-- C4 at `finalState`, the end of a complete run with `smallCfg`. -/
theorem sentinel_all_consumed_witness :
    AllDone finalState ∧
      (finalState.gets.map (·.item)).filter (fun x => x != -1)
        = (finalState.puts.filter isProducerRec).map (·.item) :=
  ⟨finalState_allDone,
    (sentinel_all_consumed smallCfg finalState smallCfg_valid smallCfg_noSentinel
      (reachable_run Reachable.init fullSchedule full_run) finalState_allDone).2.1⟩

/-- C9 (counterexample): in the reachable state `pillState` of the Sentinel program the
consumer has dequeued exactly one `-1` and has not returned. -/
theorem sentinel_pill_before_return :
    NoSentinelItem smallCfg ∧ Reachable .sentinel smallCfg pillState ∧
      pillsBy 0 pillState.gets = 1 ∧ consumerDone pillState 0 = false :=
  ⟨smallCfg_noSentinel, reachable_run Reachable.init _ pill_run, by decide, by decide⟩

/-- C9 (amended): Sentinel program.  In every reachable state each consumer has dequeued
at most one `-1`; a consumer that has returned has dequeued exactly one; a consumer that
has dequeued one has returned or is between that `buffer_get` and the `it == -1` test with
`it = -1`; when all threads have returned every consumer has dequeued exactly one. -/
theorem sentinel_one_pill_each (cfg : Config) (s : State) (j : Nat) (c : CLocal)
    (hr : Reachable .sentinel cfg s) (hc : s.consumers[j]? = some c) :
    pillsBy j s.gets ≤ 1 ∧ (c.pc = .done → pillsBy j s.gets = 1) ∧
      (pillsBy j s.gets = 1 →
        c.pc = .done ∨ (c.it = -1 ∧ (c.pc = .unlockM ∨ c.pc = .postEmpty ∨ c.pc = .checkPill))) ∧
      (AllDone s → pillsBy j s.gets = 1) := by
  have h5 := reachable_inv5 hr
  have hper := h5.per j c hc
  rw [hper]
  refine ⟨?_, ?_, ?_, ?_⟩
  · cases holdsPill c <;> simp
  · intro hpc
    simp [holdsPill, hpc]
  · intro h1
    rcases c with ⟨pc, it⟩
    cases pc <;> simp [holdsPill] at h1 ⊢ <;> exact h1
  · intro hall
    simp [holdsPill, hall.2.1 j c hc]

/-- C9 (amended) at `finalState`. -/
theorem sentinel_one_pill_each_witness :
    pillsBy 0 finalState.gets ≤ 1 ∧ pillsBy 0 finalState.gets = 1 :=
  have h := sentinel_one_pill_each smallCfg finalState 0 ⟨.done, -1⟩
    (reachable_run Reachable.init fullSchedule full_run) rfl
  ⟨h.1, h.2.1 rfl⟩

theorem fill_run (prog : Program) :
    run prog specCfg (initState prog specCfg) fillSchedule = some (fillState prog) := by
  cases prog <;> decide

theorem specCfg_valid : specCfg.Valid := by
  simp [Config.Valid, specCfg]

theorem countP_betweenP (l : List PLocal) :
    l.countP betweenP = l.countP pE + l.countP pF := by
  induction l with
  | nil => rfl
  | cons p ps ih =>
    rcases p with ⟨pc, i⟩
    simp only [List.countP_cons, ih]
    cases pc <;> simp [betweenP, pE, pF] <;> omega

theorem countP_betweenC (l : List CLocal) :
    l.countP betweenC = l.countP cF + l.countP cE := by
  induction l with
  | nil => rfl
  | cons c cs ih =>
    rcases c with ⟨pc, it⟩
    simp only [List.countP_cons, ih]
    cases pc <;> simp [betweenC, cF, cE] <;> omega

theorem betweenM_eq (m : MLocal) : betweenM m = mE m + mF m := by
  rcases m with ⟨pc, i⟩
  cases pc <;> rfl

/-- C5: in both programs, in every reachable state the number of occupied slots (puts
performed minus gets performed) is at least 0 and at most the buffer capacity. -/
theorem occupancy_bounded (prog : Program) (cfg : Config) (s : State) (hv : cfg.Valid)
    (hr : Reachable prog cfg s) :
    s.gets.length ≤ s.puts.length ∧ s.puts.length - s.gets.length ≤ cfg.buffer_size := by
  obtain ⟨h1, _, _, _⟩ := reachable_inv hv.2.2.1 hr
  have := h1.occ
  have := h1.free
  omega

/-- C5 in the scenario of the specification (capacity 2, 2 producers, 2 consumers, 3 items
each) with both slots occupied, for both programs. -/
theorem occupancy_bounded_witness :
    (fillState .counted).puts.length - (fillState .counted).gets.length ≤ 2 ∧
      (fillState .sentinel).puts.length - (fillState .sentinel).gets.length ≤ 2 :=
  ⟨(occupancy_bounded .counted specCfg _ specCfg_valid
      (reachable_run Reachable.init fillSchedule (fill_run .counted))).2,
    (occupancy_bounded .sentinel specCfg _ specCfg_valid
      (reachable_run Reachable.init fillSchedule (fill_run .sentinel))).2⟩

/-- C6: in both programs the semaphores start as `empty = capacity`, `full = 0`, and in
every reachable state `empty + full +` (number of threads between a `sem_wait` and the
`sem_post` that follows it) `= capacity`; hence `empty + full = capacity` when no thread is
between a wait and its post. -/
theorem permits_conserved (prog : Program) (cfg : Config) (s : State) (hv : cfg.Valid)
    (hr : Reachable prog cfg s) :
    (initState prog cfg).empty = cfg.buffer_size ∧ (initState prog cfg).full = 0 ∧
      s.empty + s.full + inFlight s = cfg.buffer_size ∧
      (inFlight s = 0 → s.empty + s.full = cfg.buffer_size) := by
  obtain ⟨h1, _, _, _⟩ := reachable_inv hv.2.2.1 hr
  have hA := h1.occ
  have hB := h1.free
  have e1 := countP_betweenP s.producers
  have e2 := countP_betweenC s.consumers
  have e3 := betweenM_eq s.main
  unfold inFlight
  refine ⟨rfl, rfl, ?_, ?_⟩
  · omega
  · intro h0
    omega

/-- C6 at `pillState` (one thread between wait and post) and at `finalState` (none). -/
theorem permits_conserved_witness :
    pillState.empty + pillState.full + inFlight pillState = 1 ∧
      finalState.empty + finalState.full = 1 :=
  ⟨(permits_conserved .sentinel smallCfg pillState smallCfg_valid
      (reachable_run Reachable.init _ pill_run)).2.2.1,
    (permits_conserved .sentinel smallCfg finalState smallCfg_valid
      (reachable_run Reachable.init _ full_run)).2.2.2 (by decide)⟩

theorem runOps_fifo (C : Nat) (hC : 0 < C) (ops : List BufOp) :
    ∀ (r : BufRun), Ring C r.b r.given r.got.length → r.got.length ≤ r.given.length →
      r.got = r.given.take r.got.length →
      admissible C (r.given.length - r.got.length) ops = true →
      (runOps r ops).got = (runOps r ops).given.take (runOps r ops).got.length := by
  induction ops with
  | nil => intro r _ _ h _; exact h
  | cons op ops ih =>
    intro r hring hle htake hadm
    cases op with
    | put x =>
      simp only [admissible, Bool.and_eq_true, decide_eq_true_eq] at hadm
      simp only [runOps]
      have hlt : r.given.length < r.got.length + C := by omega
      apply ih
      · exact ring_put x hC hring hlt
      · simp; omega
      · simp only []
        rw [List.take_append_of_le_length hle]
        exact htake
      · have e : (r.given ++ [x]).length - r.got.length
            = r.given.length - r.got.length + 1 := by simp; omega
        simp only []
        rw [e]; exact hadm.2
    | get =>
      simp only [admissible, Bool.and_eq_true, decide_eq_true_eq] at hadm
      simp only [runOps]
      have hlt : r.got.length < r.given.length := by omega
      obtain ⟨h1, h2⟩ := ring_get hring hlt
      apply ih
      · simpa using h2
      · simp; omega
      · simp only [List.length_append, List.length_singleton, List.take_succ, ← h1]
        rw [← htake]
        simp
      · have e : r.given.length - (r.got ++ [(buffer_get r.b).1]).length
            = r.given.length - r.got.length - 1 := by simp; omega
        simp only []
        rw [e]; exact hadm.2

/-- C7: for every capacity `C >= 1` and every sequence of `buffer_put` / `buffer_get` calls
on a buffer fresh from `buffer_init` in which a put is made only when fewer than `C` items
are held and a get only when at least one item is held, the `k`-th get returns the value
given to the `k`-th put, for every `k`. -/
theorem buffer_fifo (C : Nat) (mem : Nat → Int) (ops : List BufOp) (hC : 1 ≤ C)
    (hadm : admissible C 0 ops = true) (k : Nat) (x : Int)
    (hk : (runOps ⟨buffer_init mem C, [], []⟩ ops).got[k]? = some x) :
    (runOps ⟨buffer_init mem C, [], []⟩ ops).given[k]? = some x := by
  have h := runOps_fifo C hC ops ⟨buffer_init mem C, [], []⟩ (ring_init mem C)
    (le_refl _) rfl hadm
  have hlt := (List.getElem?_eq_some_iff.mp hk).1
  rw [h, List.getElem?_take, if_pos hlt] at hk
  exact hk

/-- C7 on a buffer of capacity 2: the third get returns the third value put. -/
theorem buffer_fifo_witness :
    (runOps ⟨buffer_init (fun _ => 0) 2, [], []⟩
      [.put 5, .put 6, .get, .put 7, .get, .get]).given[2]? = some 7 :=
  buffer_fifo 2 (fun _ => 0) [.put 5, .put 6, .get, .put 7, .get, .get] (by decide)
    (by decide) 2 7 (by decide)

/-! ## The rollback path -/

/-- C10: Counted program.  A consumer at `sem_wait(&full)` that runs on with
`consumed_count >= total_items` (wait, lock `mutex`, lock `consumed_count_mutex`, second
check, then the rollback: unlock, unlock, `sem_post(&full)`, `break`) performs no
`buffer_get`: buffer, `consumed_count` and the history are unchanged, both mutexes are
free, `full` is back at its value before the wait, `empty` is untouched, and the consumer
has returned.  From the second check on, this holds in whatever state the check is made:
the four steps leave buffer, counter and `empty` alone, free both mutexes and add the one
permit the wait took. -/
theorem rollback_restores (cfg : Config) (s : State) (j : Nat) (it : Int)
    (hge : total_items cfg ≤ s.consumed_count) :
    (s.consumers[j]? = some ⟨.waitFull, it⟩ → 0 < s.full → s.mutex = none →
      s.consumed_count_mutex = none →
      ∃ s1, run .counted cfg s (List.replicate 7 (.consumer j)) = some s1 ∧
        s1.buffer = s.buffer ∧ s1.consumed_count = s.consumed_count ∧ s1.gets = s.gets ∧
        s1.puts = s.puts ∧ s1.mutex = none ∧ s1.consumed_count_mutex = none ∧
        s1.full = s.full ∧ s1.empty = s.empty ∧ s1.consumers[j]? = some ⟨.done, it⟩ ∧
        step .counted cfg s1 (.consumer j) = none) ∧
    (s.consumers[j]? = some ⟨.check2, it⟩ →
      ∃ s1, run .counted cfg s (List.replicate 4 (.consumer j)) = some s1 ∧
        s1.buffer = s.buffer ∧ s1.consumed_count = s.consumed_count ∧ s1.gets = s.gets ∧
        s1.puts = s.puts ∧ s1.mutex = none ∧ s1.consumed_count_mutex = none ∧
        s1.full = s.full + 1 ∧ s1.empty = s.empty ∧ s1.consumers[j]? = some ⟨.done, it⟩ ∧
        step .counted cfg s1 (.consumer j) = none) := by
  constructor
  · intro hc hfull hm hcm
    have hlt : j < s.consumers.length := (List.getElem?_eq_some_iff.mp hc).1
    simp [run, step, consumer, consumer_counted, List.replicate, hc, hfull, hm, hcm, hge,
      hlt]
    omega
  · intro hc
    have hlt : j < s.consumers.length := (List.getElem?_eq_some_iff.mp hc).1
    simp [run, step, consumer, consumer_counted, List.replicate, hc, hge, hlt]

theorem rollback_run :
    run .counted wrapCfg (initState .counted wrapCfg) rollbackSchedule
      = some rollbackState := by
  decide

theorem rollback_check_run :
    run .counted wrapCfg rollbackState (List.replicate 3 (.consumer 1))
      = some rollbackCheckState := by
  decide

/-- C10 on a run with `wrapCfg`: from `rollbackState` consumer 1 takes the whole path, from
`rollbackCheckState` the four steps after the second check. -/
theorem rollback_restores_witness :
    Reachable .counted wrapCfg rollbackState ∧
      Reachable .counted wrapCfg rollbackCheckState ∧
      (∃ s1, run .counted wrapCfg rollbackState (List.replicate 7 (.consumer 1)) = some s1 ∧
        s1.buffer = rollbackState.buffer ∧ s1.full = rollbackState.full ∧
        s1.consumers[1]? = some ⟨.done, 0⟩) ∧
      (∃ s1, run .counted wrapCfg rollbackCheckState (List.replicate 4 (.consumer 1))
          = some s1 ∧
        s1.buffer = rollbackCheckState.buffer ∧ s1.full = rollbackCheckState.full + 1 ∧
        s1.consumers[1]? = some ⟨.done, 0⟩) :=
  have hr : Reachable .counted wrapCfg rollbackState :=
    reachable_run Reachable.init _ rollback_run
  have h := (rollback_restores wrapCfg rollbackState 1 0 (by decide)).1 rfl (by decide)
    rfl rfl
  have h2 := (rollback_restores wrapCfg rollbackCheckState 1 0 (by decide)).2 rfl
  ⟨hr, reachable_run hr _ rollback_check_run,
    h.imp fun _ h1 => ⟨h1.1, h1.2.1, h1.2.2.2.2.2.2.2.1, h1.2.2.2.2.2.2.2.2.2.1⟩,
    h2.imp fun _ h1 => ⟨h1.1, h1.2.1, h1.2.2.2.2.2.2.2.1, h1.2.2.2.2.2.2.2.2.2.1⟩⟩

/-- When the product fits in `int` and the loops of the producers end
(`items_per_producer < INT_MAX`), the second check of a Counted consumer never finds
`consumed_count >= total_items`: the permit the consumer holds belongs to an item that is
still in the buffer. -/
theorem second_check_never_fires {cfg s} (hv : cfg.Valid) (hf : FitsInt cfg)
    (hfit : cfg.items_per_producer < 2147483647)
    (hr : Reachable .counted cfg s) (j : Nat) (c : CLocal) (hc : s.consumers[j]? = some c)
    (hpc : c.pc = .check2) : s.consumed_count < total_items cfg := by
  obtain ⟨h1, h2, h3, h4⟩ := reachable_inv hv.2.2.1 hr
  have h6 := reachable_inv6 hv.2.2.1 hf hr
  have hcount := reachable_puts_count hv.2.2.1 hr
  have hlen : s.puts.length = (s.puts.filter isProducerRec).length := by
    have e := h4.order
    rw [counted_no_pills h4, List.append_nil] at e
    rw [← e]
  have hsum : (s.producers.map putsDone).sum
      ≤ s.producers.length * cfg.items_per_producer := by
    have key : ∀ l : List PLocal, (∀ p ∈ l, putsDone p ≤ cfg.items_per_producer) →
        (l.map putsDone).sum ≤ l.length * cfg.items_per_producer := by
      intro l
      induction l with
      | nil => intro _; simp
      | cons p ps ih =>
        intro hl
        have h0 := hl p (List.mem_cons_self p ps)
        have := ih (fun q hq => hl q (List.mem_cons_of_mem p hq))
        simp only [List.map_cons, List.sum_cons, List.length_cons, Nat.add_mul, Nat.one_mul]
        omega
    apply key
    intro p hp
    obtain ⟨id, hid⟩ := List.getElem?_of_mem hp
    have hloc := (h3.loc id p hid).2.1 hfit
    have hi1 := (h3.loc id p hid).1
    rcases p with ⟨pc, i⟩
    cases pc <;> simp only [putsDone] at hloc hi1 ⊢ <;> omega
  have hF := toNat_le_countP cF s.consumers j c hc
  have hcF : cF c = true := by simp [cF, hpc]
  rw [hcF] at hF
  simp only [Bool.toNat_true] at hF
  have hocc := h1.occ
  have hcnt := h6.cnt
  rw [total_items_eq hf]
  have hP := h1.lenP
  have : ((s.puts.length : Nat) : Int)
      ≤ (cfg.producers_count : Int) * (cfg.items_per_producer : Int) := by
    rw [hlen, hcount, ← hP]
    exact_mod_cast hsum
  omega

/-! ## The three buffer functions, one call at a time -/

/-- C12: `buffer_put(b, x)` on a buffer of capacity `C >= 1` whose block has `C` slots, with
`in < C`, stores `x` in slot `in`, sets `in` to `(in + 1) mod C` and leaves `out`, the
capacity and every other slot unchanged. -/
theorem buffer_put_effect (b : buffer_t) (x : Int) (hC : 1 ≤ b.capacity)
    (hlen : b.buf.length = b.capacity) (hin : b.in_ < b.capacity) :
    (buffer_put b x).buf[b.in_]? = some x ∧
      (buffer_put b x).in_ = (b.in_ + 1) % b.capacity ∧
      (buffer_put b x).in_ < b.capacity ∧
      (buffer_put b x).out = b.out ∧
      (buffer_put b x).capacity = b.capacity ∧
      (buffer_put b x).buf.length = b.buf.length ∧
      ∀ k, k ≠ b.in_ → (buffer_put b x).buf[k]? = b.buf[k]? := by
  refine ⟨?_, rfl, ?_, rfl, rfl, ?_, ?_⟩
  · simp only [buffer_put]
    rw [List.getElem?_set_self (by omega)]
  · exact Nat.mod_lt _ (by omega)
  · simp [buffer_put]
  · intro k hk
    simp only [buffer_put]
    rw [List.getElem?_set_ne (Ne.symm hk)]

/-- C12 on a buffer of capacity 2 with `in = 1`: the cursor wraps to 0. -/
theorem buffer_put_effect_witness :
    (buffer_put ⟨[7, 8], 2, 1, 0⟩ 9).buf[1]? = some 9 ∧
      (buffer_put ⟨[7, 8], 2, 1, 0⟩ 9).in_ = 0 :=
  have h := buffer_put_effect ⟨[7, 8], 2, 1, 0⟩ 9 (by decide) rfl (by decide)
  ⟨h.1, h.2.1⟩

/-- C13: `buffer_get(b)` on a buffer of capacity `C >= 1` whose block has `C` slots, with
`out < C`, returns the value in slot `out`, sets `out` to `(out + 1) mod C` and leaves
`in`, the capacity and the content of every slot unchanged. -/
theorem buffer_get_effect (b : buffer_t) (hC : 1 ≤ b.capacity)
    (hlen : b.buf.length = b.capacity) (hout : b.out < b.capacity) :
    b.buf[b.out]? = some (buffer_get b).1 ∧
      (buffer_get b).2.out = (b.out + 1) % b.capacity ∧
      (buffer_get b).2.out < b.capacity ∧
      (buffer_get b).2.in_ = b.in_ ∧
      (buffer_get b).2.capacity = b.capacity ∧
      (buffer_get b).2.buf = b.buf := by
  refine ⟨?_, rfl, ?_, rfl, rfl, rfl⟩
  · have hlt : b.out < b.buf.length := by omega
    simp only [buffer_get, List.getD_eq_getElem?_getD, List.getElem?_eq_getElem hlt,
      Option.getD_some]
  · exact Nat.mod_lt _ (by omega)

/-- C13 on a buffer of capacity 2 with `out = 1`: the cursor wraps to 0. -/
theorem buffer_get_effect_witness :
    (buffer_get ⟨[7, 8], 2, 0, 1⟩).1 = 8 ∧ (buffer_get ⟨[7, 8], 2, 0, 1⟩).2.out = 0 :=
  have h := buffer_get_effect ⟨[7, 8], 2, 0, 1⟩ (by decide) rfl (by decide)
  ⟨Option.some.inj h.1.symm, h.2.1⟩

theorem runOps_bounds (C : Nat) (hC : 1 ≤ C) (ops : List BufOp) :
    ∀ (r : BufRun), r.b.capacity = C → r.b.buf.length = C → r.b.in_ < C → r.b.out < C →
      (runOps r ops).b.capacity = C ∧ (runOps r ops).b.buf.length = C ∧
        (runOps r ops).b.in_ < C ∧ (runOps r ops).b.out < C := by
  induction ops with
  | nil => intro r h1 h2 h3 h4; exact ⟨h1, h2, h3, h4⟩
  | cons op ops ih =>
    intro r h1 h2 h3 h4
    cases op with
    | put x =>
      simp only [runOps]
      apply ih
      · exact h1
      · simpa [buffer_put] using h2
      · simp only [buffer_put, h1]
        exact Nat.mod_lt _ (by omega)
      · exact h4
    | get =>
      simp only [runOps]
      apply ih
      · exact h1
      · exact h2
      · exact h3
      · simp only [buffer_get, h1]
        exact Nat.mod_lt _ (by omega)

/-- C14: for every capacity `C >= 1`, `buffer_init` yields `in = out = 0` and a block of `C`
slots, and after any sequence of `buffer_put` / `buffer_get` calls both cursors are below
`C`, the number of slots: the index used by the next put or get is inside the block. -/
theorem cursors_in_bounds (C : Nat) (mem : Nat → Int) (ops : List BufOp) (hC : 1 ≤ C) :
    (buffer_init mem C).in_ = 0 ∧ (buffer_init mem C).out = 0 ∧
      (runOps ⟨buffer_init mem C, [], []⟩ ops).b.buf.length = C ∧
      (runOps ⟨buffer_init mem C, [], []⟩ ops).b.in_ < C ∧
      (runOps ⟨buffer_init mem C, [], []⟩ ops).b.out < C := by
  have h := runOps_bounds C hC ops ⟨buffer_init mem C, [], []⟩ rfl
    (by simp [buffer_init]) (by simp only [buffer_init]; omega)
    (by simp only [buffer_init]; omega)
  exact ⟨rfl, rfl, h.2.1, h.2.2.1, h.2.2.2⟩

/-- C14 on a buffer of capacity 2 after three puts and a get (also more puts than slots). -/
theorem cursors_in_bounds_witness :
    (runOps ⟨buffer_init (fun _ => 0) 2, [], []⟩ [.put 5, .put 6, .put 7, .get]).b.in_ < 2 ∧
      (runOps ⟨buffer_init (fun _ => 0) 2, [], []⟩ [.put 5, .put 6, .put 7, .get]).b.out < 2 :=
  have h := cursors_in_bounds 2 (fun _ => 0) [.put 5, .put 6, .put 7, .get] (by decide)
  ⟨h.2.2.2.1, h.2.2.2.2⟩

/-! ## Ownership of the mutexes -/

/-- How the owner of a mutex changes with a step of thread `t0`: the step leaves the mutex
alone, or locks the free mutex, or unlocks it as its owner. -/
theorem owner_step (m m1 : Option Tid) (f f1 : Tid → Bool) (t0 : Tid)
    (h : ∀ t, m = some t ↔ f t = true) (hothers : ∀ t, t ≠ t0 → f1 t = f t)
    (hcase : (m1 = m ∧ f1 t0 = f t0) ∨ (m = none ∧ m1 = some t0 ∧ f1 t0 = true) ∨
      (f t0 = true ∧ m1 = none ∧ f1 t0 = false)) :
    ∀ t, m1 = some t ↔ f1 t = true := by
  intro t
  by_cases ht : t = t0
  · subst ht
    rcases hcase with ⟨e1, e2⟩ | ⟨e1, e2, e3⟩ | ⟨e1, e2, e3⟩
    · rw [e1, e2]; exact h t
    · rw [e2, e3]; simp
    · rw [e2, e3]; simp
  · rw [hothers t ht]
    rcases hcase with ⟨e1, e2⟩ | ⟨e1, e2, e3⟩ | ⟨e1, e2, e3⟩
    · rw [e1]; exact h t
    · rw [e2]
      have := h t
      rw [e1] at this
      constructor
      · intro e; exact absurd (Option.some.inj e).symm ht
      · intro e; exact absurd (this.mpr e) (by simp)
    · rw [e2]
      have h0 := (h t0).mpr e1
      constructor
      · intro e; cases e
      · intro e
        have := (h t).mpr e
        rw [h0] at this
        exact absurd (Option.some.inj this).symm ht

theorem producer_owner {prog cfg s s1 id} (hs : producer prog cfg s id = some s1) :
    ((s1.mutex = s.mutex ∧ inMutex prog s1 (.producer id) = inMutex prog s (.producer id)) ∨
      (s.mutex = none ∧ s1.mutex = some (.producer id) ∧
        inMutex prog s1 (.producer id) = true) ∨
      (inMutex prog s (.producer id) = true ∧ s1.mutex = none ∧
        inMutex prog s1 (.producer id) = false)) := by
  unfold producer at hs
  cases hp : s.producers[id]? with
  | none => simp [hp] at hs
  | some p =>
    simp only [hp] at hs
    have hlt : id < s.producers.length := (List.getElem?_eq_some_iff.mp hp).1
    rcases p with ⟨pc, i⟩
    cases pc <;> simp only [] at hs <;> (try split_ifs at hs with hcond) <;> simp at hs <;>
      subst hs <;> simp [inMutex, hp, hlt, pM] <;> assumption

theorem producer_owner_others {prog cfg s s1 id} (hs : producer prog cfg s id = some s1) :
    (∀ t, t ≠ .producer id → inMutex prog s1 t = inMutex prog s t) ∧
      (∀ t, inCcm prog s1 t = inCcm prog s t) ∧
      s1.consumed_count_mutex = s.consumed_count_mutex := by
  obtain ⟨hc, _, hm, _, hcm⟩ := producer_frame hs
  obtain ⟨_, ho⟩ := producer_others hs
  refine ⟨?_, ?_, hcm⟩
  · intro t ht
    cases t with
    | producer id2 =>
      have hne : id2 ≠ id := fun e => ht (by rw [e])
      simp only [inMutex, ho id2 hne]
    | consumer j => simp only [inMutex, hc]
    | main => simp only [inMutex, hm]
  · intro t
    cases t with
    | producer id2 => rfl
    | consumer j => simp only [inCcm, hc]
    | main => rfl

theorem inv7_producer {prog cfg s s1 id} (h : Inv7 prog s)
    (hs : producer prog cfg s id = some s1) : Inv7 prog s1 := by
  obtain ⟨ho, hc, hcm⟩ := producer_owner_others hs
  constructor
  · exact owner_step _ _ _ _ (.producer id) h.mOwner ho (producer_owner hs)
  · intro t
    rw [hcm, hc t]
    exact h.cOwner t

theorem consumer_counted_owner {cfg s s1 id} (hs : consumer_counted cfg s id = some s1) :
    ((s1.mutex = s.mutex ∧
        inMutex .counted s1 (.consumer id) = inMutex .counted s (.consumer id)) ∨
      (s.mutex = none ∧ s1.mutex = some (.consumer id) ∧
        inMutex .counted s1 (.consumer id) = true) ∨
      (inMutex .counted s (.consumer id) = true ∧ s1.mutex = none ∧
        inMutex .counted s1 (.consumer id) = false)) ∧
    ((s1.consumed_count_mutex = s.consumed_count_mutex ∧
        inCcm .counted s1 (.consumer id) = inCcm .counted s (.consumer id)) ∨
      (s.consumed_count_mutex = none ∧ s1.consumed_count_mutex = some (.consumer id) ∧
        inCcm .counted s1 (.consumer id) = true) ∨
      (inCcm .counted s (.consumer id) = true ∧ s1.consumed_count_mutex = none ∧
        inCcm .counted s1 (.consumer id) = false)) := by
  unfold consumer_counted at hs
  cases hp : s.consumers[id]? with
  | none => simp [hp] at hs
  | some c =>
    simp only [hp] at hs
    have hlt : id < s.consumers.length := (List.getElem?_eq_some_iff.mp hp).1
    rcases c with ⟨pc, it⟩
    cases pc <;> simp only [] at hs <;> (try split_ifs at hs with hcond) <;> simp at hs <;>
      subst hs <;> simp [inMutex, inCcm, hp, hlt, cM, cC] <;> assumption

theorem consumer_sentinel_owner {s s1 id} (hs : consumer_sentinel s id = some s1) :
    ((s1.mutex = s.mutex ∧
        inMutex .sentinel s1 (.consumer id) = inMutex .sentinel s (.consumer id)) ∨
      (s.mutex = none ∧ s1.mutex = some (.consumer id) ∧
        inMutex .sentinel s1 (.consumer id) = true) ∨
      (inMutex .sentinel s (.consumer id) = true ∧ s1.mutex = none ∧
        inMutex .sentinel s1 (.consumer id) = false)) := by
  unfold consumer_sentinel at hs
  cases hp : s.consumers[id]? with
  | none => simp [hp] at hs
  | some c =>
    simp only [hp] at hs
    have hlt : id < s.consumers.length := (List.getElem?_eq_some_iff.mp hp).1
    rcases c with ⟨pc, it⟩
    cases pc <;> simp only [] at hs <;> (try split_ifs at hs with hcond) <;> simp at hs <;>
      subst hs <;> simp [inMutex, hp, hlt, cM] <;> assumption

theorem consumer_owner_others {prog cfg s s1 id} (hs : consumer prog cfg s id = some s1) :
    (∀ t, t ≠ .consumer id → inMutex prog s1 t = inMutex prog s t) ∧
      (∀ t, t ≠ .consumer id → inCcm prog s1 t = inCcm prog s t) := by
  obtain ⟨hp, _, hm⟩ := consumer_frame hs
  obtain ⟨_, ho⟩ := consumer_others hs
  constructor
  · intro t ht
    cases t with
    | producer id2 => simp only [inMutex, hp]
    | consumer j =>
      have hne : j ≠ id := fun e => ht (by rw [e])
      simp only [inMutex, ho j hne]
    | main => simp only [inMutex, hm]
  · intro t ht
    cases t with
    | producer id2 => rfl
    | consumer j =>
      have hne : j ≠ id := fun e => ht (by rw [e])
      simp only [inCcm, ho j hne]
    | main => rfl

theorem inv7_consumer {prog cfg s s1 id} (h : Inv7 prog s)
    (hs : consumer prog cfg s id = some s1) : Inv7 prog s1 := by
  obtain ⟨ho, hc⟩ := consumer_owner_others hs
  cases prog with
  | counted =>
    have hk := consumer_counted_owner hs
    exact ⟨owner_step _ _ _ _ (.consumer id) h.mOwner ho hk.1,
      owner_step _ _ _ _ (.consumer id) h.cOwner hc hk.2⟩
  | sentinel =>
    have hk := consumer_sentinel_owner hs
    have hf := consumer_sentinel_frame hs
    refine ⟨owner_step _ _ _ _ (.consumer id) h.mOwner ho hk, ?_⟩
    intro t
    rw [hf.2.2.2.2]
    have e1 : inCcm .sentinel s1 t = false := by cases t <;> rfl
    have e2 : inCcm .sentinel s t = false := by cases t <;> rfl
    rw [e1]
    have := h.cOwner t
    rw [e2] at this
    exact this

theorem main_owner {prog cfg s s1} (hs : mainThread prog cfg s = some s1) :
    ((s1.mutex = s.mutex ∧ inMutex prog s1 .main = inMutex prog s .main) ∨
      (s.mutex = none ∧ s1.mutex = some .main ∧ inMutex prog s1 .main = true) ∨
      (inMutex prog s .main = true ∧ s1.mutex = none ∧ inMutex prog s1 .main = false)) := by
  unfold mainThread at hs
  cases hpc : s.main.pc <;> simp only [hpc] at hs <;> (try split_ifs at hs with hc1 hc2) <;>
    (try cases prog) <;> simp at hs <;> (try subst hs) <;>
    simp [inMutex, mM, hpc] <;> assumption

theorem inv7_main {prog cfg s s1} (h : Inv7 prog s)
    (hs : mainThread prog cfg s = some s1) : Inv7 prog s1 := by
  obtain ⟨hp, hc, _, _, hcm⟩ := main_frame hs
  constructor
  · refine owner_step _ _ _ _ .main h.mOwner ?_ (main_owner hs)
    intro t ht
    cases t with
    | producer id => simp only [inMutex, hp]
    | consumer j => simp only [inMutex, hc]
    | main => exact absurd rfl ht
  · intro t
    rw [hcm]
    have e : inCcm prog s1 t = inCcm prog s t := by
      cases t with
      | producer id => rfl
      | consumer j => simp only [inCcm, hc]
      | main => rfl
    rw [e]
    exact h.cOwner t

theorem inv7_init (prog : Program) (cfg : Config) : Inv7 prog (initState prog cfg) := by
  constructor
  · intro t
    cases t with
    | producer id =>
      simp only [inMutex, initState, List.getElem?_replicate]
      split_ifs <;> simp [pM]
    | consumer j =>
      simp only [inMutex, initState, List.getElem?_replicate]
      split_ifs <;> cases prog <;> simp [cM, consumerEntry]
    | main => simp [inMutex, initState, mM]
  · intro t
    cases t with
    | producer id => simp [inCcm, initState]
    | consumer j =>
      cases prog
      · simp only [inCcm, initState, List.getElem?_replicate]
        split_ifs <;> simp [cC, consumerEntry]
      · simp [inCcm, initState]
    | main => simp [inCcm, initState]

theorem reachable_inv7 {prog cfg s} (hr : Reachable prog cfg s) : Inv7 prog s := by
  induction hr with
  | init => exact inv7_init prog cfg
  | step t _ hs ih =>
    cases t with
    | producer id => exact inv7_producer ih hs
    | consumer id => exact inv7_consumer ih hs
    | main => exact inv7_main ih hs

/-- C11: in both programs, in every reachable state a thread whose next statement is a
`sem_wait` holds neither `mutex` nor `consumed_count_mutex`.  The mutexes nest only in the
order `mutex`, then `consumed_count_mutex`: a thread whose next statement locks `mutex`
holds neither mutex; a consumer about to lock `consumed_count_mutex` holds nothing at the
first check and holds `mutex` at the second. -/
theorem no_lock_held_at_wait (prog : Program) (cfg : Config) (s : State) (t : Tid)
    (hr : Reachable prog cfg s) :
    (atSemWait s t = true → s.mutex ≠ some t ∧ s.consumed_count_mutex ≠ some t) ∧
      (atLockMutex s t = true → s.mutex ≠ some t ∧ s.consumed_count_mutex ≠ some t) ∧
      (atLockCcm s true t = true → s.mutex ≠ some t ∧ s.consumed_count_mutex ≠ some t) ∧
      (atLockCcm s false t = true → s.mutex = some t ∧ s.consumed_count_mutex ≠ some t) := by
  have h7 := reachable_inv7 hr
  have hm := h7.mOwner t
  have hc := h7.cOwner t
  have key : ∀ (bm bc : Bool), inMutex prog s t = bm → inCcm prog s t = bc →
      (bm = false → s.mutex ≠ some t) ∧ (bc = false → s.consumed_count_mutex ≠ some t) ∧
      (bm = true → s.mutex = some t) := by
    intro bm bc e1 e2
    rw [e1] at hm
    rw [e2] at hc
    refine ⟨?_, ?_, ?_⟩
    · intro e h; rw [e] at hm; exact absurd (hm.mp h) (by simp)
    · intro e h; rw [e] at hc; exact absurd (hc.mp h) (by simp)
    · intro e; rw [e] at hm; exact hm.mpr rfl
  cases t with
  | producer id =>
    cases hp : s.producers[id]? with
    | none => simp [atSemWait, atLockMutex, atLockCcm, hp]
    | some p =>
      have k := key (pM p) false (by simp [inMutex, hp]) rfl
      rcases p with ⟨pc, i⟩
      cases pc <;> simp [atSemWait, atLockMutex, atLockCcm, hp, pM] at k ⊢ <;>
        exact ⟨k.1, k.2⟩
  | consumer j =>
    cases hcj : s.consumers[j]? with
    | none => simp [atSemWait, atLockMutex, atLockCcm, hcj]
    | some c =>
      cases prog with
      | counted =>
        have k := key (cM .counted c) (cC c) (by simp [inMutex, hcj]) (by simp [inCcm, hcj])
        rcases c with ⟨pc, it⟩
        cases pc <;> simp [atSemWait, atLockMutex, atLockCcm, hcj, cM, cC] at k ⊢ <;>
          first
          | exact ⟨k.1, k.2⟩
          | exact ⟨k.2, k.1⟩
      | sentinel =>
        have k := key (cM .sentinel c) false (by simp [inMutex, hcj]) (by simp [inCcm])
        have hpc := (reachable_inv5 hr).pcs j c hcj
        rcases c with ⟨pc, it⟩
        cases pc <;> simp [atSemWait, atLockMutex, atLockCcm, hcj, cM, sentPc] at k hpc ⊢ <;>
          exact ⟨k.1, k.2⟩
  | main =>
    have k := key (decide (mM s.main = 1)) false (by simp [inMutex]) rfl
    cases hpc : s.main.pc <;> simp [atSemWait, atLockMutex, atLockCcm, hpc, mM] at k ⊢ <;>
      exact ⟨k.1, k.2⟩

/-- C11 at the initial state of the Sentinel program with `smallCfg`: the consumer is at
`sem_wait(&full)` and holds nothing. -/
theorem no_lock_held_at_wait_witness :
    atSemWait (initState .sentinel smallCfg) (.consumer 0) = true ∧
      (initState .sentinel smallCfg).mutex ≠ some (.consumer 0) ∧
      (initState .sentinel smallCfg).consumed_count_mutex ≠ some (.consumer 0) :=
  ⟨rfl, (no_lock_held_at_wait .sentinel smallCfg _ (.consumer 0) Reachable.init).1 rfl⟩

/-! ## Start-up and thread creation -/

theorem createAll_mem (ok : Tid → Bool) (l : List Tid) :
    ∀ x ∈ (createAll ok l).1, (∃ t b, x = .pthread_create t b) ∨ x = .perror ∨ x = .exit 1 := by
  induction l with
  | nil => intro x hx; simp [createAll] at hx
  | cons t ts ih =>
    intro x hx
    simp only [createAll] at hx
    split_ifs at hx with h
    · simp only [List.mem_cons] at hx
      rcases hx with e | e
      · exact Or.inl ⟨t, true, e⟩
      · exact ih x e
    · simp only [List.mem_cons, List.mem_singleton, List.not_mem_nil, or_false] at hx
      rcases hx with e | e | e
      · exact Or.inl ⟨t, false, e⟩
      · exact Or.inr (Or.inl e)
      · exact Or.inr (Or.inr e)

theorem createAll_fail (ok : Tid → Bool) (l : List Tid) (h : ∃ t ∈ l, ok t = false) :
    (createAll ok l).2 = false ∧
      ∃ pre t, (createAll ok l).1
          = pre.map (fun u => .pthread_create u true) ++
            [.pthread_create t false, .perror, .exit 1] ∧
        l.take (pre.length + 1) = pre ++ [t] ∧ ok t = false ∧ ∀ u ∈ pre, ok u = true := by
  induction l with
  | nil => obtain ⟨t, ht, _⟩ := h; simp at ht
  | cons a as ih =>
    simp only [createAll]
    by_cases ha : ok a = true
    · simp only [ha, if_true]
      have h2 : ∃ t ∈ as, ok t = false := by
        obtain ⟨t, ht, hf⟩ := h
        simp only [List.mem_cons] at ht
        rcases ht with e | e
        · subst e; rw [ha] at hf; cases hf
        · exact ⟨t, e, hf⟩
      obtain ⟨e1, pre, t, e2, e3, e4, e5⟩ := ih h2
      refine ⟨e1, a :: pre, t, ?_, ?_, e4, ?_⟩
      · simp [e2]
      · simp [e3]
      · intro u hu
        simp only [List.mem_cons] at hu
        rcases hu with e | e
        · rw [e]; exact ha
        · exact e5 u e
    · have hf : ok a = false := by simpa using ha
      simp only [hf]
      exact ⟨rfl, [], a, by simp, by simp, hf, by simp⟩

theorem createAll_ok (ok : Tid → Bool) (l : List Tid) (h : ∀ t ∈ l, ok t = true) :
    createAll ok l = (l.map (fun u => .pthread_create u true), true) := by
  induction l with
  | nil => rfl
  | cons a as ih =>
    have ha := h a (List.mem_cons_self a as)
    have := ih (fun t ht => h t (List.mem_cons_of_mem a ht))
    simp [createAll, ha, this]

theorem main_calls_valid (prog : Program) (p c b i : Int) (ok : Tid → Bool)
    (hp : 0 < p) (hc : 0 < c) (hb : 0 < b) (hi : 0 < i) :
    main_calls prog 5 p c b i ok
      = beforeCheck prog ++ (initCalls prog b.toNat ++
        (createAll ok (creationOrder prog p.toNat c.toNat)).1 ++
        if (createAll ok (creationOrder prog p.toNat c.toNat)).2 then
          afterCreation prog p.toNat c.toNat
        else []) := by
  have h : ¬ (p ≤ 0 ∨ c ≤ 0 ∨ b ≤ 0 ∨ i ≤ 0) := by omega
  simp only [main_calls, ne_eq, not_true_eq_false, if_false, h]

/-- C20 (counterexample): with 2 producers in `src/prodcons.c` and the second
`pthread_create` failing, and with 2 consumers in `src/prodcons_sem.c` and the second
`pthread_create` failing, `main` goes from the failed call to `perror` and `exit(1)`: the
worker created before is neither asked to stop nor joined. -/
theorem create_failure_leaves_workers :
    main_calls .counted 5 2 1 1 1 (fun t => t != .producer 1)
        = [.srand, .buffer_init 1, .sem_init_empty 1, .sem_init_full 0, .mutex_init,
            .ccm_init, .pthread_create (.producer 0) true,
            .pthread_create (.producer 1) false, .perror, .exit 1] ∧
      main_calls .sentinel 5 1 2 1 1 (fun t => t != .consumer 1)
        = [.srand, .buffer_init 1, .sem_init_empty 1, .sem_init_full 0, .mutex_init,
            .pthread_create (.consumer 0) true, .pthread_create (.consumer 1) false,
            .perror, .exit 1] := by
  decide

/-- C20 (amended): in both programs, when a `pthread_create` call fails, `main` calls
`perror` and `exit(1)` at once.  The calls before the failed one are the initialisation and
the successful creations of the workers that precede the failing one in creation order;
`main` makes no `pthread_join` call, whatever number of workers it has created. -/
theorem create_failure_exits (prog : Program) (p c b i : Int) (ok : Tid → Bool)
    (hp : 0 < p) (hc : 0 < c) (hb : 0 < b) (hi : 0 < i)
    (hfail : ∃ t ∈ creationOrder prog p.toNat c.toNat, ok t = false) :
    ∃ (pre : List Tid) (t : Tid), main_calls prog 5 p c b i ok
          = beforeCheck prog ++ initCalls prog b.toNat ++
            pre.map (fun u => .pthread_create u true) ++
            [.pthread_create t false, .perror, .exit 1] ∧
        (creationOrder prog p.toNat c.toNat).take (pre.length + 1) = pre ++ [t] ∧
        ok t = false ∧
        ∀ u, MainCall.pthread_join u ∉ main_calls prog 5 p c b i ok := by
  obtain ⟨e1, pre, t, e2, e3, e4, _⟩ := createAll_fail ok _ hfail
  have hcalls := main_calls_valid prog p c b i ok hp hc hb hi
  refine ⟨pre, t, ?_, e3, e4, ?_⟩
  · rw [hcalls, e1, e2]
    simp
  · intro u hmem
    rw [hcalls, e1] at hmem
    simp only [List.mem_append, Bool.false_eq_true, if_false, List.not_mem_nil,
      or_false] at hmem
    rcases hmem with h | h | h
    · cases prog <;> simp [beforeCheck] at h
    · cases prog <;> simp [initCalls] at h
    · rcases createAll_mem ok _ _ h with ⟨t, k, e⟩ | e | e <;> cases e

/-- C20 (amended) with 2 producers in `src/prodcons.c`, the second creation failing. -/
theorem create_failure_exits_witness :
    ∃ (pre : List Tid) (t : Tid), main_calls .counted 5 2 1 1 1 (fun t => t != .producer 1)
          = beforeCheck .counted ++ initCalls .counted 1 ++
            pre.map (fun u => .pthread_create u true) ++
            [.pthread_create t false, .perror, .exit 1] ∧
        ∀ u, MainCall.pthread_join u
          ∉ main_calls .counted 5 2 1 1 1 (fun t => t != .producer 1) :=
  have h := create_failure_exits .counted 2 1 1 1 (fun t => t != .producer 1) (by decide)
    (by decide) (by decide) (by decide) ⟨.producer 1, by decide, by decide⟩
  h.imp fun _ h1 => h1.imp fun _ h2 => ⟨h2.1, h2.2.2.2⟩

/-! ## Encoding and decoding of the items -/

theorem produce_item_eq (id seq : Nat) (hid : id < 65536) (hseq : seq < 65536) :
    produce_item id seq = wrapInt ((65536 * id + seq : Nat) : Int) := by
  unfold produce_item
  have h1 : id <<< 16 = 65536 * id := by rw [Nat.shiftLeft_eq]; omega
  have h2 : (65536 * id) % 4294967296 = 65536 * id := Nat.mod_eq_of_lt (by omega)
  have h3 : seq &&& 0xFFFF = seq := by
    have := Nat.and_pow_two_sub_one_eq_mod seq 16
    norm_num at this
    rw [this]
    exact Nat.mod_eq_of_lt hseq
  have h4 : 65536 * id + seq = 65536 * id ||| seq := by
    have := @Nat.mul_add_lt_is_or 16 seq (by norm_num; exact hseq) id
    norm_num at this
    exact this
  rw [h1, h2, h3, ← h4]

theorem bits32_wrapInt (n : Nat) (h : n < 4294967296) : bits32 (wrapInt (n : Int)) = n := by
  unfold bits32 wrapInt
  omega

theorem and_ffff (n : Nat) : n &&& 0xFFFF = n % 65536 := by
  have := Nat.and_pow_two_sub_one_eq_mod n 16
  norm_num at this
  exact this

/-- C18 (counterexample): with 1 producer and 65536 items per producer, the item of the
last iteration decodes to sequence number 0; with 65537 producers, the first item of the
last producer decodes to producer 0. -/
theorem decode_fails_beyond_16_bits :
    item_seq (produce_item 0 65536) = 0 ∧ item_producer (produce_item 65536 1) = 0 := by
  decide

/-- C18 (amended): Counted program.  For every producer id below 65536 and every sequence
number below 65536, `item_producer(produce_item(id, seq)) = id` and
`item_seq(produce_item(id, seq)) = seq`. -/
theorem decode_encode_16_bits (id seq : Nat) (hid : id < 65536) (hseq : seq < 65536) :
    item_producer (produce_item id seq) = id ∧ item_seq (produce_item id seq) = seq := by
  rw [produce_item_eq id seq hid hseq]
  constructor
  · unfold item_producer
    rw [and_ffff, Int.shiftRight_eq_div_pow]
    unfold bits32 wrapInt
    norm_num
    omega
  · unfold item_seq
    rw [and_ffff, bits32_wrapInt _ (by omega)]
    have : (65536 * id + seq) % 65536 = seq := by omega
    rw [this]

/-- C18 (amended) at producer 40000 (bit 31 of the item is set), sequence number 65535. -/
theorem decode_encode_16_bits_witness :
    item_producer (produce_item 40000 65535) = 40000 ∧
      item_seq (produce_item 40000 65535) = 65535 :=
  decode_encode_16_bits 40000 65535 (by decide) (by decide)

/-- C19 (counterexample): with 1 producer and 100000 items per producer, the item of the
last iteration is reported as producer 1, sequence number 0; with 21476 producers the first
item of the last producer does not fit in `int` and is reported with negative numbers. -/
theorem report_fails_beyond_base :
    reported_prod (sentinel_item 0 100000) = 1 ∧ reported_seq (sentinel_item 0 100000) = 0 ∧
      reported_prod (sentinel_item 21475 1) = -21474 ∧
      reported_seq (sentinel_item 21475 1) = -67295 := by
  decide

/-- C19 (amended): Sentinel program.  For every producer id and every sequence number
`i <= 99999` with `id * 100000 + i <= INT_MAX`, the item `it = (int)(id * 100000 + i)`
satisfies `it / 100000 = id` and `it % 100000 = i`. -/
theorem report_decodes (id i : Nat) (hi : i ≤ 99999)
    (hfit : (id : Int) * 100000 + (i : Int) ≤ 2147483647) :
    reported_prod (sentinel_item id i) = id ∧ reported_seq (sentinel_item id i) = i := by
  unfold reported_prod reported_seq sentinel_item
  have h0 : (0 : Int) ≤ (id : Int) * 100000 + (i : Int) := by omega
  rw [wrapInt_eq (by omega) hfit, Int.tdiv_eq_ediv h0 (by norm_num),
    Int.tmod_eq_emod h0 (by norm_num)]
  omega

/-- C19 (amended) at the largest producer id that fits, with sequence number 99999. -/
theorem report_decodes_witness :
    reported_prod (sentinel_item 21473 99999) = 21473 ∧
      reported_seq (sentinel_item 21473 99999) = 99999 :=
  report_decodes 21473 99999 (by decide) (by decide)

theorem wrap_run :
    run .counted wrapCfg (initState .counted wrapCfg) wrapSchedule = some wrapState := by
  decide

theorem wrap_stuck (t : Tid) : step .counted wrapCfg wrapState t = none := by
  cases t with
  | producer id =>
    match id with
    | 0 => rfl
    | 1 => rfl
    | 2 => rfl
    | _ + 3 => rfl
  | consumer id =>
    match id with
    | 0 => rfl
    | 1 => rfl
    | _ + 2 => rfl
  | main => rfl

/-- C16 (refuted on the code): with `producers_count = 3` and `items_per_producer =
1431655766`, two positive `int` values that pass validation, the `int` product wraps:
`total_items` is 2 while the product is 4294967298.  In the run `wrapSchedule` both
consumers then return after two items, and the state reached has no enabled step although
no producer has returned. -/
theorem total_items_wraps :
    wrapCfg.Valid ∧ (wrapCfg.producers_count : Int) ≤ 2147483647 ∧
      (wrapCfg.items_per_producer : Int) ≤ 2147483647 ∧
      total_items wrapCfg = 2 ∧
      (wrapCfg.producers_count : Int) * (wrapCfg.items_per_producer : Int) = 4294967298 ∧
      Reachable .counted wrapCfg wrapState ∧
      wrapState.consumers = [⟨.done, 2⟩, ⟨.done, 0⟩] ∧
      wrapState.producers = [⟨.wait, 4⟩, ⟨.wait, 1⟩, ⟨.wait, 1⟩] ∧
      ∀ t, step .counted wrapCfg wrapState t = none :=
  ⟨by simp [Config.Valid, wrapCfg], by decide, by decide, by decide, by decide,
    reachable_run Reachable.init wrapSchedule wrap_run, rfl, rfl, wrap_stuck⟩

/-- Where the sentinel is safe: when `(producers_count - 1) * 100000 + items_per_producer`
fits in `int`, every item is positive. -/
theorem noSentinel_of_fits (cfg : Config)
    (h : ((cfg.producers_count : Int) - 1) * 100000 + (cfg.items_per_producer : Int)
      ≤ 2147483647) : NoSentinelItem cfg := by
  intro id i hid h1 hi
  unfold sentinel_item
  have hle : (id : Int) * 100000 + (i : Int) ≤ 2147483647 := by
    have : (id : Int) ≤ (cfg.producers_count : Int) - 1 := by omega
    have : (i : Int) ≤ (cfg.items_per_producer : Int) := by omega
    omega
  rw [wrapInt_eq (by omega) hle]
  omega

/-- C17 (refuted on the code): with `producers_count = 42950` and `items_per_producer =
67295`, producer 42949 builds the item `-1` in its last iteration
(`42949 * 100000 + 67295 = 2^32 - 1`), and a consumer that has dequeued this item leaves
its loop at the `it == -1` test. -/
theorem data_item_equals_sentinel :
    (42949 : Nat) < 42950 ∧ sentinel_item 42949 67295 = -1 ∧
      ¬ NoSentinelItem ⟨42950, 1, 1, 67295, fun _ => 0⟩ ∧
      ∀ (s : State) (j : Nat), s.consumers[j]? = some ⟨.checkPill, sentinel_item 42949 67295⟩ →
        ∃ s1, consumer_sentinel s j = some s1 ∧
          s1.consumers[j]? = some ⟨.done, sentinel_item 42949 67295⟩ := by
  have h1 : sentinel_item 42949 67295 = -1 := by decide
  refine ⟨by decide, h1, ?_, ?_⟩
  · intro hno
    exact hno 42949 67295 (by decide) (by decide) (by decide) h1
  · intro s j hc
    have hlt : j < s.consumers.length := (List.getElem?_eq_some_iff.mp hc).1
    rw [h1] at hc ⊢
    simp [consumer_sentinel, hc, hlt]

/-! ## Consumers that have returned -/

theorem consumerDone_any_step {prog cfg s s1} (t : Tid) (hs : step prog cfg s t = some s1)
    (c : Nat) (hd : consumerDone s c = true) : t ≠ .consumer c ∧ consumerDone s1 c = true := by
  cases t with
  | producer id =>
    refine ⟨by simp, ?_⟩
    rw [consumerDone_congr (producer_frame hs).1]; exact hd
  | consumer id =>
    have h1 := consumer_others hs
    refine ⟨?_, consumerDone_step hs c hd⟩
    intro e
    cases e
    rw [h1.1] at hd
    cases hd
  | main =>
    refine ⟨by simp, ?_⟩
    rw [consumerDone_congr (@main_frame prog cfg _ _ hs).2.1]; exact hd

/-- The statements from which a consumer returns: in `src/prodcons.c` the unlock that
follows a successful first check and the `sem_post(&full)` that ends the rollback after a
successful second check, each followed by `break`; in `src/prodcons_sem.c` the test
`it == -1` on a dequeued `-1`. -/
theorem consumer_return_points {prog cfg s s1} (t : Tid) (hs : step prog cfg s t = some s1)
    (c : Nat) (h0 : consumerDone s c = false) (h1 : consumerDone s1 c = true) :
    t = .consumer c ∧ ∃ l, s.consumers[c]? = some l ∧
      match prog with
      | .counted => l.pc = .unlockBrk ∨ l.pc = .rbPost
      | .sentinel => l.pc = .checkPill ∧ l.it = -1 := by
  cases t with
  | producer id =>
    rw [consumerDone_congr (producer_frame hs).1, h0] at h1; cases h1
  | main =>
    rw [consumerDone_congr (@main_frame prog cfg _ _ hs).2.1, h0] at h1; cases h1
  | consumer id =>
    have ho := (consumer_others hs).2
    by_cases e : c = id
    · subst e
      refine ⟨rfl, ?_⟩
      cases prog
      · simp only [step, consumer] at hs
        unfold consumer_counted at hs
        cases hp : s.consumers[c]? with
        | none => simp [hp] at hs
        | some l =>
          have hlt : c < s.consumers.length := (List.getElem?_eq_some_iff.mp hp).1
          simp only [hp] at hs
          rcases l with ⟨pc, it⟩
          cases pc <;> simp only [] at hs <;> (try split_ifs at hs with hcond) <;>
            simp at hs <;> subst hs <;> simp [consumerDone, hlt] at h1 ⊢
      · simp only [step, consumer] at hs
        unfold consumer_sentinel at hs
        cases hp : s.consumers[c]? with
        | none => simp [hp] at hs
        | some l =>
          have hlt : c < s.consumers.length := (List.getElem?_eq_some_iff.mp hp).1
          simp only [hp] at hs
          rcases l with ⟨pc, it⟩
          cases pc <;> simp only [] at hs <;> (try split_ifs at hs with hcond) <;>
            simp at hs <;> subst hs <;> simp [consumerDone, hlt] at h1 ⊢
          exact hcond
    · unfold consumerDone at h0 h1
      rw [ho c e, h0] at h1; cases h1

/-- C21: in both programs, from a state in which consumer `c` has returned, no step of the
relation is a step of `c`: its own step is disabled, and in every run from that state `c`
does not occur and is still returned at the end.  So `c` makes no further `buffer_get`,
semaphore call or change of `consumed_count`. -/
theorem returned_consumer_takes_no_step (prog : Program) (cfg : Config) (s : State) (c : Nat)
    (hd : consumerDone s c = true) :
    step prog cfg s (.consumer c) = none ∧
      ∀ (sched : List Tid) (s1 : State), run prog cfg s sched = some s1 →
        Tid.consumer c ∉ sched ∧ consumerDone s1 c = true := by
  constructor
  · cases h : step prog cfg s (.consumer c) with
    | none => rfl
    | some s1 => exact absurd rfl (consumerDone_any_step _ h c hd).1
  · intro sched
    induction sched generalizing s with
    | nil =>
      intro s1 h
      simp [run] at h
      subst h
      exact ⟨by simp, hd⟩
    | cons t ts ih =>
      intro s1 h
      simp only [run] at h
      cases hst : step prog cfg s t with
      | none => simp [hst] at h
      | some s2 =>
        simp only [hst] at h
        obtain ⟨hne, hd2⟩ := consumerDone_any_step t hst c hd
        obtain ⟨h3, h4⟩ := ih s2 hd2 s1 h
        refine ⟨?_, h4⟩
        simp only [List.mem_cons, not_or]
        exact ⟨fun e => hne e.symm, h3⟩

/-- C21 on the full run of the Sentinel program with `smallCfg`: at its end consumer 0 has
returned and has no step. -/
theorem returned_consumer_takes_no_step_witness :
    consumerDone finalState 0 = true ∧ step .sentinel smallCfg finalState (.consumer 0) = none :=
  ⟨by decide, (returned_consumer_takes_no_step .sentinel smallCfg finalState 0 (by decide)).1⟩

/-! ## Shortest Seek Time First -/

theorem seek_dist_eq {a b : Int} (h : |a - b| ≤ 2147483647) : seek_dist a b = |a - b| := by
  unfold seek_dist
  have h1 := abs_le.mp h
  simp only []
  rw [wrapInt_eq (by omega) (by omega)]
  split_ifs with hneg
  · rw [wrapInt_eq (by omega) (by omega), abs_of_neg hneg]
  · rw [abs_of_nonneg (by omega)]

/-- What `(best_idx, best_dist)` holds after the iterations `0 .. k-1` of `find_nearest`,
when every unserved request is at a distance below `INT_MAX` from the head. -/
theorem find_nearest_fold (requests served : List Int) (head : Int) (k : Nat)
    (hr : ∀ i < k, served.getD i 0 = 0 → |requests.getD i 0 - head| < 2147483647) :
    let st := (List.range k).foldl (find_nearest_body requests served head) (-1, INT_MAX)
    ((∀ i < k, served.getD i 0 ≠ 0) ∧ st = (-1, INT_MAX)) ∨
      ∃ b < k, st = ((b : Int), |requests.getD b 0 - head|) ∧ served.getD b 0 = 0 ∧
        ∀ j < k, served.getD j 0 = 0 →
          |requests.getD b 0 - head| ≤ |requests.getD j 0 - head| ∧
            (|requests.getD j 0 - head| = |requests.getD b 0 - head| →
              requests.getD b 0 ≤ requests.getD j 0) := by
  induction k with
  | zero => left; simp
  | succ k ih =>
    have ih1 := ih (fun i hi => hr i (by omega))
    simp only [List.range_succ, List.foldl_append, List.foldl_cons, List.foldl_nil] at ih1 ⊢
    by_cases hs : served.getD k 0 = 0
    · have hd := hr k (by omega) hs
      have hsd : seek_dist (requests.getD k 0) head = |requests.getD k 0 - head| :=
        seek_dist_eq (by omega)
      right
      rcases ih1 with ⟨hall, hst⟩ | ⟨b, hb, hst, hbs, hmin⟩
      · refine ⟨k, by omega, ?_, hs, ?_⟩
        · rw [hst]
          simp only [find_nearest_body, hs, ne_eq, not_true_eq_false, if_false, hsd, INT_MAX]
          rw [if_pos hd]
        · intro j hj hjs
          have : j = k := by
            by_contra hne
            exact hall j (by omega) hjs
          subst this
          exact ⟨le_refl _, fun _ => le_refl _⟩
      · rw [hst]
        simp only [find_nearest_body, hs, ne_eq, not_true_eq_false, if_false, hsd]
        by_cases hlt : |requests.getD k 0 - head| < |requests.getD b 0 - head|
        · rw [if_pos hlt]
          refine ⟨k, by omega, rfl, hs, ?_⟩
          intro j hj hjs
          by_cases hjk : j = k
          · subst hjk; exact ⟨le_refl _, fun _ => le_refl _⟩
          · have := hmin j (by omega) hjs
            exact ⟨by omega, fun e => by omega⟩
        · rw [if_neg hlt]
          by_cases heq : |requests.getD k 0 - head| = |requests.getD b 0 - head|
          · rw [if_pos heq]
            have hb1 : ((b : Int) = -1) = False := by
              apply eq_false; omega
            simp only [hb1, not_false_eq_true, true_and, Int.toNat_ofNat]
            by_cases hsm : requests.getD k 0 < requests.getD b 0
            · rw [if_pos hsm]
              refine ⟨k, by omega, by rw [heq], hs, ?_⟩
              intro j hj hjs
              by_cases hjk : j = k
              · subst hjk; exact ⟨le_refl _, fun _ => le_refl _⟩
              · have := hmin j (by omega) hjs
                exact ⟨by omega, fun e => by have := this.2 (by omega); omega⟩
            · rw [if_neg hsm]
              refine ⟨b, by omega, rfl, hbs, ?_⟩
              intro j hj hjs
              by_cases hjk : j = k
              · subst hjk; exact ⟨by omega, fun _ => by omega⟩
              · exact hmin j (by omega) hjs
          · rw [if_neg heq]
            refine ⟨b, by omega, rfl, hbs, ?_⟩
            intro j hj hjs
            by_cases hjk : j = k
            · subst hjk; exact ⟨by omega, fun e => absurd e heq⟩
            · exact hmin j (by omega) hjs
    · have hstep : ∀ st, find_nearest_body requests served head st k = st := by
        intro st; simp only [find_nearest_body, ne_eq, hs, not_false_eq_true, if_true]
      rw [hstep]
      rcases ih1 with ⟨hall, hst⟩ | ⟨b, hb, hst, hbs, hmin⟩
      · left
        refine ⟨?_, hst⟩
        intro i hi
        by_cases hik : i = k
        · subst hik; exact hs
        · exact hall i (by omega)
      · right
        refine ⟨b, by omega, hst, hbs, ?_⟩
        intro j hj hjs
        by_cases hjk : j = k
        · subst hjk; exact absurd hjs hs
        · exact hmin j (by omega) hjs

/-- Where `find_nearest` is right: when every unserved request is at a distance below
`INT_MAX` from the head and some request is unserved, the result is the index of an unserved
request at minimum distance, with the smallest cylinder among those at that distance. -/
theorem find_nearest_spec (requests served : List Int) (n : Nat) (head : Int)
    (hr : ∀ i < n, served.getD i 0 = 0 → |requests.getD i 0 - head| < 2147483647)
    (hu : ∃ i < n, served.getD i 0 = 0) :
    ∃ b < n, find_nearest requests served n head = (b : Int) ∧ served.getD b 0 = 0 ∧
      ∀ j < n, served.getD j 0 = 0 →
        |requests.getD b 0 - head| ≤ |requests.getD j 0 - head| ∧
          (|requests.getD j 0 - head| = |requests.getD b 0 - head| →
            requests.getD b 0 ≤ requests.getD j 0) := by
  obtain ⟨i, hi, his⟩ := hu
  rcases find_nearest_fold requests served head n hr with ⟨hall, _⟩ | ⟨b, hb, hst, hbs, hmin⟩
  · exact absurd his (hall i hi)
  · exact ⟨b, hb, by unfold find_nearest; rw [hst], hbs, hmin⟩

/-- With every request served `find_nearest` returns `-1`. -/
theorem find_nearest_all_served (requests served : List Int) (n : Nat) (head : Int)
    (hall : ∀ i < n, served.getD i 0 ≠ 0) : find_nearest requests served n head = -1 := by
  unfold find_nearest
  have : ∀ k ≤ n, (List.range k).foldl (find_nearest_body requests served head) (-1, INT_MAX)
      = (-1, INT_MAX) := by
    intro k
    induction k with
    | zero => intro _; rfl
    | succ k ih =>
      intro hk
      simp only [List.range_succ, List.foldl_append, List.foldl_cons, List.foldl_nil]
      rw [ih (by omega)]
      have hk1 : ¬ served.getD k 0 = 0 := hall k (by omega)
      simp only [find_nearest_body, ne_eq, hk1, not_false_eq_true, if_true]
  rw [this n (le_refl n)]

/-- The invariant of the service loop: the flags in `served` are those of the indices in
`sequence`, which are distinct and below `n`. -/
theorem sstf_loop_spec (requests : List Int) (n : Nat)
    (hp : ∀ i < n, ∀ j < n, |requests.getD i 0 - requests.getD j 0| < 2147483647) :
    ∀ (fuel : Nat) (st : SstfState), n - st.sequence.length ≤ fuel →
      st.served.length = n →
      (∀ i < n, st.served.getD i 0 ≠ 0 ↔ (i : Int) ∈ st.sequence) →
      st.sequence.Nodup →
      (∀ x ∈ st.sequence, ∃ i < n, x = (i : Int)) →
      (∀ i < n, |requests.getD i 0 - st.cur| < 2147483647) →
      ∃ ext, (sstf_loop requests n fuel st).sequence = st.sequence ++ ext ∧
        (sstf_loop requests n fuel st).sequence.length = n ∧
        (sstf_loop requests n fuel st).sequence.Nodup ∧
        (∀ x ∈ (sstf_loop requests n fuel st).sequence, ∃ i < n, x = (i : Int)) ∧
        (sstf_loop requests n fuel st).total_seek
          = st.total_seek + seek_sum requests st.cur ext := by
  intro fuel
  induction fuel with
  | zero =>
    intro st hf hlen hflag hnd hrange hcur
    have hle : st.sequence.length ≤ n := by
      have hsub : st.sequence ⊆ (List.range n).map (fun (i : Nat) => (i : Int)) := by
        intro x hx
        obtain ⟨i, hi, e⟩ := hrange x hx
        exact List.mem_map.mpr ⟨i, List.mem_range.mpr hi, e.symm⟩
      have := (List.subperm_of_subset hnd hsub).length_le
      simpa using this
    exact ⟨[], by simp [sstf_loop], by simp only [sstf_loop]; omega, hnd, hrange,
      by simp [sstf_loop, seek_sum]⟩
  | succ fuel ih =>
    intro st hf hlen hflag hnd hrange hcur
    have hle : st.sequence.length ≤ n := by
      have hsub : st.sequence ⊆ (List.range n).map (fun (i : Nat) => (i : Int)) := by
        intro x hx
        obtain ⟨i, hi, e⟩ := hrange x hx
        exact List.mem_map.mpr ⟨i, List.mem_range.mpr hi, e.symm⟩
      have := (List.subperm_of_subset hnd hsub).length_le
      simpa using this
    by_cases hlt : st.sequence.length < n
    · have hu : ∃ i < n, st.served.getD i 0 = 0 := by
        by_contra hno
        push_neg at hno
        have hsub : (List.range n).map (fun (i : Nat) => (i : Int)) ⊆ st.sequence := by
          intro x hx
          obtain ⟨i, hi, e⟩ := List.mem_map.mp hx
          rw [← e]
          exact (hflag i (List.mem_range.mp hi)).mp (hno i (List.mem_range.mp hi))
        have hnd2 : ((List.range n).map (fun (i : Nat) => (i : Int))).Nodup :=
          (List.nodup_range n).map (fun a b e => by simpa using e)
        have := (List.subperm_of_subset hnd2 hsub).length_le
        simp at this
        omega
      obtain ⟨b, hb, hfn, hbs, -⟩ := find_nearest_spec requests st.served n st.cur
        (fun i hi _ => hcur i hi) hu
      have hbnot : (b : Int) ∉ st.sequence := fun hm => (hflag b hb).mpr hm hbs
      have hne : ((b : Int) = -1) = False := by apply eq_false; omega
      simp only [sstf_loop, hlt, if_true, hfn, hne, if_false, Int.toNat_ofNat]
      have hsd : seek_dist (requests.getD b 0) st.cur = |requests.getD b 0 - st.cur| :=
        seek_dist_eq (by have := hcur b hb; omega)
      obtain ⟨ext, e1, e2, e3, e4, e5⟩ := ih
        { served := st.served.set b 1
          sequence := st.sequence ++ [(b : Int)]
          total_seek := st.total_seek + seek_dist (requests.getD b 0) st.cur
          cur := requests.getD b 0 }
        (by simp only [List.length_append, List.length_singleton]; omega)
        (by simp [hlen])
        (by
          intro i hi
          simp only [List.mem_append, List.mem_singleton]
          by_cases hib : i = b
          · subst hib
            simp [List.getD_eq_getElem?_getD, hlen, hi]
          · have h1 : (st.served.set b 1).getD i 0 = st.served.getD i 0 := by
              simp [List.getD_eq_getElem?_getD, List.getElem?_set_ne (Ne.symm hib)]
            rw [h1, hflag i hi]
            constructor
            · intro h; exact Or.inl h
            · rintro (h | h)
              · exact h
              · exact absurd (by exact_mod_cast h) hib)
        (by
          rw [List.nodup_append]
          refine ⟨hnd, by simp, ?_⟩
          intro x hx hy
          simp only [List.mem_singleton] at hy
          subst hy
          exact hbnot hx)
        (by
          intro x hx
          simp only [List.mem_append, List.mem_singleton] at hx
          rcases hx with hx | hx
          · exact hrange x hx
          · exact ⟨b, hb, hx⟩)
        (by intro i hi; exact hp i hi b hb)
      simp only at e1 e2 e3 e4 e5
      refine ⟨(b : Int) :: ext, ?_, e2, e3, e4, ?_⟩
      · rw [e1]; simp
      · rw [e5, hsd]
        simp only [seek_sum, Int.toNat_ofNat]
        ring
    · have hn : st.sequence.length = n := by omega
      exact ⟨[], by simp [sstf_loop, hlt], by simp only [sstf_loop, hlt, if_false]; exact hn,
        by simp only [sstf_loop, hlt, if_false]; exact hnd,
        by simp only [sstf_loop, hlt, if_false]; exact hrange,
        by simp [sstf_loop, hlt, seek_sum]⟩

/-- Where the service loop is right: when the head and the requests are pairwise at
distances below `INT_MAX`, the loop ends with `seq_len = n`, the recorded sequence is a
permutation of `0 .. n-1`, and `total_seek` is the sum of the distances moved. -/
theorem sstf_service_spec (requests : List Int) (head : Int)
    (hh : ∀ i < requests.length, |requests.getD i 0 - head| < 2147483647)
    (hp : ∀ i < requests.length, ∀ j < requests.length,
      |requests.getD i 0 - requests.getD j 0| < 2147483647) :
    (sstf_service requests head).sequence.length = requests.length ∧
      (sstf_service requests head).sequence.Perm
        ((List.range requests.length).map (fun (i : Nat) => (i : Int))) ∧
      (sstf_service requests head).total_seek
        = seek_sum requests head (sstf_service requests head).sequence := by
  obtain ⟨ext, e1, e2, e3, e4, e5⟩ := sstf_loop_spec requests requests.length hp
    requests.length
    { served := List.replicate requests.length 0, sequence := [], total_seek := 0, cur := head }
    (by simp) (by simp)
    (by
      intro i hi
      simp [List.getD_eq_getElem?_getD, List.getElem?_replicate, hi])
    (by simp) (by simp) hh
  simp only [List.nil_append, zero_add] at e1 e5
  refine ⟨e2, ?_, ?_⟩
  · have hsub : (sstf_service requests head).sequence
        ⊆ (List.range requests.length).map (fun (i : Nat) => (i : Int)) := by
      intro x hx
      obtain ⟨i, hi, e⟩ := e4 x hx
      exact List.mem_map.mpr ⟨i, List.mem_range.mpr hi, e.symm⟩
    exact (List.subperm_of_subset e3 hsub).perm_of_length_le (by
      rw [List.length_map, List.length_range]; exact le_of_eq e2.symm)
  · unfold sstf_service
    rw [e5, e1]

/-- C22 (refuted on the code): with head 0 and the single unserved request `INT_MAX`, whose
distance is `INT_MAX`, `find_nearest` returns `-1` although a request is unserved. -/
theorem find_nearest_misses_far_request :
    find_nearest [2147483647] [0] 1 0 = -1 ∧ ([0] : List Int).getD 0 0 = 0 ∧
      seek_dist 2147483647 0 = INT_MAX := by
  decide

/-- C23 (refuted on the code): with `n = 1`, head 0 and the request `INT_MAX` the service
loop ends with `seq_len = 0` and `total_seek = 0`: the request is not serviced. -/
theorem sstf_leaves_request_unserved :
    (sstf_service [2147483647] 0).sequence = [] ∧ (sstf_service [2147483647] 0).total_seek = 0 ∧
      (sstf_service [2147483647] 0).served = [0] := by
  decide

/-! ## Banker's algorithm -/

theorem wrapInt_le_self {x : Int} (h : -2147483648 ≤ x) : wrapInt x ≤ x := by
  unfold wrapInt; omega

theorem need_entry_nonneg (max alloc : List (List Int)) (i j : Nat) :
    0 ≤ need_entry max alloc i j := by
  unfold need_entry
  simp only []
  split_ifs <;> omega

theorem can_finish_iff (max alloc : List (List Int)) (m : Nat) (work : List Int) (i : Nat) :
    can_finish max alloc m work i = true ↔
      ∀ j < m, need_entry max alloc i j ≤ work.getD j 0 := by
  simp [can_finish]

/-- An invariant of the states of the safety algorithm is one that holds after every
admission of an unfinished process that can be satisfied. -/
theorem banker_pass_induction (max alloc : List (List Int)) (n m : Nat)
    (P : BankerState → Prop)
    (hstep : ∀ st i, P st → i < n → st.finish.getD i 0 = 0 →
      can_finish max alloc m st.work i = true → P (banker_grant alloc m st i))
    (st : BankerState) (h : P st) (k : Nat) (hk : k ≤ n) :
    P ((List.range k).foldl (banker_visit max alloc m) (st, false)).1 := by
  induction k with
  | zero => simpa using h
  | succ k ih =>
    have ih1 := ih (by omega)
    simp only [List.range_succ, List.foldl_append, List.foldl_cons, List.foldl_nil]
    unfold banker_visit
    split_ifs with h1 h2
    · exact ih1
    · exact hstep _ k ih1 (by omega) (by simpa using h1) h2
    · exact ih1

theorem banker_loop_induction (max alloc : List (List Int)) (n m : Nat)
    (P : BankerState → Prop)
    (hstep : ∀ st i, P st → i < n → st.finish.getD i 0 = 0 →
      can_finish max alloc m st.work i = true → P (banker_grant alloc m st i)) :
    ∀ (fuel : Nat) (st st1 : BankerState), P st →
      banker_loop max alloc n m fuel st = some st1 → P st1 := by
  intro fuel
  induction fuel with
  | zero =>
    intro st st1 h hl
    unfold banker_loop at hl
    split_ifs at hl with h1
    simp at hl; subst hl; exact h
  | succ fuel ih =>
    intro st st1 h hl
    unfold banker_loop at hl
    have hp : P (banker_pass max alloc n m st).1 :=
      banker_pass_induction max alloc n m P hstep st h n (le_refl n)
    split_ifs at hl with h1 h2
    · exact ih _ st1 hp hl
    · simp at hl; subst hl; exact hp
    · simp at hl; subst hl; exact h

theorem getD_map_range (m : Nat) (f : Nat → Int) (j : Nat) (hj : j < m) :
    ((List.range m).map f).getD j 0 = f j := by
  simp [List.getD_eq_getElem?_getD, hj]

theorem bankerBase_grant {n : Nat} {st : BankerState} (alloc : List (List Int)) (m : Nat)
    (h : BankerBase n st) (i : Nat) (hi : i < n) (hf : st.finish.getD i 0 = 0) :
    i ∉ st.safe_seq ∧ BankerBase n (banker_grant alloc m st i) := by
  have hnot : i ∉ st.safe_seq := fun hm => (h.flag i hi).mpr hm hf
  refine ⟨hnot, ?_⟩
  constructor
  · simp [banker_grant, h.flen]
  · intro x hx
    simp only [banker_grant, List.mem_append, List.mem_singleton]
    by_cases hxi : x = i
    · subst hxi
      simp [List.getD_eq_getElem?_getD, h.flen, hx]
    · have h1 : (st.finish.set i 1).getD x 0 = st.finish.getD x 0 := by
        simp [List.getD_eq_getElem?_getD, List.getElem?_set_ne (Ne.symm hxi)]
      rw [h1, h.flag x hx]
      simp [hxi]
  · simp only [banker_grant]
    rw [List.nodup_append]
    refine ⟨h.nodup, by simp, ?_⟩
    intro x hx hy
    simp only [List.mem_singleton] at hy
    subst hy
    exact hnot hx
  · intro x hx
    simp only [banker_grant, List.mem_append, List.mem_singleton] at hx
    rcases hx with hx | hx
    · exact h.bound x hx
    · omega

theorem bankerBase_count_le {n : Nat} {st : BankerState} (h : BankerBase n st) :
    st.safe_seq.length ≤ n := by
  have hsub : st.safe_seq ⊆ List.range n := fun x hx => List.mem_range.mpr (h.bound x hx)
  have := (List.subperm_of_subset h.nodup hsub).length_le
  simpa using this

theorem bankerBase_perm {n : Nat} {st : BankerState} (h : BankerBase n st)
    (hc : st.safe_seq.length = n) : st.safe_seq.Perm (List.range n) := by
  have hsub : st.safe_seq ⊆ List.range n := fun x hx => List.mem_range.mpr (h.bound x hx)
  exact (List.subperm_of_subset h.nodup hsub).perm_of_length_le (by simp [hc])

theorem released_append (alloc : List (List Int)) (avail : List Int) (j : Nat)
    (done : List Nat) (i : Nat) :
    released alloc avail j (done ++ [i])
      = released alloc avail j done + (alloc.getD i []).getD j 0 := by
  simp [released]; ring

theorem bankerSound_grant {max alloc : List (List Int)} {avail : List Int} {n m : Nat}
    (hint : ∀ i < n, ∀ j < m, IsInt ((alloc.getD i []).getD j 0))
    (st : BankerState) (i : Nat) (h : BankerSound max alloc avail n m st) (hi : i < n)
    (hf : st.finish.getD i 0 = 0) (hc : can_finish max alloc m st.work i = true) :
    BankerSound max alloc avail n m (banker_grant alloc m st i) := by
  have hcf := (can_finish_iff max alloc m st.work i).mp hc
  obtain ⟨_, hb⟩ := bankerBase_grant alloc m h.base i hi hf
  refine ⟨hb, ?_, ?_⟩
  · intro j hj
    simp only [banker_grant]
    rw [getD_map_range m _ j hj, released_append]
    have h1 := hcf j hj
    have h2 := need_entry_nonneg max alloc i j
    have h3 := (hint i hi j hj).1
    have h4 := h.work_le j hj
    have h5 := @wrapInt_le_self (st.work.getD j 0 + (alloc.getD i []).getD j 0) (by omega)
    omega
  · intro k hk j hj
    simp only [banker_grant, List.length_append, List.length_singleton] at hk ⊢
    by_cases hkl : k < st.safe_seq.length
    · have e1 : (st.safe_seq ++ [i]).getD k 0 = st.safe_seq.getD k 0 := by
        simp [List.getD_eq_getElem?_getD, List.getElem?_append_left hkl]
      have e2 : (st.safe_seq ++ [i]).take k = st.safe_seq.take k := by
        rw [List.take_append_of_le_length (by omega)]
      rw [e1, e2]
      exact h.safe k hkl j hj
    · have hke : k = st.safe_seq.length := by omega
      have e1 : (st.safe_seq ++ [i]).getD k 0 = i := by
        simp [List.getD_eq_getElem?_getD, hke]
      have e2 : (st.safe_seq ++ [i]).take k = st.safe_seq := by
        rw [hke]; simp
      rw [e1, e2]
      exact le_trans (hcf j hj) (h.work_le j hj)

/-- A pass of the loop over `i`: `count` does not decrease, it grows when `found` is set, and
with `found` not set nothing has changed and no unfinished process can be satisfied. -/
theorem banker_pass_found (max alloc : List (List Int)) (m : Nat) (st : BankerState)
    (k : Nat) :
    let r := (List.range k).foldl (banker_visit max alloc m) (st, false)
    st.safe_seq.length ≤ r.1.safe_seq.length ∧
      (r.2 = true → st.safe_seq.length < r.1.safe_seq.length) ∧
      (r.2 = false → r.1 = st ∧
        ∀ i < k, st.finish.getD i 0 = 0 → can_finish max alloc m st.work i = false) := by
  induction k with
  | zero => simp
  | succ k ih =>
    simp only [List.range_succ, List.foldl_append, List.foldl_cons, List.foldl_nil] at ih ⊢
    generalize (List.range k).foldl (banker_visit max alloc m) (st, false) = r at ih ⊢
    obtain ⟨h1, h2, h3⟩ := ih
    unfold banker_visit
    split_ifs with c1 c2
    · refine ⟨h1, h2, fun hf => ⟨(h3 hf).1, ?_⟩⟩
      intro i hi hfi
      by_cases hik : i = k
      · subst hik
        rw [(h3 hf).1] at c1
        exact absurd hfi c1
      · exact (h3 hf).2 i (by omega) hfi
    · refine ⟨?_, fun _ => ?_, fun hf => by simp at hf⟩ <;>
        simp only [banker_grant, List.length_append, List.length_singleton] <;> omega
    · refine ⟨h1, h2, fun hf => ⟨(h3 hf).1, ?_⟩⟩
      intro i hi hfi
      by_cases hik : i = k
      · subst hik
        rw [(h3 hf).1] at c2
        simpa using c2
      · exact (h3 hf).2 i (by omega) hfi

/-- The loop ends within `n` passes, and it ends with `count = n` or in a state in which no
unfinished process can be satisfied. -/
theorem banker_loop_total (max alloc : List (List Int)) (n m : Nat) :
    ∀ (fuel : Nat) (st : BankerState), BankerBase n st → n - st.safe_seq.length ≤ fuel →
      ∃ st1, banker_loop max alloc n m fuel st = some st1 ∧
        (st1.safe_seq.length = n ∨
          ∀ i < n, st1.finish.getD i 0 = 0 → can_finish max alloc m st1.work i = false) := by
  intro fuel
  induction fuel with
  | zero =>
    intro st hb hf
    have := bankerBase_count_le hb
    unfold banker_loop
    rw [if_neg (by omega)]
    exact ⟨st, rfl, Or.inl (by omega)⟩
  | succ fuel ih =>
    intro st hb hf
    have hle := bankerBase_count_le hb
    unfold banker_loop
    by_cases h1 : st.safe_seq.length < n
    · rw [if_pos h1]
      simp only []
      obtain ⟨p1, p2, p3⟩ := banker_pass_found max alloc m st n
      have hb1 : BankerBase n (banker_pass max alloc n m st).1 :=
        banker_pass_induction max alloc n m (BankerBase n)
          (fun st i h hi hfi _ => (bankerBase_grant alloc m h i hi hfi).2) st hb n (le_refl n)
      by_cases h2 : (banker_pass max alloc n m st).2 = true
      · rw [if_pos h2]
        have := p2 h2
        exact ih _ hb1 (by unfold banker_pass; omega)
      · rw [if_neg h2]
        have h2f : (banker_pass max alloc n m st).2 = false := by simpa using h2
        obtain ⟨e, hstuck⟩ := p3 h2f
        refine ⟨_, rfl, Or.inr ?_⟩
        unfold banker_pass
        rw [e]
        exact hstuck
    · rw [if_neg h1]
      exact ⟨st, rfl, Or.inl (by omega)⟩

theorem bankerBase_init (n m : Nat) (avail : List Int) :
    BankerBase n { work := (List.range m).map (fun j => avail.getD j 0)
                   finish := List.replicate n 0
                   safe_seq := [] } := by
  constructor
  · simp
  · intro i hi
    simp [List.getD_eq_getElem?_getD, List.getElem?_replicate, hi]
  · simp
  · simp

/-- The safety algorithm returns, for every input. -/
theorem banker_safety_total (n m : Nat) (alloc max : List (List Int)) (avail : List Int) :
    ∃ st, banker_safety n m alloc max avail = some st ∧ BankerBase n st ∧
      (st.safe_seq.length = n ∨
        ∀ i < n, st.finish.getD i 0 = 0 → can_finish max alloc m st.work i = false) := by
  obtain ⟨st, h1, h2⟩ := banker_loop_total max alloc n m n _ (bankerBase_init n m avail)
    (by simp)
  refine ⟨st, h1, ?_, h2⟩
  exact banker_loop_induction max alloc n m (BankerBase n)
    (fun st i h hi hfi _ => (bankerBase_grant alloc m h i hi hfi).2) n _ st
    (bankerBase_init n m avail) h1

/-- Whenever the program reports SAFE (`count == n`), `safe_seq` is a permutation of
`0 .. n-1`, and for every position `k` and every resource `j` the entry `need[safe_seq[k]][j]`
of the program is at most `avail[j]` plus the sum of `alloc[safe_seq[t]][j]` over `t < k`,
the sum taken in the integers (also when an addition of the program wraps). -/
theorem banker_program_sequence (n m : Nat) (alloc max : List (List Int))
    (avail : List Int) (hint : ∀ i < n, ∀ j < m, IsInt ((alloc.getD i []).getD j 0))
    (hsafe : banker_safe n m alloc max avail = some true) :
    ∃ st, banker_safety n m alloc max avail = some st ∧
      st.safe_seq.Perm (List.range n) ∧
      ∀ k < st.safe_seq.length, ∀ j < m,
        need_entry max alloc (st.safe_seq.getD k 0) j
          ≤ released alloc avail j (st.safe_seq.take k) := by
  obtain ⟨st, hrun, hb, -⟩ := banker_safety_total n m alloc max avail
  have hc : st.safe_seq.length = n := by
    simpa [banker_safe, hrun] using hsafe
  have hs : BankerSound max alloc avail n m st :=
    banker_loop_induction max alloc n m (BankerSound max alloc avail n m)
      (fun st i h hi hfi hcf => bankerSound_grant hint st i h hi hfi hcf) n _ st
      ⟨bankerBase_init n m avail,
        fun j hj => by
          show ((List.range m).map (fun j => avail.getD j 0)).getD j 0 ≤ _
          rw [getD_map_range m _ j hj]
          simp [released],
        fun k hk => by simp at hk⟩ hrun
  exact ⟨st, hrun, bankerBase_perm hb hc, hs.safe⟩

/-- The program's `need[i][j]` is at least `max(Max - Allocation, 0)` unless
`Max - Allocation` exceeds `INT_MAX`. -/
theorem spec_need_le_need_entry (max alloc : List (List Int)) (i j : Nat)
    (h : (max.getD i []).getD j 0 - (alloc.getD i []).getD j 0 ≤ 2147483647) :
    spec_need max alloc i j ≤ need_entry max alloc i j := by
  unfold spec_need need_entry wrapInt
  simp only []
  split_ifs <;> omega

/-- The program's `need[i][j]` is at most `max(Max - Allocation, 0)` unless
`Max - Allocation` is below `INT_MIN`. -/
theorem need_entry_le_spec_need (max alloc : List (List Int)) (i j : Nat)
    (h : -2147483648 ≤ (max.getD i []).getD j 0 - (alloc.getD i []).getD j 0) :
    need_entry max alloc i j ≤ spec_need max alloc i j := by
  unfold spec_need need_entry wrapInt
  simp only []
  split_ifs <;> omega

/-- Where the SAFE verdict is right: when no difference `Max - Allocation` exceeds `INT_MAX`
(as is the case when no allocation is negative), a SAFE verdict comes with a permutation of
`0 .. n-1` that is a safe sequence for `need = max(Max - Allocation, 0)`. -/
theorem banker_safe_sequence_of_fits (n m : Nat) (alloc max : List (List Int))
    (avail : List Int) (hint : ∀ i < n, ∀ j < m, IsInt ((alloc.getD i []).getD j 0))
    (hneed : ∀ i < n, ∀ j < m,
      (max.getD i []).getD j 0 - (alloc.getD i []).getD j 0 ≤ 2147483647)
    (hsafe : banker_safe n m alloc max avail = some true) :
    ∃ st, banker_safety n m alloc max avail = some st ∧
      st.safe_seq.Perm (List.range n) ∧ SafeSequence max alloc avail m st.safe_seq := by
  obtain ⟨st, hrun, hperm, hs⟩ := banker_program_sequence n m alloc max avail hint hsafe
  refine ⟨st, hrun, hperm, ?_⟩
  intro k hk j hj
  have hmem : st.safe_seq.getD k 0 ∈ st.safe_seq := by
    rw [List.getD_eq_getElem?_getD, List.getElem?_eq_getElem hk]
    exact List.getElem_mem hk
  have hlt : st.safe_seq.getD k 0 < n := List.mem_range.mp (hperm.subset hmem)
  exact le_trans (spec_need_le_need_entry max alloc _ j (hneed _ hlt j hj)) (hs k hk j hj)

theorem released_mono (alloc : List (List Int)) (avail : List Int) (n j : Nat)
    (hnn : ∀ i < n, 0 ≤ (alloc.getD i []).getD j 0) (l1 l2 : List Nat) (hn1 : l1.Nodup)
    (hsub : l1 ⊆ l2) (hb : ∀ x ∈ l2, x < n) :
    released alloc avail j l1 ≤ released alloc avail j l2 := by
  obtain ⟨l, hperm, hsl⟩ := List.subperm_of_subset hn1 hsub
  have e : (l1.map (fun t => (alloc.getD t []).getD j 0)).sum
      = (l.map (fun t => (alloc.getD t []).getD j 0)).sum :=
    ((hperm.map _).sum_eq).symm
  have hle : (l.map (fun t => (alloc.getD t []).getD j 0)).sum
      ≤ (l2.map (fun t => (alloc.getD t []).getD j 0)).sum := by
    apply List.Sublist.sum_le_sum (hsl.map _)
    intro a ha
    obtain ⟨t, ht, e⟩ := List.mem_map.mp ha
    rw [← e]
    exact hnn t (hb t ht)
  unfold released
  omega

theorem bankerExact_grant {alloc : List (List Int)} {avail : List Int} {n m : Nat}
    (hfit : BankerFits alloc avail n m) (st : BankerState) (i : Nat)
    (h : BankerExact alloc avail n m st) (hi : i < n) (hf : st.finish.getD i 0 = 0) :
    BankerExact alloc avail n m (banker_grant alloc m st i) := by
  obtain ⟨_, hb⟩ := bankerBase_grant alloc m h.base i hi hf
  refine ⟨hb, ?_⟩
  intro j hj
  have hle := released_mono alloc avail n j (fun i hi => hfit.1 i hi j hj)
    (banker_grant alloc m st i).safe_seq (List.range n) hb.nodup
    (fun x hx => List.mem_range.mpr (hb.bound x hx)) (fun x hx => List.mem_range.mp hx)
  have hge := released_mono alloc avail n j (fun i hi => hfit.1 i hi j hj)
    [] (banker_grant alloc m st i).safe_seq (by simp) (by simp) hb.bound
  have h0 : released alloc avail j [] = avail.getD j 0 := by simp [released]
  have h1 := (hfit.2 j hj)
  simp only [banker_grant] at hle hge ⊢
  rw [getD_map_range m _ j hj, released_append, h.work_eq j hj] at *
  exact wrapInt_eq (by omega) (by omega)

/-- In a list with an element outside `S` there is a first such element. -/
theorem first_outside (S : List Nat) :
    ∀ (l : List Nat), (∃ x ∈ l, x ∉ S) →
      ∃ k < l.length, l.getD k 0 ∉ S ∧ ∀ x ∈ l.take k, x ∈ S := by
  intro l
  induction l with
  | nil => rintro ⟨x, hx, _⟩; simp at hx
  | cons a l ih =>
    rintro ⟨x, hx, hxs⟩
    by_cases ha : a ∈ S
    · have hx2 : x ∈ l := by
        rcases List.mem_cons.mp hx with e | e
        · subst e; exact absurd ha hxs
        · exact e
      obtain ⟨k, hk, h1, h2⟩ := ih ⟨x, hx2, hxs⟩
      refine ⟨k + 1, by simp; omega, by simpa [List.getD_eq_getElem?_getD] using h1, ?_⟩
      intro y hy
      simp only [List.take_succ_cons, List.mem_cons] at hy
      rcases hy with e | e
      · subst e; exact ha
      · exact h2 y e
    · exact ⟨0, by simp, by simpa [List.getD_eq_getElem?_getD] using ha, by simp⟩

/-- Where the verdict is complete: on inputs on which no addition overflows and no
difference `Max - Allocation` is below `INT_MIN`, the program reports SAFE whenever some
ordering of all `n` processes is a safe sequence. -/
theorem banker_complete_of_fits (n m : Nat) (alloc max : List (List Int)) (avail : List Int)
    (hfit : BankerFits alloc avail n m)
    (hneed : ∀ i < n, ∀ j < m,
      -2147483648 ≤ (max.getD i []).getD j 0 - (alloc.getD i []).getD j 0)
    (seq : List Nat) (hperm : seq.Perm (List.range n))
    (hsafe : SafeSequence max alloc avail m seq) :
    banker_safe n m alloc max avail = some true := by
  obtain ⟨st, hrun, hb, hend⟩ := banker_safety_total n m alloc max avail
  have he : BankerExact alloc avail n m st :=
    banker_loop_induction max alloc n m (BankerExact alloc avail n m)
      (fun st i h hi hfi _ => bankerExact_grant hfit st i h hi hfi) n _ st
      ⟨bankerBase_init n m avail, fun j hj => by
        show ((List.range m).map (fun j => avail.getD j 0)).getD j 0 = _
        rw [getD_map_range m _ j hj]
        simp [released]⟩ hrun
  have hcount : st.safe_seq.length = n := by
    rcases hend with h | hstuck
    · exact h
    · by_contra hne
      have hlt : st.safe_seq.length < n := by
        have := bankerBase_count_le hb
        omega
      have hex : ∃ x ∈ seq, x ∉ st.safe_seq := by
        by_contra hno
        push_neg at hno
        have hsub : List.range n ⊆ st.safe_seq := fun x hx => hno x (hperm.symm.subset hx)
        have := (List.subperm_of_subset (List.nodup_range n) hsub).length_le
        simp at this
        omega
      obtain ⟨k, hk, hout, hin⟩ := first_outside st.safe_seq seq hex
      have hmem : seq.getD k 0 ∈ seq := by
        rw [List.getD_eq_getElem?_getD, List.getElem?_eq_getElem hk]
        exact List.getElem_mem hk
      have hpn : seq.getD k 0 < n := List.mem_range.mp (hperm.subset hmem)
      have hfin : st.finish.getD (seq.getD k 0) 0 = 0 := by
        by_contra hf
        exact hout ((hb.flag _ hpn).mp hf)
      have hcan : can_finish max alloc m st.work (seq.getD k 0) = true := by
        rw [can_finish_iff]
        intro j hj
        rw [he.work_eq j hj]
        refine le_trans (le_trans (need_entry_le_spec_need max alloc _ j (hneed _ hpn j hj))
          (hsafe k hk j hj)) ?_
        exact released_mono alloc avail n j (fun i hi => hfit.1 i hi j hj) _ _
          ((hperm.nodup_iff.mpr (List.nodup_range n)).sublist (List.take_sublist k seq))
          hin hb.bound
      rw [hstuck _ hpn hfin] at hcan
      cases hcan
  simp [banker_safe, hrun, hcount]

/-- C24 (refuted on the code): 2 processes, 1 resource type, `Allocation = (5), (-1)`,
`Max = (1), (2147483647)`, `Available = (0)`.  `Max - Allocation` of `P1` is `2^31`, which
does not fit in `int`: the program computes a negative difference and sets the need to 0,
reports SAFE and prints the sequence `P0, P1`.  With `need = max(Max - Allocation, 0)` the
need of `P1` is `2^31`, more than the 5 units that are ever available: the sequence printed
is not a safe sequence, and no ordering of the two processes is. -/
theorem banker_need_overflow :
    banker_safe 2 1 [[5], [-1]] [[1], [2147483647]] [0] = some true ∧
      (banker_safety 2 1 [[5], [-1]] [[1], [2147483647]] [0]).map (fun st => st.safe_seq)
        = some [0, 1] ∧
      need_entry [[1], [2147483647]] [[5], [-1]] 1 0 = 0 ∧
      spec_need [[1], [2147483647]] [[5], [-1]] 1 0 = 2147483648 ∧
      released [[5], [-1]] [0] 0 [0] = 5 ∧
      ¬ SafeSequence [[1], [2147483647]] [[5], [-1]] [0] 1 [0, 1] ∧
      ∀ seq : List Nat, seq.Perm (List.range 2) →
        ¬ SafeSequence [[1], [2147483647]] [[5], [-1]] [0] 1 seq := by
  have hno : ∀ seq : List Nat, seq.Perm (List.range 2) →
      ¬ SafeSequence [[1], [2147483647]] [[5], [-1]] [0] 1 seq := by
    intro seq hperm hs
    have hmem : 1 ∈ seq := hperm.symm.subset (by decide)
    obtain ⟨k, hk, e⟩ := List.getElem_of_mem hmem
    have h1 := hs k hk 0 (by decide)
    have e1 : seq.getD k 0 = 1 := by
      rw [List.getD_eq_getElem?_getD, List.getElem?_eq_getElem hk]
      simpa using e
    rw [e1] at h1
    have hlen : seq.length = 2 := by rw [hperm.length_eq]; rfl
    have hsub : ∀ x ∈ seq.take k, x = 0 ∨ x = 1 := by
      intro x hx
      have := List.mem_range.mp (hperm.subset (List.mem_of_mem_take hx))
      omega
    have hbound : ∀ l : List Nat, (∀ x ∈ l, x = 0 ∨ x = 1) → l.length ≤ 2 →
        released [[5], [-1]] [0] 0 l ≤ 10 := by
      intro l hl hlen
      match l, hl, hlen with
      | [], _, _ => decide
      | [a], hl, _ =>
        rcases hl a (by simp) with e | e <;> subst e <;> decide
      | [a, b], hl, _ =>
        rcases hl a (by simp) with e | e <;> rcases hl b (by simp) with e2 | e2 <;>
          subst e <;> subst e2 <;> decide
      | a :: b :: c :: l, _, hlen => simp at hlen
    have := hbound (seq.take k) hsub (by rw [List.length_take]; omega)
    have e2 : spec_need [[1], [2147483647]] [[5], [-1]] 1 0 = 2147483648 := by decide
    rw [e2] at h1
    omega
  exact ⟨by decide, by decide, by decide, by decide, by decide,
    hno [0, 1] (by decide), hno⟩

/-- C25 (refuted on the code): 2 processes, 1 resource type, `Allocation = (2147483647), (0)`,
`Max = (2147483647), (1)`, `Available = (1)`.  `P0, P1` is a safe sequence, but adding the
allocation of `P0` to `work[0] = 1` overflows, `P1` is then not satisfied, and the program
reports NOT SAFE. -/
theorem banker_overflow_verdict :
    banker_safe 2 1 [[2147483647], [0]] [[2147483647], [1]] [1] = some false ∧
      (banker_safety 2 1 [[2147483647], [0]] [[2147483647], [1]] [1]).map (fun st => st.work)
        = some [-2147483648] ∧
      ([0, 1] : List Nat).Perm (List.range 2) ∧
      SafeSequence [[2147483647], [1]] [[2147483647], [0]] [1] 1 [0, 1] := by
  refine ⟨by decide, by decide, by decide, ?_⟩
  intro k hk j hj
  have hj0 : j = 0 := by omega
  subst hj0
  simp only [List.length_cons, List.length_nil] at hk
  interval_cases k <;> simp [spec_need, released]

/-- On 2 processes and 1 resource type with `Allocation = (1), (1)`, `Max = (3), (2)`,
`Available = (1)` the program reports SAFE with the sequence `P1, P0`, a safe sequence. -/
theorem banker_safe_sequence_example :
    ∃ st, banker_safety 2 1 [[1], [1]] [[3], [2]] [1] = some st ∧
      st.safe_seq.Perm (List.range 2) ∧ SafeSequence [[3], [2]] [[1], [1]] [1] 1 st.safe_seq :=
  banker_safe_sequence_of_fits 2 1 [[1], [1]] [[3], [2]] [1]
    (by
      intro i hi j hj
      have hj0 : j = 0 := by omega
      subst hj0
      interval_cases i <;> simp [IsInt])
    (by
      intro i hi j hj
      have hj0 : j = 0 := by omega
      subst hj0
      interval_cases i <;> simp)
    (by decide)

/-! ## Shortest Remaining Time First -/

/-- The header's example of sjf.c: the simulation ends after 26 time units with completion
times 17, 5, 26, 10 and waiting times 9, 0, 15, 2. -/
theorem srtf_header_example :
    srtf_main 4 [0, 1, 2, 3] [8, 4, 9, 5] 26 = .ended
      { rem := [0, 0, 0, 0]
        completed := [1, 1, 1, 1]
        completion_time := [17, 5, 26, 10]
        turnaround := [17, 4, 24, 7]
        waiting := [9, 0, 15, 2]
        t := 26
        finished := 4
        total_wait := 26
        total_tat := 52
        gantt_proc := [0, 1, 1, 1, 1, 3, 3, 3, 3, 3, 0, 0, 0, 0, 0, 0, 0,
          2, 2, 2, 2, 2, 2, 2, 2, 2] } := by
  decide!

/-- The state of the simulation of one process with arrival 0 and burst 10001 after `j`
time units. -/
theorem srtf_long_burst_step (j : Nat) (hj : j < 10000) :
    srtf_step [0] [10001] 1
        { rem := [10001 - (j : Int)], completed := [0], completion_time := [0],
          turnaround := [0], waiting := [0], t := (j : Int), finished := 0, total_wait := 0,
          total_tat := 0, gantt_proc := List.replicate j 0 }
      = some { rem := [10001 - ((j + 1 : Nat) : Int)], completed := [0],
               completion_time := [0], turnaround := [0], waiting := [0],
               t := ((j + 1 : Nat) : Int), finished := 0, total_wait := 0, total_tat := 0,
               gantt_proc := List.replicate (j + 1) 0 } := by
  have hpick : srtf_pick [0] 1
      { rem := [10001 - (j : Int)], completed := [0], completion_time := [0],
        turnaround := [0], waiting := [0], t := (j : Int), finished := 0, total_wait := 0,
        total_tat := 0, gantt_proc := List.replicate j 0 } = 0 := by
    have h1 : (10001 : Int) - (j : Int) < 2147483647 := by omega
    have h2 : (0 : Int) < 10001 - (j : Int) := by omega
    simp [srtf_pick, srtf_pick_body, INT_MAX, h1, h2, List.range_succ]
  have hw1 : wrapInt (10001 - (j : Int) - 1) = 10001 - ((j + 1 : Nat) : Int) := by
    rw [wrapInt_eq (by omega) (by omega)]; push_cast; ring
  have hw2 : wrapInt ((j : Int) + 1) = ((j + 1 : Nat) : Int) := by
    rw [wrapInt_eq (by omega) (by omega)]; push_cast; ring
  have hne : ¬ (10001 - ((j + 1 : Nat) : Int) = 0) := by push_cast; omega
  simp only [srtf_step, List.length_replicate, GANTT_SIZE, hj, if_true, hpick]
  simp only [show ¬ ((0 : Int) = -1) by decide, if_false, Int.toNat_zero, List.getD_cons_zero,
    hw1, hw2, hne, List.set_cons_zero, List.replicate_succ']

theorem srtf_long_burst_loop (k : Nat) :
    ∀ (j extra : Nat), j + k = 10000 →
      srtf_loop [0] [10001] 1 (k + 1 + extra)
        { rem := [10001 - (j : Int)], completed := [0], completion_time := [0],
          turnaround := [0], waiting := [0], t := (j : Int), finished := 0, total_wait := 0,
          total_tat := 0, gantt_proc := List.replicate j 0 } = .out_of_bounds := by
  induction k with
  | zero =>
    intro j extra hj
    have e : ¬ (j < 10000) := by omega
    have e0 : 0 + 1 + extra = extra + 1 := by omega
    rw [e0]
    unfold srtf_loop
    have hfin : ((0 : Int) < ((1 : Nat) : Int)) := by decide
    simp only [hfin, if_true, srtf_step, List.length_replicate, GANTT_SIZE, e, if_false]
  | succ k ih =>
    intro j extra hj
    have e : k + 1 + 1 + extra = (k + 1 + extra) + 1 := by omega
    rw [e]
    unfold srtf_loop
    have hfin : ((0 : Int) < ((1 : Nat) : Int)) := by decide
    simp only [hfin, if_true]
    rw [srtf_long_burst_step j (by omega)]
    exact ih (j + 1) extra (by omega)

/-- C26 (refuted on the code): one process with arrival 0 and burst 10001.  After 10000 time
units `gantt_proc` is full and the process has 1 unit left: the next iteration writes
`gantt_proc[10000]`, outside the array, whatever number of iterations is allowed.  And one
process with arrival 0 and burst `INT_MAX` is never selected (`rem[i] < shortest` fails
against `shortest = INT_MAX`): the CPU idles at `t = 0` although the process has arrived. -/
theorem srtf_gantt_overflow :
    (∀ extra, srtf_main 1 [0] [10001] (10001 + extra) = .out_of_bounds) ∧
      srtf_pick [0] 1 (srtf_init [0] [2147483647] 1) = -1 ∧
      (srtf_init [0] [2147483647] 1).completed = [0] ∧ (srtf_init [0] [2147483647] 1).t = 0 := by
  refine ⟨?_, by decide, by decide, by decide⟩
  intro extra
  have h := srtf_long_burst_loop 10000 0 extra (by omega)
  simpa [srtf_main, srtf_init] using h

/-! ## Round Robin -/

/-- A run that has ended, or has written outside an array, is not changed by allowing more
iterations. -/
theorem rr_loop_more_fuel (arrival : List Int) (n : Nat) (tq : Int) :
    ∀ (fuel : Nat) (st : RrState) (r : Outcome RrState),
      rr_loop arrival n tq fuel st = r → (∀ s, r ≠ .unfinished s) →
      ∀ extra, rr_loop arrival n tq (fuel + extra) st = r := by
  intro fuel
  induction fuel with
  | zero =>
    intro st r h hr extra
    unfold rr_loop at h
    split_ifs at h with h1
    · simp only [] at h
      exact absurd h.symm (hr st)
    · unfold rr_loop
      rw [if_neg h1]
      exact h
  | succ fuel ih =>
    intro st r h hr extra
    have e : fuel + 1 + extra = (fuel + extra) + 1 := by omega
    rw [e]
    unfold rr_loop at h ⊢
    split_ifs at h ⊢ with h1
    · simp only [] at h ⊢
      cases hs : rr_step arrival n tq st with
      | ended s => rw [hs] at h; simpa using h
      | out_of_bounds => rw [hs] at h; simpa using h
      | unfinished s =>
        rw [hs] at h
        simp only [] at h ⊢
        exact ih s r h hr extra
    · exact h

set_option maxRecDepth 100000 in
/-- C27 (refuted on the code): 2 processes, quantum 1, both arriving at 0 with burst 101.
The processes alternate, so every slice is a new Gantt block; after 200 iterations the
`n * 100 = 200` blocks allocated are used and each process has 1 unit left, and the next
iteration writes `gantt[200]`, outside the array, whatever number of iterations is
allowed: the loop does not reach `remaining = 0`. -/
theorem rr_gantt_overflow :
    (match rr_main 2 1 [0, 0] [101, 101] 200 with
      | .unfinished st => (st.rem, st.remaining, st.gantt.length, st.completion)
      | _ => ([], 0, 0, [])) = ([1, 1], 2, 200, [-1, -1]) ∧
      ∀ extra, rr_main 2 1 [0, 0] [101, 101] (201 + extra) = .out_of_bounds := by
  refine ⟨by decide!, ?_⟩
  intro extra
  exact rr_loop_more_fuel [0, 0] 2 1 201 _ _ (by decide!) (by intro s h; cases h) extra

/-! ## Optimal page replacement -/

theorem first_index_none {p : Nat → Bool} {n : Nat} (h : first_index p n = none) :
    ∀ j < n, p j = false := by
  induction n with
  | zero => intro j hj; omega
  | succ n ih =>
    simp only [first_index] at h
    cases hf : first_index p n with
    | some a => rw [hf] at h; simp at h
    | none =>
      rw [hf] at h
      simp only [] at h
      split_ifs at h with hp
      intro j hj
      by_cases hjn : j = n
      · subst hjn; simpa using hp
      · exact ih hf j (by omega)

theorem first_index_some {p : Nat → Bool} {n i : Nat} (h : first_index p n = some i) :
    i < n ∧ p i = true ∧ ∀ j < i, p j = false := by
  induction n with
  | zero => simp [first_index] at h
  | succ n ih =>
    simp only [first_index] at h
    cases hf : first_index p n with
    | some a =>
      rw [hf] at h
      simp only [Option.some.injEq] at h
      subst h
      obtain ⟨h1, h2, h3⟩ := ih hf
      exact ⟨by omega, h2, h3⟩
    | none =>
      rw [hf] at h
      simp only [] at h
      split_ifs at h with hp
      simp only [Option.some.injEq] at h
      subst h
      refine ⟨by omega, hp, ?_⟩
      exact first_index_none hf

/-- What the inner loop of `find_victim_optimal` returns: `INT_MAX` when `page` is at none
of the positions visited, and otherwise the first position that holds it. -/
theorem next_use_from_spec (refs : List Int) (page : Int) (count : Nat) :
    ∀ k, k + count ≤ 2147483647 →
      (next_use_from refs page k count = INT_MAX ∧
          ∀ j, k ≤ j → j < k + count → refs.getD j 0 ≠ page) ∨
        ∃ j, k ≤ j ∧ j < k + count ∧ next_use_from refs page k count = (j : Int) ∧
          refs.getD j 0 = page ∧ ∀ i, k ≤ i → i < j → refs.getD i 0 ≠ page := by
  induction count with
  | zero =>
    intro k _
    left
    exact ⟨rfl, fun j h1 h2 => by omega⟩
  | succ count ih =>
    intro k hk
    simp only [next_use_from]
    split_ifs with h
    · right
      exact ⟨k, le_refl k, by omega, rfl, h, fun i h1 h2 => by omega⟩
    · rcases ih (k + 1) (by omega) with ⟨h1, h2⟩ | ⟨j, h1, h2, h3, h4, h5⟩
      · left
        refine ⟨h1, ?_⟩
        intro j hj1 hj2
        by_cases e : j = k
        · subst e; exact h
        · exact h2 j (by omega) (by omega)
      · right
        refine ⟨j, by omega, by omega, h3, h4, ?_⟩
        intro i hi1 hi2
        by_cases e : i = k
        · subst e; exact h
        · exact h5 i (by omega) hi2

/-- The value `next_use` in terms of the references after `current_pos`. -/
theorem next_use_spec (refs : List Int) (n current_pos : Nat) (page : Int)
    (hn : n ≤ 2147483647) (hc : current_pos < n) :
    (next_use refs n current_pos page = INT_MAX ∧
        ∀ k, ¬ UsedAt refs n current_pos page k) ∨
      ∃ j : Nat, next_use refs n current_pos page = (j : Int) ∧ (j : Int) < INT_MAX ∧
        UsedAt refs n current_pos page j ∧ ∀ i < j, ¬ UsedAt refs n current_pos page i := by
  unfold next_use
  rcases next_use_from_spec refs page (n - (current_pos + 1)) (current_pos + 1) (by omega) with
    ⟨h1, h2⟩ | ⟨j, h1, h2, h3, h4, h5⟩
  · left
    refine ⟨h1, ?_⟩
    rintro k ⟨k1, k2, k3⟩
    exact h2 k (by omega) (by omega) k3
  · right
    refine ⟨j, h3, by unfold INT_MAX; omega, ⟨by omega, by omega, h4⟩, ?_⟩
    rintro i hi ⟨i1, i2, i3⟩
    exact h5 i (by omega) hi i3

theorem next_use_range (refs : List Int) (n current_pos : Nat) (page : Int)
    (hn : n ≤ 2147483647) (hc : current_pos < n) :
    0 ≤ next_use refs n current_pos page ∧ next_use refs n current_pos page ≤ INT_MAX := by
  rcases next_use_spec refs n current_pos page hn hc with ⟨h, _⟩ | ⟨j, h, hj, _⟩
  · rw [h]; unfold INT_MAX; omega
  · rw [h]; omega

/-- The loop of `find_victim_optimal` over the frames `a .. a + len - 1`, none of them
empty: `victim` is the first frame with the largest `next_use` among those visited. -/
theorem find_victim_loop_spec (frame refs : List Int) (n current_pos : Nat)
    (hn : n ≤ 2147483647) (hc : current_pos < n) (len : Nat) :
    ∀ (a : Nat) (victim farthest : Int),
      (∀ f, a ≤ f → f < a + len → frame.getD f 0 ≠ -1) →
      ((a = 0 ∧ victim = -1 ∧ farthest = -1) ∨
        ∃ v < a, victim = (v : Int) ∧
          farthest = next_use refs n current_pos (frame.getD v 0) ∧
          (∀ f < a, next_use refs n current_pos (frame.getD f 0)
            ≤ next_use refs n current_pos (frame.getD v 0)) ∧
          ∀ f < v, next_use refs n current_pos (frame.getD f 0)
            < next_use refs n current_pos (frame.getD v 0)) →
      ((a + len = 0 ∧
          find_victim_loop frame refs n current_pos (List.range' a len) victim farthest = -1) ∨
        ∃ v < a + len,
          find_victim_loop frame refs n current_pos (List.range' a len) victim farthest
            = (v : Int) ∧
          (∀ f < a + len, next_use refs n current_pos (frame.getD f 0)
            ≤ next_use refs n current_pos (frame.getD v 0)) ∧
          ∀ f < v, next_use refs n current_pos (frame.getD f 0)
            < next_use refs n current_pos (frame.getD v 0)) := by
  induction len with
  | zero =>
    intro a victim farthest _ hinv
    simp only [List.range', find_victim_loop, Nat.add_zero]
    rcases hinv with ⟨h1, h2, _⟩ | ⟨v, hv, h1, _, h3, h4⟩
    · exact Or.inl ⟨h1, h2⟩
    · exact Or.inr ⟨v, hv, h1, h3, h4⟩
  | succ len ih =>
    intro a victim farthest hne hinv
    have ha := hne a (le_refl a) (by omega)
    have hr := next_use_range refs n current_pos (frame.getD a 0) hn hc
    simp only [List.range', find_victim_loop, ha, if_false]
    have e : a + (len + 1) = (a + 1) + len := by omega
    rw [e]
    split_ifs with hlt
    · apply ih (a + 1) _ _ (fun f h1 h2 => hne f (by omega) (by omega))
      right
      refine ⟨a, by omega, rfl, rfl, ?_, ?_⟩
      · intro f hf
        rcases hinv with ⟨h1, _, _⟩ | ⟨v, hv, _, h2, h3, _⟩
        · have : f = a := by omega
          subst this; exact le_refl _
        · by_cases hfa : f = a
          · subst hfa; exact le_refl _
          · have := h3 f (by omega)
            rw [h2] at hlt
            omega
      · intro f hf
        rcases hinv with ⟨h1, _, _⟩ | ⟨v, hv, _, h2, h3, _⟩
        · omega
        · have := h3 f (by omega)
          rw [h2] at hlt
          omega
    · apply ih (a + 1) _ _ (fun f h1 h2 => hne f (by omega) (by omega))
      rcases hinv with ⟨_, _, h3⟩ | ⟨v, hv, h1, h2, h3, h4⟩
      · rw [h3] at hlt
        omega
      · right
        refine ⟨v, by omega, h1, h2, ?_, h4⟩
        intro f hf
        by_cases hfa : f = a
        · subst hfa; rw [h2] at hlt; omega
        · exact h3 f (by omega)

/-- The victim of `find_victim_optimal` among frames none of which is empty: the first frame
whose page has the farthest next use. -/
theorem find_victim_optimal_spec (frame : List Int) (frames : Nat) (refs : List Int)
    (n current_pos : Nat) (hf : 1 ≤ frames) (hne : ∀ f < frames, frame.getD f 0 ≠ -1)
    (hn : n ≤ 2147483647) (hc : current_pos < n) :
    ∃ v < frames, find_victim_optimal frame frames refs n current_pos = (v : Int) ∧
      (∀ f < frames, ∀ k, UsedAt refs n current_pos (frame.getD v 0) k →
        ∃ k1 ≤ k, UsedAt refs n current_pos (frame.getD f 0) k1) ∧
      ((∃ f < frames, ∀ k, ¬ UsedAt refs n current_pos (frame.getD f 0) k) →
        (∀ k, ¬ UsedAt refs n current_pos (frame.getD v 0) k) ∧
          ∀ f < v, ∃ k, UsedAt refs n current_pos (frame.getD f 0) k) := by
  have h := find_victim_loop_spec frame refs n current_pos hn hc frames 0 (-1) (-1)
    (fun f _ h2 => hne f (by omega)) (Or.inl ⟨rfl, rfl, rfl⟩)
  rw [← List.range_eq_range'] at h
  rcases h with ⟨h0, _⟩ | ⟨v, hv, hres, hmax, hfirst⟩
  · omega
  · refine ⟨v, by omega, hres, ?_, ?_⟩
    · intro f hfr k hk
      have hle := hmax f (by omega)
      rcases next_use_spec refs n current_pos (frame.getD v 0) hn hc with
        ⟨_, hnever⟩ | ⟨j, hj, hjlt, hju, hjmin⟩
      · exact absurd hk (hnever k)
      · have hjk : j ≤ k := by
          by_contra hcon
          exact hjmin k (by omega) hk
        rcases next_use_spec refs n current_pos (frame.getD f 0) hn hc with
          ⟨hmaxf, _⟩ | ⟨j1, hj1, _, hj1u, _⟩
        · rw [hmaxf, hj] at hle; omega
        · rw [hj1, hj] at hle
          exact ⟨j1, by omega, hj1u⟩
    · rintro ⟨f, hfr, hnever⟩
      have hle := hmax f (by omega)
      have hfmax : next_use refs n current_pos (frame.getD f 0) = INT_MAX := by
        rcases next_use_spec refs n current_pos (frame.getD f 0) hn hc with
          ⟨hm, _⟩ | ⟨j1, _, _, hj1u, _⟩
        · exact hm
        · exact absurd hj1u (hnever j1)
      have hvmax : next_use refs n current_pos (frame.getD v 0) = INT_MAX := by
        have := (next_use_range refs n current_pos (frame.getD v 0) hn hc).2
        rw [hfmax] at hle
        omega
      constructor
      · rcases next_use_spec refs n current_pos (frame.getD v 0) hn hc with
          ⟨_, hnv⟩ | ⟨j, hj, hjlt, _, _⟩
        · exact hnv
        · rw [hvmax] at hj; rw [← hj] at hjlt; omega
      · intro g hg
        have hlt := hfirst g hg
        rcases next_use_spec refs n current_pos (frame.getD g 0) hn hc with
          ⟨hm, _⟩ | ⟨j1, _, _, hj1u, _⟩
        · rw [hm, hvmax] at hlt; omega
        · exact ⟨j1, hj1u⟩

/-- C29: for `frames >= 1`, a frame array without `-1` entry, every reference string of
`n` references (`n` an `int`) and every `current_pos` in `0 .. n-1`, the result `v` of
`find_victim_optimal` satisfies `0 <= v < frames`, and the next use of `frame[v]` after
`current_pos` is the farthest: every other resident page is used no later than `frame[v]`
is.  If some resident page is never used again, `frame[v]` is never used again and `v` is
the first such frame.  (That the pages are distinct is not needed.) -/
theorem find_victim_optimal_farthest (frame : List Int) (frames : Nat) (refs : List Int)
    (n current_pos : Nat) (hf : 1 ≤ frames) (hne : ∀ f < frames, frame.getD f 0 ≠ -1)
    (hn : n ≤ 2147483647) (hc : current_pos < n) :
    ∃ v < frames, find_victim_optimal frame frames refs n current_pos = (v : Int) ∧
      (∀ f < frames, ∀ k, UsedAt refs n current_pos (frame.getD v 0) k →
        ∃ k1 ≤ k, UsedAt refs n current_pos (frame.getD f 0) k1) ∧
      ((∃ f < frames, ∀ k, ¬ UsedAt refs n current_pos (frame.getD f 0) k) →
        (∀ k, ¬ UsedAt refs n current_pos (frame.getD v 0) k) ∧
          ∀ f < v, ∃ k, UsedAt refs n current_pos (frame.getD f 0) k) :=
  find_victim_optimal_spec frame frames refs n current_pos hf hne hn hc

/-- C29 on 3 frames holding 7, 0, 1 at position 3 of the reference string
`7 0 1 2 0 3 0 4 2 3 0 3`: page 7 is never used again and frame 0 is chosen. -/
theorem find_victim_optimal_farthest_witness :
    ∃ v : Nat, v < 3 ∧
      find_victim_optimal [7, 0, 1] 3 [7, 0, 1, 2, 0, 3, 0, 4, 2, 3, 0, 3] 12 3 = (v : Int) ∧
      (∀ f < 3, ∀ k, UsedAt [7, 0, 1, 2, 0, 3, 0, 4, 2, 3, 0, 3] 12 3
          (([7, 0, 1] : List Int).getD v 0) k →
        ∃ k1 ≤ k, UsedAt [7, 0, 1, 2, 0, 3, 0, 4, 2, 3, 0, 3] 12 3
          (([7, 0, 1] : List Int).getD f 0) k1) :=
  (find_victim_optimal_farthest [7, 0, 1] 3 [7, 0, 1, 2, 0, 3, 0, 4, 2, 3, 0, 3] 12 3
    (by decide) (by decide) (by decide) (by decide)).imp
    fun _ h => ⟨h.1, h.2.1, h.2.2.1⟩

/-- The value computed at the input of the witness. -/
theorem find_victim_optimal_example :
    find_victim_optimal [7, 0, 1] 3 [7, 0, 1, 2, 0, 3, 0, 4, 2, 3, 0, 3] 12 3 = 0 := by
  decide

/-! ## LRU page replacement -/

theorem getD_set_eq_ite (l : List Int) (v : Nat) (x : Int) (f : Nat) (hv : v < l.length) :
    (l.set v x).getD f 0 = if f = v then x else l.getD f 0 := by
  by_cases h : f = v
  · subst h
    simp [List.getD_eq_getElem?_getD, hv]
  · simp [List.getD_eq_getElem?_getD, List.getElem?_set_ne (Ne.symm h), h]

/-- The search for the smallest `last_used` returns the first frame that holds it. -/
theorem lru_victim_fold (last_used : List Int) (len : Nat) :
    ∀ (a : Nat) (acc : Nat × Int), acc.1 < a → acc.2 = last_used.getD acc.1 0 →
      (∀ f < a, acc.2 ≤ last_used.getD f 0) → (∀ f < acc.1, acc.2 < last_used.getD f 0) →
      let r := (List.range' a len).foldl
        (fun (acc : Nat × Int) f =>
          if last_used.getD f 0 < acc.2 then (f, last_used.getD f 0) else acc) acc
      r.1 < a + len ∧ (∀ f < a + len, last_used.getD r.1 0 ≤ last_used.getD f 0) ∧
        ∀ f < r.1, last_used.getD r.1 0 < last_used.getD f 0 := by
  induction len with
  | zero =>
    intro a acc h1 h2 h3 h4
    simp only [List.range', List.foldl_nil, Nat.add_zero]
    rw [← h2]
    exact ⟨h1, h3, h4⟩
  | succ len ih =>
    intro a acc h1 h2 h3 h4
    simp only [List.range', List.foldl_cons]
    have e : a + (len + 1) = (a + 1) + len := by omega
    rw [e]
    split_ifs with hlt
    · apply ih (a + 1) _ (by simp) rfl
      · intro f hf
        by_cases hfa : f = a
        · subst hfa; exact le_refl _
        · have := h3 f (by omega)
          simp only at this ⊢
          omega
      · intro f hf
        simp only at hf ⊢
        have := h3 f hf
        omega
    · apply ih (a + 1) _ (by omega) h2
      · intro f hf
        by_cases hfa : f = a
        · subst hfa; omega
        · exact h3 f (by omega)
      · exact h4

theorem lru_victim_spec (last_used : List Int) (frames : Nat) (hf : 1 ≤ frames) :
    lru_victim last_used frames < frames ∧
      (∀ f < frames, last_used.getD (lru_victim last_used frames) 0 ≤ last_used.getD f 0) ∧
      ∀ f < lru_victim last_used frames,
        last_used.getD (lru_victim last_used frames) 0 < last_used.getD f 0 := by
  have h := lru_victim_fold last_used (frames - 1) 1 (0, last_used.getD 0 0) (by simp) rfl
    (by intro f hf; have : f = 0 := by omega
        subst this; exact le_refl _)
    (by intro f hf; simp at hf)
  have e : 1 + (frames - 1) = frames := by omega
  rw [e] at h
  exact h

theorem isLastRef_now (refs : List Int) (i : Nat) : IsLastRef refs (i + 1) (refs.getD i 0) i :=
  ⟨by omega, rfl, fun j h1 h2 => by omega⟩

theorem isLastRef_keep {refs : List Int} {i : Nat} {page : Int} {k : Nat}
    (h : IsLastRef refs i page k) (hne : refs.getD i 0 ≠ page) :
    IsLastRef refs (i + 1) page k := by
  obtain ⟨h1, h2, h3⟩ := h
  refine ⟨by omega, h2, ?_⟩
  intro j hj1 hj2
  by_cases e : j = i
  · subst e; exact hne
  · exact h3 j hj1 (by omega)

theorem isLastRef_unique {refs : List Int} {i : Nat} {page : Int} {k1 k2 : Nat}
    (h1 : IsLastRef refs i page k1) (h2 : IsLastRef refs i page k2) : k1 = k2 := by
  obtain ⟨a1, a2, a3⟩ := h1
  obtain ⟨b1, b2, b3⟩ := h2
  by_contra hne
  rcases Nat.lt_or_gt_of_ne hne with h | h
  · exact a3 k2 h b1 b2
  · exact b3 k1 h a1 a2

/-- A hit on frame `h` keeps the invariant. -/
theorem lruInv_hit {frames : Nat} {refs : List Int} {i : Nat} {st : LruState}
    (hinv : LruInv frames refs i st) (h : Nat) (hh : h < frames)
    (hp : st.frame.getD h 0 = refs.getD i 0) :
    LruInv frames refs (i + 1)
      { st with time := st.time + 1, last_used := st.last_used.set h (st.time + 1),
                hits := st.hits + 1 } := by
  constructor
  · exact hinv.flen
  · simp [hinv.llen]
  · simp only [hinv.time_eq]; push_cast; ring
  · have := hinv.count
    simp only []
    push_cast
    omega
  · exact hinv.distinct
  · intro f hf hfne
    simp only [] at hfne ⊢
    rw [getD_set_eq_ite _ _ _ _ (by rw [hinv.llen]; exact hh)]
    by_cases e : f = h
    · subst e
      rw [if_pos rfl, hp, hinv.time_eq]
      exact ⟨i, isLastRef_now refs i, rfl⟩
    · rw [if_neg e]
      obtain ⟨k, hk1, hk2⟩ := hinv.stamp f hf hfne
      refine ⟨k, isLastRef_keep hk1 ?_, hk2⟩
      intro heq
      exact e (hinv.distinct f hf h hh (by rw [hp, heq]) hfne)

/-- A fault that puts the page into frame `x` keeps the invariant. -/
theorem lruInv_replace {frames : Nat} {refs : List Int} {i : Nat} {st : LruState}
    (hinv : LruInv frames refs i st) (x : Nat) (hx : x < frames)
    (hnot : ∀ f < frames, st.frame.getD f 0 ≠ refs.getD i 0) :
    LruInv frames refs (i + 1)
      { st with time := st.time + 1, page_faults := st.page_faults + 1,
                frame := st.frame.set x (refs.getD i 0),
                last_used := st.last_used.set x (st.time + 1) } := by
  have hxl : x < st.frame.length := by rw [hinv.flen]; exact hx
  have hxu : x < st.last_used.length := by rw [hinv.llen]; exact hx
  constructor
  · simp [hinv.flen]
  · simp [hinv.llen]
  · simp only [hinv.time_eq]; push_cast; ring
  · have := hinv.count
    simp only []
    push_cast
    omega
  · intro f hf g hg
    simp only []
    rw [getD_set_eq_ite _ _ _ _ hxl, getD_set_eq_ite _ _ _ _ hxl]
    by_cases e1 : f = x <;> by_cases e2 : g = x
    · intro _ _; omega
    · rw [if_pos e1, if_neg e2]
      intro h _
      exact absurd h.symm (hnot g hg)
    · rw [if_neg e1, if_pos e2]
      intro h _
      exact absurd h (hnot f hf)
    · rw [if_neg e1, if_neg e2]
      exact hinv.distinct f hf g hg
  · intro f hf
    simp only []
    rw [getD_set_eq_ite _ _ _ _ hxl, getD_set_eq_ite _ _ _ _ hxu]
    by_cases e : f = x
    · rw [if_pos e, if_pos e, hinv.time_eq]
      intro _
      exact ⟨i, isLastRef_now refs i, rfl⟩
    · rw [if_neg e, if_neg e]
      intro hfne
      obtain ⟨k, hk1, hk2⟩ := hinv.stamp f hf hfne
      exact ⟨k, isLastRef_keep hk1 (fun heq => hnot f hf heq.symm), hk2⟩

theorem lruInv_step {frames : Nat} {refs : List Int} {i : Nat} {st : LruState}
    (hf : 1 ≤ frames) (hinv : LruInv frames refs i st) :
    LruInv frames refs (i + 1) (lru_step frames st (refs.getD i 0)) := by
  unfold lru_step
  cases hhit : first_index (fun f => st.frame.getD f 0 == refs.getD i 0) frames with
  | some h =>
    obtain ⟨h1, h2, _⟩ := first_index_some hhit
    exact lruInv_hit hinv h h1 (by simpa using h2)
  | none =>
    have hnot : ∀ f < frames, st.frame.getD f 0 ≠ refs.getD i 0 := by
      intro f hfr
      have := first_index_none hhit f hfr
      simpa using this
    cases hemp : first_index (fun f => st.frame.getD f 0 == -1) frames with
    | some e =>
      obtain ⟨h1, _, _⟩ := first_index_some hemp
      exact lruInv_replace hinv e h1 hnot
    | none =>
      exact lruInv_replace hinv _ (lru_victim_spec st.last_used frames hf).1 hnot

theorem lru_run_succ (frames : Nat) (refs : List Int) (i : Nat) :
    lru_run frames refs (i + 1) = lru_step frames (lru_run frames refs i) (refs.getD i 0) := by
  simp [lru_run, List.range_succ]

theorem lru_run_inv (frames : Nat) (refs : List Int) (hf : 1 ≤ frames) :
    ∀ i, LruInv frames refs i (lru_run frames refs i) := by
  intro i
  induction i with
  | zero =>
    constructor
    · simp [lru_run]
    · simp [lru_run]
    · simp [lru_run]
    · simp [lru_run]
    · intro f hf g hg _ h
      simp [lru_run, List.getD_eq_getElem?_getD, List.getElem?_replicate, hf] at h
    · intro f hf h
      simp [lru_run, List.getD_eq_getElem?_getD, List.getElem?_replicate, hf] at h
  | succ i ih =>
    rw [lru_run_succ]
    exact lruInv_step hf ih

/-- C28: for `frames >= 3` and every reference string, at every reference that faults with
no empty frame the page evicted is the resident page whose most recent reference is the
earliest among the resident pages (every other frame holds a page referenced later), and at
the end `hits + page_faults = n`.  That the pages differ from `-1` is not needed for these
two facts. -/
theorem lru_evicts_least_recent (frames : Nat) (refs : List Int) (hf : 3 ≤ frames) :
    (∀ i < refs.length,
      (∀ f < frames, (lru_run frames refs i).frame.getD f 0 ≠ refs.getD i 0) →
      (∀ f < frames, (lru_run frames refs i).frame.getD f 0 ≠ -1) →
      ∃ v < frames,
        (lru_run frames refs (i + 1)).frame
          = (lru_run frames refs i).frame.set v (refs.getD i 0) ∧
        ∃ kv, IsLastRef refs i ((lru_run frames refs i).frame.getD v 0) kv ∧
          ∀ f < frames, f ≠ v →
            ∃ kf, IsLastRef refs i ((lru_run frames refs i).frame.getD f 0) kf ∧ kv < kf) ∧
      (lru_run frames refs refs.length).hits + (lru_run frames refs refs.length).page_faults
        = (refs.length : Int) := by
  have hf1 : 1 ≤ frames := by omega
  refine ⟨?_, (lru_run_inv frames refs hf1 refs.length).count⟩
  intro i hi hmiss hfull
  have hinv := lru_run_inv frames refs hf1 i
  obtain ⟨hv, hmin, _⟩ := lru_victim_spec (lru_run frames refs i).last_used frames hf1
  refine ⟨lru_victim (lru_run frames refs i).last_used frames, hv, ?_, ?_⟩
  · rw [lru_run_succ]
    unfold lru_step
    have h1 : first_index (fun f => (lru_run frames refs i).frame.getD f 0 == refs.getD i 0)
        frames = none := by
      cases h : first_index (fun f => (lru_run frames refs i).frame.getD f 0 == refs.getD i 0)
        frames with
      | none => rfl
      | some a =>
        obtain ⟨a1, a2, _⟩ := first_index_some h
        exact absurd (by simpa using a2) (hmiss a a1)
    have h2 : first_index (fun f => (lru_run frames refs i).frame.getD f 0 == -1) frames
        = none := by
      cases h : first_index (fun f => (lru_run frames refs i).frame.getD f 0 == -1) frames with
      | none => rfl
      | some a =>
        obtain ⟨a1, a2, _⟩ := first_index_some h
        exact absurd (by simpa using a2) (hfull a a1)
    rw [h1]
    simp only []
    rw [h2]
  · obtain ⟨kv, hkv1, hkv2⟩ := hinv.stamp _ hv (hfull _ hv)
    refine ⟨kv, hkv1, ?_⟩
    intro f hfr hfv
    obtain ⟨kf, hkf1, hkf2⟩ := hinv.stamp f hfr (hfull f hfr)
    refine ⟨kf, hkf1, ?_⟩
    have hle := hmin f hfr
    rw [hkv2, hkf2] at hle
    have hne : kv ≠ kf := by
      intro e
      subst e
      have hsame : (lru_run frames refs i).frame.getD
          (lru_victim (lru_run frames refs i).last_used frames) 0
          = (lru_run frames refs i).frame.getD f 0 := by
        rw [← hkv1.2.1, ← hkf1.2.1]
      exact hfv (hinv.distinct _ hv f hfr hsame (hfull _ hv)).symm
    omega

/-- C28 on the header's example, 3 frames and `7 0 1 2 0 3 0 4 2 3 0 3`: the hits and the
faults add up to the 12 references. -/
theorem lru_evicts_least_recent_witness :
    (lru_run 3 [7, 0, 1, 2, 0, 3, 0, 4, 2, 3, 0, 3] 12).hits
      + (lru_run 3 [7, 0, 1, 2, 0, 3, 0, 4, 2, 3, 0, 3] 12).page_faults = 12 :=
  (lru_evicts_least_recent 3 [7, 0, 1, 2, 0, 3, 0, 4, 2, 3, 0, 3] (by decide)).2

/-! ## Comparison of FIFO, LRU and Optimal -/

theorem mem_resident_iff (frame : List Int) (x : Int) :
    x ∈ resident frame ↔ x ≠ -1 ∧ ∃ f < frame.length, frame.getD f 0 = x := by
  unfold resident
  rw [Finset.mem_erase, List.mem_toFinset, List.mem_iff_getElem]
  constructor
  · rintro ⟨h1, f, hf, e⟩
    exact ⟨h1, f, hf, by simp [List.getD_eq_getElem?_getD, List.getElem?_eq_getElem hf, e]⟩
  · rintro ⟨h1, f, hf, e⟩
    refine ⟨h1, f, hf, ?_⟩
    simpa [List.getD_eq_getElem?_getD, List.getElem?_eq_getElem hf] using e

theorem find_in_frames_ne (frame : List Int) (frames : Nat) (page : Int) :
    find_in_frames frame frames page ≠ -1 ↔ ∃ f < frames, frame.getD f 0 = page := by
  unfold find_in_frames
  cases h : first_index (fun i => frame.getD i 0 == page) frames with
  | none =>
    simp only [ne_eq, not_true_eq_false, false_iff, not_exists, not_and]
    intro f hf
    simpa using first_index_none h f hf
  | some i =>
    obtain ⟨h1, h2, _⟩ := first_index_some h
    simp only [ne_eq]
    constructor
    · intro _; exact ⟨i, h1, by simpa using h2⟩
    · intro _; omega

theorem find_in_frames_hit (frame : List Int) (frames : Nat) (page : Int)
    (h : find_in_frames frame frames page ≠ -1) :
    (find_in_frames frame frames page).toNat < frames ∧
      frame.getD (find_in_frames frame frames page).toNat 0 = page := by
  unfold find_in_frames at h ⊢
  cases hf : first_index (fun i => frame.getD i 0 == page) frames with
  | none => rw [hf] at h; simp at h
  | some i =>
    obtain ⟨h1, h2, _⟩ := first_index_some hf
    simp only [Int.toNat_ofNat]
    exact ⟨h1, by simpa using h2⟩

theorem resident_hit_iff {k : Nat} {frame : List Int} {m : Nat} (h : FrameInv k frame m)
    (page : Int) (hp : page ≠ -1) :
    find_in_frames frame k page ≠ -1 ↔ page ∈ resident frame := by
  rw [find_in_frames_ne, mem_resident_iff, h.len]
  constructor
  · intro h1; exact ⟨hp, h1⟩
  · intro h1; exact h1.2

/-- The first empty frame is frame `m`. -/
theorem first_empty_eq {k : Nat} {frame : List Int} {m : Nat} (h : FrameInv k frame m) :
    first_index (fun j => frame.getD j 0 == -1) k = if m < k then some m else none := by
  split_ifs with hm
  · cases hf : first_index (fun j => frame.getD j 0 == -1) k with
    | none =>
      have := first_index_none hf m hm
      simp only [beq_eq_false_iff_ne, ne_eq] at this
      exact absurd (h.empty m (le_refl m) hm) this
    | some i =>
      obtain ⟨h1, h2, h3⟩ := first_index_some hf
      have h2e : frame.getD i 0 = -1 := by simpa using h2
      congr 1
      by_contra hne
      rcases Nat.lt_or_gt_of_ne hne with hlt | hgt
      · exact h.occupied i hlt h2e
      · have := h3 m hgt
        simp only [beq_eq_false_iff_ne, ne_eq] at this
        exact this (h.empty m (le_refl m) hm)
  · cases hf : first_index (fun j => frame.getD j 0 == -1) k with
    | none => rfl
    | some i =>
      obtain ⟨h1, h2, _⟩ := first_index_some hf
      have h2e : frame.getD i 0 = -1 := by simpa using h2
      exact absurd h2e (h.occupied i (by have := h.le; omega))

/-- Loading `page` into the first empty frame. -/
theorem frameInv_load {k : Nat} {frame : List Int} {m : Nat} (h : FrameInv k frame m)
    (hm : m < k) (page : Int) (hp : page ≠ -1) (hnot : page ∉ resident frame) :
    FrameInv k (frame.set m page) (m + 1) ∧
      resident (frame.set m page) = insert page (resident frame) := by
  have hml : m < frame.length := by rw [h.len]; exact hm
  have hnot1 : ∀ f < k, frame.getD f 0 ≠ page := by
    intro f hf e
    exact hnot ((mem_resident_iff frame page).mpr ⟨hp, f, by rw [h.len]; exact hf, e⟩)
  constructor
  · constructor
    · simp [h.len]
    · omega
    · intro f hf
      rw [getD_set_eq_ite _ _ _ _ hml]
      split_ifs with e
      · exact hp
      · exact h.occupied f (by omega)
    · intro f hf1 hf2
      rw [getD_set_eq_ite _ _ _ _ hml, if_neg (by omega)]
      exact h.empty f (by omega) hf2
    · intro f hf g hg
      rw [getD_set_eq_ite _ _ _ _ hml, getD_set_eq_ite _ _ _ _ hml]
      by_cases e1 : f = m <;> by_cases e2 : g = m
      · intro _; omega
      · rw [if_pos e1, if_neg e2]
        intro e; exact absurd e.symm (hnot1 g (by omega))
      · rw [if_neg e1, if_pos e2]
        intro e; exact absurd e (hnot1 f (by omega))
      · rw [if_neg e1, if_neg e2]
        exact h.distinct f (by omega) g (by omega)
  · ext x
    rw [Finset.mem_insert, mem_resident_iff, mem_resident_iff, List.length_set]
    constructor
    · rintro ⟨h1, f, hf, e⟩
      rw [getD_set_eq_ite _ _ _ _ hml] at e
      split_ifs at e with e1
      · exact Or.inl e.symm
      · exact Or.inr ⟨h1, f, hf, e⟩
    · rintro (e | ⟨h1, f, hf, e⟩)
      · subst e
        exact ⟨hp, m, hml, by rw [getD_set_eq_ite _ _ _ _ hml, if_pos rfl]⟩
      · refine ⟨h1, f, hf, ?_⟩
        rw [getD_set_eq_ite _ _ _ _ hml]
        split_ifs with e1
        · subst e1
          rw [h.empty f (le_refl f) hm] at e
          exact absurd e.symm h1
        · exact e

/-- Replacing the page of frame `v` by `page` when no frame is empty. -/
theorem frameInv_replace {k : Nat} {frame : List Int} (h : FrameInv k frame k)
    (v : Nat) (hv : v < k) (page : Int) (hp : page ≠ -1) (hnot : page ∉ resident frame) :
    FrameInv k (frame.set v page) k ∧
      frame.getD v 0 ∈ resident frame ∧
      resident (frame.set v page) = insert page ((resident frame).erase (frame.getD v 0)) := by
  have hvl : v < frame.length := by rw [h.len]; exact hv
  have hnot1 : ∀ f < k, frame.getD f 0 ≠ page := by
    intro f hf e
    exact hnot ((mem_resident_iff frame page).mpr ⟨hp, f, by rw [h.len]; exact hf, e⟩)
  refine ⟨?_, ?_, ?_⟩
  · constructor
    · simp [h.len]
    · exact le_refl k
    · intro f hf
      rw [getD_set_eq_ite _ _ _ _ hvl]
      split_ifs with e
      · exact hp
      · exact h.occupied f hf
    · intro f hf1 hf2; omega
    · intro f hf g hg
      rw [getD_set_eq_ite _ _ _ _ hvl, getD_set_eq_ite _ _ _ _ hvl]
      by_cases e1 : f = v <;> by_cases e2 : g = v
      · intro _; omega
      · rw [if_pos e1, if_neg e2]
        intro e; exact absurd e.symm (hnot1 g hg)
      · rw [if_neg e1, if_pos e2]
        intro e; exact absurd e (hnot1 f hf)
      · rw [if_neg e1, if_neg e2]
        exact h.distinct f hf g hg
  · exact (mem_resident_iff frame _).mpr ⟨h.occupied v hv, v, hvl, rfl⟩
  · ext x
    rw [Finset.mem_insert, Finset.mem_erase, mem_resident_iff, mem_resident_iff,
      List.length_set]
    constructor
    · rintro ⟨h1, f, hf, e⟩
      rw [getD_set_eq_ite _ _ _ _ hvl] at e
      split_ifs at e with e1
      · exact Or.inl e.symm
      · refine Or.inr ⟨?_, h1, f, hf, e⟩
        intro hx
        rw [← e] at hx
        exact e1 (h.distinct f (by rw [← h.len]; exact hf) v hv hx)
    · rintro (e | ⟨hne, h1, f, hf, e⟩)
      · subst e
        exact ⟨hp, v, hvl, by rw [getD_set_eq_ite _ _ _ _ hvl, if_pos rfl]⟩
      · refine ⟨h1, f, hf, ?_⟩
        rw [getD_set_eq_ite _ _ _ _ hvl]
        split_ifs with e1
        · subst e1
          exact absurd e.symm hne
        · exact e

/-! ### Demand paging: runs from states that differ in one page -/

theorem paging_cons_inv {k m : Nat} {S : Finset Int} {p : Int} {σ : List Int} {c : Nat}
    (h : Paging k m S (p :: σ) c) :
    (p ∈ S ∧ Paging k m S σ c) ∨
      (p ∉ S ∧ m < k ∧ ∃ c0, c = c0 + 1 ∧ Paging k (m + 1) (insert p S) σ c0) ∨
      (p ∉ S ∧ ¬ m < k ∧ ∃ q c0, q ∈ S ∧ c = c0 + 1 ∧
        Paging k m (insert p (S.erase q)) σ c0) := by
  cases h with
  | hit h1 h2 => exact Or.inl ⟨h1, h2⟩
  | load h1 h2 h3 => exact Or.inr (Or.inl ⟨h1, h2, _, rfl, h3⟩)
  | evict h1 h2 h3 h4 => exact Or.inr (Or.inr ⟨h1, h2, _, _, h3, rfl, h4⟩)

theorem insert_erase_swap (C : Finset Int) (z q r : Int) (hz : z ≠ q) :
    insert r ((insert z C).erase q) = insert z (insert r (C.erase q)) := by
  ext a
  simp only [Finset.mem_insert, Finset.mem_erase]
  constructor
  · rintro (h | ⟨h1, h2 | h2⟩)
    · exact Or.inr (Or.inl h)
    · exact Or.inl h2
    · exact Or.inr (Or.inr ⟨h1, h2⟩)
  · rintro (h | h | ⟨h1, h2⟩)
    · subst h; exact Or.inr ⟨hz, Or.inl rfl⟩
    · exact Or.inl h
    · exact Or.inr ⟨h1, Or.inr h2⟩

theorem insert_eq_insert_erase (C : Finset Int) (q r : Int) (hq : q ∈ C) :
    insert r C = insert q (insert r (C.erase q)) := by
  ext a
  simp only [Finset.mem_insert, Finset.mem_erase]
  constructor
  · rintro (h | h)
    · exact Or.inr (Or.inl h)
    · by_cases e : a = q
      · exact Or.inl e
      · exact Or.inr (Or.inr ⟨e, h⟩)
  · rintro (h | h | ⟨_, h⟩)
    · subst h; exact Or.inr hq
    · exact Or.inl h
    · exact Or.inr h

theorem not_mem_insert_erase (C : Finset Int) (z q r : Int) (hzr : z ≠ r) (hz : z ∉ C) :
    z ∉ insert r (C.erase q) := by
  simp only [Finset.mem_insert, Finset.mem_erase, not_or, not_and]
  exact ⟨hzr, fun _ => hz⟩

/-- With all frames occupied, from a state that differs in one page every run can be
followed with at most one fault more. -/
theorem paging_one_off (k : Nat) :
    ∀ (σ : List Int) (m : Nat) (C : Finset Int) (x y : Int) (c : Nat),
      ¬ m < k → x ∉ C → y ∉ C → Paging k m (insert y C) σ c →
      ∃ c1, c1 ≤ c + 1 ∧ Paging k m (insert x C) σ c1 := by
  intro σ
  induction σ with
  | nil =>
    intro m C x y c _ _ _ _
    exact ⟨0, by omega, Paging.done _ _⟩
  | cons r σ ih =>
    intro m C x y c hm hx hy h
    by_cases hxy : x = y
    · subst hxy; exact ⟨c, by omega, h⟩
    rcases paging_cons_inv h with ⟨hr, h1⟩ | ⟨_, hlt, _⟩ | ⟨hr, _, q, c0, hq, hc, h1⟩
    · rw [Finset.mem_insert] at hr
      rcases hr with e | hrC
      · subst e
        have hrS : r ∉ insert x C := by
          simp only [Finset.mem_insert, not_or]
          exact ⟨fun e => hxy e.symm, hy⟩
        refine ⟨c + 1, le_refl _,
          @Paging.evict k m _ r x σ c hrS hm (Finset.mem_insert_self x C) ?_⟩
        rw [Finset.erase_insert hx]
        exact h1
      · obtain ⟨c1, hc1, h2⟩ := ih m C x y c hm hx hy h1
        exact ⟨c1, hc1, Paging.hit (Finset.mem_insert_of_mem hrC) h2⟩
    · exact absurd hlt hm
    · simp only [Finset.mem_insert, not_or] at hr
      obtain ⟨hry, hrC⟩ := hr
      rw [Finset.mem_insert] at hq
      by_cases hrx : r = x
      · subst hrx
        rcases hq with e | hqC
        · subst e
          rw [Finset.erase_insert hy] at h1
          exact ⟨c0, by omega, Paging.hit (Finset.mem_insert_self r C) h1⟩
        · have hqy : y ≠ q := fun e => hy (e ▸ hqC)
          have hqr : q ≠ r := fun e => hx (e ▸ hqC)
          rw [insert_erase_swap C y q r hqy] at h1
          obtain ⟨c1, hc1, h2⟩ := ih m (insert r (C.erase q)) q y c0 hm
            (by simp only [Finset.mem_insert, Finset.mem_erase, not_or, not_and]
                exact ⟨hqr, fun h => absurd rfl h⟩)
            (not_mem_insert_erase C y q r (fun e => hry e.symm) hy) h1
          rw [← insert_eq_insert_erase C q r hqC] at h2
          exact ⟨c1, by omega, Paging.hit (Finset.mem_insert_self r C) h2⟩
      · have hrS : r ∉ insert x C := by
          simp only [Finset.mem_insert, not_or]
          exact ⟨hrx, hrC⟩
        rcases hq with e | hqC
        · subst e
          rw [Finset.erase_insert hy] at h1
          refine ⟨c0 + 1, by omega,
            @Paging.evict k m _ r x σ c0 hrS hm (Finset.mem_insert_self x C) ?_⟩
          rw [Finset.erase_insert hx]
          exact h1
        · have hqy : y ≠ q := fun e => hy (e ▸ hqC)
          have hqx : x ≠ q := fun e => hx (e ▸ hqC)
          rw [insert_erase_swap C y q r hqy] at h1
          obtain ⟨c1, hc1, h2⟩ := ih m (insert r (C.erase q)) x y c0 hm
            (not_mem_insert_erase C x q r (fun e => hrx e.symm) hx)
            (not_mem_insert_erase C y q r (fun e => hry e.symm) hy) h1
          rw [← insert_erase_swap C x q r hqx] at h2
          exact ⟨c1 + 1, by omega,
            @Paging.evict k m _ r q σ c1 hrS hm (Finset.mem_insert_of_mem hqC) h2⟩

theorem noLater_head {r : Int} {σ : List Int} {x y : Int} (h : NoLater (r :: σ) x y)
    (hr : r = y) : x = y := by
  obtain ⟨j1, hj, e⟩ := h 0 (by simp [hr])
  have : j1 = 0 := by omega
  subst this
  simp at e
  rw [← e, hr]

theorem noLater_tail {r : Int} {σ : List Int} {x y : Int} (h : NoLater (r :: σ) x y)
    (hr : r ≠ x) : NoLater σ x y := by
  intro j hj
  obtain ⟨j1, hj1, e⟩ := h (j + 1) (by simpa using hj)
  cases j1 with
  | zero => simp at e; exact absurd e hr
  | succ j2 => exact ⟨j2, by omega, by simpa using e⟩

/-- With all frames occupied, keeping the page whose next use is no later costs no more:
a run from the state that holds `y` can be followed from the state that holds `x` instead,
with no more faults, when the next use of `x` is no later than that of `y`. -/
theorem paging_keep_sooner (k : Nat) :
    ∀ (σ : List Int) (m : Nat) (C : Finset Int) (x y : Int) (c : Nat),
      ¬ m < k → x ∉ C → y ∉ C → NoLater σ x y → Paging k m (insert y C) σ c →
      ∃ c1, c1 ≤ c ∧ Paging k m (insert x C) σ c1 := by
  intro σ
  induction σ with
  | nil =>
    intro m C x y c _ _ _ _ _
    exact ⟨0, by omega, Paging.done _ _⟩
  | cons r σ ih =>
    intro m C x y c hm hx hy hnl h
    by_cases hxy : x = y
    · subst hxy; exact ⟨c, le_refl _, h⟩
    rcases paging_cons_inv h with ⟨hr, h1⟩ | ⟨_, hlt, _⟩ | ⟨hr, _, q, c0, hq, hc, h1⟩
    · rw [Finset.mem_insert] at hr
      rcases hr with e | hrC
      · exact absurd (noLater_head hnl e) hxy
      · have hrx : r ≠ x := fun e => hx (e ▸ hrC)
        obtain ⟨c1, hc1, h2⟩ := ih m C x y c hm hx hy (noLater_tail hnl hrx) h1
        exact ⟨c1, hc1, Paging.hit (Finset.mem_insert_of_mem hrC) h2⟩
    · exact absurd hlt hm
    · simp only [Finset.mem_insert, not_or] at hr
      obtain ⟨hry, hrC⟩ := hr
      rw [Finset.mem_insert] at hq
      by_cases hrx : r = x
      · subst hrx
        rcases hq with e | hqC
        · subst e
          rw [Finset.erase_insert hy] at h1
          exact ⟨c0, by omega, Paging.hit (Finset.mem_insert_self r C) h1⟩
        · have hqy : y ≠ q := fun e => hy (e ▸ hqC)
          have hqr : q ≠ r := fun e => hx (e ▸ hqC)
          rw [insert_erase_swap C y q r hqy] at h1
          obtain ⟨c1, hc1, h2⟩ := paging_one_off k σ m (insert r (C.erase q)) q y c0 hm
            (by simp only [Finset.mem_insert, Finset.mem_erase, not_or, not_and]
                exact ⟨hqr, fun h => absurd rfl h⟩)
            (not_mem_insert_erase C y q r (fun e => hry e.symm) hy) h1
          rw [← insert_eq_insert_erase C q r hqC] at h2
          exact ⟨c1, by omega, Paging.hit (Finset.mem_insert_self r C) h2⟩
      · have hrS : r ∉ insert x C := by
          simp only [Finset.mem_insert, not_or]
          exact ⟨hrx, hrC⟩
        rcases hq with e | hqC
        · subst e
          rw [Finset.erase_insert hy] at h1
          refine ⟨c0 + 1, by omega,
            @Paging.evict k m _ r x σ c0 hrS hm (Finset.mem_insert_self x C) ?_⟩
          rw [Finset.erase_insert hx]
          exact h1
        · have hqy : y ≠ q := fun e => hy (e ▸ hqC)
          have hqx : x ≠ q := fun e => hx (e ▸ hqC)
          rw [insert_erase_swap C y q r hqy] at h1
          obtain ⟨c1, hc1, h2⟩ := ih m (insert r (C.erase q)) x y c0 hm
            (not_mem_insert_erase C x q r (fun e => hrx e.symm) hx)
            (not_mem_insert_erase C y q r (fun e => hry e.symm) hy)
            (noLater_tail hnl hrx) h1
          rw [← insert_erase_swap C x q r hqx] at h2
          exact ⟨c1 + 1, by omega,
            @Paging.evict k m _ r q σ c1 hrS hm (Finset.mem_insert_of_mem hqC) h2⟩

/-! ### The three simulators as demand paging -/

theorem refs_slice_succ (refs : List Int) (i count : Nat) :
    refs_slice refs i (count + 1) = refs.getD i 0 :: refs_slice refs (i + 1) count := by
  simp [refs_slice, List.range']

theorem refs_slice_getElem? (refs : List Int) (i count j : Nat) :
    (refs_slice refs i count)[j]? = if j < count then some (refs.getD (i + j) 0) else none := by
  unfold refs_slice
  rw [List.getElem?_map]
  split_ifs with h
  · rw [List.getElem?_eq_getElem (by simpa using h)]
    simp [List.getElem_range']
  · rw [List.getElem?_eq_none (by simpa using h)]
    rfl

/-- `simulate_fifo` from any state of its loop is a run of demand paging. -/
theorem fifo_is_paging (k : Nat) (refs : List Int) (hk : 1 ≤ k) :
    ∀ (count i m : Nat) (st : FifoState), FrameInv k st.frame m →
      (m < k → st.next_replace = m) → st.next_replace < k →
      (∀ j, i ≤ j → j < i + count → refs.getD j 0 ≠ -1) →
      ∃ cost : Nat, Paging k m (resident st.frame) (refs_slice refs i count) cost ∧
        (for_loop (fun i st => fifo_step k (refs.getD i 0) st) i count st).faults
          = st.faults + (cost : Int) := by
  intro count
  induction count with
  | zero =>
    intro i m st _ _ _ _
    exact ⟨0, Paging.done _ _, by simp [for_loop]⟩
  | succ count ih =>
    intro i m st hinv hnr hnrk hp
    have hpi := hp i (le_refl i) (by omega)
    have hp1 : ∀ j, i + 1 ≤ j → j < i + 1 + count → refs.getD j 0 ≠ -1 :=
      fun j h1 h2 => hp j (by omega) (by omega)
    rw [refs_slice_succ]
    simp only [for_loop]
    by_cases hhit : find_in_frames st.frame k (refs.getD i 0) ≠ -1
    · have hmem := (resident_hit_iff hinv _ hpi).mp hhit
      have hstep : fifo_step k (refs.getD i 0) st = st := by
        unfold fifo_step; rw [if_pos hhit]
      rw [hstep]
      obtain ⟨cost, h1, h2⟩ := ih (i + 1) m st hinv hnr hnrk hp1
      exact ⟨cost, Paging.hit hmem h1, h2⟩
    · have hnot : refs.getD i 0 ∉ resident st.frame :=
        fun hmem => hhit ((resident_hit_iff hinv _ hpi).mpr hmem)
      have hstep : fifo_step k (refs.getD i 0) st
          = { frame := st.frame.set st.next_replace (refs.getD i 0)
              faults := st.faults + 1
              next_replace := (st.next_replace + 1) % k } := by
        unfold fifo_step; rw [if_neg hhit]
      rw [hstep]
      by_cases hm : m < k
      · obtain ⟨hinv1, hres⟩ := frameInv_load hinv hm _ hpi hnot
        rw [hnr hm]
        obtain ⟨cost, h1, h2⟩ := ih (i + 1) (m + 1)
          { frame := st.frame.set m (refs.getD i 0)
            faults := st.faults + 1
            next_replace := (m + 1) % k } hinv1
          (fun h => Nat.mod_eq_of_lt h) (Nat.mod_lt _ (by omega)) hp1
        simp only [] at h1 h2
        rw [hres] at h1
        refine ⟨cost + 1, Paging.load hnot hm h1, ?_⟩
        rw [h2]; push_cast; ring
      · have hmk : m = k := by have := hinv.le; omega
        subst hmk
        obtain ⟨hinv1, hq, hres⟩ := frameInv_replace hinv st.next_replace hnrk _ hpi hnot
        obtain ⟨cost, h1, h2⟩ := ih (i + 1) m
          { frame := st.frame.set st.next_replace (refs.getD i 0)
            faults := st.faults + 1
            next_replace := (st.next_replace + 1) % m } hinv1
          (fun h => absurd h hm) (Nat.mod_lt _ (by omega)) hp1
        simp only [] at h1 h2
        rw [hres] at h1
        refine ⟨cost + 1, Paging.evict hnot hm hq h1, ?_⟩
        rw [h2]; push_cast; ring

theorem lru_index_lt (last : List Int) (frames : Nat) (hf : 1 ≤ frames) :
    lru_index last frames < frames := by
  unfold lru_index
  have key : ∀ (len a lru : Nat), lru < a →
      (List.range' a len).foldl
        (fun lru j => if last.getD j 0 < last.getD lru 0 then j else lru) lru < a + len := by
    intro len
    induction len with
    | zero => intro a lru h; simpa [List.range'] using h
    | succ len ih =>
      intro a lru h
      simp only [List.range', List.foldl_cons]
      have e : a + (len + 1) = (a + 1) + len := by omega
      rw [e]
      split_ifs
      · exact ih (a + 1) a (by omega)
      · exact ih (a + 1) lru (by omega)
  have := key (frames - 1) 1 0 (by omega)
  omega

/-- `simulate_lru` from any state of its loop is a run of demand paging. -/
theorem lru_is_paging (k : Nat) (refs : List Int) (hk : 1 ≤ k) :
    ∀ (count i m : Nat) (st : LruSimState), FrameInv k st.frame m →
      (∀ j, i ≤ j → j < i + count → refs.getD j 0 ≠ -1) →
      ∃ cost : Nat, Paging k m (resident st.frame) (refs_slice refs i count) cost ∧
        (for_loop (fun i st => lru_sim_step k (refs.getD i 0) st) i count st).faults
          = st.faults + (cost : Int) := by
  intro count
  induction count with
  | zero =>
    intro i m st _ _
    exact ⟨0, Paging.done _ _, by simp [for_loop]⟩
  | succ count ih =>
    intro i m st hinv hp
    have hpi := hp i (le_refl i) (by omega)
    have hp1 : ∀ j, i + 1 ≤ j → j < i + 1 + count → refs.getD j 0 ≠ -1 :=
      fun j h1 h2 => hp j (by omega) (by omega)
    rw [refs_slice_succ]
    simp only [for_loop]
    by_cases hhit : find_in_frames st.frame k (refs.getD i 0) ≠ -1
    · have hmem := (resident_hit_iff hinv _ hpi).mp hhit
      have hstep : lru_sim_step k (refs.getD i 0) st
          = { st with time := st.time + 1
                      last := st.last.set (find_in_frames st.frame k (refs.getD i 0)).toNat
                        (st.time + 1) } := by
        unfold lru_sim_step; rw [if_pos hhit]
      rw [hstep]
      obtain ⟨cost, h1, h2⟩ := ih (i + 1) m
        { st with time := st.time + 1
                  last := st.last.set (find_in_frames st.frame k (refs.getD i 0)).toNat
                    (st.time + 1) } hinv hp1
      exact ⟨cost, Paging.hit hmem h1, h2⟩
    · have hnot : refs.getD i 0 ∉ resident st.frame :=
        fun hmem => hhit ((resident_hit_iff hinv _ hpi).mpr hmem)
      by_cases hm : m < k
      · have hstep : lru_sim_step k (refs.getD i 0) st
            = { frame := st.frame.set m (refs.getD i 0)
                last := st.last.set m (st.time + 1)
                time := st.time + 1
                faults := st.faults + 1 } := by
          unfold lru_sim_step
          rw [if_neg hhit, first_empty_eq hinv, if_pos hm]
        rw [hstep]
        obtain ⟨hinv1, hres⟩ := frameInv_load hinv hm _ hpi hnot
        obtain ⟨cost, h1, h2⟩ := ih (i + 1) (m + 1)
          { frame := st.frame.set m (refs.getD i 0)
            last := st.last.set m (st.time + 1)
            time := st.time + 1
            faults := st.faults + 1 } hinv1 hp1
        simp only [] at h1 h2
        rw [hres] at h1
        refine ⟨cost + 1, Paging.load hnot hm h1, ?_⟩
        rw [h2]; push_cast; ring
      · have hmk : m = k := by have := hinv.le; omega
        subst hmk
        have hstep : lru_sim_step m (refs.getD i 0) st
            = { frame := st.frame.set (lru_index st.last m) (refs.getD i 0)
                last := st.last.set (lru_index st.last m) (st.time + 1)
                time := st.time + 1
                faults := st.faults + 1 } := by
          unfold lru_sim_step
          rw [if_neg hhit, first_empty_eq hinv, if_neg hm]
        rw [hstep]
        obtain ⟨hinv1, hq, hres⟩ := frameInv_replace hinv (lru_index st.last m)
          (lru_index_lt st.last m hk) _ hpi hnot
        obtain ⟨cost, h1, h2⟩ := ih (i + 1) m
          { frame := st.frame.set (lru_index st.last m) (refs.getD i 0)
            last := st.last.set (lru_index st.last m) (st.time + 1)
            time := st.time + 1
            faults := st.faults + 1 } hinv1 hp1
        simp only [] at h1 h2
        rw [hres] at h1
        refine ⟨cost + 1, Paging.evict hnot hm hq h1, ?_⟩
        rw [h2]; push_cast; ring

/-- `simulate_optimal` from any state of its loop has no more faults than any run of demand
paging from the same frames on the references that remain. -/
theorem opt_le_paging (k : Nat) (refs : List Int) (n : Nat) (hk : 1 ≤ k)
    (hn : n ≤ 2147483647) :
    ∀ (count i m : Nat) (st : OptState), i + count = n → FrameInv k st.frame m →
      (∀ j, i ≤ j → j < n → refs.getD j 0 ≠ -1) →
      ∀ cost : Nat, Paging k m (resident st.frame) (refs_slice refs i count) cost →
        (for_loop (opt_step k refs n) i count st).faults ≤ st.faults + (cost : Int) := by
  intro count
  induction count with
  | zero =>
    intro i m st _ _ _ cost _
    simp only [for_loop]
    omega
  | succ count ih =>
    intro i m st hic hinv hp cost hpg
    have hpi := hp i (le_refl i) (by omega)
    have hp1 : ∀ j, i + 1 ≤ j → j < n → refs.getD j 0 ≠ -1 :=
      fun j h1 h2 => hp j (by omega) h2
    rw [refs_slice_succ] at hpg
    simp only [for_loop]
    rcases paging_cons_inv hpg with ⟨hmem, h1⟩ | ⟨hnot, hm, c0, hc, h1⟩ |
      ⟨hnot, hm, q, c0, hq, hc, h1⟩
    · have hhit := (resident_hit_iff hinv _ hpi).mpr hmem
      have hstep : opt_step k refs n i st = st := by
        unfold opt_step; rw [if_pos hhit]
      rw [hstep]
      exact ih (i + 1) m st (by omega) hinv hp1 cost h1
    · have hhit : ¬ find_in_frames st.frame k (refs.getD i 0) ≠ -1 :=
        fun h => hnot ((resident_hit_iff hinv _ hpi).mp h)
      have hstep : opt_step k refs n i st
          = { frame := st.frame.set m (refs.getD i 0), faults := st.faults + 1 } := by
        unfold opt_step
        rw [if_neg hhit, first_empty_eq hinv, if_pos hm]
      rw [hstep]
      obtain ⟨hinv1, hres⟩ := frameInv_load hinv hm _ hpi hnot
      rw [← hres] at h1
      have := ih (i + 1) (m + 1)
        { frame := st.frame.set m (refs.getD i 0), faults := st.faults + 1 }
        (by omega) hinv1 hp1 c0 h1
      simp only [] at this
      rw [hc]; push_cast; omega
    · have hhit : ¬ find_in_frames st.frame k (refs.getD i 0) ≠ -1 :=
        fun h => hnot ((resident_hit_iff hinv _ hpi).mp h)
      have hmk : m = k := by have := hinv.le; omega
      subst hmk
      obtain ⟨v, hv, hres, hfar, _⟩ := find_victim_optimal_spec st.frame m refs n i hk
        hinv.occupied hn (by omega)
      have hstep : opt_step m refs n i st
          = { frame := st.frame.set v (refs.getD i 0), faults := st.faults + 1 } := by
        unfold opt_step
        rw [if_neg hhit, first_empty_eq hinv, if_neg hm, hres]
        simp
      rw [hstep]
      obtain ⟨hinv1, hqs, hset⟩ := frameInv_replace hinv v hv _ hpi hnot
      have hgoal : ∀ c1 : Nat, c1 ≤ c0 →
          Paging m m (resident (st.frame.set v (refs.getD i 0)))
            (refs_slice refs (i + 1) count) c1 →
          (for_loop (opt_step m refs n) (i + 1) count
            { frame := st.frame.set v (refs.getD i 0), faults := st.faults + 1 }).faults
            ≤ st.faults + (cost : Int) := by
        intro c1 hc1 hpg1
        have := ih (i + 1) m
          { frame := st.frame.set v (refs.getD i 0), faults := st.faults + 1 }
          (by omega) hinv1 hp1 c1 hpg1
        simp only [] at this
        rw [hc]; push_cast; omega
      by_cases hqv : q = st.frame.getD v 0
      · subst hqv
        rw [← hset] at h1
        exact hgoal c0 (le_refl _) h1
      · obtain ⟨_, fq, hfq, efq⟩ := (mem_resident_iff st.frame q).mp hq
        rw [hinv.len] at hfq
        have hnl : NoLater (refs_slice refs (i + 1) count) q (st.frame.getD v 0) := by
          intro j hj
          rw [refs_slice_getElem?] at hj
          split_ifs at hj with hjc
          simp only [Option.some.injEq] at hj
          obtain ⟨k1, hk1, hu1, hu2, hu3⟩ := hfar fq hfq (i + 1 + j) ⟨by omega, by omega, hj⟩
          refine ⟨k1 - (i + 1), by omega, ?_⟩
          rw [refs_slice_getElem?, if_pos (by omega)]
          have e : i + 1 + (k1 - (i + 1)) = k1 := by omega
          rw [e, hu3, efq]
        have hqp : q ≠ refs.getD i 0 := fun e => hnot (e ▸ hq)
        have hvp : st.frame.getD v 0 ≠ refs.getD i 0 := fun e => hnot (e ▸ hqs)
        have e1 : insert (refs.getD i 0) ((resident st.frame).erase q)
            = insert (st.frame.getD v 0)
                (insert (refs.getD i 0)
                  (((resident st.frame).erase q).erase (st.frame.getD v 0))) :=
          insert_eq_insert_erase _ _ _
            (Finset.mem_erase.mpr ⟨fun e => hqv e.symm, hqs⟩)
        have e2 : insert (refs.getD i 0) ((resident st.frame).erase (st.frame.getD v 0))
            = insert q
                (insert (refs.getD i 0)
                  (((resident st.frame).erase q).erase (st.frame.getD v 0))) := by
          rw [Finset.erase_right_comm]
          exact insert_eq_insert_erase _ _ _ (Finset.mem_erase.mpr ⟨hqv, hq⟩)
        rw [e1] at h1
        obtain ⟨c1, hc1, h2⟩ := paging_keep_sooner m _ m _ q (st.frame.getD v 0) c0 hm
          (by simp only [Finset.mem_insert, Finset.mem_erase, not_or, not_and]
              exact ⟨hqp, fun _ h => absurd rfl h⟩)
          (by simp only [Finset.mem_insert, Finset.mem_erase, not_or, not_and]
              exact ⟨hvp, fun h => absurd rfl h⟩)
          hnl h1
        rw [← e2, ← hset] at h2
        exact hgoal c1 hc1 h2

theorem frameInv_init (k : Nat) : FrameInv k (List.replicate k (-1)) 0 := by
  constructor
  · simp
  · omega
  · intro f hf; omega
  · intro f _ hf
    simp [List.getD_eq_getElem?_getD, List.getElem?_replicate, hf]
  · intro f hf; omega

/-- C30: for `frames >= 1` and every reference string of `n` non-negative page numbers
(`n` an `int`), `simulate_optimal` returns a fault count no greater than `simulate_fifo`
and no greater than `simulate_lru` on the same input. -/
theorem optimal_le_fifo_and_lru (frames : Nat) (refs : List Int) (hf : 1 ≤ frames)
    (hn : refs.length ≤ 2147483647) (hp : ∀ j < refs.length, 0 ≤ refs.getD j 0) :
    simulate_optimal frames refs refs.length ≤ simulate_fifo frames refs refs.length ∧
      simulate_optimal frames refs refs.length ≤ simulate_lru frames refs refs.length := by
  have hp1 : ∀ j, 0 ≤ j → j < 0 + refs.length → refs.getD j 0 ≠ -1 := by
    intro j _ h2
    have := hp j (by omega)
    omega
  have hp2 : ∀ j, 0 ≤ j → j < refs.length → refs.getD j 0 ≠ -1 :=
    fun j h1 h2 => hp1 j h1 (by omega)
  constructor
  · obtain ⟨cost, h1, h2⟩ := fifo_is_paging frames refs hf refs.length 0 0
      { frame := List.replicate frames (-1), faults := 0, next_replace := 0 }
      (frameInv_init frames) (fun _ => rfl) (by show 0 < frames; omega) hp1
    have h3 := opt_le_paging frames refs refs.length hf hn refs.length 0 0
      { frame := List.replicate frames (-1), faults := 0 } (by omega)
      (frameInv_init frames) hp2 cost h1
    unfold simulate_optimal simulate_fifo
    rw [h2]
    exact h3
  · obtain ⟨cost, h1, h2⟩ := lru_is_paging frames refs hf refs.length 0 0
      { frame := List.replicate frames (-1), last := List.replicate frames (-1),
        time := 0, faults := 0 }
      (frameInv_init frames) hp1
    have h3 := opt_le_paging frames refs refs.length hf hn refs.length 0 0
      { frame := List.replicate frames (-1), faults := 0 } (by omega)
      (frameInv_init frames) hp2 cost h1
    unfold simulate_optimal simulate_lru
    rw [h2]
    exact h3

/-- The three fault counts on 3 frames and the reference string
`7 0 1 2 0 3 0 4 2 3 0 3 2`. -/
theorem compare_example :
    simulate_fifo 3 [7, 0, 1, 2, 0, 3, 0, 4, 2, 3, 0, 3, 2] 13 = 10 ∧
      simulate_lru 3 [7, 0, 1, 2, 0, 3, 0, 4, 2, 3, 0, 3, 2] 13 = 9 ∧
      simulate_optimal 3 [7, 0, 1, 2, 0, 3, 0, 4, 2, 3, 0, 3, 2] 13 = 7 := by
  decide!

/-- C30 on 3 frames and the reference string `7 0 1 2 0 3 0 4 2 3 0 3 2`. -/
theorem optimal_le_fifo_and_lru_witness :
    simulate_optimal 3 [7, 0, 1, 2, 0, 3, 0, 4, 2, 3, 0, 3, 2] 13
        ≤ simulate_fifo 3 [7, 0, 1, 2, 0, 3, 0, 4, 2, 3, 0, 3, 2] 13 ∧
      simulate_optimal 3 [7, 0, 1, 2, 0, 3, 0, 4, 2, 3, 0, 3, 2] 13
        ≤ simulate_lru 3 [7, 0, 1, 2, 0, 3, 0, 4, 2, 3, 0, 3, 2] 13 :=
  optimal_le_fifo_and_lru 3 [7, 0, 1, 2, 0, 3, 0, 4, 2, 3, 0, 3, 2] (by decide) (by decide)
    (by decide)

/-- The entry `need[i][j]` is `max(Max - Allocation, 0)` whenever the difference fits in
`int`. -/
theorem need_entry_eq (max alloc : List (List Int)) (i j : Nat)
    (h : IsInt ((max.getD i []).getD j 0 - (alloc.getD i []).getD j 0)) :
    need_entry max alloc i j
      = Max.max ((max.getD i []).getD j 0 - (alloc.getD i []).getD j 0) 0 := by
  unfold need_entry
  simp only []
  rw [wrapInt_eq h.1 h.2]
  split_ifs with hneg
  · rw [max_eq_right (by omega)]
  · rw [max_eq_left (by omega)]

/-! ### SRTF on inputs within the limits of the program -/

theorem sum_upto_succ (f : Nat → Int) (n : Nat) : sum_upto f (n + 1) = sum_upto f n + f n := by
  simp [sum_upto, List.range_succ]

theorem sum_upto_le (f g : Nat → Int) (n : Nat) (h : ∀ i < n, f i ≤ g i) :
    sum_upto f n ≤ sum_upto g n := by
  induction n with
  | zero => simp [sum_upto]
  | succ n ih =>
    rw [sum_upto_succ, sum_upto_succ]
    have := ih (fun i hi => h i (by omega))
    have := h n (by omega)
    omega

theorem sum_upto_nonneg (f : Nat → Int) (n : Nat) (h : ∀ i < n, 0 ≤ f i) :
    0 ≤ sum_upto f n := by
  induction n with
  | zero => simp [sum_upto]
  | succ n ih =>
    rw [sum_upto_succ]
    have := ih (fun i hi => h i (by omega))
    have := h n (by omega)
    omega

theorem le_sum_upto_of_pos (f : Nat → Int) (n : Nat) (h : ∀ i < n, 1 ≤ f i) :
    (n : Int) ≤ sum_upto f n := by
  induction n with
  | zero => simp [sum_upto]
  | succ n ih =>
    rw [sum_upto_succ]
    have := ih (fun i hi => h i (by omega))
    have := h n (by omega)
    push_cast
    omega

theorem term_le_sum_upto (f : Nat → Int) (n : Nat) (h : ∀ i < n, 0 ≤ f i) (b : Nat)
    (hb : b < n) : f b ≤ sum_upto f n := by
  induction n with
  | zero => omega
  | succ n ih =>
    rw [sum_upto_succ]
    by_cases e : b = n
    · subst e
      have := sum_upto_nonneg f b (fun i hi => h i (by omega))
      omega
    · have := ih (fun i hi => h i (by omega)) (by omega)
      have := h n (by omega)
      omega

theorem sum_upto_update (f g : Nat → Int) (n b : Nat) (hb : b < n)
    (h : ∀ i < n, i ≠ b → g i = f i) : sum_upto g n = sum_upto f n - f b + g b := by
  induction n with
  | zero => omega
  | succ n ih =>
    rw [sum_upto_succ, sum_upto_succ]
    by_cases e : b = n
    · subst e
      have : sum_upto g b = sum_upto f b := by
        have h1 := sum_upto_le g f b (fun i hi => le_of_eq (h i (by omega) (by omega)))
        have h2 := sum_upto_le f g b (fun i hi => le_of_eq (h i (by omega) (by omega)).symm)
        omega
      omega
    · have := ih (by omega) (fun i hi hne => h i (by omega) hne)
      have := h n (by omega) (fun e2 => e e2.symm)
      omega

/-- The selection loop of sjf.c:71-76 after the iterations `0 .. k-1`, when every remaining
time is below `INT_MAX`. -/
theorem srtf_pick_fold (arrival : List Int) (st : SrtfState) (k : Nat)
    (hrem : ∀ i < k, st.rem.getD i 0 < 2147483647) :
    let acc := (List.range k).foldl (srtf_pick_body arrival st) (-1, INT_MAX)
    ((∀ i < k, ¬ SrtfReady arrival st i) ∧ acc = (-1, INT_MAX)) ∨
      ∃ b < k, acc = ((b : Int), st.rem.getD b 0) ∧ SrtfReady arrival st b ∧
        ∀ j < k, SrtfReady arrival st j →
          st.rem.getD b 0 ≤ st.rem.getD j 0 ∧ (st.rem.getD j 0 = st.rem.getD b 0 → b ≤ j) := by
  induction k with
  | zero => left; simp
  | succ k ih =>
    have ih1 := ih (fun i hi => hrem i (by omega))
    simp only [List.range_succ, List.foldl_append, List.foldl_cons, List.foldl_nil] at ih1 ⊢
    have hk := hrem k (by omega)
    rcases ih1 with ⟨hall, hacc⟩ | ⟨b, hb, hacc, hrb, hmin⟩
    · rw [hacc]
      by_cases hr : SrtfReady arrival st k
      · right
        refine ⟨k, by omega, ?_, hr, ?_⟩
        · unfold srtf_pick_body
          rw [if_pos ⟨hr.1, hr.2.1, by simp only [INT_MAX]; exact hk, hr.2.2⟩]
        · intro j hj hrj
          have : j = k := by
            by_contra hne
            exact hall j (by omega) hrj
          subst this
          exact ⟨le_refl _, fun _ => le_refl _⟩
      · left
        refine ⟨?_, ?_⟩
        · intro i hi
          by_cases e : i = k
          · subst e; exact hr
          · exact hall i (by omega)
        · unfold srtf_pick_body
          rw [if_neg]
          rintro ⟨h1, h2, _, h4⟩
          exact hr ⟨h1, h2, h4⟩
    · rw [hacc]
      right
      by_cases hr : SrtfReady arrival st k ∧ st.rem.getD k 0 < st.rem.getD b 0
      · refine ⟨k, by omega, ?_, hr.1, ?_⟩
        · unfold srtf_pick_body
          rw [if_pos ⟨hr.1.1, hr.1.2.1, hr.2, hr.1.2.2⟩]
        · intro j hj hrj
          by_cases e : j = k
          · subst e; exact ⟨le_refl _, fun _ => le_refl _⟩
          · have := hmin j (by omega) hrj
            exact ⟨by omega, fun e2 => by omega⟩
      · refine ⟨b, by omega, ?_, hrb, ?_⟩
        · unfold srtf_pick_body
          rw [if_neg]
          rintro ⟨h1, h2, h3, h4⟩
          exact hr ⟨⟨h1, h2, h4⟩, h3⟩
        · intro j hj hrj
          by_cases e : j = k
          · subst e
            have hnlt : ¬ st.rem.getD j 0 < st.rem.getD b 0 := fun h => hr ⟨hrj, h⟩
            exact ⟨by omega, fun _ => by omega⟩
          · exact hmin j (by omega) hrj

/-- Where the selection is right: when every remaining time is below `INT_MAX`, `idx` is
`-1` exactly when no unfinished process has arrived, and otherwise it is the arrived
unfinished process with the smallest remaining time, the lowest index among ties. -/
theorem srtf_pick_spec (arrival : List Int) (n : Nat) (st : SrtfState)
    (hrem : ∀ i < n, st.rem.getD i 0 < 2147483647) :
    ((∀ i < n, ¬ SrtfReady arrival st i) ∧ srtf_pick arrival n st = -1) ∨
      ∃ b < n, srtf_pick arrival n st = (b : Int) ∧ SrtfReady arrival st b ∧
        ∀ j < n, SrtfReady arrival st j →
          st.rem.getD b 0 ≤ st.rem.getD j 0 ∧ (st.rem.getD j 0 = st.rem.getD b 0 → b ≤ j) := by
  rcases srtf_pick_fold arrival st n hrem with ⟨h1, h2⟩ | ⟨b, hb, h2, h3, h4⟩
  · exact Or.inl ⟨h1, by unfold srtf_pick; rw [h2]⟩
  · exact Or.inr ⟨b, hb, by unfold srtf_pick; rw [h2], h3, h4⟩

theorem srtf_step_idle (arrival burst : List Int) (n : Nat) (st : SrtfState)
    (hg : st.gantt_proc.length < 10000) (hp : srtf_pick arrival n st = -1) :
    srtf_step arrival burst n st
      = some { st with gantt_proc := st.gantt_proc ++ [-1], t := wrapInt (st.t + 1) } := by
  unfold srtf_step
  rw [if_pos (by simpa [GANTT_SIZE] using hg), if_pos hp]

theorem srtf_step_run (arrival burst : List Int) (n : Nat) (st : SrtfState) (b : Nat)
    (hg : st.gantt_proc.length < 10000) (hp : srtf_pick arrival n st = (b : Int))
    (hr : wrapInt (st.rem.getD b 0 - 1) ≠ 0) :
    srtf_step arrival burst n st
      = some { st with rem := st.rem.set b (wrapInt (st.rem.getD b 0 - 1))
                       t := wrapInt (st.t + 1)
                       gantt_proc := st.gantt_proc ++ [(b : Int)] } := by
  unfold srtf_step
  have hne : ¬ ((b : Int) = -1) := by omega
  rw [if_pos (by simpa [GANTT_SIZE] using hg), hp, if_neg hne]
  simp only [Int.toNat_ofNat]
  rw [if_neg hr]

theorem srtf_step_finish (arrival burst : List Int) (n : Nat) (st : SrtfState) (b : Nat)
    (hg : st.gantt_proc.length < 10000) (hp : srtf_pick arrival n st = (b : Int))
    (hr : wrapInt (st.rem.getD b 0 - 1) = 0) :
    srtf_step arrival burst n st
      = some { rem := st.rem.set b (wrapInt (st.rem.getD b 0 - 1))
               completed := st.completed.set b 1
               completion_time := st.completion_time.set b (wrapInt (st.t + 1))
               turnaround := st.turnaround.set b
                 (wrapInt (wrapInt (st.t + 1) - arrival.getD b 0))
               waiting := st.waiting.set b
                 (wrapInt (wrapInt (wrapInt (st.t + 1) - arrival.getD b 0) - burst.getD b 0))
               t := wrapInt (st.t + 1)
               finished := wrapInt (st.finished + 1)
               total_wait := st.total_wait
                 + wrapInt (wrapInt (wrapInt (st.t + 1) - arrival.getD b 0) - burst.getD b 0)
               total_tat := st.total_tat + wrapInt (wrapInt (st.t + 1) - arrival.getD b 0)
               gantt_proc := st.gantt_proc ++ [(b : Int)] } := by
  unfold srtf_step
  have hne : ¬ ((b : Int) = -1) := by omega
  rw [if_pos (by simpa [GANTT_SIZE] using hg), hp, if_neg hne]
  simp only [Int.toNat_ofNat]
  rw [if_pos hr]

/-- At the head of the loop with `finished < n` some process has time remaining. -/
theorem srtfInv_unfinished {arrival burst : List Int} {n : Nat} {A t0 : Int}
    {st : SrtfState} (hinv : SrtfInv arrival burst n A t0 st)
    (hlt : st.finished < (n : Int)) :
    ∃ u < n, st.completed.getD u 0 = 0 ∧ 1 ≤ st.rem.getD u 0 := by
  by_contra hno
  push_neg at hno
  have hall : st.completed.countP (fun x => decide (x ≠ 0)) = st.completed.length := by
    apply countP_eq_length_of_all
    intro j a hj
    have hjn : j < n := by
      rw [← hinv.clen]
      exact (List.getElem?_eq_some_iff.mp hj).1
    have hg : st.completed.getD j 0 = a := by
      simp [List.getD_eq_getElem?_getD, hj]
    by_contra hz
    have hz0 : a = 0 := by simpa using hz
    have h1 := hno j hjn (by rw [hg, hz0])
    have h2 := hinv.rem_nonneg j hjn
    have h3 := (hinv.done_iff j hjn).mpr (by omega)
    exact h3 (by rw [hg, hz0])
  have := hinv.fin
  rw [hall, hinv.clen] at this
  omega

/-- One iteration of the simulation loop on inputs within the limits: it stays inside
`gantt_proc`, keeps the invariant and advances the time by 1; the CPU idles only when no
unfinished process has arrived, and otherwise the process run for this time unit is the
arrived unfinished process with the smallest remaining time, lowest index among ties. -/
theorem srtfInv_step {arrival burst : List Int} {n : Nat} {A t0 : Int} {st : SrtfState}
    (hfit : SrtfFits arrival burst n A t0) (hinv : SrtfInv arrival burst n A t0 st)
    (hlt : st.finished < (n : Int)) :
    ∃ st1, srtf_step arrival burst n st = some st1 ∧ SrtfInv arrival burst n A t0 st1 ∧
      st1.t = st.t + 1 ∧
      (((∀ i < n, ¬ SrtfReady arrival st i) ∧ st1.rem = st.rem ∧
          st1.gantt_proc = st.gantt_proc ++ [-1]) ∨
        ∃ b < n, SrtfReady arrival st b ∧
          (∀ j < n, SrtfReady arrival st j →
            st.rem.getD b 0 ≤ st.rem.getD j 0 ∧
              (st.rem.getD j 0 = st.rem.getD b 0 → b ≤ j)) ∧
          st1.rem = st.rem.set b (st.rem.getD b 0 - 1) ∧
          st1.gantt_proc = st.gantt_proc ++ [(b : Int)]) := by
  obtain ⟨u, hu, hcu, hru⟩ := srtfInv_unfinished hinv hlt
  have hS := sum_upto_le (fun i => st.rem.getD i 0) (fun i => burst.getD i 0) n hinv.rem_le
  have hterm := term_le_sum_upto (fun i => st.rem.getD i 0) n hinv.rem_nonneg u hu
  simp only [] at hterm
  have hbud := hinv.budget
  have hglen := hinv.glen
  have hcap := hfit.cap
  have hint := hfit.int
  have h0 := hfit.start_nonneg
  have hA := hfit.start_le
  have hg : st.gantt_proc.length < 10000 := by omega
  have ht : wrapInt (st.t + 1) = st.t + 1 := wrapInt_eq (by omega) (by omega)
  have hbn : ∀ i < n, (0 : Int) ≤ burst.getD i 0 := fun i hi => by
    have := hfit.burst_pos i hi
    omega
  have hrem : ∀ i < n, st.rem.getD i 0 < 2147483647 := by
    intro i hi
    have h1 := hinv.rem_le i hi
    have h2 := term_le_sum_upto (fun i => burst.getD i 0) n hbn i hi
    simp only [] at h2
    omega
  rcases srtf_pick_spec arrival n st hrem with ⟨hnone, hp⟩ | ⟨b, hb, hp, hrb, hmin⟩
  · refine ⟨_, srtf_step_idle arrival burst n st hg hp, ?_, ht, Or.inl ⟨hnone, rfl, rfl⟩⟩
    have harr : st.t + 1 ≤ A := by
      have h1 := hnone u hu
      have h2 := hfit.arr_le u hu
      unfold SrtfReady at h1
      by_contra hcon
      exact h1 ⟨hcu, by omega, by omega⟩
    exact
      { rlen := hinv.rlen
        clen := hinv.clen
        ctlen := hinv.ctlen
        wlen := hinv.wlen
        rem_nonneg := hinv.rem_nonneg
        rem_le := hinv.rem_le
        done_iff := hinv.done_iff
        fin := hinv.fin
        started := fun i hi h => by
          have := hinv.started i hi h
          simp only [ht]
          omega
        wait := hinv.wait
        budget := by
          simp only [ht]
          omega
        glen := by
          simp only [ht, List.length_append, List.length_singleton]
          push_cast
          omega }
  · obtain ⟨hcb, hab, hpb⟩ := hrb
    have hbl : b < st.rem.length := by rw [hinv.rlen]; exact hb
    have hbc : b < st.completed.length := by rw [hinv.clen]; exact hb
    have hbct : b < st.completion_time.length := by rw [hinv.ctlen]; exact hb
    have hbw : b < st.waiting.length := by rw [hinv.wlen]; exact hb
    have hrle := hinv.rem_le b hb
    have hw : wrapInt (st.rem.getD b 0 - 1) = st.rem.getD b 0 - 1 :=
      wrapInt_eq (by omega) (by have := hrem b hb; omega)
    have hsum : sum_upto (fun i => (st.rem.set b (st.rem.getD b 0 - 1)).getD i 0) n
        = sum_upto (fun i => st.rem.getD i 0) n - 1 := by
      rw [sum_upto_update (fun i => st.rem.getD i 0) _ n b hb
        (fun i _ hne => by simp only [getD_set_eq_ite _ _ _ _ hbl, if_neg hne])]
      simp only [getD_set_eq_ite _ _ _ _ hbl, if_true]
      ring
    have hstart : arrival.getD b 0 + (burst.getD b 0 - (st.rem.getD b 0 - 1)) ≤ st.t + 1 := by
      by_cases e : st.rem.getD b 0 < burst.getD b 0
      · have := hinv.started b hb e
        omega
      · omega
    by_cases hr : wrapInt (st.rem.getD b 0 - 1) = 0
    · have hr0 : st.rem.getD b 0 - 1 = 0 := by rw [hw] at hr; exact hr
      have harb := hfit.arr_nonneg b hb
      have harA := hfit.arr_le b hb
      have hbp := hfit.burst_pos b hb
      have hbS := term_le_sum_upto (fun i => burst.getD i 0) n hbn b hb
      simp only [] at hbS
      have hw2 : wrapInt (st.t + 1 - arrival.getD b 0) = st.t + 1 - arrival.getD b 0 :=
        wrapInt_eq (by omega) (by omega)
      have hw3 : wrapInt (st.t + 1 - arrival.getD b 0 - burst.getD b 0)
          = st.t + 1 - arrival.getD b 0 - burst.getD b 0 :=
        wrapInt_eq (by omega) (by omega)
      have hcnt : (st.completed.set b 1).countP (fun x => decide (x ≠ 0))
          = st.completed.countP (fun x => decide (x ≠ 0)) + 1 := by
        have hget : st.completed[b]? = some 0 := by
          have := hcb
          rw [List.getD_eq_getElem?_getD, List.getElem?_eq_getElem hbc] at this
          rw [List.getElem?_eq_getElem hbc]
          simpa using this
        have := countP_set_add (fun x : Int => decide (x ≠ 0)) st.completed b 0 1 hget
        simpa using this
      have hcl : st.completed.countP (fun x => decide (x ≠ 0)) ≤ n := by
        rw [← hinv.clen]; exact List.countP_le_length _
      have hfin := hinv.fin
      have hnS := le_sum_upto_of_pos (fun i => burst.getD i 0) n hfit.burst_pos
      have hfinw : wrapInt (st.finished + 1) = st.finished + 1 :=
        wrapInt_eq (by omega) (by omega)
      refine ⟨_, srtf_step_finish arrival burst n st b hg hp hr, ?_, ht,
        Or.inr ⟨b, hb, ⟨hcb, hab, hpb⟩, hmin, by simp only [hw], rfl⟩⟩
      simp only [ht, hw, hw2, hw3, hfinw]
      exact
        { rlen := by simp [hinv.rlen]
          clen := by simp [hinv.clen]
          ctlen := by simp [hinv.ctlen]
          wlen := by simp [hinv.wlen]
          rem_nonneg := fun i hi => by
            simp only [getD_set_eq_ite _ _ _ _ hbl]
            split_ifs
            · omega
            · exact hinv.rem_nonneg i hi
          rem_le := fun i hi => by
            simp only [getD_set_eq_ite _ _ _ _ hbl]
            split_ifs with e
            · subst e; omega
            · exact hinv.rem_le i hi
          done_iff := fun i hi => by
            simp only [getD_set_eq_ite _ _ _ _ hbl, getD_set_eq_ite _ _ _ _ hbc]
            split_ifs with e
            · exact ⟨fun _ => hr0, fun _ => by decide⟩
            · exact hinv.done_iff i hi
          fin := by
            simp only [hcnt, hinv.fin]
            push_cast
            ring
          started := fun i hi => by
            simp only [getD_set_eq_ite _ _ _ _ hbl]
            split_ifs with e
            · subst e; intro _; exact hstart
            · intro h
              have := hinv.started i hi h
              omega
          wait := fun i hi => by
            simp only [getD_set_eq_ite _ _ _ _ hbc, getD_set_eq_ite _ _ _ _ hbw,
              getD_set_eq_ite _ _ _ _ hbct]
            split_ifs with e
            · subst e
              intro _
              exact ⟨rfl, by omega⟩
            · exact hinv.wait i hi
          budget := by
            simp only []
            rw [hsum]
            omega
          glen := by
            simp only [List.length_append, List.length_singleton]
            push_cast
            omega }
    · have hr0 : st.rem.getD b 0 - 1 ≠ 0 := by rw [hw] at hr; exact hr
      refine ⟨_, srtf_step_run arrival burst n st b hg hp hr, ?_, ht,
        Or.inr ⟨b, hb, ⟨hcb, hab, hpb⟩, hmin, by simp only [hw], rfl⟩⟩
      simp only [ht, hw]
      exact
        { rlen := by simp [hinv.rlen]
          clen := hinv.clen
          ctlen := hinv.ctlen
          wlen := hinv.wlen
          rem_nonneg := fun i hi => by
            simp only [getD_set_eq_ite _ _ _ _ hbl]
            split_ifs
            · omega
            · exact hinv.rem_nonneg i hi
          rem_le := fun i hi => by
            simp only [getD_set_eq_ite _ _ _ _ hbl]
            split_ifs with e
            · subst e; omega
            · exact hinv.rem_le i hi
          done_iff := fun i hi => by
            simp only [getD_set_eq_ite _ _ _ _ hbl]
            split_ifs with e
            · subst e
              constructor
              · intro h; exact absurd hcb h
              · intro h; exact absurd h hr0
            · exact hinv.done_iff i hi
          fin := hinv.fin
          started := fun i hi => by
            simp only [getD_set_eq_ite _ _ _ _ hbl]
            split_ifs with e
            · subst e; intro _; exact hstart
            · intro h
              have := hinv.started i hi h
              omega
          wait := hinv.wait
          budget := by
            simp only []
            rw [hsum]
            omega
          glen := by
            simp only [List.length_append, List.length_singleton]
            push_cast
            omega }

/-- On inputs within the limits the loop of sjf.c ends, within the time units that remain
up to `A` plus the total burst, in a state in which every process is finished. -/
theorem srtf_loop_spec {arrival burst : List Int} {n : Nat} {A t0 : Int}
    (hfit : SrtfFits arrival burst n A t0) :
    ∀ (fuel : Nat) (st : SrtfState), SrtfInv arrival burst n A t0 st →
      A + sum_upto (fun i => burst.getD i 0) n - st.t ≤ (fuel : Int) →
      ∃ st1, srtf_loop arrival burst n fuel st = .ended st1 ∧
        SrtfInv arrival burst n A t0 st1 ∧ ¬ st1.finished < (n : Int) := by
  intro fuel
  induction fuel with
  | zero =>
    intro st hinv hf
    unfold srtf_loop
    by_cases hlt : st.finished < (n : Int)
    · obtain ⟨u, hu, _, hru⟩ := srtfInv_unfinished hinv hlt
      have hterm := term_le_sum_upto (fun i => st.rem.getD i 0) n hinv.rem_nonneg u hu
      simp only [] at hterm
      have := hinv.budget
      simp only [Nat.cast_zero] at hf
      omega
    · rw [if_neg hlt]
      exact ⟨st, rfl, hinv, hlt⟩
  | succ fuel ih =>
    intro st hinv hf
    unfold srtf_loop
    by_cases hlt : st.finished < (n : Int)
    · rw [if_pos hlt]
      obtain ⟨st1, hstep, hinv1, ht1, _⟩ := srtfInv_step hfit hinv hlt
      simp only [hstep]
      exact ih st1 hinv1 (by rw [ht1]; push_cast at hf; omega)
    · rw [if_neg hlt]
      exact ⟨st, rfl, hinv, hlt⟩

theorem srtfInv_init {arrival burst : List Int} {n : Nat} {A : Int}
    (hfit : SrtfFits arrival burst n A (srtf_init arrival burst n).t) :
    SrtfInv arrival burst n A (srtf_init arrival burst n).t (srtf_init arrival burst n) := by
  have hrem : ∀ i < n, (srtf_init arrival burst n).rem.getD i 0 = burst.getD i 0 :=
    fun i hi => getD_map_range n _ i hi
  have hcomp : ∀ i < n, (srtf_init arrival burst n).completed.getD i 0 = 0 := by
    intro i hi
    simp [srtf_init, List.getD_eq_getElem?_getD, List.getElem?_replicate, hi]
  exact
    { rlen := by simp [srtf_init]
      clen := by simp [srtf_init]
      ctlen := by simp [srtf_init]
      wlen := by simp [srtf_init]
      rem_nonneg := fun i hi => by
        rw [hrem i hi]
        have := hfit.burst_pos i hi
        omega
      rem_le := fun i hi => le_of_eq (hrem i hi)
      done_iff := fun i hi => by
        rw [hrem i hi, hcomp i hi]
        have := hfit.burst_pos i hi
        constructor
        · intro h; exact absurd rfl h
        · intro h; omega
      fin := by simp [srtf_init, List.countP_replicate]
      started := fun i hi h => by
        rw [hrem i hi] at h
        omega
      wait := fun i hi h => absurd (hcomp i hi) h
      budget := by
        have := sum_upto_le (fun i => (srtf_init arrival burst n).rem.getD i 0)
          (fun i => burst.getD i 0) n (fun i hi => le_of_eq (hrem i hi))
        have := hfit.start_le
        omega
      glen := by simp [srtf_init] }

/-- Where the SRTF simulation is right: on inputs within the limits (`SrtfFits`) the loop
ends within 10000 iterations, every process is finished, and every waiting time is
`completion - arrival - burst` and not negative.  The process run in each time unit is
described by `srtfInv_step`. -/
theorem srtf_in_range (arrival burst : List Int) (n : Nat) (A : Int)
    (hfit : SrtfFits arrival burst n A (srtf_init arrival burst n).t) :
    ∃ st, srtf_main n arrival burst 10000 = .ended st ∧
      ∀ i < n, st.rem.getD i 0 = 0 ∧
        st.waiting.getD i 0
          = st.completion_time.getD i 0 - arrival.getD i 0 - burst.getD i 0 ∧
        0 ≤ st.waiting.getD i 0 := by
  obtain ⟨st, hrun, hinv, hfin⟩ := srtf_loop_spec hfit 10000 _ (srtfInv_init hfit)
    (by have := hfit.cap; push_cast; omega)
  refine ⟨st, hrun, ?_⟩
  intro i hi
  have hdone : st.completed.getD i 0 ≠ 0 := by
    intro hz
    have hil : i < st.completed.length := by rw [hinv.clen]; exact hi
    have hget : st.completed[i]? = some 0 := by
      rw [List.getD_eq_getElem?_getD, List.getElem?_eq_getElem hil] at hz
      rw [List.getElem?_eq_getElem hil]
      simpa using hz
    have := countP_lt_length (fun x : Int => decide (x ≠ 0)) st.completed i 0 hget (by simp)
    have := hinv.fin
    have := hinv.clen
    omega
  exact ⟨(hinv.done_iff i hi).mp hdone, hinv.wait i hi hdone⟩

/-- The header's example of sjf.c is within the limits. -/
theorem srtf_header_fits :
    SrtfFits [0, 1, 2, 3] [8, 4, 9, 5] 4 3 (srtf_init [0, 1, 2, 3] [8, 4, 9, 5] 4).t := by
  constructor
  · intro i hi; interval_cases i <;> decide
  · intro i hi; interval_cases i <;> decide
  · intro i hi; interval_cases i <;> decide
  · decide
  · decide
  · decide
  · decide

/-! ### Round Robin on inputs within the limits of the program -/

theorem queue_contents_push (st : RrState) (x : Nat) (hq : st.qhead ≤ st.qtail)
    (hroom : st.qtail - st.qhead < st.queue.length) :
    queue_contents (Q_PUSH st x) = queue_contents st ++ [(x : Int)] := by
  unfold queue_contents Q_PUSH
  simp only [List.length_set]
  have e : st.qtail + 1 - st.qhead = (st.qtail - st.qhead) + 1 := by omega
  rw [e, List.range'_concat, List.map_append]
  have hL : 0 < st.queue.length := by omega
  have hm : st.qtail % st.queue.length < st.queue.length := Nat.mod_lt _ hL
  congr 1
  · apply List.map_congr_left
    intro k hk
    rw [List.mem_range'_1] at hk
    rw [getD_set_eq_ite _ _ _ _ hm, if_neg]
    exact mod_ne_of_lt (by omega) (by omega)
  · simp only [List.map_cons, List.map_nil, Nat.one_mul]
    have e2 : st.qhead + (st.qtail - st.qhead) = st.qtail := by omega
    rw [e2, getD_set_eq_ite _ _ _ _ hm, if_pos rfl]

theorem queue_contents_pop (st : RrState) (hq : st.qhead < st.qtail) :
    queue_contents st
      = st.queue.getD (st.qhead % st.queue.length) 0
        :: queue_contents { st with qhead := st.qhead + 1 } := by
  unfold queue_contents
  have e : st.qtail - st.qhead = (st.qtail - (st.qhead + 1)) + 1 := by omega
  rw [e]
  simp [List.range']

theorem queue_contents_nil (st : RrState) (hq : st.qhead ≤ st.qtail) :
    queue_contents st = [] ↔ st.qhead = st.qtail := by
  unfold queue_contents
  constructor
  · intro h
    have := congrArg List.length h
    simp at this
    omega
  · intro h
    rw [h]
    simp

theorem rr_enqueue_arrived_eq (arrival : List Int) (n : Nat) (st : RrState) :
    rr_enqueue_arrived arrival n st = (List.range n).foldl (rr_enqueue_body arrival) st := rfl

theorem rr_enqueue_fold (arrival : List Int) (st : RrState) (hq : st.qhead ≤ st.qtail)
    (k : Nat) (hk : k ≤ st.added.length)
    (hroom : (st.qtail - st.qhead) + k ≤ st.queue.length) :
    Enqueued arrival st k ((List.range k).foldl (rr_enqueue_body arrival) st) := by
  induction k with
  | zero =>
    simp only [List.range_zero, List.foldl_nil]
    exact ⟨rfl, rfl, rfl, rfl, rfl, rfl, rfl, rfl, fun i hi => by omega, fun _ _ => rfl,
      [], by simp, by simp, by simp, by simp, by simp⟩
  | succ k ih =>
    have ih1 := ih (by omega) (by omega)
    rw [List.range_succ, List.foldl_append]
    simp only [List.foldl_cons, List.foldl_nil]
    generalize (List.range k).foldl (rr_enqueue_body arrival) st = s at ih1 ⊢
    obtain ⟨h1, h2, h3, h4, h5, h6, h7, h8, h9, h10, new, h11, h12, h13, h14, h15⟩ := ih1
    have hka : s.added.getD k 0 = st.added.getD k 0 := h10 k (le_refl k)
    have hkl : k < s.added.length := by omega
    unfold rr_enqueue_body
    by_cases hc : s.added.getD k 0 = 0 ∧ arrival.getD k 0 ≤ s.time
    · rw [if_pos hc]
      have hpush := queue_contents_push s k (by omega) (by omega)
      have hcont : queue_contents { Q_PUSH s k with added := s.added.set k 1 }
          = queue_contents (Q_PUSH s k) := rfl
      refine ⟨h1, h2, h3, h4, h5, h6, by simp [Q_PUSH, h7], by simp [h8], ?_, ?_,
        new ++ [k], ?_, ?_, ?_, ?_, ?_⟩
      · intro i hi
        simp only [getD_set_eq_ite _ _ _ _ hkl]
        split_ifs with e
        · subst e
          rw [← hka, ← h3]
          exact ⟨fun _ => Or.inr hc.2, fun _ => by decide⟩
        · exact h9 i (by omega)
      · intro i hi
        simp only [getD_set_eq_ite _ _ _ _ hkl]
        rw [if_neg (by omega)]
        exact h10 i (by omega)
      · rw [hcont, hpush, h11]
        simp
      · rw [List.nodup_append]
        refine ⟨h12, by simp, ?_⟩
        intro x hx hy
        simp only [List.mem_singleton] at hy
        subst hy
        have := (h13 x).mp hx
        omega
      · intro i
        simp only [List.mem_append, List.mem_singleton, h13]
        constructor
        · rintro (⟨a, b, c⟩ | e)
          · exact ⟨by omega, b, c⟩
          · subst e
            exact ⟨by omega, by rw [← hka]; exact hc.1, by rw [← h3]; exact hc.2⟩
        · rintro ⟨a, b, c⟩
          by_cases e : i = k
          · exact Or.inr e
          · exact Or.inl ⟨by omega, b, c⟩
      · simp only [Q_PUSH, List.length_append, List.length_singleton, h14]
        omega
      · simp only [List.length_append, List.length_singleton]
        omega
    · rw [if_neg hc]
      refine ⟨h1, h2, h3, h4, h5, h6, h7, h8, ?_, fun i hi => h10 i (by omega),
        new, h11, h12, ?_, h14, by omega⟩
      · intro i hi
        by_cases e : i = k
        · subst e
          rw [hka, h3] at hc
          rw [hka]
          constructor
          · intro h; exact Or.inl h
          · rintro (h | h)
            · exact h
            · intro hz
              exact hc ⟨hz, h⟩
        · exact h9 i (by omega)
      · intro i
        rw [h13]
        constructor
        · rintro ⟨a, b, c⟩; exact ⟨by omega, b, c⟩
        · rintro ⟨a, b, c⟩
          refine ⟨?_, b, c⟩
          by_contra hge
          have e : i = k := by omega
          subst e
          rw [hka, h3] at hc
          exact hc ⟨b, c⟩

theorem rrPre_queue_le {arrival burst : List Int} {n : Nat} {A : Int} {skip : Option Nat}
    {st : RrState} (h : RrPre arrival burst n A skip st) : st.qtail - st.qhead ≤ n := by
  have hlen : (queue_contents st).length = st.qtail - st.qhead := by
    simp [queue_contents]
  have hsub : queue_contents st ⊆ (List.range n).map (fun (i : Nat) => (i : Int)) := by
    intro x hx
    obtain ⟨i, hi, e, _⟩ := (h.q_mem x).mp hx
    exact List.mem_map.mpr ⟨i, List.mem_range.mpr hi, e.symm⟩
  have h1 := (List.subperm_of_subset h.q_nodup hsub).length_le
  simp only [List.length_map, List.length_range] at h1
  omega

/-- The loop that pushes the newly arrived processes keeps the invariant, and afterwards
every process that has arrived is added. -/
theorem rrPre_enqueue {arrival burst : List Int} {n : Nat} {A : Int} {skip : Option Nat}
    {st : RrState} (h : RrPre arrival burst n A skip st)
    (hb : ∀ i < n, 1 ≤ burst.getD i 0)
    (hskip : ∀ i, skip = some i → st.added.getD i 0 ≠ 0) :
    RrPre arrival burst n A skip (rr_enqueue_arrived arrival n st) ∧
      AllArrived arrival n (rr_enqueue_arrived arrival n st) ∧
      Enqueued arrival st n (rr_enqueue_arrived arrival n st) := by
  have hql := rrPre_queue_le h
  have henq := rr_enqueue_fold arrival st h.hq n (by rw [h.alen])
    (by rw [h.qlen]; omega)
  rw [← rr_enqueue_arrived_eq] at henq
  refine ⟨?_, ?_, henq⟩
  · obtain ⟨e1, e2, e3, e4, e5, e6, e7, e8, e9, e10, new, e11, e12, e13, e14, e15⟩ := henq
    exact
      { rlen := by rw [e1]; exact h.rlen
        clen := by rw [e2]; exact h.clen
        alen := by rw [e8]; exact h.alen
        qlen := by rw [e7]; exact h.qlen
        hq := by rw [e6, e14]; have := h.hq; omega
        rem_nonneg := by rw [e1]; exact h.rem_nonneg
        rem_le := by rw [e1]; exact h.rem_le
        unadded := fun i hi ha => by
          rw [e1]
          apply h.unadded i hi
          by_contra hne
          exact ((e9 i hi).mpr (Or.inl hne)) ha
        progress := fun i hi ha => by
          rw [e1, e3]
          rcases (e9 i hi).mp ha with h1 | h1
          · exact h.progress i hi h1
          · by_cases hz : st.added.getD i 0 = 0
            · rw [h.unadded i hi hz]
              omega
            · exact h.progress i hi hz
        q_nodup := by
          rw [e11, List.nodup_append]
          refine ⟨h.q_nodup, e12.map (fun a b e => by simpa using e), ?_⟩
          intro x hx hy
          obtain ⟨i, hi, e, ha, _⟩ := (h.q_mem x).mp hx
          obtain ⟨j, hj, ej⟩ := List.mem_map.mp hy
          have : j = i := by omega
          subst this
          exact ha ((e13 j).mp hj).2.1
        q_mem := fun x => by
          rw [e11, List.mem_append, h.q_mem, e1]
          constructor
          · rintro (⟨i, hi, e, ha, hr, hs⟩ | hy)
            · exact ⟨i, hi, e, (e9 i hi).mpr (Or.inl ha), hr, hs⟩
            · obtain ⟨j, hj, ej⟩ := List.mem_map.mp hy
              obtain ⟨hjn, hja, hjt⟩ := (e13 j).mp hj
              refine ⟨j, hjn, ej.symm, (e9 j hjn).mpr (Or.inr hjt), ?_, ?_⟩
              · rw [h.unadded j hjn hja]
                have := hb j hjn
                omega
              · intro hs
                exact hskip j hs.symm hja
          · rintro ⟨i, hi, e, ha, hr, hs⟩
            by_cases hz : st.added.getD i 0 = 0
            · right
              rcases (e9 i hi).mp ha with h1 | h1
              · exact absurd hz h1
              · exact List.mem_map.mpr ⟨i, (e13 i).mpr ⟨hi, hz, h1⟩, e.symm⟩
            · exact Or.inl ⟨i, hi, e, hz, hr, hs⟩
        done := by rw [e1, e2]; exact h.done
        time_le := by rw [e1, e3]; exact h.time_le
        gantt_le := by rw [e1, e5]; exact h.gantt_le
        time_nonneg := by rw [e3]; exact h.time_nonneg }
  · intro i hi ha
    rw [henq.time_eq]
    by_contra hcon
    exact ((henq.added_lt i hi).mpr (Or.inr (by omega))) ha

theorem rr_gantt_append_some (n : Nat) (gantt : List GanttBlock) (pid start end_ : Int)
    (h : gantt.length < n * 100) :
    ∃ g, rr_gantt_append n gantt pid start end_ = some g ∧ g.length ≤ gantt.length + 1 := by
  unfold rr_gantt_append
  cases hl : gantt.getLast? with
  | none =>
    simp only []
    rw [if_pos h]
    exact ⟨_, rfl, by simp⟩
  | some last =>
    simp only []
    split_ifs with h1
    · refine ⟨_, rfl, ?_⟩
      simp only [List.length_append, List.length_dropLast, List.length_singleton]
      omega
    · exact ⟨_, rfl, by simp⟩

/-- Taking the process at the head of the queue and running it for `run` units, with the
Gantt chart `g`. -/
theorem rrPre_pop_run {arrival burst : List Int} {n : Nat} {A : Int} {st : RrState}
    (h : RrPre arrival burst n A none st) (hlt : st.qhead < st.qtail) :
    ∃ i < n, st.queue.getD (st.qhead % st.queue.length) 0 = (i : Int) ∧
      st.added.getD i 0 ≠ 0 ∧ 0 < st.rem.getD i 0 ∧
      ∀ (run : Int) (g : List GanttBlock), 1 ≤ run → run ≤ st.rem.getD i 0 →
        (g.length : Int) ≤ st.gantt.length + 1 →
        RrPre arrival burst n A (some i)
          { st with qhead := st.qhead + 1
                    rem := st.rem.set i (st.rem.getD i 0 - run)
                    time := st.time + run
                    gantt := g } := by
  have hpop := queue_contents_pop st hlt
  have hx : st.queue.getD (st.qhead % st.queue.length) 0 ∈ queue_contents st := by
    rw [hpop]; exact List.mem_cons_self _ _
  obtain ⟨i, hi, hxi, ha, hr, _⟩ := (h.q_mem _).mp hx
  refine ⟨i, hi, hxi, ha, hr, ?_⟩
  intro run g hrun1 hrun2 hg
  have hil : i < st.rem.length := by rw [h.rlen]; exact hi
  have hnd := h.q_nodup
  rw [hpop, List.nodup_cons] at hnd
  have hcont : queue_contents
      { st with qhead := st.qhead + 1, rem := st.rem.set i (st.rem.getD i 0 - run),
                time := st.time + run, gantt := g }
      = queue_contents { st with qhead := st.qhead + 1 } := rfl
  have hsum : sum_upto (fun j => (st.rem.set i (st.rem.getD i 0 - run)).getD j 0) n
      = sum_upto (fun j => st.rem.getD j 0) n - run := by
    rw [sum_upto_update (fun j => st.rem.getD j 0) _ n i hi
      (fun j _ hne => by simp only [getD_set_eq_ite _ _ _ _ hil, if_neg hne])]
    simp only [getD_set_eq_ite _ _ _ _ hil, if_true]
    ring
  exact
    { rlen := by simp [h.rlen]
      clen := h.clen
      alen := h.alen
      qlen := h.qlen
      hq := by show st.qhead + 1 ≤ st.qtail; omega
      rem_nonneg := fun j hj => by
        simp only [getD_set_eq_ite _ _ _ _ hil]
        split_ifs
        · omega
        · exact h.rem_nonneg j hj
      rem_le := fun j hj => by
        simp only [getD_set_eq_ite _ _ _ _ hil]
        split_ifs with e
        · subst e
          have := h.rem_le j hj
          omega
        · exact h.rem_le j hj
      unadded := fun j hj hz => by
        simp only [getD_set_eq_ite _ _ _ _ hil]
        split_ifs with e
        · subst e; exact absurd hz ha
        · exact h.unadded j hj hz
      progress := fun j hj hz => by
        simp only [getD_set_eq_ite _ _ _ _ hil]
        have := h.progress j hj hz
        split_ifs with e
        · subst e; omega
        · omega
      q_nodup := by rw [hcont]; exact hnd.2
      q_mem := fun y => by
        rw [hcont]
        simp only [getD_set_eq_ite _ _ _ _ hil]
        constructor
        · intro hy
          have hy2 : y ∈ queue_contents st := by rw [hpop]; exact List.mem_cons_of_mem _ hy
          obtain ⟨j, hj, e, hja, hjr, _⟩ := (h.q_mem y).mp hy2
          have hji : j ≠ i := by
            intro e2
            subst e2
            rw [e, ← hxi] at hy
            exact hnd.1 hy
          exact ⟨j, hj, e, hja, by rw [if_neg hji]; exact hjr,
            fun e2 => hji (Option.some.inj e2)⟩
        · rintro ⟨j, hj, e, hja, hjr, hne⟩
          have hji : j ≠ i := fun e2 => hne (by rw [e2])
          rw [if_neg hji] at hjr
          have hy2 : y ∈ queue_contents st :=
            (h.q_mem y).mpr ⟨j, hj, e, hja, hjr, by simp⟩
          rw [hpop, List.mem_cons] at hy2
          rcases hy2 with e3 | e3
          · rw [e3, hxi] at e
            exact absurd (by exact_mod_cast e.symm) hji
          · exact e3
      done := fun j hj hz hne => by
        have hji : j ≠ i := fun e2 => hne (by rw [e2])
        simp only [getD_set_eq_ite _ _ _ _ hil, if_neg hji] at hz
        exact h.done j hj hz (by simp)
      time_le := by
        simp only []
        rw [hsum]
        have := h.time_le
        omega
      gantt_le := by
        simp only []
        rw [hsum]
        have := h.gantt_le
        omega
      time_nonneg := by
        have := h.time_nonneg
        show 0 ≤ st.time + run
        omega }

/-- Putting the process `i` back at the end of the queue. -/
theorem rrPre_requeue {arrival burst : List Int} {n : Nat} {A : Int} {i : Nat}
    {st : RrState} (h : RrPre arrival burst n A (some i) st) (hi : i < n)
    (ha : st.added.getD i 0 ≠ 0) (hr : 0 < st.rem.getD i 0) (hn : 1 ≤ n) :
    RrPre arrival burst n A none (Q_PUSH st i) := by
  have hql := rrPre_queue_le h
  have hpush := queue_contents_push st i h.hq (by rw [h.qlen]; omega)
  have hnot : (i : Int) ∉ queue_contents st := by
    intro hm
    obtain ⟨j, _, e, _, _, hne⟩ := (h.q_mem _).mp hm
    have : j = i := by omega
    subst this
    exact hne rfl
  exact
    { rlen := h.rlen
      clen := h.clen
      alen := h.alen
      qlen := by simp [Q_PUSH, h.qlen]
      hq := by
        have := h.hq
        show st.qhead ≤ st.qtail + 1
        omega
      rem_nonneg := h.rem_nonneg
      rem_le := h.rem_le
      unadded := h.unadded
      progress := h.progress
      q_nodup := by
        rw [hpush, List.nodup_append]
        refine ⟨h.q_nodup, by simp, ?_⟩
        intro x hx hy
        simp only [List.mem_singleton] at hy
        subst hy
        exact hnot hx
      q_mem := fun y => by
        rw [hpush, List.mem_append, List.mem_singleton, h.q_mem]
        constructor
        · rintro (⟨j, hj, e, hja, hjr, _⟩ | e)
          · exact ⟨j, hj, e, hja, hjr, by simp⟩
          · exact ⟨i, hi, e, ha, hr, by simp⟩
        · rintro ⟨j, hj, e, hja, hjr, _⟩
          by_cases hji : j = i
          · subst hji; exact Or.inr e
          · exact Or.inl ⟨j, hj, e, hja, hjr, fun e2 => hji (Option.some.inj e2)⟩
      done := fun j hj hz _ => by
        have hji : j ≠ i := by
          intro e
          subst e
          have : st.rem.getD j 0 = 0 := hz
          omega
        exact h.done j hj hz (fun e2 => hji (Option.some.inj e2))
      time_le := h.time_le
      gantt_le := h.gantt_le
      time_nonneg := h.time_nonneg }

/-- Recording the completion of process `i`, whose remaining time is 0. -/
theorem rrPre_complete {arrival burst : List Int} {n : Nat} {A : Int} {i : Nat}
    {st : RrState} (h : RrPre arrival burst n A (some i) st) (hi : i < n)
    (ha : st.added.getD i 0 ≠ 0) (hr : st.rem.getD i 0 = 0) (r : Int) :
    RrPre arrival burst n A none
      { st with completion := st.completion.set i st.time, remaining := r } := by
  have hic : i < st.completion.length := by rw [h.clen]; exact hi
  exact
    { rlen := h.rlen
      clen := by simp [h.clen]
      alen := h.alen
      qlen := h.qlen
      hq := h.hq
      rem_nonneg := h.rem_nonneg
      rem_le := h.rem_le
      unadded := h.unadded
      progress := h.progress
      q_nodup := h.q_nodup
      q_mem := fun y => by
        have hc : queue_contents
            { st with completion := st.completion.set i st.time, remaining := r }
            = queue_contents st := rfl
        rw [hc, h.q_mem]
        constructor
        · rintro ⟨j, hj, e, hja, hjr, _⟩
          exact ⟨j, hj, e, hja, hjr, by simp⟩
        · rintro ⟨j, hj, e, hja, hjr, _⟩
          refine ⟨j, hj, e, hja, hjr, ?_⟩
          intro e2
          have : j = i := Option.some.inj e2
          subst this
          have h1 : st.rem.getD j 0 = 0 := hr
          have h2 : 0 < st.rem.getD j 0 := hjr
          omega
      done := fun j hj hz _ => by
        simp only [getD_set_eq_ite _ _ _ _ hic]
        split_ifs with e
        · subst e
          have := h.progress j hj ha
          have : st.rem.getD j 0 = 0 := hr
          omega
        · exact h.done j hj hz (fun e2 => e (Option.some.inj e2))
      time_le := h.time_le
      gantt_le := h.gantt_le
      time_nonneg := h.time_nonneg }

/-- An iteration of the loop of roundrobin.c with a process in the queue, on inputs within
the limits: the process at the head of the queue runs for one slice of `run` time units,
`1 <= run <= tq`, `run` at most its remaining time, and the invariant is kept. -/
theorem rr_step_run {arrival burst : List Int} {n : Nat} {tq A t0 : Int} {st : RrState}
    (hfit : RrFits arrival burst n tq A t0) (h : RrPre arrival burst n A none st)
    (hrem : RemainingOk st) (hne : st.qhead ≠ st.qtail) :
    ∃ (st1 : RrState) (i : Nat) (run : Int), i < n ∧ 1 ≤ run ∧ run ≤ tq ∧
      run ≤ st.rem.getD i 0 ∧ (run = tq ∨ run = st.rem.getD i 0) ∧
      rr_step arrival n tq st = .unfinished st1 ∧
      RrPre arrival burst n A none st1 ∧ AllArrived arrival n st1 ∧ RemainingOk st1 ∧
      st1.rem = st.rem.set i (st.rem.getD i 0 - run) ∧ st1.time = st.time + run := by
  have hlt : st.qhead < st.qtail := by have := h.hq; omega
  obtain ⟨i, hi, hxi, ha, hr, hpre⟩ := rrPre_pop_run h hlt
  have hil : i < st.rem.length := by rw [h.rlen]; exact hi
  have hbn : ∀ j < n, (0 : Int) ≤ burst.getD j 0 := fun j hj => by
    have := hfit.burst_pos j hj
    omega
  have hterm := term_le_sum_upto (fun j => st.rem.getD j 0) n h.rem_nonneg i hi
  simp only [] at hterm
  have hS := sum_upto_le (fun j => st.rem.getD j 0) (fun j => burst.getD j 0) n h.rem_le
  have htl := h.time_le
  have hgl := h.gantt_le
  have ht0 := h.time_nonneg
  have hint := hfit.int
  have hcap := hfit.cap
  have hA : 0 ≤ A := le_trans hfit.start_nonneg hfit.start_le
  have htq := hfit.tq_pos
  have hnS := le_sum_upto_of_pos (fun j => burst.getD j 0) n hfit.burst_pos
  generalize hrun : (if st.rem.getD i 0 < tq then st.rem.getD i 0 else tq) = run
  have hrun1 : 1 ≤ run := by rw [← hrun]; split_ifs <;> omega
  have hrun2 : run ≤ st.rem.getD i 0 := by rw [← hrun]; split_ifs <;> omega
  have hrun3 : run ≤ tq := by rw [← hrun]; split_ifs <;> omega
  have hrun4 : run = tq ∨ run = st.rem.getD i 0 := by
    rw [← hrun]; split_ifs
    · exact Or.inr rfl
    · exact Or.inl rfl
  have hwe : wrapInt (st.time + run) = st.time + run := wrapInt_eq (by omega) (by omega)
  have hwr : wrapInt (st.rem.getD i 0 - run) = st.rem.getD i 0 - run :=
    wrapInt_eq (by omega) (by omega)
  obtain ⟨g, hg, hglen⟩ := rr_gantt_append_some n st.gantt ((i : Int) + 1) st.time
    (st.time + run) (by omega)
  have hpre0 := hpre run g hrun1 hrun2 (by omega)
  obtain ⟨hpre1, harr1, henq⟩ := rrPre_enqueue hpre0 hfit.burst_pos
    (fun j hj => by
      have : j = i := (Option.some.inj hj).symm
      subst this
      exact ha)
  have hadd1 : (rr_enqueue_arrived arrival n
      { st with qhead := st.qhead + 1, rem := st.rem.set i (st.rem.getD i 0 - run),
                time := st.time + run, gantt := g }).added.getD i 0 ≠ 0 :=
    (henq.added_lt i hi).mpr (Or.inl ha)
  have hstep : rr_step arrival n tq st
      = if 0 < (rr_enqueue_arrived arrival n
            { st with qhead := st.qhead + 1, rem := st.rem.set i (st.rem.getD i 0 - run),
                      time := st.time + run, gantt := g }).rem.getD i 0 then
          .unfinished (Q_PUSH (rr_enqueue_arrived arrival n
            { st with qhead := st.qhead + 1, rem := st.rem.set i (st.rem.getD i 0 - run),
                      time := st.time + run, gantt := g }) i)
        else
          .unfinished
            { rr_enqueue_arrived arrival n
                { st with qhead := st.qhead + 1,
                          rem := st.rem.set i (st.rem.getD i 0 - run),
                          time := st.time + run, gantt := g } with
              completion := (rr_enqueue_arrived arrival n
                { st with qhead := st.qhead + 1,
                          rem := st.rem.set i (st.rem.getD i 0 - run),
                          time := st.time + run, gantt := g }).completion.set i
                (rr_enqueue_arrived arrival n
                  { st with qhead := st.qhead + 1,
                            rem := st.rem.set i (st.rem.getD i 0 - run),
                            time := st.time + run, gantt := g }).time
              remaining := wrapInt ((rr_enqueue_arrived arrival n
                { st with qhead := st.qhead + 1,
                          rem := st.rem.set i (st.rem.getD i 0 - run),
                          time := st.time + run, gantt := g }).remaining - 1) } := by
    unfold rr_step
    rw [if_neg hne]
    simp only [hxi, Int.toNat_ofNat, hrun, hwe, hwr, hg]
  generalize hs1 : rr_enqueue_arrived arrival n
      { st with qhead := st.qhead + 1, rem := st.rem.set i (st.rem.getD i 0 - run),
                time := st.time + run, gantt := g } = s1 at hstep hpre1 harr1 henq hadd1
  have hs1rem : s1.rem = st.rem.set i (st.rem.getD i 0 - run) := henq.rem_eq
  have hs1time : s1.time = st.time + run := henq.time_eq
  have hs1remaining : s1.remaining = st.remaining := henq.remaining_eq
  have hget : st.rem[i]? = some (st.rem.getD i 0) := by
    rw [List.getD_eq_getElem?_getD, List.getElem?_eq_getElem hil]
    simp
  have hcnt := countP_set_add (fun x : Int => decide (0 < x)) st.rem i
    (st.rem.getD i 0) (st.rem.getD i 0 - run) hget
  have hpold : decide (0 < st.rem.getD i 0) = true := by simpa using hr
  beta_reduce at hcnt
  rw [hpold] at hcnt
  have hcl : st.rem.countP (fun x => decide (0 < x)) ≤ n := by
    rw [← h.rlen]; exact List.countP_le_length _
  unfold RemainingOk at hrem
  by_cases hpos : 0 < s1.rem.getD i 0
  · rw [if_pos hpos] at hstep
    refine ⟨Q_PUSH s1 i, i, run, hi, hrun1, hrun3, hrun2, hrun4, hstep,
      rrPre_requeue hpre1 hi hadd1 hpos hfit.n_pos, harr1, ?_, hs1rem, hs1time⟩
    have hpnew : decide (0 < st.rem.getD i 0 - run) = true := by
      rw [hs1rem, getD_set_eq_ite _ _ _ _ hil, if_pos rfl] at hpos
      simpa using hpos
    rw [hpnew] at hcnt
    show s1.remaining = (s1.rem.countP (fun x => decide (0 < x)) : Int)
    rw [hs1remaining, hs1rem, hrem]
    simp only [Bool.toNat_true] at hcnt
    omega
  · rw [if_neg hpos] at hstep
    have hz : s1.rem.getD i 0 = 0 := by
      have := hpre1.rem_nonneg i hi
      omega
    refine ⟨_, i, run, hi, hrun1, hrun3, hrun2, hrun4, hstep,
      rrPre_complete hpre1 hi hadd1 hz _, harr1, ?_, hs1rem, hs1time⟩
    have hpnew : decide (0 < st.rem.getD i 0 - run) = false := by
      rw [hs1rem, getD_set_eq_ite _ _ _ _ hil, if_pos rfl] at hpos
      simpa using hpos
    rw [hpnew] at hcnt
    show wrapInt (s1.remaining - 1) = (s1.rem.countP (fun x => decide (0 < x)) : Int)
    rw [hs1remaining, hs1rem, hrem]
    simp only [Bool.toNat_true, Bool.toNat_false] at hcnt
    rw [wrapInt_eq (by omega) (by omega)]
    omega

/-- The search of roundrobin.c:97-102 over the indices below `k`: `-1` when every process is
added, otherwise the smallest arrival among those not added. -/
theorem rr_next_arrival_fold (arrival : List Int) (st : RrState) (k : Nat)
    (ha : ∀ i < k, 0 ≤ arrival.getD i 0) :
    ((List.range k).foldl
        (fun next_arr i =>
          if st.added.getD i 0 = 0 then
            if next_arr = -1 ∨ arrival.getD i 0 < next_arr then arrival.getD i 0 else next_arr
          else next_arr)
        (-1) = -1 ∧ ∀ i < k, st.added.getD i 0 ≠ 0) ∨
    (∃ j < k, st.added.getD j 0 = 0 ∧
      (List.range k).foldl
        (fun next_arr i =>
          if st.added.getD i 0 = 0 then
            if next_arr = -1 ∨ arrival.getD i 0 < next_arr then arrival.getD i 0 else next_arr
          else next_arr)
        (-1) = arrival.getD j 0 ∧
      ∀ i < k, st.added.getD i 0 = 0 → arrival.getD j 0 ≤ arrival.getD i 0) := by
  induction k with
  | zero => left; simp
  | succ k ih =>
    rw [List.range_succ, List.foldl_append]
    simp only [List.foldl_cons, List.foldl_nil]
    have ih := ih (fun i hi => ha i (by omega))
    generalize (List.range k).foldl _ (-1) = r at ih ⊢
    have hk := ha k (by omega)
    by_cases hz : st.added.getD k 0 = 0
    · rw [if_pos hz]
      rcases ih with ⟨e, hall⟩ | ⟨j, hj, hj0, e, hmin⟩
      · right
        rw [if_pos (Or.inl e)]
        refine ⟨k, by omega, hz, rfl, ?_⟩
        intro i hi h0
        by_cases e2 : i = k
        · subst e2; exact le_refl _
        · exact absurd h0 (hall i (by omega))
      · right
        by_cases hc : r = -1 ∨ arrival.getD k 0 < r
        · rw [if_pos hc]
          refine ⟨k, by omega, hz, rfl, ?_⟩
          intro i hi h0
          by_cases e2 : i = k
          · subst e2; exact le_refl _
          · have := hmin i (by omega) h0
            have := ha j (by omega)
            rcases hc with hc | hc <;> omega
        · rw [if_neg hc]
          refine ⟨j, by omega, hj0, e, ?_⟩
          intro i hi h0
          by_cases e2 : i = k
          · subst e2; push_neg at hc; omega
          · exact hmin i (by omega) h0
    · rw [if_neg hz]
      rcases ih with ⟨e, hall⟩ | ⟨j, hj, hj0, e, hmin⟩
      · left
        refine ⟨e, ?_⟩
        intro i hi
        by_cases e2 : i = k
        · subst e2; exact hz
        · exact hall i (by omega)
      · right
        refine ⟨j, by omega, hj0, e, ?_⟩
        intro i hi h0
        by_cases e2 : i = k
        · subst e2; exact absurd h0 hz
        · exact hmin i (by omega) h0

/-- While `remaining > 0` some process has time remaining. -/
theorem rr_remaining_pos {arrival burst : List Int} {n : Nat} {A : Int} {st : RrState}
    (h : RrPre arrival burst n A none st) (hrem : RemainingOk st) (hpos : 0 < st.remaining) :
    ∃ u < n, 0 < st.rem.getD u 0 := by
  unfold RemainingOk at hrem
  have hc : 0 < st.rem.countP (fun x => decide (0 < x)) := by omega
  rw [List.countP_pos_iff] at hc
  obtain ⟨x, hx, hpx⟩ := hc
  obtain ⟨u, hu, e⟩ := List.getElem_of_mem hx
  refine ⟨u, by rw [← h.rlen]; exact hu, ?_⟩
  rw [List.getD_eq_getElem?_getD, List.getElem?_eq_getElem hu]
  simp only [Option.getD_some]
  rw [e]
  simpa using hpx

/-- When `remaining` is not positive every process has finished. -/
theorem rr_remaining_zero {arrival burst : List Int} {n : Nat} {A : Int} {st : RrState}
    (h : RrPre arrival burst n A none st) (hrem : RemainingOk st) (hz : ¬ 0 < st.remaining) :
    st.remaining = 0 ∧ ∀ i < n, st.rem.getD i 0 = 0 := by
  unfold RemainingOk at hrem
  have hc : st.rem.countP (fun x => decide (0 < x)) = 0 := by omega
  refine ⟨by omega, ?_⟩
  intro i hi
  have hil : i < st.rem.length := by rw [h.rlen]; exact hi
  rw [List.countP_eq_zero] at hc
  have := hc (st.rem[i]) (List.getElem_mem hil)
  have h0 := h.rem_nonneg i hi
  rw [List.getD_eq_getElem?_getD, List.getElem?_eq_getElem hil] at h0 ⊢
  simp only [Option.getD_some] at h0 ⊢
  simp only [decide_eq_true_eq] at this
  omega

/-- An iteration of the loop of roundrobin.c with an empty queue, on inputs within the
limits: the time jumps to the next arrival and the queue is no longer empty. -/
theorem rr_step_idle {arrival burst : List Int} {n : Nat} {tq A t0 : Int} {st : RrState}
    (hfit : RrFits arrival burst n tq A t0) (h : RrPre arrival burst n A none st)
    (harr : AllArrived arrival n st) (hrem : RemainingOk st) (he : st.qhead = st.qtail)
    (hpos : 0 < st.remaining) :
    ∃ st1 : RrState, rr_step arrival n tq st = .unfinished st1 ∧
      RrPre arrival burst n A none st1 ∧ AllArrived arrival n st1 ∧ RemainingOk st1 ∧
      st1.rem = st.rem ∧ st1.qhead ≠ st1.qtail := by
  obtain ⟨u, hu, hur⟩ := rr_remaining_pos h hrem hpos
  have hnil := (queue_contents_nil st h.hq).mpr he
  have hunadded : st.added.getD u 0 = 0 := by
    by_contra hne
    have : (u : Int) ∈ queue_contents st :=
      (h.q_mem _).mpr ⟨u, hu, rfl, hne, hur, by simp⟩
    rw [hnil] at this
    simp at this
  have hfold := rr_next_arrival_fold arrival st n hfit.arr_nonneg
  rcases hfold with ⟨_, hall⟩ | ⟨j, hj, hj0, e, hmin⟩
  · exact absurd hunadded (hall u hu)
  have haj := hfit.arr_nonneg j hj
  have haj2 := hfit.arr_le j hj
  have htj := harr j hj hj0
  have hnext : rr_next_arrival arrival n st = arrival.getD j 0 := e
  have hstep : rr_step arrival n tq st
      = .unfinished (rr_enqueue_arrived arrival n { st with time := arrival.getD j 0 }) := by
    unfold rr_step
    rw [if_pos he]
    simp only [hnext]
    rw [if_neg (by omega)]
  have hS := sum_upto_le (fun i => st.rem.getD i 0) (fun i => burst.getD i 0) n h.rem_le
  have hpre0 : RrPre arrival burst n A none { st with time := arrival.getD j 0 } :=
    { rlen := h.rlen
      clen := h.clen
      alen := h.alen
      qlen := h.qlen
      hq := h.hq
      rem_nonneg := h.rem_nonneg
      rem_le := h.rem_le
      unadded := h.unadded
      progress := fun i hi ha => by
        have := h.progress i hi ha
        show arrival.getD i 0 + (burst.getD i 0 - st.rem.getD i 0) ≤ arrival.getD j 0
        omega
      q_nodup := h.q_nodup
      q_mem := h.q_mem
      done := h.done
      time_le := by
        show arrival.getD j 0 + sum_upto (fun i => st.rem.getD i 0) n
          ≤ A + sum_upto (fun i => burst.getD i 0) n
        omega
      gantt_le := h.gantt_le
      time_nonneg := haj }
  obtain ⟨hpre1, harr1, henq⟩ := rrPre_enqueue hpre0 hfit.burst_pos (fun i hi => by simp at hi)
  refine ⟨_, hstep, hpre1, harr1, ?_, henq.rem_eq, ?_⟩
  · show (rr_enqueue_arrived arrival n { st with time := arrival.getD j 0 }).remaining = _
    rw [henq.remaining_eq, henq.rem_eq]
    exact hrem
  · obtain ⟨new, _, _, hmem, hqt, _⟩ := henq.queued
    have hjn : j ∈ new := (hmem j).mpr ⟨hj, hj0, le_refl _⟩
    have hlen : 0 < new.length := List.length_pos_of_mem hjn
    rw [henq.qhead_eq, hqt]
    show st.qhead ≠ st.qtail + new.length
    omega

/-- On inputs within the limits the loop of roundrobin.c ends, within the iterations that
`rr_measure` counts, with `remaining = 0`. -/
theorem rr_loop_spec {arrival burst : List Int} {n : Nat} {tq A t0 : Int}
    (hfit : RrFits arrival burst n tq A t0) :
    ∀ (fuel : Nat) (st : RrState), RrPre arrival burst n A none st →
      AllArrived arrival n st → RemainingOk st → rr_measure n st ≤ (fuel : Int) →
      ∃ st1, rr_loop arrival n tq fuel st = .ended st1 ∧
        RrPre arrival burst n A none st1 ∧ RemainingOk st1 ∧ ¬ 0 < st1.remaining := by
  intro fuel
  induction fuel with
  | zero =>
    intro st h harr hrem hf
    unfold rr_loop
    by_cases hpos : 0 < st.remaining
    · obtain ⟨u, hu, hur⟩ := rr_remaining_pos h hrem hpos
      have hterm := term_le_sum_upto (fun i => st.rem.getD i 0) n h.rem_nonneg u hu
      simp only [] at hterm
      unfold rr_measure at hf
      simp only [Nat.cast_zero] at hf
      split_ifs at hf <;> omega
    · rw [if_neg hpos]
      exact ⟨st, rfl, h, hrem, hpos⟩
  | succ fuel ih =>
    intro st h harr hrem hf
    unfold rr_loop
    by_cases hpos : 0 < st.remaining
    · rw [if_pos hpos]
      by_cases he : st.qhead = st.qtail
      · obtain ⟨st1, hstep, h1, harr1, hrem1, hr1, hq1⟩ :=
          rr_step_idle hfit h harr hrem he hpos
        simp only [hstep]
        refine ih st1 h1 harr1 hrem1 ?_
        unfold rr_measure at hf ⊢
        rw [hr1, if_neg hq1]
        rw [if_pos he] at hf
        push_cast at hf
        omega
      · obtain ⟨st1, i, run, hi, hrun1, _, _, _, hstep, h1, harr1, hrem1, hr1, _⟩ :=
          rr_step_run hfit h hrem he
        simp only [hstep]
        refine ih st1 h1 harr1 hrem1 ?_
        have hil : i < st.rem.length := by rw [h.rlen]; exact hi
        have hsum := sum_upto_update (fun j => st.rem.getD j 0)
          (fun j => st1.rem.getD j 0) n i hi
          (fun j _ hne => by
            show st1.rem.getD j 0 = st.rem.getD j 0
            rw [hr1, getD_set_eq_ite _ _ _ _ hil, if_neg hne])
        have hnew : st1.rem.getD i 0 = st.rem.getD i 0 - run := by
          rw [hr1, getD_set_eq_ite _ _ _ _ hil, if_pos rfl]
        simp only [] at hsum
        unfold rr_measure at hf ⊢
        rw [if_neg he] at hf
        push_cast at hf
        split_ifs <;> omega
    · rw [if_neg hpos]
      exact ⟨st, rfl, h, hrem, hpos⟩

/-- The invariant holds after the first enqueue of roundrobin.c:86-92, from a state `b` with
`rem = burst`, nothing added and an empty queue of `5 * n` entries. -/
theorem rr_start_spec {arrival burst : List Int} {n : Nat} {tq A : Int} (b : RrState)
    (hrem : b.rem = (List.range n).map (fun i => burst.getD i 0))
    (hcl : b.completion.length = n) (hadd : b.added = List.replicate n 0)
    (hql : b.queue.length = n * 5) (hh : b.qhead = 0) (ht : b.qtail = 0)
    (hr : b.remaining = (n : Int)) (hg : b.gantt = [])
    (hfit : RrFits arrival burst n tq A (rr_enqueue_arrived arrival n b).time) :
    RrPre arrival burst n A none (rr_enqueue_arrived arrival n b) ∧
      AllArrived arrival n (rr_enqueue_arrived arrival n b) ∧
      RemainingOk (rr_enqueue_arrived arrival n b) ∧
      rr_measure n (rr_enqueue_arrived arrival n b)
        ≤ 2 * sum_upto (fun i => burst.getD i 0) n + 1 := by
  have henq0 := rr_enqueue_fold arrival b (by omega) n (by rw [hadd]; simp)
    (by rw [hql]; omega)
  rw [← rr_enqueue_arrived_eq] at henq0
  have htime := henq0.time_eq
  have hremi : ∀ i < n, b.rem.getD i 0 = burst.getD i 0 := fun i hi => by
    rw [hrem]; exact getD_map_range n _ i hi
  have haddi : ∀ i, b.added.getD i 0 = 0 := fun i => by
    rw [hadd, List.getD_eq_getElem?_getD, List.getElem?_replicate]
    split_ifs <;> simp
  have hnil : queue_contents b = [] := (queue_contents_nil b (by omega)).mpr (by omega)
  have hS1 := sum_upto_le (fun i => b.rem.getD i 0) (fun i => burst.getD i 0) n
    (fun i hi => le_of_eq (hremi i hi))
  have hS2 := sum_upto_le (fun i => burst.getD i 0) (fun i => b.rem.getD i 0) n
    (fun i hi => le_of_eq (hremi i hi).symm)
  have h0 := hfit.start_nonneg
  have h1 := hfit.start_le
  rw [htime] at h0 h1
  have hpre0 : RrPre arrival burst n A none b :=
    { rlen := by rw [hrem]; simp
      clen := hcl
      alen := by rw [hadd]; simp
      qlen := hql
      hq := by omega
      rem_nonneg := fun i hi => by
        rw [hremi i hi]
        have := hfit.burst_pos i hi
        omega
      rem_le := fun i hi => le_of_eq (hremi i hi)
      unadded := fun i hi _ => hremi i hi
      progress := fun i _ ha => absurd (haddi i) ha
      q_nodup := by rw [hnil]; exact List.nodup_nil
      q_mem := fun x => by
        rw [hnil]
        constructor
        · intro hx; simp at hx
        · rintro ⟨i, _, _, ha, _⟩
          exact absurd (haddi i) ha
      done := fun i hi hz _ => by
        rw [hremi i hi] at hz
        have := hfit.burst_pos i hi
        omega
      time_le := by omega
      gantt_le := by
        rw [hg]
        simp only [List.length_nil, Nat.cast_zero]
        omega
      time_nonneg := h0 }
  obtain ⟨hpre1, harr1, henq⟩ := rrPre_enqueue hpre0 hfit.burst_pos (fun i hi => by simp at hi)
  have hS3 := sum_upto_le (fun i => (rr_enqueue_arrived arrival n b).rem.getD i 0)
    (fun i => burst.getD i 0) n hpre1.rem_le
  refine ⟨hpre1, harr1, ?_, ?_⟩
  · show (rr_enqueue_arrived arrival n b).remaining = _
    rw [henq.remaining_eq, henq.rem_eq, hr, hrem]
    have hall : ((List.range n).map (fun i => burst.getD i 0)).countP
        (fun x => decide (0 < x)) = ((List.range n).map (fun i => burst.getD i 0)).length := by
      rw [List.countP_eq_length]
      intro a ha
      rw [List.mem_map] at ha
      obtain ⟨i, hi, e⟩ := ha
      rw [List.mem_range] at hi
      have := hfit.burst_pos i hi
      simp only [decide_eq_true_eq]
      omega
    rw [hall]
    simp
  · unfold rr_measure
    split_ifs <;> omega

/-- Where the Round Robin simulation is right: on inputs within the limits (`RrFits`) the
loop ends with `remaining = 0`, every process has no time remaining, its completion time is
set, and `completion - arrival >= burst`.  The slices are described by `rr_step_run`: each
is of at most `tq` time units and is taken from the time remaining of the process, which
starts at its burst and ends at 0. -/
theorem rr_in_range (arrival burst : List Int) (n : Nat) (tq A : Int)
    (hfit : RrFits arrival burst n tq A (rr_init arrival burst n).time) :
    ∃ st, rr_main n tq arrival burst (200 * n + 1) = .ended st ∧ st.remaining = 0 ∧
      ∀ i < n, st.rem.getD i 0 = 0 ∧
        arrival.getD i 0 + burst.getD i 0 ≤ st.completion.getD i 0 := by
  obtain ⟨hpre, harr, hrem, hm⟩ := rr_start_spec _ rfl (by simp) rfl (by simp) rfl rfl rfl rfl hfit
  obtain ⟨st, hrun, hpre1, hrem1, hz⟩ := rr_loop_spec hfit (200 * n + 1) _ hpre harr hrem
    (by have := hfit.cap; push_cast; omega)
  obtain ⟨hz1, hz2⟩ := rr_remaining_zero hpre1 hrem1 hz
  exact ⟨st, hrun, hz1, fun i hi => ⟨hz2 i hi, hpre1.done i hi (hz2 i hi) (by simp)⟩⟩

/-- Three processes with quantum 2 that are within the limits. -/
theorem rr_fits_example :
    RrFits [0, 1, 2] [5, 3, 4] 3 2 2 (rr_init [0, 1, 2] [5, 3, 4] 3).time := by
  have ht : (rr_init [0, 1, 2] [5, 3, 4] 3).time = 0 := by decide
  rw [ht]
  constructor
  · decide
  · decide
  · intro i hi; interval_cases i <;> decide
  · intro i hi; interval_cases i <;> decide
  · intro i hi; interval_cases i <;> decide
  · decide
  · decide
  · decide
  · decide

/-! ## The cursors of the circular buffer -/

/-- After calls that keep the number of held items within `0 .. C`, the buffer is the ring of
the values given and not yet returned, and at most `C` items are held. -/
theorem runOps_ring (C : Nat) (hC : 0 < C) (ops : List BufOp) :
    ∀ (r : BufRun), Ring C r.b r.given r.got.length → r.got.length ≤ r.given.length →
      r.given.length ≤ r.got.length + C →
      admissible C (r.given.length - r.got.length) ops = true →
      Ring C (runOps r ops).b (runOps r ops).given (runOps r ops).got.length ∧
        (runOps r ops).got.length ≤ (runOps r ops).given.length ∧
        (runOps r ops).given.length ≤ (runOps r ops).got.length + C := by
  induction ops with
  | nil => intro r h1 h2 h3 _; exact ⟨h1, h2, h3⟩
  | cons op ops ih =>
    intro r hring hle hge hadm
    cases op with
    | put x =>
      simp only [admissible, Bool.and_eq_true, decide_eq_true_eq] at hadm
      simp only [runOps]
      have hlt : r.given.length < r.got.length + C := by omega
      apply ih
      · exact ring_put x hC hring hlt
      · simp; omega
      · simp; omega
      · have e : (r.given ++ [x]).length - r.got.length
            = r.given.length - r.got.length + 1 := by simp; omega
        simp only []
        rw [e]; exact hadm.2
    | get =>
      simp only [admissible, Bool.and_eq_true, decide_eq_true_eq] at hadm
      simp only [runOps]
      have hlt : r.got.length < r.given.length := by omega
      obtain ⟨_, h2⟩ := ring_get hring hlt
      apply ih
      · simpa using h2
      · simp; omega
      · simp; omega
      · have e : r.given.length - (r.got ++ [(buffer_get r.b).1]).length
            = r.given.length - r.got.length - 1 := by simp; omega
        simp only []
        rw [e]; exact hadm.2

/-- The cursors of a ring determine the number of held items modulo the capacity only. -/
theorem ring_cursors {C : Nat} {b : buffer_t} {enq : List Int} {n : Nat} (h : Ring C b enq n) :
    ((b.in_ : Int) - (b.out : Int)) % (C : Int) = ((enq.length : Int) - (n : Int)) % (C : Int) := by
  rw [h.in_eq, h.out_eq]
  push_cast
  rw [Int.sub_emod, Int.emod_emod_of_dvd _ (dvd_refl _), Int.emod_emod_of_dvd _ (dvd_refl _),
    ← Int.sub_emod]

/-- C33: for every capacity `C >= 1` and every sequence of `buffer_put` / `buffer_get` calls
on a buffer fresh from `buffer_init` that keeps the number of held items within `0 .. C`
(puts - gets, `given.length - got.length`): `(in - out) mod C = (puts - gets) mod C`; when
the buffer is empty `in = out`; when it holds `C` items `in = out` as well, the slot at `out`
holds the oldest value not yet returned, and a further `buffer_put` of `x` stores `x` in that
slot and leaves `out` alone, so that the next `buffer_get` returns `x` and the oldest value
is lost. -/
theorem cursor_invariant (C : Nat) (mem : Nat → Int) (ops : List BufOp) (hC : 1 ≤ C)
    (hadm : admissible C 0 ops = true) :
    (((runOps ⟨buffer_init mem C, [], []⟩ ops).b.in_ : Int)
        - ((runOps ⟨buffer_init mem C, [], []⟩ ops).b.out : Int)) % (C : Int)
      = (((runOps ⟨buffer_init mem C, [], []⟩ ops).given.length : Int)
        - ((runOps ⟨buffer_init mem C, [], []⟩ ops).got.length : Int)) % (C : Int) ∧
    ((runOps ⟨buffer_init mem C, [], []⟩ ops).given.length
        = (runOps ⟨buffer_init mem C, [], []⟩ ops).got.length →
      (runOps ⟨buffer_init mem C, [], []⟩ ops).b.in_
        = (runOps ⟨buffer_init mem C, [], []⟩ ops).b.out) ∧
    ((runOps ⟨buffer_init mem C, [], []⟩ ops).given.length
        = (runOps ⟨buffer_init mem C, [], []⟩ ops).got.length + C →
      (runOps ⟨buffer_init mem C, [], []⟩ ops).b.in_
        = (runOps ⟨buffer_init mem C, [], []⟩ ops).b.out ∧
      (runOps ⟨buffer_init mem C, [], []⟩ ops).given[
          (runOps ⟨buffer_init mem C, [], []⟩ ops).got.length]?
        = some (buffer_get (runOps ⟨buffer_init mem C, [], []⟩ ops).b).1 ∧
      ∀ x : Int,
        (buffer_put (runOps ⟨buffer_init mem C, [], []⟩ ops).b x).out
          = (runOps ⟨buffer_init mem C, [], []⟩ ops).b.out ∧
        (buffer_put (runOps ⟨buffer_init mem C, [], []⟩ ops).b x).buf[
            (runOps ⟨buffer_init mem C, [], []⟩ ops).b.out]? = some x ∧
        (buffer_get (buffer_put (runOps ⟨buffer_init mem C, [], []⟩ ops).b x)).1 = x) := by
  obtain ⟨hring, hle, hge⟩ := runOps_ring C hC ops ⟨buffer_init mem C, [], []⟩
    (ring_init mem C) (le_refl _) (by simp) hadm
  generalize runOps ⟨buffer_init mem C, [], []⟩ ops = r at hring hle hge ⊢
  refine ⟨ring_cursors hring, ?_, ?_⟩
  · intro he
    rw [hring.in_eq, hring.out_eq, he]
  · intro hf
    have hio : r.b.in_ = r.b.out := by
      rw [hring.in_eq, hring.out_eq, hf, Nat.add_mod_right]
    have hlt : r.got.length < r.given.length := by omega
    have hout : r.b.out < r.b.buf.length := by
      rw [hring.out_eq, hring.len]
      exact Nat.mod_lt _ hC
    refine ⟨hio, (ring_get hring hlt).1.symm, ?_⟩
    intro x
    refine ⟨rfl, ?_, ?_⟩
    · simp only [buffer_put, hio]
      rw [List.getElem?_set_self hout]
    · simp only [buffer_get, buffer_put, hio, List.getD_eq_getElem?_getD]
      rw [List.getElem?_set_self hout]
      rfl

/-- C33 on a buffer of capacity 2 that two puts have filled: `in = out = 0`, and a third put
replaces the 5 at slot 0, which no get has returned. -/
theorem cursor_invariant_witness :
    (runOps ⟨buffer_init (fun _ => 0) 2, [], []⟩ [.put 5, .put 6]).b.in_
        = (runOps ⟨buffer_init (fun _ => 0) 2, [], []⟩ [.put 5, .put 6]).b.out ∧
      (runOps ⟨buffer_init (fun _ => 0) 2, [], []⟩ [.put 5, .put 6]).given[0]? = some 5 ∧
      (buffer_get (buffer_put
        (runOps ⟨buffer_init (fun _ => 0) 2, [], []⟩ [.put 5, .put 6]).b 7)).1 = 7 :=
  have h := (cursor_invariant 2 (fun _ => 0) [.put 5, .put 6] (by decide) (by decide)).2.2
    (by decide)
  ⟨h.1, by decide, (h.2.2 7).2.2⟩

/-! ## SCAN disk scheduling -/

/-- The textbook example: head at 53 on a disk of 200 tracks. -/
theorem scan_example :
    scan_main 8 [98, 183, 37, 122, 14, 124, 65, 67] 53 200
      = some ⟨331, 14, [65, 67, 98, 122, 124, 183, 199, 37, 14]⟩ := by
  decide

/-- C32 (refuted on the code): one request at track 0, the head at track 1 and a disk of
2147483647 tracks, all inside the disk.  The service order is as claimed (the last track
2147483646, then track 0), but the head movement `2147483645 + 2147483646 = 4294967291`
does not fit in the `int` `total_movement`, which ends at `-5` and not at
`(disk_size - 1 - head) + (disk_size - 1 - 0)`. -/
theorem scan_total_overflows :
    scan_main 1 [0] 1 2147483647 = some ⟨-5, 0, [2147483646, 0]⟩ ∧
      ((2147483647 : Int) - 1 - 1) + (2147483647 - 1 - 0) = 4294967291 := by
  decide

theorem absval_eq_of_nonneg {x : Int} (h : 0 ≤ x) : absval x = x := by
  unfold absval
  rw [if_neg (by omega)]

theorem absval_eq_of_neg {x : Int} (h : x ≤ 0) (hl : -2147483647 ≤ x) : absval x = -x := by
  unfold absval
  split_ifs
  · exact wrapInt_eq (by omega) (by omega)
  · omega

theorem scan_sort_sorted (req : List Int) (n : Nat) : (scan_sort req n).Sorted (· ≤ ·) :=
  List.sorted_insertionSort _ _

theorem scan_sort_perm (req : List Int) (n : Nat) :
    (scan_sort req n).Perm ((List.range n).map (fun i => req.getD i 0)) :=
  List.perm_insertionSort _ _

theorem scan_sort_length (req : List Int) (n : Nat) : (scan_sort req n).length = n := by
  rw [(scan_sort_perm req n).length_eq]
  simp

theorem scan_sort_mem (req : List Int) (n : Nat) (x : Int) :
    x ∈ scan_sort req n ↔ ∃ i < n, req.getD i 0 = x := by
  rw [(scan_sort_perm req n).mem_iff]
  simp

/-- The loop that looks for the first request not below the head stops at an index `k` with
every earlier request below the head and the request at `k`, if any, not below it. -/
theorem scan_find_idx_spec (S : List Int) (n : Nat) (head : Int) :
    ∀ (fuel idx : Nat), idx ≤ n → n - idx ≤ fuel →
      (∀ i, i < idx → S.getD i 0 < head) →
      idx ≤ scan_find_idx S n head fuel idx ∧ scan_find_idx S n head fuel idx ≤ n ∧
        (∀ i, i < scan_find_idx S n head fuel idx → S.getD i 0 < head) ∧
        (scan_find_idx S n head fuel idx < n →
          ¬ S.getD (scan_find_idx S n head fuel idx) 0 < head) := by
  intro fuel
  induction fuel with
  | zero =>
    intro idx h1 h2 h3
    have e : idx = n := by omega
    simp only [scan_find_idx]
    exact ⟨le_refl _, h1, h3, fun h => by omega⟩
  | succ fuel ih =>
    intro idx h1 h2 h3
    simp only [scan_find_idx]
    by_cases hc : idx < n ∧ S.getD idx 0 < head
    · rw [if_pos hc]
      obtain ⟨a, b, c, d⟩ := ih (idx + 1) (by omega) (by omega) (fun i hi => by
        by_cases e : i = idx
        · subst e; exact hc.2
        · exact h3 i (by omega))
      exact ⟨by omega, b, c, d⟩
    · rw [if_neg hc]
      refine ⟨le_refl _, h1, h3, fun h => ?_⟩
      intro hlt
      exact hc ⟨h, hlt⟩

/-- In the sorted array the requests before the index found are those below the head, the
requests from it on are those not below the head. -/
theorem scan_split (S : List Int) (head : Int) (hs : S.Sorted (· ≤ ·)) (k : Nat)
    (hk : k ≤ S.length) (hlow : ∀ i, i < k → S.getD i 0 < head)
    (hhigh : k < S.length → ¬ S.getD k 0 < head) :
    S.take k = S.filter (fun x => decide (x < head)) ∧
      S.drop k = S.filter (fun x => decide (head ≤ x)) := by
  have hlo : ∀ x ∈ S.take k, x < head := by
    intro x hx
    obtain ⟨i, hi, e⟩ := List.getElem_of_mem hx
    rw [List.length_take] at hi
    have := hlow i (by omega)
    rw [List.getD_eq_getElem?_getD, List.getElem?_eq_getElem (by omega)] at this
    rw [List.getElem_take] at e
    rw [← e]
    simpa using this
  have hhi : ∀ x ∈ S.drop k, head ≤ x := by
    intro x hx
    obtain ⟨i, hi, e⟩ := List.getElem_of_mem hx
    rw [List.length_drop] at hi
    have hkl : k < S.length := by omega
    have h0 := hhigh hkl
    rw [List.getD_eq_getElem?_getD, List.getElem?_eq_getElem hkl] at h0
    simp only [Option.getD_some, not_lt] at h0
    rw [List.getElem_drop] at e
    have hle : S[k] ≤ S[k + i] := by
      rcases Nat.eq_zero_or_pos i with hz | hp
      · subst hz; exact le_refl _
      · exact List.pairwise_iff_getElem.mp hs k (k + i) hkl (by omega) (by omega)
    rw [← e]
    omega
  have hsplit : S = S.take k ++ S.drop k := (List.take_append_drop k S).symm
  constructor
  · conv_rhs => rw [hsplit]
    rw [List.filter_append]
    have e1 : (S.take k).filter (fun x => decide (x < head)) = S.take k :=
      List.filter_eq_self.mpr (fun x hx => by simpa using hlo x hx)
    have e2 : (S.drop k).filter (fun x => decide (x < head)) = [] :=
      List.filter_eq_nil_iff.mpr (fun x hx => by
        have := hhi x hx
        simp only [decide_eq_true_eq]
        omega)
    rw [e1, e2, List.append_nil]
  · conv_rhs => rw [hsplit]
    rw [List.filter_append]
    have e1 : (S.take k).filter (fun x => decide (head ≤ x)) = [] :=
      List.filter_eq_nil_iff.mpr (fun x hx => by
        have := hlo x hx
        simp only [decide_eq_true_eq]
        omega)
    have e2 : (S.drop k).filter (fun x => decide (head ≤ x)) = S.drop k :=
      List.filter_eq_self.mpr (fun x hx => by simpa using hhi x hx)
    rw [e1, e2, List.nil_append]

theorem scan_range_drop (S : List Int) (k : Nat) (hk : k ≤ S.length) :
    (List.range' k (S.length - k)).map (fun i => S.getD i 0) = S.drop k := by
  apply List.ext_getElem
  · simp
  · intro i h1 h2
    simp only [List.length_map, List.length_range'] at h1
    simp only [List.getElem_map, List.getElem_range', Nat.one_mul, List.getElem_drop]
    rw [List.getD_eq_getElem?_getD, List.getElem?_eq_getElem (by omega)]
    rfl

theorem scan_range_take (S : List Int) (k : Nat) (hk : k ≤ S.length) :
    (List.range k).map (fun i => S.getD i 0) = S.take k := by
  apply List.ext_getElem
  · simp [hk]
  · intro i h1 h2
    simp only [List.length_map, List.length_range] at h1
    simp only [List.getElem_map, List.getElem_range, List.getElem_take]
    rw [List.getD_eq_getElem?_getD, List.getElem?_eq_getElem (by omega)]
    rfl

/-- Visiting tracks in ascending order from `cur`: the movement is the distance from `cur`
to the last track visited. -/
theorem scan_visit_ascending (l : List Int) :
    ∀ (st : ScanState), List.Chain (· ≤ ·) st.cur l → 0 ≤ st.cur → 0 ≤ st.total_movement →
      (∀ x ∈ l, x ≤ 2147483647) →
      st.total_movement + (l.getLast?.getD st.cur - st.cur) ≤ 2147483647 →
      l.foldl scan_visit st
        = ⟨st.total_movement + (l.getLast?.getD st.cur - st.cur), l.getLast?.getD st.cur,
            st.order ++ l⟩ := by
  induction l with
  | nil => intro st _ _ _ _ _; simp
  | cons x xs ih =>
    intro st hc h0 ht hx hfit
    rw [List.chain_cons] at hc
    have hxle := hx x (List.mem_cons_self _ _)
    have hlast : x ≤ (x :: xs).getLast?.getD st.cur := by
      cases xs with
      | nil => simp
      | cons y ys =>
        have hch : List.Chain (· ≤ ·) x (y :: ys) := hc.2
        have hp := (List.chain_iff_pairwise.mp hch)
        rw [List.getLast?_cons_cons]
        have hm : (y :: ys).getLast?.getD st.cur ∈ (y :: ys) := by
          rw [List.getLast?_eq_getLast _ (List.cons_ne_nil _ _)]
          exact List.getLast_mem _
        exact (List.pairwise_cons.mp hp).1 _ hm
    have hstep : scan_visit st x = ⟨st.total_movement + (x - st.cur), x, st.order ++ [x]⟩ := by
      unfold scan_visit
      have e1 : wrapInt (x - st.cur) = x - st.cur := wrapInt_eq (by omega) (by omega)
      rw [e1, absval_eq_of_nonneg (by omega), wrapInt_eq (by omega) (by omega)]
    rw [List.foldl_cons, hstep]
    have e : (x :: xs).getLast?.getD st.cur = xs.getLast?.getD x := by
      cases xs with
      | nil => simp
      | cons y ys =>
        rw [List.getLast?_cons_cons]
        simp [List.getLast?_eq_getLast]
    rw [e] at hlast hfit ⊢
    rw [ih ⟨st.total_movement + (x - st.cur), x, st.order ++ [x]⟩ hc.2 (by simp only; omega)
      (by simp only; omega) (fun y hy => hx y (List.mem_cons_of_mem _ hy))
      (by simp only; omega)]
    simp only [List.append_assoc, List.singleton_append, ScanState.mk.injEq, and_true]
    omega

/-- Visiting tracks in descending order from `cur`: the movement is the distance from `cur`
down to the last track visited. -/
theorem scan_visit_descending (l : List Int) :
    ∀ (st : ScanState), List.Chain (· ≥ ·) st.cur l → st.cur ≤ 2147483647 →
      0 ≤ st.total_movement → (∀ x ∈ l, 0 ≤ x) →
      st.total_movement + (st.cur - l.getLast?.getD st.cur) ≤ 2147483647 →
      l.foldl scan_visit st
        = ⟨st.total_movement + (st.cur - l.getLast?.getD st.cur), l.getLast?.getD st.cur,
            st.order ++ l⟩ := by
  induction l with
  | nil => intro st _ _ _ _ _; simp
  | cons x xs ih =>
    intro st hc h0 ht hx hfit
    rw [List.chain_cons] at hc
    have hxle := hx x (List.mem_cons_self _ _)
    have hge : st.cur ≥ x := hc.1
    have hlast : (x :: xs).getLast?.getD st.cur ≤ x := by
      cases xs with
      | nil => simp
      | cons y ys =>
        have hch : List.Chain (· ≥ ·) x (y :: ys) := hc.2
        have hp := (List.chain_iff_pairwise.mp hch)
        rw [List.getLast?_cons_cons]
        have hm : (y :: ys).getLast?.getD st.cur ∈ (y :: ys) := by
          rw [List.getLast?_eq_getLast _ (List.cons_ne_nil _ _)]
          exact List.getLast_mem _
        exact (List.pairwise_cons.mp hp).1 _ hm
    have hstep : scan_visit st x = ⟨st.total_movement + (st.cur - x), x, st.order ++ [x]⟩ := by
      unfold scan_visit
      have e1 : wrapInt (x - st.cur) = x - st.cur := wrapInt_eq (by omega) (by omega)
      rw [e1, absval_eq_of_neg (by omega) (by omega), wrapInt_eq (by omega) (by omega)]
      simp only [ScanState.mk.injEq, and_true]
      omega
    rw [List.foldl_cons, hstep]
    have e : (x :: xs).getLast?.getD st.cur = xs.getLast?.getD x := by
      cases xs with
      | nil => simp
      | cons y ys =>
        rw [List.getLast?_cons_cons]
        simp [List.getLast?_eq_getLast]
    rw [e] at hlast hfit ⊢
    rw [ih ⟨st.total_movement + (st.cur - x), x, st.order ++ [x]⟩ hc.2 (by simp only; omega)
      (by simp only; omega) (fun y hy => hx y (List.mem_cons_of_mem _ hy))
      (by simp only; omega)]
    simp only [List.append_assoc, List.singleton_append, ScanState.mk.injEq, and_true]
    omega

/-- The three phases of scan_simple.c on a sorted array `S` of requests inside the disk, when
the total fits in `int`: the order printed and the values of `total_movement` and `cur` at
the end. -/
theorem scan_phases (S : List Int) (n : Nat) (head disk_size : Int) (hlen : S.length = n)
    (hs : S.Sorted (· ≤ ·)) (hS : ∀ x ∈ S, 0 ≤ x ∧ x ≤ disk_size - 1)
    (hhead : 0 ≤ head ∧ head ≤ disk_size - 1) (hd : disk_size ≤ 2147483647)
    (hfit : ∀ x ∈ S, x < head →
      (disk_size - 1 - head) + (disk_size - 1 - x) ≤ 2147483647) :
    (List.range (scan_find_idx S n head n 0)).reverse.foldl
        (fun st i => scan_visit st (S.getD i 0))
        (if ((List.range' (scan_find_idx S n head n 0) (n - scan_find_idx S n head n 0)).foldl
              (fun st i => scan_visit st (S.getD i 0)) ⟨0, head, []⟩).cur
            ≠ wrapInt (disk_size - 1) then
          scan_visit
            ((List.range' (scan_find_idx S n head n 0) (n - scan_find_idx S n head n 0)).foldl
              (fun st i => scan_visit st (S.getD i 0)) ⟨0, head, []⟩)
            (wrapInt (disk_size - 1))
        else
          (List.range' (scan_find_idx S n head n 0) (n - scan_find_idx S n head n 0)).foldl
            (fun st i => scan_visit st (S.getD i 0)) ⟨0, head, []⟩)
      = ⟨(disk_size - 1 - head)
            + (disk_size - 1
                - ((S.filter (fun x => decide (x < head))).head?.getD (disk_size - 1))),
          (S.filter (fun x => decide (x < head))).head?.getD (disk_size - 1),
          S.filter (fun x => decide (head ≤ x))
            ++ (if (S.filter (fun x => decide (head ≤ x))).getLast?.getD head = disk_size - 1
                then [] else [disk_size - 1])
            ++ (S.filter (fun x => decide (x < head))).reverse⟩ := by
  obtain ⟨_, hk2, hk3, hk4⟩ := scan_find_idx_spec S n head n 0 (Nat.zero_le _) (by omega)
    (fun i hi => by omega)
  generalize scan_find_idx S n head n 0 = k at hk2 hk3 hk4 ⊢
  obtain ⟨htake, hdrop⟩ := scan_split S head hs k (by omega) hk3 (by rw [hlen]; exact hk4)
  have hloop1 : ∀ st0 : ScanState,
      (List.range' k (n - k)).foldl (fun st i => scan_visit st (S.getD i 0)) st0
        = (S.filter (fun x => decide (head ≤ x))).foldl scan_visit st0 := by
    intro st0
    rw [← hdrop, ← scan_range_drop S k (by omega), List.foldl_map, hlen]
  have hloop2 : ∀ st0 : ScanState,
      (List.range k).reverse.foldl (fun st i => scan_visit st (S.getD i 0)) st0
        = (S.filter (fun x => decide (x < head))).reverse.foldl scan_visit st0 := by
    intro st0
    rw [← htake, ← scan_range_take S k (by omega), ← List.map_reverse, List.foldl_map]
  rw [hloop2]
  simp only [hloop1]
  generalize hH : S.filter (fun x => decide (head ≤ x)) = H
  generalize hL : S.filter (fun x => decide (x < head)) = L
  have hHmem : ∀ x ∈ H, head ≤ x ∧ x ≤ disk_size - 1 := by
    intro x hx
    rw [← hH, List.mem_filter] at hx
    exact ⟨by simpa using hx.2, (hS x hx.1).2⟩
  have hLmem : ∀ x ∈ L, 0 ≤ x ∧ x < head ∧
      (disk_size - 1 - head) + (disk_size - 1 - x) ≤ 2147483647 := by
    intro x hx
    rw [← hL, List.mem_filter] at hx
    have h2 : x < head := by simpa using hx.2
    exact ⟨(hS x hx.1).1, h2, hfit x hx.1 h2⟩
  have hHs : H.Pairwise (· ≤ ·) := by
    rw [← hH]; exact List.Pairwise.filter _ hs
  have hLs : L.Pairwise (· ≤ ·) := by
    rw [← hL]; exact List.Pairwise.filter _ hs
  have hlastH : head ≤ H.getLast?.getD head ∧ H.getLast?.getD head ≤ disk_size - 1 := by
    cases hH0 : H.getLast? with
    | none => simp only [Option.getD_none]; omega
    | some y =>
      simp only [Option.getD_some]
      exact hHmem y (List.mem_of_getLast?_eq_some hH0)
  have h1 := scan_visit_ascending H ⟨0, head, []⟩
    (List.chain_iff_pairwise.mpr (List.pairwise_cons.mpr ⟨fun x hx => (hHmem x hx).1, hHs⟩))
    hhead.1 (le_refl _) (fun x hx => by have := (hHmem x hx).2; omega)
    (by simp only; omega)
  rw [h1]
  simp only [zero_add, List.nil_append]
  have hw : wrapInt (disk_size - 1) = disk_size - 1 := wrapInt_eq (by omega) (by omega)
  rw [hw]
  have hst2 : (if H.getLast?.getD head ≠ disk_size - 1 then
        scan_visit ⟨H.getLast?.getD head - head, H.getLast?.getD head, H⟩ (disk_size - 1)
      else ⟨H.getLast?.getD head - head, H.getLast?.getD head, H⟩)
      = (⟨disk_size - 1 - head, disk_size - 1,
          H ++ (if H.getLast?.getD head = disk_size - 1 then [] else [disk_size - 1])⟩ :
            ScanState) := by
    by_cases he : H.getLast?.getD head = disk_size - 1
    · rw [if_neg (not_not.mpr he), if_pos he, he, List.append_nil]
    · rw [if_pos he, if_neg he]
      unfold scan_visit
      simp only []
      have e1 : wrapInt (disk_size - 1 - H.getLast?.getD head)
          = disk_size - 1 - H.getLast?.getD head := wrapInt_eq (by omega) (by omega)
      rw [e1, absval_eq_of_nonneg (by omega), wrapInt_eq (by omega) (by omega)]
      simp only [ScanState.mk.injEq, and_true]
      omega
  rw [hst2]
  have hlastL : L.reverse.getLast?.getD (disk_size - 1) = L.head?.getD (disk_size - 1) := by
    rw [List.getLast?_reverse]
  have hheadL : L.head?.getD (disk_size - 1) ≤ disk_size - 1 ∧
      (disk_size - 1 - head) + (disk_size - 1 - L.head?.getD (disk_size - 1))
        ≤ 2147483647 := by
    cases hL0 : L.head? with
    | none => simp only [Option.getD_none]; omega
    | some y =>
      simp only [Option.getD_some]
      have := hLmem y (List.mem_of_mem_head? hL0)
      omega
  have h2 := scan_visit_descending L.reverse
    ⟨disk_size - 1 - head, disk_size - 1,
      H ++ (if H.getLast?.getD head = disk_size - 1 then [] else [disk_size - 1])⟩
    (List.chain_iff_pairwise.mpr (List.pairwise_cons.mpr
      ⟨fun x hx => by
        have := hLmem x (List.mem_reverse.mp hx)
        show disk_size - 1 ≥ x
        omega,
       List.pairwise_reverse.mpr hLs⟩))
    (by simp only; omega) (by simp only; omega)
    (fun x hx => (hLmem x (List.mem_reverse.mp hx)).1)
    (by simp only; rw [hlastL]; omega)
  rw [h2, hlastL]

/-- Where the SCAN program is right: for `n >= 1` requests and a head inside the disk, when
the total movement fits in `int`, the tracks printed are the requests not below the head in
ascending order, then the last track unless the head is already there, then the requests
below the head in descending order (`scan_sort` is sorted and a permutation of the
requests: `scan_sort_sorted`, `scan_sort_perm`); `total_movement` is
`disk_size - 1 - head` when no request is below the head, and
`(disk_size - 1 - head) + (disk_size - 1 - m)` for the smallest request `m` otherwise. -/
theorem scan_in_range (n : Nat) (req : List Int) (head disk_size : Int) (hn : 1 ≤ n)
    (hreq : ∀ i < n, 0 ≤ req.getD i 0 ∧ req.getD i 0 ≤ disk_size - 1)
    (hhead : 0 ≤ head ∧ head ≤ disk_size - 1) (hd : disk_size ≤ 2147483647)
    (hfit : ∀ i < n, req.getD i 0 < head →
      (disk_size - 1 - head) + (disk_size - 1 - req.getD i 0) ≤ 2147483647) :
    ∃ st, scan_main n req head disk_size = some st ∧
      st.order = (scan_sort req n).filter (fun x => decide (head ≤ x))
        ++ (if ((scan_sort req n).filter (fun x => decide (head ≤ x))).getLast?.getD head
              = disk_size - 1 then [] else [disk_size - 1])
        ++ ((scan_sort req n).filter (fun x => decide (x < head))).reverse ∧
      ((∀ i < n, head ≤ req.getD i 0) → st.total_movement = disk_size - 1 - head) ∧
      (∀ m, (∃ i < n, req.getD i 0 = m) → (∀ i < n, m ≤ req.getD i 0) → m < head →
        st.total_movement = (disk_size - 1 - head) + (disk_size - 1 - m)) := by
  have hS : ∀ x ∈ scan_sort req n, 0 ≤ x ∧ x ≤ disk_size - 1 := by
    intro x hx
    obtain ⟨i, hi, e⟩ := (scan_sort_mem req n x).mp hx
    rw [← e]; exact hreq i hi
  have hfit2 : ∀ x ∈ scan_sort req n, x < head →
      (disk_size - 1 - head) + (disk_size - 1 - x) ≤ 2147483647 := by
    intro x hx hlt
    obtain ⟨i, hi, e⟩ := (scan_sort_mem req n x).mp hx
    rw [← e] at hlt ⊢; exact hfit i hi hlt
  have hph := scan_phases (scan_sort req n) n head disk_size (scan_sort_length req n)
    (scan_sort_sorted req n) hS hhead hd hfit2
  have hmain : scan_main n req head disk_size
      = some ⟨(disk_size - 1 - head)
            + (disk_size - 1
                - (((scan_sort req n).filter (fun x => decide (x < head))).head?.getD
                    (disk_size - 1))),
          ((scan_sort req n).filter (fun x => decide (x < head))).head?.getD (disk_size - 1),
          (scan_sort req n).filter (fun x => decide (head ≤ x))
            ++ (if ((scan_sort req n).filter (fun x => decide (head ≤ x))).getLast?.getD head
                  = disk_size - 1 then [] else [disk_size - 1])
            ++ ((scan_sort req n).filter (fun x => decide (x < head))).reverse⟩ := by
    unfold scan_main
    rw [if_neg (by omega), if_neg (by omega)]
    simp only []
    rw [hph]
  refine ⟨_, hmain, rfl, ?_, ?_⟩
  · intro hall
    have hnil : (scan_sort req n).filter (fun x => decide (x < head)) = [] := by
      rw [List.filter_eq_nil_iff]
      intro x hx
      obtain ⟨i, hi, e⟩ := (scan_sort_mem req n x).mp hx
      have := hall i hi
      simp only [decide_eq_true_eq]
      omega
    simp only [hnil, List.head?_nil, Option.getD_none]
    omega
  · intro m hm hmin hlt
    have hmS : m ∈ scan_sort req n := (scan_sort_mem req n m).mpr hm
    have hmL : m ∈ (scan_sort req n).filter (fun x => decide (x < head)) := by
      rw [List.mem_filter]; exact ⟨hmS, by simpa using hlt⟩
    have hLs : ((scan_sort req n).filter (fun x => decide (x < head))).Pairwise (· ≤ ·) :=
      List.Pairwise.filter _ (scan_sort_sorted req n)
    cases hL : (scan_sort req n).filter (fun x => decide (x < head)) with
    | nil => rw [hL] at hmL; simp at hmL
    | cons y ys =>
      rw [hL] at hmL hLs
      have hyS : y ∈ scan_sort req n := by
        have : y ∈ (scan_sort req n).filter (fun x => decide (x < head)) := by
          rw [hL]; exact List.mem_cons_self _ _
        exact (List.mem_filter.mp this).1
      obtain ⟨i, hi, e⟩ := (scan_sort_mem req n y).mp hyS
      have h1 : m ≤ y := by rw [← e]; exact hmin i hi
      have h2 : y ≤ m := by
        rcases List.mem_cons.mp hmL with h | h
        · omega
        · exact (List.pairwise_cons.mp hLs).1 m h
      simp only [List.head?_cons, Option.getD_some]
      omega

/-- The requests 98, 183, 37, 122, 14, 124, 65, 67 with the head at 53 on a disk of 200
tracks are within the limits. -/
theorem scan_in_range_example :
    ∃ st, scan_main 8 [98, 183, 37, 122, 14, 124, 65, 67] 53 200 = some st ∧
      st.total_movement = (200 - 1 - 53) + (200 - 1 - 14) := by
  obtain ⟨st, h1, _, _, h4⟩ := scan_in_range 8 [98, 183, 37, 122, 14, 124, 65, 67] 53 200
    (by decide)
    (by intro i hi; interval_cases i <;> decide)
    (by decide) (by decide)
    (by intro i hi _; interval_cases i <;> decide)
  exact ⟨st, h1, h4 14 ⟨4, by decide, by decide⟩
    (by intro i hi; interval_cases i <;> decide) (by decide)⟩

/-! ## Readers and writers -/

theorem two_readers_run : rw_run rw_init twoReadersSchedule = some twoReadersState := by
  decide

theorem rw_reachable_run {s : RwState} (hr : RwReachable s) (sched : List RwTid)
    {s1 : RwState} (h : rw_run s sched = some s1) : RwReachable s1 := by
  induction sched generalizing s with
  | nil => simp [rw_run] at h; subst h; exact hr
  | cons t ts ih =>
    simp only [rw_run] at h
    cases hst : rw_step s t with
    | none => simp [hst] at h
    | some s2 =>
      simp only [hst] at h
      exact ih (RwReachable.step t hr hst) h

theorem rwInv_init : RwInv rw_init := by
  refine ⟨by simp [rw_init], by simp [rw_init], ?_, ?_, ?_, ?_, ?_, ?_⟩
  · intro r pc h
    simp only [rw_init, List.getElem?_replicate] at h
    split_ifs at h
    simp only [Option.some.injEq] at h
    subst h
    simp [inEntryExit, rw_init]
  · simp [rw_init, rCounted, List.countP_replicate]
  · intro w pc h
    simp only [rw_init, List.getElem?_replicate] at h
    split_ifs at h
    simp only [Option.some.injEq] at h
    subst h
    simp [wInCs, rw_init]
  · simp [rw_init, rCovered, List.countP_replicate]
  · intro r h
    simp only [rw_init, List.getElem?_replicate] at h
    split_ifs at h
    simp at h
  · intro r h
    simp only [rw_init, List.getElem?_replicate] at h
    split_ifs at h
    simp at h

/-- Only the reader that holds `rc_mutex` is inside an entry or exit section. -/
theorem rw_others_outside {s : RwState} (h : RwInv s) {id : Nat} {pc : RPc}
    (hp : s.readers[id]? = some pc) (hin : inEntryExit pc = true) (r : Nat) (q : RPc)
    (hq : s.readers[r]? = some q) (hne : id ≠ r) : inEntryExit q = false := by
  by_contra hc
  have h1 := (h.rc id pc hp).mp hin
  have h2 := (h.rc r q hq).mp (by simpa using hc)
  rw [h1] at h2
  simp only [Option.some.injEq, RwTid.reader.injEq] at h2
  exact hne h2

theorem rw_counted_outside (q : RPc) (h : inEntryExit q = false) :
    rCounted q = rReading q ∧ rCovered q = rReading q := by
  cases q <;> simp [inEntryExit] at h <;> simp [rCounted, rCovered, rReading]

theorem countP_congr_get {α : Type} (p q : α → Bool) (l : List α)
    (h : ∀ (j : Nat) (a : α), l[j]? = some a → p a = q a) : l.countP p = l.countP q := by
  apply List.countP_congr
  intro a ha
  obtain ⟨j, hj⟩ := List.getElem?_of_mem ha
  rw [h j a hj]

/-- With the holder of `rc_mutex` left out, the readers counted in `readcount` are the
readers in their reading sections, and so are the readers for whom `resource_mutex` is
held. -/
theorem rw_counts {s : RwState} (h : RwInv s) {id : Nat} {pc : RPc}
    (hp : s.readers[id]? = some pc) (hin : inEntryExit pc = true) :
    s.readers.countP rCounted + (rCovered pc).toNat
      = s.readers.countP rCovered + (rCounted pc).toNat := by
  have h1 := countP_set_add rCounted s.readers id pc .lockRc hp
  have h2 := countP_set_add rCovered s.readers id pc .lockRc hp
  have h3 : (s.readers.set id .lockRc).countP rCounted
      = (s.readers.set id .lockRc).countP rCovered := by
    apply countP_congr_get
    intro j a ha
    rcases getElem?_set_cases ha with ⟨_, e⟩ | ⟨hne, ha2⟩
    · subst e; rfl
    · have := rw_counted_outside a (rw_others_outside h hp hin j a ha2 hne)
      rw [this.1, this.2]
  have e1 : rCounted .lockRc = false := rfl
  have e2 : rCovered .lockRc = false := rfl
  rw [e1] at h1
  rw [e2] at h2
  simp only [Bool.toNat_false, add_zero] at h1 h2
  omega

/-- When no reader is inside an entry or exit section, the readers counted in `readcount`
and the readers for whom `resource_mutex` is held are those in their reading sections. -/
theorem rw_counts_outside {s : RwState}
    (hout : ∀ (r : Nat) (pc : RPc), s.readers[r]? = some pc → inEntryExit pc = false) :
    s.readers.countP rCounted = s.readers.countP rReading ∧
      s.readers.countP rCovered = s.readers.countP rReading :=
  ⟨countP_congr_get _ _ _ (fun j a ha => (rw_counted_outside a (hout j a ha)).1),
    countP_congr_get _ _ _ (fun j a ha => (rw_counted_outside a (hout j a ha)).2)⟩

theorem rw_readcount_le {s : RwState} (h : RwInv s) :
    0 ≤ s.readcount ∧ s.readcount ≤ 5 := by
  have h1 := h.cnt
  have h2 : s.readers.countP rCounted ≤ s.readers.length := List.countP_le_length _
  have h3 := h.lenR
  simp only [NUM_READERS] at h3
  omega

/-- How the invariant fields that speak of the readers carry over when reader `id` moves
from `pc` to `pc1`: what is left to show for the reader `id` itself. -/
theorem rwInv_move_reader {s : RwState} (h : RwInv s) {id : Nat} {pc pc1 : RPc}
    (hp : s.readers[id]? = some pc) (sd rcnt : Int) (rcm res : Option RwTid)
    (hrc_self : inEntryExit pc1 = true ↔ rcm = some (.reader id))
    (hrc_other : ∀ r, id ≠ r → (rcm = some (.reader r) ↔ s.rc_mutex = some (.reader r)))
    (hcnt : rcnt = ((s.readers.set id pc1).countP rCounted : Nat))
    (hres_w : ∀ w, res = some (.writer w) ↔ s.resource_mutex = some (.writer w))
    (hres_r : (∃ r, res = some (.reader r)) ↔ 0 < (s.readers.set id pc1).countP rCovered)
    (hlock : pc1 = .lockRes → rcnt = 1) (hunlock : pc1 = .unlockRes → rcnt = 0)
    (hkeep : rcnt = s.readcount ∨ inEntryExit pc = true) :
    RwInv { shared_data := sd, readcount := rcnt, rc_mutex := rcm, resource_mutex := res,
            readers := s.readers.set id pc1, writers := s.writers } := by
  refine ⟨by simp [h.lenR], h.lenW, ?_, hcnt, ?_, hres_r, ?_, ?_⟩
  · intro r q hq
    rcases getElem?_set_cases hq with ⟨e1, e2⟩ | ⟨hne, hq2⟩
    · subst e1; subst e2; exact hrc_self
    · exact (h.rc r q hq2).trans (hrc_other r hne).symm
  · intro w q hq
    exact (h.res_w w q hq).trans (hres_w w).symm
  · intro r hq
    rcases getElem?_set_cases hq with ⟨_, e2⟩ | ⟨hne, hq2⟩
    · exact hlock e2.symm
    · rcases hkeep with e | hin
      · rw [e]; exact h.at_lock r hq2
      · have := rw_others_outside h hp hin r _ hq2 hne
        simp [inEntryExit] at this
  · intro r hq
    rcases getElem?_set_cases hq with ⟨_, e2⟩ | ⟨hne, hq2⟩
    · exact hunlock e2.symm
    · rcases hkeep with e | hin
      · rw [e]; exact h.at_unlock r hq2
      · have := rw_others_outside h hp hin r _ hq2 hne
        simp [inEntryExit] at this

theorem rwInv_reader {s s1 : RwState} {id : Nat} (h : RwInv s)
    (hs : reader s id = some s1) : RwInv s1 := by
  unfold reader at hs
  cases hp : s.readers[id]? with
  | none => simp [hp] at hs
  | some pc =>
    simp only [hp] at hs
    have hb := rw_readcount_le h
    have hcnt := h.cnt
    have hrc := h.rc id pc hp
    have hC := fun b => countP_set_add rCounted s.readers id pc b hp
    have hV := fun b => countP_set_add rCovered s.readers id pc b hp
    have hpos := toNat_le_countP rCovered s.readers id pc hp
    have hposC := toNat_le_countP rCounted s.readers id pc hp
    cases pc with
    | lockRc =>
      simp only [] at hs
      split_ifs at hs with hfree
      simp only [Option.some.injEq] at hs
      subst hs
      have hC1 := hC .incr
      have hV1 := hV .incr
      simp only [rCounted, rCovered, Bool.toNat_false, add_zero] at hC1 hV1
      refine rwInv_move_reader h hp _ _ _ _ (by simp [inEntryExit])
        (fun r hne => by simp [hfree, hne]) (by rw [hC1]; exact hcnt) (fun w => Iff.rfl)
        (by rw [hV1]; exact h.res_r) (by simp) (by simp) (Or.inl rfl)
    | incr =>
      simp only [Option.some.injEq] at hs
      subst hs
      have hC1 := hC .test1
      have hV1 := hV .test1
      simp only [rCounted, rCovered, Bool.toNat_false, Bool.toNat_true, add_zero] at hC1 hV1
      rw [wrapInt_eq (by omega) (by omega)]
      refine rwInv_move_reader h hp _ _ _ _ (by simpa [inEntryExit] using hrc)
        (fun r hne => Iff.rfl) (by rw [hC1, hcnt]; push_cast; rfl) (fun w => Iff.rfl)
        (by rw [hV1]; exact h.res_r) (by simp) (by simp) (Or.inr rfl)
    | test1 =>
      have hcounts := rw_counts h hp rfl
      simp only [rCounted, rCovered, Bool.toNat_false, Bool.toNat_true, add_zero] at hcounts hposC
      simp only [] at hs
      split_ifs at hs with hone
      · simp only [Option.some.injEq] at hs
        subst hs
        have hC1 := hC .lockRes
        have hV1 := hV .lockRes
        simp only [rCounted, rCovered, Bool.toNat_false, Bool.toNat_true, add_zero,
          Nat.add_right_cancel_iff] at hC1 hV1
        refine rwInv_move_reader h hp _ _ _ _ (by simpa [inEntryExit] using hrc)
          (fun r hne => Iff.rfl) (by rw [hC1]; exact hcnt) (fun w => Iff.rfl)
          (by rw [hV1]; exact h.res_r) (fun _ => hone) (by simp) (Or.inl rfl)
      · simp only [Option.some.injEq] at hs
        subst hs
        have hC1 := hC .unlockRc
        have hV1 := hV .unlockRc
        simp only [rCounted, rCovered, Bool.toNat_false, Bool.toNat_true, add_zero,
          Nat.add_right_cancel_iff] at hC1 hV1
        refine rwInv_move_reader h hp _ _ _ _ (by simpa [inEntryExit] using hrc)
          (fun r hne => Iff.rfl) (by rw [hC1]; exact hcnt) (fun w => Iff.rfl)
          ⟨fun _ => by omega, fun _ => h.res_r.mpr (by omega)⟩ (by simp) (by simp)
          (Or.inl rfl)
    | lockRes =>
      simp only [] at hs
      split_ifs at hs with hfree
      simp only [Option.some.injEq] at hs
      subst hs
      have hC1 := hC .unlockRc
      have hV1 := hV .unlockRc
      simp only [rCounted, rCovered, Bool.toNat_false, Bool.toNat_true, add_zero,
        Nat.add_right_cancel_iff] at hC1 hV1
      refine rwInv_move_reader h hp _ _ _ _ (by simpa [inEntryExit] using hrc)
        (fun r hne => Iff.rfl) (by rw [hC1]; exact hcnt) (fun w => by simp [hfree])
        ⟨fun _ => by omega, fun _ => ⟨id, rfl⟩⟩ (by simp) (by simp) (Or.inl rfl)
    | unlockRc =>
      simp only [Option.some.injEq] at hs
      subst hs
      have hown : s.rc_mutex = some (.reader id) := hrc.mp rfl
      have hC1 := hC .reading
      have hV1 := hV .reading
      simp only [rCounted, rCovered, Bool.toNat_false, Bool.toNat_true, add_zero,
        Nat.add_right_cancel_iff] at hC1 hV1
      refine rwInv_move_reader h hp _ _ _ _ (by simp [inEntryExit])
        (fun r hne => by simp [hown, hne]) (by rw [hC1]; exact hcnt) (fun w => Iff.rfl)
        (by rw [hV1]; exact h.res_r) (by simp) (by simp) (Or.inl rfl)
    | reading =>
      simp only [] at hs
      split_ifs at hs with hfree
      simp only [Option.some.injEq] at hs
      subst hs
      have hC1 := hC .decr
      have hV1 := hV .decr
      simp only [rCounted, rCovered, Bool.toNat_false, Bool.toNat_true, add_zero,
        Nat.add_right_cancel_iff] at hC1 hV1
      refine rwInv_move_reader h hp _ _ _ _ (by simp [inEntryExit])
        (fun r hne => by simp [hfree, hne]) (by rw [hC1]; exact hcnt) (fun w => Iff.rfl)
        (by rw [hV1]; exact h.res_r) (by simp) (by simp) (Or.inl rfl)
    | decr =>
      simp only [Option.some.injEq] at hs
      subst hs
      have hC1 := hC .test0
      have hV1 := hV .test0
      simp only [rCounted, rCovered, Bool.toNat_false, Bool.toNat_true, add_zero,
        Nat.add_right_cancel_iff] at hC1 hV1 hposC
      rw [wrapInt_eq (by omega) (by omega)]
      refine rwInv_move_reader h hp _ _ _ _ (by simpa [inEntryExit] using hrc)
        (fun r hne => Iff.rfl) (by rw [hcnt]; omega) (fun w => Iff.rfl)
        (by rw [hV1]; exact h.res_r) (by simp) (by simp) (Or.inr rfl)
    | test0 =>
      have hcounts := rw_counts h hp rfl
      simp only [rCounted, rCovered, Bool.toNat_false, Bool.toNat_true, add_zero] at hcounts hpos
      simp only [] at hs
      split_ifs at hs with hzero
      · simp only [Option.some.injEq] at hs
        subst hs
        have hC1 := hC .unlockRes
        have hV1 := hV .unlockRes
        simp only [rCounted, rCovered, Bool.toNat_false, Bool.toNat_true, add_zero,
          Nat.add_right_cancel_iff] at hC1 hV1
        refine rwInv_move_reader h hp _ _ _ _ (by simpa [inEntryExit] using hrc)
          (fun r hne => Iff.rfl) (by rw [hC1]; exact hcnt) (fun w => Iff.rfl)
          (by rw [hV1]; exact h.res_r) (by simp) (fun _ => hzero) (Or.inl rfl)
      · simp only [Option.some.injEq] at hs
        subst hs
        have hC1 := hC .unlockRc2
        have hV1 := hV .unlockRc2
        simp only [rCounted, rCovered, Bool.toNat_false, Bool.toNat_true, add_zero,
          Nat.add_right_cancel_iff] at hC1 hV1
        refine rwInv_move_reader h hp _ _ _ _ (by simpa [inEntryExit] using hrc)
          (fun r hne => Iff.rfl) (by rw [hC1]; exact hcnt) (fun w => Iff.rfl)
          ⟨fun _ => by omega, fun _ => h.res_r.mpr (by omega)⟩ (by simp) (by simp)
          (Or.inl rfl)
    | unlockRes =>
      have hcounts := rw_counts h hp rfl
      have hz := h.at_unlock id hp
      simp only [rCounted, rCovered, Bool.toNat_false, Bool.toNat_true, add_zero] at hcounts hpos
      obtain ⟨r0, hr0⟩ := h.res_r.mpr (by omega)
      simp only [Option.some.injEq] at hs
      subst hs
      have hC1 := hC .unlockRc2
      have hV1 := hV .unlockRc2
      simp only [rCounted, rCovered, Bool.toNat_false, Bool.toNat_true, add_zero,
        Nat.add_right_cancel_iff] at hC1 hV1
      refine rwInv_move_reader h hp _ _ _ _ (by simpa [inEntryExit] using hrc)
        (fun r hne => Iff.rfl) (by rw [hC1]; exact hcnt) (fun w => by simp [hr0])
        ⟨fun ⟨r, hr⟩ => by simp at hr, fun hgt => by omega⟩ (by simp) (by simp) (Or.inl rfl)
    | unlockRc2 =>
      simp only [Option.some.injEq] at hs
      subst hs
      have hown : s.rc_mutex = some (.reader id) := hrc.mp rfl
      have hC1 := hC .lockRc
      have hV1 := hV .lockRc
      simp only [rCounted, rCovered, Bool.toNat_false, Bool.toNat_true, add_zero,
        Nat.add_right_cancel_iff] at hC1 hV1
      refine rwInv_move_reader h hp _ _ _ _ (by simp [inEntryExit])
        (fun r hne => by simp [hown, hne]) (by rw [hC1]; exact hcnt) (fun w => Iff.rfl)
        (by rw [hV1]; exact h.res_r) (by simp) (by simp) (Or.inl rfl)

theorem rwInv_writer {s s1 : RwState} {id : Nat} (h : RwInv s)
    (hs : writer s id = some s1) : RwInv s1 := by
  unfold writer at hs
  cases hp : s.writers[id]? with
  | none => simp [hp] at hs
  | some pc =>
    simp only [hp] at hs
    have hw := h.res_w id pc hp
    cases pc with
    | lockRes =>
      simp only [] at hs
      split_ifs at hs with hfree
      simp only [Option.some.injEq] at hs
      subst hs
      have hno : ¬ 0 < s.readers.countP rCovered := by
        intro hgt
        obtain ⟨r, hr⟩ := h.res_r.mpr hgt
        rw [hfree] at hr
        simp at hr
      refine ⟨h.lenR, by simp [h.lenW], h.rc, h.cnt, ?_,
        ⟨fun ⟨r, hr⟩ => by simp at hr, fun hgt => absurd hgt hno⟩, h.at_lock, h.at_unlock⟩
      intro w q hq
      rcases getElem?_set_cases hq with ⟨e1, e2⟩ | ⟨hne, hq2⟩
      · subst e1; subst e2; simp [wInCs]
      · have := h.res_w w q hq2
        rw [hfree] at this
        simp only [reduceCtorEq, iff_false] at this
        simp [this, hne]
    | write =>
      simp only [Option.some.injEq] at hs
      subst hs
      refine ⟨h.lenR, by simp [h.lenW], h.rc, h.cnt, ?_, h.res_r, h.at_lock, h.at_unlock⟩
      intro w q hq
      rcases getElem?_set_cases hq with ⟨e1, e2⟩ | ⟨hne, hq2⟩
      · subst e1; subst e2
        simpa [wInCs] using hw
      · exact h.res_w w q hq2
    | unlockRes =>
      simp only [Option.some.injEq] at hs
      subst hs
      have hown : s.resource_mutex = some (.writer id) := hw.mp rfl
      have hno : ¬ 0 < s.readers.countP rCovered := by
        intro hgt
        obtain ⟨r, hr⟩ := h.res_r.mpr hgt
        rw [hown] at hr
        simp at hr
      refine ⟨h.lenR, by simp [h.lenW], h.rc, h.cnt, ?_,
        ⟨fun ⟨r, hr⟩ => by simp at hr, fun hgt => absurd hgt hno⟩, h.at_lock, h.at_unlock⟩
      intro w q hq
      rcases getElem?_set_cases hq with ⟨e1, e2⟩ | ⟨hne, hq2⟩
      · subst e1; subst e2; simp [wInCs]
      · have := h.res_w w q hq2
        rw [hown] at this
        simp only [Option.some.injEq, RwTid.writer.injEq] at this
        simp only [reduceCtorEq, iff_false, Bool.not_eq_true]
        cases hq3 : wInCs q
        · rfl
        · exact absurd (this.mp hq3) hne

theorem rw_reachable_inv {s : RwState} (hr : RwReachable s) : RwInv s := by
  induction hr with
  | init => exact rwInv_init
  | step t _ hs ih =>
    cases t with
    | reader id => exact rwInv_reader ih hs
    | writer id => exact rwInv_writer ih hs

/-- C34 (amended): reader/writer demo with `resource_mutex` as a binary lock.  In every
reachable state: `readcount` is the number of readers that have made the increment of their
entry section and not yet the decrement of their exit section; when no reader is inside an
entry or exit section, `readcount` is the number of readers in their reading sections and
`resource_mutex` is held for the readers (locked by a reader) exactly when `readcount > 0`;
no reader is in its reading section while a writer is in its critical section; and two
writers in their critical sections are the same writer. -/
theorem reader_writer_exclusion (s : RwState) (hr : RwReachable s) :
    s.readcount = (s.readers.countP rCounted : Nat) ∧
      ((∀ (r : Nat) (pc : RPc), s.readers[r]? = some pc → inEntryExit pc = false) →
        s.readcount = (s.readers.countP rReading : Nat) ∧
          ((∃ r, s.resource_mutex = some (.reader r)) ↔ 0 < s.readcount)) ∧
      (∀ (w r : Nat) (pc : WPc), s.writers[w]? = some pc → wInCs pc = true →
        s.readers[r]? ≠ some .reading) ∧
      (∀ (w1 w2 : Nat) (pc1 pc2 : WPc), s.writers[w1]? = some pc1 →
        s.writers[w2]? = some pc2 → wInCs pc1 = true → wInCs pc2 = true → w1 = w2) := by
  have h := rw_reachable_inv hr
  refine ⟨h.cnt, ?_, ?_, ?_⟩
  · intro hout
    obtain ⟨e1, e2⟩ := rw_counts_outside hout
    refine ⟨by rw [h.cnt, e1], ?_⟩
    rw [h.res_r, h.cnt, e1, e2]
    exact Nat.cast_pos.symm
  · intro w r pc hp hcs hrd
    have hown := (h.res_w w pc hp).mp hcs
    obtain ⟨r0, hr0⟩ := h.res_r.mpr (countP_pos_of_get rCovered s.readers r .reading hrd rfl)
    rw [hown] at hr0
    simp at hr0
  · intro w1 w2 pc1 pc2 hp1 hp2 hc1 hc2
    have h1 := (h.res_w w1 pc1 hp1).mp hc1
    have h2 := (h.res_w w2 pc2 hp2).mp hc2
    rw [h1] at h2
    simpa using h2

/-- C34 (amended) at `twoReadersState`: readers 0 and 1 are in their reading sections, no
reader is in an entry or exit section, `readcount = 2` and `resource_mutex` is held for the
readers. -/
theorem reader_writer_exclusion_witness :
    RwReachable twoReadersState ∧
      twoReadersState.readcount = (twoReadersState.readers.countP rReading : Nat) ∧
      ((∃ r, twoReadersState.resource_mutex = some (.reader r))
        ↔ 0 < twoReadersState.readcount) :=
  have hr := rw_reachable_run RwReachable.init twoReadersSchedule two_readers_run
  ⟨hr, (reader_writer_exclusion twoReadersState hr).2.1 (by
    intro r pc hp
    simp only [twoReadersState] at hp
    match r, hp with
    | 0, hp => simp at hp; subst hp; rfl
    | 1, hp => simp at hp; subst hp; rfl
    | 2, hp => simp at hp; subst hp; rfl
    | 3, hp => simp at hp; subst hp; rfl
    | 4, hp => simp at hp; subst hp; rfl
    | k + 5, hp => simp at hp)⟩

theorem entry_run : rw_run rw_init [.reader 0, .reader 0] = some entryState := by
  decide

/-- C34 (counterexample): in the reachable state `entryState` reader 0 is inside its entry
section, past `readcount++`: `readcount` is 1 while no reader is between its entry and exit
sections (none is in its reading section), and `resource_mutex` is still free. -/
theorem reader_counted_inside_entry :
    RwReachable entryState ∧ entryState.readcount = 1 ∧
      entryState.readers.countP rReading = 0 ∧
      entryState.readcount ≠ (entryState.readers.countP rReading : Nat) ∧
      entryState.resource_mutex = none :=
  ⟨rw_reachable_run RwReachable.init _ entry_run, by decide, by decide, by decide, by decide⟩

/-! ## Poison pills and data items (Sentinel program) -/

theorem run_append (prog : Program) (cfg : Config) (s s1 : State) (l1 l2 : List Tid)
    (h : run prog cfg s l1 = some s1) :
    run prog cfg s (l1 ++ l2) = run prog cfg s1 l2 := by
  induction l1 generalizing s with
  | nil => simp [run] at h; subst h; rfl
  | cons t ts ih =>
    simp only [List.cons_append, run] at h ⊢
    cases hst : step prog cfg s t with
    | none => simp [hst] at h
    | some s2 =>
      simp only [hst] at h ⊢
      exact ih s2 h

/-- One iteration of the loop of a producer that finds a free slot and the mutex free: six
steps, from the loop test to `sem_post(&full)`. -/
theorem producer_iteration (prog : Program) (cfg : Config) (s : State) (id i : Nat)
    (hp : s.producers[id]? = some ⟨.loop, i⟩)
    (hi : wrapInt (i : Int) ≤ (cfg.items_per_producer : Int))
    (he : 0 < s.empty) (hm : s.mutex = none) :
    run prog cfg s (List.replicate 6 (.producer id))
      = some { s with buffer := buffer_put s.buffer (itemOf prog id i)
                      empty := s.empty - 1
                      full := s.full + 1
                      mutex := none
                      puts := s.puts ++ [⟨.producer id, i, itemOf prog id i⟩]
                      producers := s.producers.set id ⟨.loop, i + 1⟩ } := by
  have hlt : id < s.producers.length := (List.getElem?_eq_some_iff.mp hp).1
  simp [run, step, producer, hp, hi, he, hm, hlt, List.replicate]

/-- One iteration of the loop of a Sentinel consumer that finds a filled slot and the mutex
free, up to the `it == -1` test: five steps. -/
theorem consumer_iteration (cfg : Config) (s : State) (j : Nat) (it : Int)
    (hc : s.consumers[j]? = some ⟨.waitFull, it⟩) (hf : 0 < s.full) (hm : s.mutex = none) :
    run .sentinel cfg s (List.replicate 5 (.consumer j))
      = some { s with buffer := (buffer_get s.buffer).2
                      empty := s.empty + 1
                      full := s.full - 1
                      mutex := none
                      gets := s.gets ++ [⟨j, (buffer_get s.buffer).1⟩]
                      consumers := s.consumers.set j ⟨.checkPill, (buffer_get s.buffer).1⟩ } := by
  have hlt : j < s.consumers.length := (List.getElem?_eq_some_iff.mp hc).1
  simp [run, step, consumer, consumer_sentinel, hc, hf, hm, hlt, List.replicate]

/-- On a buffer of one slot a get after a put returns the value put. -/
theorem buffer_get_put_single (b : buffer_t) (x : Int) (h1 : b.in_ = 0) (h2 : b.out = 0)
    (h3 : b.buf.length = 1) : (buffer_get (buffer_put b x)).1 = x := by
  simp only [buffer_get, buffer_put, h1, h2, List.getD_eq_getElem?_getD]
  rw [List.getElem?_set_self (by rw [h3]; omega)]
  rfl

theorem itemOf_sentinel (id i : Nat) : itemOf .sentinel id i = sentinel_item id i := rfl

theorem earlyPillCfg_valid : earlyPillCfg.Valid := by
  simp [Config.Valid, earlyPillCfg]

/-- The items of producer 42949: `i - 67296` in iteration `i`, which is `-1` in the last
iteration and in no other. -/
theorem sentinel_item_early (i : Nat) (hi : i ≤ 67295) :
    sentinel_item 42949 i = (i : Int) - 67296 := by
  unfold sentinel_item wrapInt
  omega

/-- One round from a state between rounds, up to the `it == -1` test of the consumer. -/
theorem early_round_steps {m : Nat} {s : State} (h : EarlyRound m s) (hm : m + 1 ≤ 67295) :
    ∃ s1, run .sentinel earlyPillCfg s
        (List.replicate 6 (.producer 42949) ++ List.replicate 5 (.consumer 0)) = some s1 ∧
      s1.producers[42949]? = some ⟨.loop, m + 2⟩ ∧
      s1.consumers[0]? = some ⟨.checkPill, sentinel_item 42949 (m + 1)⟩ ∧
      s1.consumers.length = s.consumers.length ∧
      s1.empty = 1 ∧ s1.full = 0 ∧ s1.mutex = none ∧ s1.buffer.capacity = 1 ∧
      s1.buffer.in_ = 0 ∧ s1.buffer.out = 0 ∧ s1.buffer.buf.length = 1 ∧
      s1.gets = s.gets ++ [⟨0, sentinel_item 42949 (m + 1)⟩] ∧ s1.main = ⟨.joinProd, 0⟩ := by
  obtain ⟨it, hc⟩ := h.cons
  have hplt : 42949 < s.producers.length := (List.getElem?_eq_some_iff.mp h.prod).1
  have hclt : 0 < s.consumers.length := (List.getElem?_eq_some_iff.mp hc).1
  have h1 := producer_iteration .sentinel earlyPillCfg s 42949 (m + 1) h.prod
    (by rw [wrapInt_eq (by omega) (by omega)]; simp only [earlyPillCfg]; omega)
    (by rw [h.empty]; omega) h.mutex
  have h2 := consumer_iteration earlyPillCfg _ 0 it
    (show ({ s with buffer := buffer_put s.buffer (itemOf .sentinel 42949 (m + 1))
                    empty := s.empty - 1
                    full := s.full + 1
                    mutex := none
                    puts := s.puts ++ [⟨.producer 42949, m + 1, itemOf .sentinel 42949 (m + 1)⟩]
                    producers := s.producers.set 42949 ⟨.loop, m + 1 + 1⟩ } : State).consumers[0]?
        = some ⟨.waitFull, it⟩ from hc)
    (by show 0 < s.full + 1; omega) rfl
  have hrun := run_append .sentinel earlyPillCfg s _ _ (List.replicate 5 (.consumer 0)) h1
  rw [h2] at hrun
  have hget : (buffer_get (buffer_put s.buffer (itemOf .sentinel 42949 (m + 1)))).1
      = sentinel_item 42949 (m + 1) := by
    rw [buffer_get_put_single _ _ h.in_ h.out h.blen, itemOf_sentinel]
  refine ⟨_, hrun, ?_, ?_, ?_, ?_, ?_, rfl, ?_, ?_, ?_, ?_, ?_, ?_⟩
  · simp only []
    rw [List.getElem?_set_self hplt]
  · simp only []
    rw [List.getElem?_set_self hclt, hget]
  · simp
  · show s.empty - 1 + 1 = 1
    rw [h.empty]
  · show s.full + 1 - 1 = 0
    rw [h.full]
  · simp only [buffer_get, buffer_put]
    exact h.cap
  · simp only [buffer_get, buffer_put, h.in_, h.cap]
  · simp only [buffer_get, buffer_put, h.out, h.cap]
  · simp only [buffer_get, buffer_put, List.length_set]
    exact h.blen
  · simp only []
    rw [hget]
  · exact h.main

/-- A round in which the item is not `-1` ends between rounds again. -/
theorem early_round_next {m : Nat} {s : State} (h : EarlyRound m s) (hm : m + 1 ≤ 67294) :
    ∃ s1, run .sentinel earlyPillCfg s earlyRound = some s1 ∧ EarlyRound (m + 1) s1 := by
  obtain ⟨s1, hrun, hp, hc, hcl, he, hf, hmu, hcap, hin, hout, hbl, hg, hmain⟩ :=
    early_round_steps h (by omega)
  have hclt : 0 < s1.consumers.length := (List.getElem?_eq_some_iff.mp hc).1
  have hne : sentinel_item 42949 (m + 1) ≠ -1 := by
    rw [sentinel_item_early (m + 1) (by omega)]
    push_cast
    omega
  have hstep : run .sentinel earlyPillCfg s1 [.consumer 0]
      = some { s1 with consumers :=
          s1.consumers.set 0 ⟨.waitFull, sentinel_item 42949 (m + 1)⟩ } := by
    simp [run, step, consumer, consumer_sentinel, hc, hne]
  have e : earlyRound = (List.replicate 6 (.producer 42949) ++ List.replicate 5 (.consumer 0))
      ++ [.consumer 0] := by
    simp [earlyRound, List.replicate]
  refine ⟨_, by rw [e, run_append _ _ _ _ _ _ hrun]; exact hstep, ?_⟩
  exact
    { prod := hp
      cons := ⟨_, by simp only []; rw [List.getElem?_set_self hclt]⟩
      empty := he
      full := hf
      mutex := hmu
      cap := hcap
      in_ := hin
      out := hout
      blen := hbl
      gets := by simp only []; rw [hg, List.length_append, h.gets]; rfl
      main := hmain }

theorem early_round_init : EarlyRound 0 (initState .sentinel earlyPillCfg) := by
  refine ⟨?_, ⟨0, ?_⟩, rfl, rfl, rfl, rfl, rfl, rfl, ?_, rfl, rfl⟩
  · simp only [initState, earlyPillCfg, List.getElem?_replicate]
    rw [if_pos (by omega)]
  · simp only [initState, earlyPillCfg, consumerEntry, List.getElem?_replicate]
    rw [if_pos (by omega)]
  · simp only [initState, buffer_init, earlyPillCfg, List.length_map, List.length_range]

/-- After any number of rounds below 67295 the state is reachable and between rounds. -/
theorem early_rounds (m : Nat) (hm : m ≤ 67294) :
    ∃ s, Reachable .sentinel earlyPillCfg s ∧ EarlyRound m s := by
  induction m with
  | zero => exact ⟨_, Reachable.init, early_round_init⟩
  | succ m ih =>
    obtain ⟨s, hr, h⟩ := ih (by omega)
    obtain ⟨s1, hrun, h1⟩ := early_round_next h hm
    exact ⟨s1, reachable_run hr _ hrun, h1⟩

/-- C31 (refuted on the code): with 42950 producers and 67295 items each (one consumer, one
slot), a run in which only producer 42949 and the consumer move reaches a state in which
the consumer has dequeued `-1` and has returned, while 67295 of the
`42950 * 67295` data items have been dequeued and `main` has put no poison pill: the `-1`
is the last item of producer 42949, `(int)(42949 * 100000 + 67295)`. -/
theorem pill_dequeued_before_items :
    earlyPillCfg.Valid ∧
      ∃ s, Reachable .sentinel earlyPillCfg s ∧ consumerDone s 0 = true ∧
        (⟨0, -1⟩ : GetRec) ∈ s.gets ∧ s.gets.length = 67295 ∧
        s.gets.length < earlyPillCfg.producers_count * earlyPillCfg.items_per_producer ∧
        putsBy .main s.puts = [] := by
  refine ⟨earlyPillCfg_valid, ?_⟩
  obtain ⟨s, hr, h⟩ := early_rounds 67294 (le_refl _)
  obtain ⟨s1, hrun, hp, hc, hcl, he, hf, hmu, hcap, hin, hout, hbl, hg, hmain⟩ :=
    early_round_steps h (le_refl _)
  have hclt : 0 < s1.consumers.length := (List.getElem?_eq_some_iff.mp hc).1
  have hitem : sentinel_item 42949 (67294 + 1) = -1 := by
    rw [sentinel_item_early _ (by omega)]
    rfl
  rw [hitem] at hc hg
  have hstep : run .sentinel earlyPillCfg s1 [.consumer 0]
      = some { s1 with consumers := s1.consumers.set 0 ⟨.done, -1⟩ } := by
    simp [run, step, consumer, consumer_sentinel, hc]
  have hr1 : Reachable .sentinel earlyPillCfg s1 := reachable_run hr _ hrun
  have hr2 := reachable_run hr1 _ hstep
  have h4 := (reachable_inv earlyPillCfg_valid.2.2.1 hr2).2.2.2
  refine ⟨_, hr2, ?_, ?_, ?_, ?_, ?_⟩
  · simp only [consumerDone]
    rw [List.getElem?_set_self hclt]
    rfl
  · show (⟨0, -1⟩ : GetRec) ∈ s1.gets
    rw [hg]
    simp
  · show s1.gets.length = 67295
    rw [hg, List.length_append, h.gets]
    rfl
  · show s1.gets.length < earlyPillCfg.producers_count * earlyPillCfg.items_per_producer
    rw [hg, List.length_append, h.gets]
    simp only [earlyPillCfg, List.length_singleton]
    omega
  · have hpills := h4.pills
    have hm2 : ({ s1 with consumers := s1.consumers.set 0 ⟨.done, -1⟩ } : State).main
        = ⟨.joinProd, 0⟩ := hmain
    rw [hm2] at hpills
    simp only [pillsDone] at hpills
    exact List.length_eq_zero.mp hpills

/-- Where the claim on the poison pills holds: when no produced item equals `-1`, in every
reachable state of the Sentinel program the puts of `main` are values `-1`, at most
`consumers_count` of them and exactly `consumers_count` once `main` has left the pill loop;
in the order of the `buffer_put` calls they come after all puts of the producers; and if a
get has returned `-1`, every producer has returned, the producers have put
`producers_count * items_per_producer` items, and the first that many gets returned these
items. -/
theorem pills_follow_items {cfg : Config} {s : State} (hv : cfg.Valid)
    (hno : NoPillProduced cfg) (hr : Reachable .sentinel cfg s) :
    (∀ r ∈ putsBy .main s.puts, r.item = -1) ∧
      (putsBy .main s.puts).length ≤ cfg.consumers_count ∧
      (s.main.pc = .joinCons ∨ s.main.pc = .done →
        (putsBy .main s.puts).length = cfg.consumers_count) ∧
      s.puts = s.puts.filter isProducerRec ++ putsBy .main s.puts ∧
      ((∃ r ∈ s.gets, r.item = -1) →
        (∀ id, id < cfg.producers_count → producerDone s id = true) ∧
        (s.puts.filter isProducerRec).length
          = cfg.producers_count * cfg.items_per_producer ∧
        cfg.producers_count * cfg.items_per_producer < s.gets.length ∧
        (s.gets.take (cfg.producers_count * cfg.items_per_producer)).map (·.item)
          = (s.puts.filter isProducerRec).map (·.item)) := by
  obtain ⟨h1, h2, h3, h4⟩ := reachable_inv hv.2.2.1 hr
  have hpills := h4.pills
  have hrange := h4.range
  have hDne : ∀ x ∈ (s.puts.filter isProducerRec).map (·.item), x ≠ -1 := by
    intro x hx
    simp only [List.mem_map, List.mem_filter] at hx
    obtain ⟨r, ⟨hr1, hr2⟩, rfl⟩ := hx
    exact hno s hr r hr1 hr2
  have hsplit : s.puts.map (·.item)
      = (s.puts.filter isProducerRec).map (·.item) ++ (putsBy .main s.puts).map (·.item) := by
    rw [← List.map_append, ← h4.order]
  refine ⟨?_, ?_, ?_, h4.order, ?_⟩
  · intro r hr1
    simp only [putsBy, List.mem_filter, beq_iff_eq] at hr1
    have hok := h3.item r hr1.1
    rcases r with ⟨who, seq, item⟩
    obtain ⟨_, hw⟩ := hr1
    simp only at hw
    subst hw
    exact hok
  · rw [hpills]
    unfold MRange at hrange
    unfold pillsDone
    cases hpc : s.main.pc <;> simp only [hpc] at hrange ⊢ <;> omega
  · intro hpc
    rw [hpills]
    unfold pillsDone
    rcases hpc with hpc | hpc <;> simp only [hpc]
  · rintro ⟨r, hrg, hitem⟩
    have hmem : (-1 : Int) ∈ s.gets.map (·.item) := by
      rw [← hitem]; exact List.mem_map_of_mem _ hrg
    rw [h2.2.2, hsplit, List.take_append_eq_append_take, List.mem_append] at hmem
    have hMpos : 0 < (List.take (s.gets.length - ((s.puts.filter isProducerRec).map
        (·.item)).length) ((putsBy .main s.puts).map (·.item))).length := by
      rcases hmem with hmem | hmem
      · exact absurd rfl (hDne _ (List.mem_of_mem_take hmem))
      · exact List.length_pos_of_mem hmem
    rw [List.length_take, List.length_map, List.length_map] at hMpos
    have hpc : s.main.pc ≠ .joinProd := by
      intro hpc
      rw [hpills] at hMpos
      simp only [pillsDone, hpc] at hMpos
      omega
    have hdone := h4.afterP hpc
    have hfit : cfg.items_per_producer < 2147483647 := by
      by_contra hb
      have hlt : 0 < s.producers.length := by rw [h1.lenP]; exact hv.1
      have hp := List.getElem?_eq_getElem hlt
      have hd := hdone 0 hv.1
      simp only [producerDone, hp, beq_iff_eq] at hd
      exact (h3.loc 0 _ hp).2.2 (by omega) hd
    have hcount : (s.puts.filter isProducerRec).length
        = cfg.producers_count * cfg.items_per_producer := by
      rw [reachable_puts_count hv.2.2.1 hr,
        sum_map_const putsDone s.producers cfg.items_per_producer, h1.lenP]
      intro j p hp
      have hloc := (h3.loc j p hp).2.1 hfit
      have hj : j < cfg.producers_count := by
        rw [← h1.lenP]; exact (List.getElem?_eq_some_iff.mp hp).1
      have hd := hdone j hj
      simp only [producerDone, hp, beq_iff_eq] at hd
      simp only [hd] at hloc
      simp only [putsDone, hd]
      omega
    refine ⟨hdone, hcount, by omega, ?_⟩
    have hle : cfg.producers_count * cfg.items_per_producer ≤ s.gets.length := by omega
    rw [List.map_take, h2.2.2, List.take_take, Nat.min_eq_left hle, hsplit]
    exact List.take_left' (by rw [List.length_map, hcount])

/-- The parameters of `smallCfg` are within these limits, and at the end of its complete
run the only get that returned `-1` comes after the get of the one data item. -/
theorem pills_follow_items_example :
    (finalState.puts.filter isProducerRec).length = 1 ∧ 1 < finalState.gets.length :=
  have h := (pills_follow_items smallCfg_valid
    (noPillProduced_of_fits smallCfg_valid (by decide) smallCfg_noSentinel)
    (reachable_run Reachable.init fullSchedule full_run)).2.2.2.2 ⟨⟨0, -1⟩, by decide, rfl⟩
  ⟨h.2.1, h.2.2.1⟩

/-! ## The loop of a producer at `items_per_producer = INT_MAX` -/

/-- The item of the Sentinel program is the same for the number of the iteration and for
the value of the `int` variable `i`, which is `wrapInt i`. -/
theorem sentinel_item_wrap (id i : Nat) :
    sentinel_item id i = wrapInt ((id : Int) * 100000 + wrapInt (i : Int)) := by
  unfold sentinel_item wrapInt
  omega

/-- The item of the Counted program is the same for the number of the iteration and for
the bit pattern of the `int` variable `i`: `produce_item` keeps the low 16 bits of `seq`. -/
theorem produce_item_wrap (id i : Nat) :
    produce_item id (bits32 (wrapInt (i : Int))) = produce_item id i := by
  have e : bits32 (wrapInt (i : Int)) = i % 4294967296 := by
    unfold bits32 wrapInt
    omega
  have h16 : ∀ x : Nat, x &&& 0xFFFF = x % 65536 := fun x =>
    Nat.and_pow_two_sub_one_eq_mod x 16
  unfold produce_item
  rw [e, h16, h16, Nat.mod_mod_of_dvd i (by decide : 65536 ∣ 4294967296)]

/-- The `int` variable after `++i` is the wrapped number of the next iteration. -/
theorem wrapInt_succ (i : Nat) :
    wrapInt (wrapInt (i : Int) + 1) = wrapInt ((i + 1 : Nat) : Int) := by
  unfold wrapInt
  omega

/-- With `items_per_producer = INT_MAX` the loop test `i <= items_per_producer` of a
producer never fails: in no reachable state of either program has a producer returned. -/
theorem producer_never_returns {prog : Program} {cfg : Config} {s : State}
    (hcap : 0 < cfg.buffer_size) (hbig : 2147483647 ≤ cfg.items_per_producer)
    (hr : Reachable prog cfg s) (id : Nat) (p : PLocal) (hp : s.producers[id]? = some p) :
    p.pc ≠ .done :=
  ((reachable_inv hcap hr).2.2.1.loc id p hp).2.2 hbig

/-- A get right after a put, on a buffer whose cursors are equal, returns the value put. -/
theorem buffer_get_put_same (b : buffer_t) (x : Int) (h1 : b.in_ = b.out)
    (h3 : b.out < b.buf.length) : (buffer_get (buffer_put b x)).1 = x := by
  simp only [buffer_get, buffer_put, h1, List.getD_eq_getElem?_getD]
  rw [List.getElem?_set_self h3]
  rfl

/-- One round from a state between rounds, up to the `it == -1` test of the consumer. -/
theorem solo_round_steps {cfg : Config} {id m : Nat} {s : State} (h : SoloRound id m s)
    (hloop : wrapInt ((m + 1 : Nat) : Int) ≤ (cfg.items_per_producer : Int)) :
    ∃ s1, run .sentinel cfg s
        (List.replicate 6 (.producer id) ++ List.replicate 5 (.consumer 0)) = some s1 ∧
      s1.producers[id]? = some ⟨.loop, m + 2⟩ ∧
      s1.consumers[0]? = some ⟨.checkPill, sentinel_item id (m + 1)⟩ ∧
      0 < s1.empty ∧ s1.full = 0 ∧ s1.mutex = none ∧
      s1.buffer.in_ = s1.buffer.out ∧ s1.buffer.out < s1.buffer.buf.length ∧
      s1.buffer.capacity = s1.buffer.buf.length := by
  obtain ⟨it, hc⟩ := h.cons
  have hplt : id < s.producers.length := (List.getElem?_eq_some_iff.mp h.prod).1
  have hclt : 0 < s.consumers.length := (List.getElem?_eq_some_iff.mp hc).1
  have hblen := h.blen
  have hcap := h.cap
  have h1 := producer_iteration .sentinel cfg s id (m + 1) h.prod hloop h.empty h.mutex
  have h2 := consumer_iteration cfg _ 0 it
    (show ({ s with buffer := buffer_put s.buffer (itemOf .sentinel id (m + 1))
                    empty := s.empty - 1
                    full := s.full + 1
                    mutex := none
                    puts := s.puts ++ [⟨.producer id, m + 1, itemOf .sentinel id (m + 1)⟩]
                    producers := s.producers.set id ⟨.loop, m + 1 + 1⟩ } : State).consumers[0]?
        = some ⟨.waitFull, it⟩ from hc)
    (by show 0 < s.full + 1; omega) rfl
  have hrun := run_append .sentinel cfg s _ _ (List.replicate 5 (.consumer 0)) h1
  rw [h2] at hrun
  have hget : (buffer_get (buffer_put s.buffer (itemOf .sentinel id (m + 1)))).1
      = sentinel_item id (m + 1) := by
    rw [buffer_get_put_same _ _ h.cur h.blen, itemOf_sentinel]
  have hpos : 0 < s.buffer.capacity := by omega
  refine ⟨_, hrun, ?_, ?_, ?_, ?_, rfl, ?_, ?_, ?_⟩
  · simp only []
    rw [List.getElem?_set_self hplt]
  · simp only []
    rw [List.getElem?_set_self hclt, hget]
  · show 0 < s.empty - 1 + 1
    omega
  · show s.full + 1 - 1 = 0
    rw [h.full]
  · simp only [buffer_get, buffer_put, h.cur]
  · simp only [buffer_get, buffer_put, List.length_set]
    rw [← hcap]
    exact Nat.mod_lt _ hpos
  · simp only [buffer_get, buffer_put, List.length_set]
    exact hcap

/-- A round in which the item is not `-1` ends between rounds again. -/
theorem solo_round_next {cfg : Config} {id m : Nat} {s : State} (h : SoloRound id m s)
    (hloop : wrapInt ((m + 1 : Nat) : Int) ≤ (cfg.items_per_producer : Int))
    (hne : sentinel_item id (m + 1) ≠ -1) :
    ∃ s1, run .sentinel cfg s
        (List.replicate 6 (.producer id) ++ List.replicate 6 (.consumer 0)) = some s1 ∧
      SoloRound id (m + 1) s1 := by
  obtain ⟨s1, hrun, hp, hc, he, hf, hmu, hcur, hbl, hcap⟩ := solo_round_steps h hloop
  have hclt : 0 < s1.consumers.length := (List.getElem?_eq_some_iff.mp hc).1
  have hstep : run .sentinel cfg s1 [.consumer 0]
      = some { s1 with consumers :=
          s1.consumers.set 0 ⟨.waitFull, sentinel_item id (m + 1)⟩ } := by
    simp [run, step, consumer, consumer_sentinel, hc, hne]
  have e : (List.replicate 6 (Tid.producer id) ++ List.replicate 6 (Tid.consumer 0))
      = (List.replicate 6 (.producer id) ++ List.replicate 5 (.consumer 0))
        ++ [.consumer 0] := by
    simp [List.replicate]
  refine ⟨_, by rw [e, run_append _ _ _ _ _ _ hrun]; exact hstep, ?_⟩
  exact
    { prod := hp
      cons := ⟨_, by simp only []; rw [List.getElem?_set_self hclt]⟩
      empty := he
      full := hf
      mutex := hmu
      cur := hcur
      blen := hbl
      cap := hcap }

theorem solo_round_init {cfg : Config} (hv : cfg.Valid) (id : Nat)
    (hid : id < cfg.producers_count) : SoloRound id 0 (initState .sentinel cfg) := by
  obtain ⟨_, hc, hb, _⟩ := hv
  refine ⟨?_, ⟨0, ?_⟩, hb, rfl, rfl, rfl, ?_, ?_⟩
  · simp only [initState, List.getElem?_replicate]
    rw [if_pos hid]
  · simp only [initState, consumerEntry, List.getElem?_replicate]
    rw [if_pos hc]
  · simp only [initState, buffer_init, List.length_map, List.length_range]
    exact hb
  · simp only [initState, buffer_init, List.length_map, List.length_range]

/-- As long as the loop test holds and no item is `-1`, the state after any number of rounds
is reachable and between rounds. -/
theorem solo_rounds {cfg : Config} (hv : cfg.Valid) (id : Nat) (hid : id < cfg.producers_count)
    (m : Nat)
    (hloop : ∀ k, 1 ≤ k → k ≤ m → wrapInt ((k : Nat) : Int) ≤ (cfg.items_per_producer : Int))
    (hne : ∀ k, 1 ≤ k → k ≤ m → sentinel_item id k ≠ -1) :
    ∃ s, Reachable .sentinel cfg s ∧ SoloRound id m s := by
  induction m with
  | zero => exact ⟨_, Reachable.init, solo_round_init hv id hid⟩
  | succ m ih =>
    obtain ⟨s, hr, h⟩ := ih (fun k h1 h2 => hloop k h1 (by omega))
      (fun k h1 h2 => hne k h1 (by omega))
    obtain ⟨s1, hrun, h1⟩ := solo_round_next h (hloop (m + 1) (by omega) (le_refl _))
      (hne (m + 1) (by omega) (le_refl _))
    exact ⟨s1, reachable_run hr _ hrun, h1⟩

/-- A producer whose loop reaches an iteration that builds `-1` puts it: some reachable state
has the value `-1` put by a producer. -/
theorem pill_produced_of_item {cfg : Config} (hv : cfg.Valid) (id i : Nat)
    (hid : id < cfg.producers_count) (hi : 1 ≤ i)
    (hloop : ∀ k, 1 ≤ k → k ≤ i → wrapInt ((k : Nat) : Int) ≤ (cfg.items_per_producer : Int))
    (hitem : sentinel_item id i = -1) : ¬ NoPillProduced cfg := by
  intro hno
  have hex : ∃ k, 1 ≤ k ∧ sentinel_item id k = -1 := ⟨i, hi, hitem⟩
  classical
  obtain ⟨hj1, hjitem⟩ := Nat.find_spec hex
  have hjle : Nat.find hex ≤ i := Nat.find_min' hex ⟨hi, hitem⟩
  have hmin : ∀ k, 1 ≤ k → k ≤ Nat.find hex - 1 → sentinel_item id k ≠ -1 := by
    intro k h1 h2 h3
    exact Nat.find_min hex (by omega : k < Nat.find hex) ⟨h1, h3⟩
  obtain ⟨s, hr, h⟩ := solo_rounds hv id hid (Nat.find hex - 1)
    (fun k h1 h2 => hloop k h1 (by omega)) hmin
  have e : Nat.find hex - 1 + 1 = Nat.find hex := by omega
  have h1 := producer_iteration .sentinel cfg s id (Nat.find hex - 1 + 1) h.prod
    (hloop _ (by omega) (by omega)) h.empty h.mutex
  have hr1 := reachable_run hr _ h1
  refine hno _ hr1 ⟨.producer id, Nat.find hex - 1 + 1, itemOf .sentinel id (Nat.find hex - 1 + 1)⟩
    (by simp) rfl ?_
  show itemOf .sentinel id (Nat.find hex - 1 + 1) = -1
  rw [e, itemOf_sentinel]
  exact hjitem

/-- What "no produced item equals `-1`" means for the parameters: the loops of the producers
end (`items_per_producer < INT_MAX`) and none of the items of the iterations
`1 .. items_per_producer` is `-1`. -/
theorem noPillProduced_iff {cfg : Config} (hv : cfg.Valid) :
    NoPillProduced cfg ↔ cfg.items_per_producer < 2147483647 ∧ NoSentinelItem cfg := by
  constructor
  · intro hno
    have hfit : cfg.items_per_producer < 2147483647 := by
      by_contra hb
      refine pill_produced_of_item hv 0 4294967295 hv.1 (by omega) ?_ (by decide) hno
      intro k _ _
      have := wrapInt_le (k : Int)
      omega
    refine ⟨hfit, ?_⟩
    intro id i hid h1 h2 hitem
    refine pill_produced_of_item hv id i hid h1 ?_ hitem hno
    intro k hk1 hk2
    rw [wrapInt_eq (by omega) (by omega)]
    omega
  · rintro ⟨hfit, hno⟩
    exact noPillProduced_of_fits hv hfit hno

/-- With `items_per_producer = INT_MAX` a producer puts the value `-1`, whatever the other
parameters are: for instance with the accepted arguments `1 1 1 2147483647`. -/
theorem pill_produced_at_int_max :
    (⟨1, 1, 1, 2147483647, fun _ => 0⟩ : Config).Valid ∧
      NoSentinelItem ⟨1, 1, 1, 2147483647, fun _ => 0⟩ ∧
      ¬ NoPillProduced ⟨1, 1, 1, 2147483647, fun _ => 0⟩ := by
  have hv : (⟨1, 1, 1, 2147483647, fun _ => 0⟩ : Config).Valid := by
    simp [Config.Valid]
  refine ⟨hv, ?_, fun h => ?_⟩
  · intro id i hid h1 h2
    simp only at hid h2
    have e : id = 0 := by omega
    subst e
    unfold sentinel_item wrapInt
    omega
  · have := ((noPillProduced_iff hv).mp h).1
    simp only at this
    omega

end ProdCons
